import Mathlib

/-!
# DOSBox software FPU core (`src/fpu/fpu_instructions.h`)

A shallow embedding of the register/tag file, the control/status engine, the
rounding function, the memory operand formats (integer, packed decimal, 80-bit) and
the arithmetic and comparison operations of the FPU emulation core, followed by
theorems about them.

Conventions of the embedding.

* Machine words are natural numbers.  A field of the C structure `fpu` that is a
  `Bit16u` (`cw`, `sw`) holds a value below `2^16`, `top` (a `Bit32u`) a value
  below `2^32`; an assignment that can leave that range reduces explicitly.
* `fpu.regs` and `fpu.tags` are arrays of nine slots; they are functions from the
  slot index.
* A register of the Extended build (`FPU_Reg`, a union of a `double` and a 64-bit
  integer) is its 64-bit pattern; the `double` view of it follows IEEE 754
  binary64 (`binary64 : Fmt`).  In the Reduced build a register is a 32-bit pattern
  viewed as a `float` (`binary32`).
* `E_Exit` never returns; an operation that can reach it returns `Except`.
* `LOG` and `LOG_MSG` only print; they have no effect on the state.
-/

namespace DosboxFpu

/-! ## Data model -/

/-- Tag of a register slot (`enum FPU_Tag`). -/
inductive FPU_Tag where
  | TAG_Valid
  | TAG_Zero
  | TAG_Weird
  | TAG_Empty
  deriving DecidableEq, Repr

/-- Rounding mode (`enum FPU_Round`), the value of `fpu.round`. -/
inductive FPU_Round where
  | ROUND_Nearest
  | ROUND_Down
  | ROUND_Up
  | ROUND_Chop
  deriving DecidableEq, Repr

/-- Build-time stack check level, the value of `DB_FPU_STACK_CHECK_PUSH` and of
`DB_FPU_STACK_CHECK_POP`.  `NONE` is `DB_FPU_STACK_CHECK_NONE` (the spec's Ignore),
`EXIT` is `DB_FPU_STACK_CHECK_EXIT` (the spec's Abort) and `LOG` is the level
between them, greater than `NONE` and different from `EXIT` (the spec's Report). -/
inductive StackCheck where
  | NONE
  | LOG
  | EXIT
  deriving DecidableEq, Repr

/-- The FPU context (`FPU_rec fpu`). -/
structure FPU where
  regs : Nat → Nat
  tags : Nat → FPU_Tag
  cw : Nat
  cw_mask_all : Nat
  sw : Nat
  top : Nat
  round : FPU_Round

/-- The fields of a context are within their C types. -/
def FPU.WF (s : FPU) : Prop :=
  s.cw < 65536 ∧ s.sw < 65536 ∧ s.top < 4294967296 ∧ ∀ i, s.regs i < 18446744073709551616

/-- Array store `a[i] = v`. -/
def setSlot {α : Type} (a : Nat → α) (i : Nat) (v : α) : Nat → α :=
  fun j => if j = i then v else a j

/-! ## Helpers of `fpu.h`

`fpu.h` is not among the sources.  Its inline helpers are modelled from the
hardware layout of the control and status words that the spec refers to. -/

/-- Modelled from the spec: `enum FPU_Round` of `fpu.h`, decoded from the two
rounding-control bits of the control word (Nearest, Down, Up, Chop in that order). -/
def FPU_Round.ofBits (n : Nat) : FPU_Round :=
  match n % 4 with
  | 0 => .ROUND_Nearest
  | 1 => .ROUND_Down
  | 2 => .ROUND_Up
  | _ => .ROUND_Chop

/-- Modelled from the spec: `FPU_SetCW` of `fpu.h`.  It stores the control word,
the word with all six exception masks set, and the rounding mode held in bits 10-11. -/
def FPU_SetCW (s : FPU) (word : Nat) : FPU :=
  { s with cw := word % 65536
           cw_mask_all := (word ||| 0x3f) % 65536
           round := FPU_Round.ofBits ((word >>> 10) &&& 3) }

/-- Modelled from the spec: `FPU_GET_TOP` of `fpu.h`, the stack-top mirror in bits
11-13 of the status word. -/
def FPU_GET_TOP (s : FPU) : Nat :=
  (s.sw &&& 0x3800) >>> 11

/-- Modelled from the spec: `FPU_SET_C1` of `fpu.h`.  Condition code C1 is bit 9 of
the status word; the bit is cleared and then set if `C` is not zero. -/
def FPU_SET_C1 (s : FPU) (C : Nat) : FPU :=
  let sw := s.sw &&& 0xFDFF
  { s with sw := if C ≠ 0 then sw ||| 0x0200 else sw }

/-- Modelled from the spec: `FPU_SET_C0` of `fpu.h`.  Condition code C0 is bit 8 of the
status word. -/
def FPU_SET_C0 (s : FPU) (C : Nat) : FPU :=
  let sw := s.sw &&& 0xFEFF
  { s with sw := if C ≠ 0 then sw ||| 0x0100 else sw }

/-- Modelled from the spec: `FPU_SET_C2` of `fpu.h`.  Condition code C2 is bit 10 of the
status word. -/
def FPU_SET_C2 (s : FPU) (C : Nat) : FPU :=
  let sw := s.sw &&& 0xFBFF
  { s with sw := if C ≠ 0 then sw ||| 0x0400 else sw }

/-- Modelled from the spec: `FPU_SET_C3` of `fpu.h`.  Condition code C3 is bit 14 of the
status word. -/
def FPU_SET_C3 (s : FPU) (C : Nat) : FPU :=
  let sw := s.sw &&& 0xBFFF
  { s with sw := if C ≠ 0 then sw ||| 0x4000 else sw }

/-- Modelled from the spec: `STV(i)` of `fpu.h`, the slot of the stack-relative register
`ST(i)`, which the spec gives as `(top + i) mod 8`. -/
def STV (s : FPU) (i : Nat) : Nat := (s.top + i) &&& 7

/-- Modelled from the spec: `FPU_SET_TOP` of `fpu.h`.  It writes the low three bits of
`val` into the stack-top mirror, bits 11-13 of the status word. -/
def FPU_SET_TOP (s : FPU) (val : Nat) : FPU :=
  { s with sw := (s.sw &&& 0xC7FF) ||| ((val &&& 7) <<< 11) }

/-- Modelled from the spec: the two-bit code of a tag in the tag summary.  The spec has
Valid and Zero collapsed in the summary, against the hardware convention: both take the
code 0 of Valid; Weird takes the code 2 and Empty the code 3. -/
def FPU_Tag.toBits : FPU_Tag → Nat
  | .TAG_Valid => 0
  | .TAG_Zero => 0
  | .TAG_Weird => 2
  | .TAG_Empty => 3

/-- Modelled from the spec: the tag with a given two-bit code, by the hardware convention
(0 Valid, 1 Zero, 2 Weird, 3 Empty). -/
def FPU_Tag.ofBits (n : Nat) : FPU_Tag :=
  match n % 4 with
  | 0 => .TAG_Valid
  | 1 => .TAG_Zero
  | 2 => .TAG_Weird
  | _ => .TAG_Empty

/-- Modelled from the spec: `FPU_GetTag` of `fpu.h`, the packed tag summary with two bits
per physical register slot, slot `i` in bits `2i` and `2i+1`, Valid and Zero collapsed
(`FPU_Tag.toBits`).  A Zero tag is therefore written as Valid. -/
def FPU_GetTag (s : FPU) : Nat :=
  (List.range 8).foldl (fun tag i => tag ||| (((s.tags i).toBits &&& 3) <<< (2 * i))) 0

/-- Modelled from the spec: `FPU_SetTag` of `fpu.h`, which unpacks a tag summary: slot
`i` of the eight stack slots takes the tag coded in bits `2i` and `2i+1`. -/
def FPU_SetTag (s : FPU) (tag : Nat) : FPU :=
  (List.range 8).foldl
    (fun s i => { s with tags := setSlot s.tags i (FPU_Tag.ofBits ((tag >>> (2 * i)) &&& 3)) }) s

/-! ## Register and tag file, control and status engine -/

/-- Reset: `FPU_FINIT`. -/
def FPU_FINIT (s : FPU) : FPU :=
  let s := FPU_SetCW s 0x37F
  let s := { s with sw := 0 }
  let s := { s with top := FPU_GET_TOP s }
  let s := { s with tags := setSlot s.tags 0 .TAG_Empty }
  let s := { s with tags := setSlot s.tags 1 .TAG_Empty }
  let s := { s with tags := setSlot s.tags 2 .TAG_Empty }
  let s := { s with tags := setSlot s.tags 3 .TAG_Empty }
  let s := { s with tags := setSlot s.tags 4 .TAG_Empty }
  let s := { s with tags := setSlot s.tags 5 .TAG_Empty }
  let s := { s with tags := setSlot s.tags 6 .TAG_Empty }
  let s := { s with tags := setSlot s.tags 7 .TAG_Empty }
  { s with tags := setSlot s.tags 8 .TAG_Valid }

/-- Clear exceptions: `FPU_FCLEX`. -/
def FPU_FCLEX (s : FPU) : FPU :=
  { s with sw := s.sw &&& 0x7f00 }

/-- Push preparation: `FPU_PREP_PUSH`, for the build-time level `chk` of
`DB_FPU_STACK_CHECK_PUSH`.  `TOP` is unsigned, so `TOP - 1` wraps. -/
def FPU_PREP_PUSH (chk : StackCheck) (s : FPU) : Except String FPU :=
  let s := { s with top := ((s.top + 4294967295) % 4294967296) &&& 7 }
  let checked : Except String FPU :=
    if chk ≠ .NONE then
      if s.tags s.top ≠ .TAG_Empty then
        if chk = .EXIT then
          .error "FPU stack overflow"
        else
          if s.cw &&& 1 ≠ 0 then
            let s := { s with sw := s.sw ||| 0x1 }
            let s := { s with sw := s.sw ||| 0x40 }
            .ok (FPU_SET_C1 s 1)
          else
            .error "FPU stack overflow"
      else .ok s
    else .ok s
  match checked with
  | .error e => .error e
  | .ok s => .ok { s with tags := setSlot s.tags s.top .TAG_Valid }

/-- Push of a value: `FPU_PUSH`. -/
def FPU_PUSH (chk : StackCheck) (s : FPU) (v : Nat) : Except String FPU :=
  match FPU_PREP_PUSH chk s with
  | .error e => .error e
  | .ok s => .ok { s with regs := setSlot s.regs s.top v }

/-- Pop: `FPU_FPOP`, for the build-time level `chk` of `DB_FPU_STACK_CHECK_POP`. -/
def FPU_FPOP (chk : StackCheck) (s : FPU) : Except String FPU :=
  let checked : Except String FPU :=
    if chk ≠ .NONE then
      if s.tags s.top = .TAG_Empty then
        if chk = .EXIT then
          .error "FPU stack underflow"
        else
          if s.cw &&& 1 ≠ 0 then
            let s := { s with sw := s.sw ||| 0x1 }
            let s := { s with sw := s.sw ||| 0x40 }
            .ok (FPU_SET_C1 s 0)
          else
            .ok s
      else .ok s
    else .ok s
  match checked with
  | .error e => .error e
  | .ok s =>
    let s := { s with tags := setSlot s.tags s.top .TAG_Empty }
    .ok { s with top := (s.top + 1) % 4294967296 &&& 7 }

/-! ## IEEE 754 binary formats

The `double` (and, in the Reduced build, `float`) view of a register.  A finite value
of a format with `p` fraction bits and `w` exponent bits is an integer multiple of
`2^(-scale)`; the model computes with that integer (`sval`), so that the arithmetic is
exact integer arithmetic followed by one rounding (`roundMag`).  Powers of two are
written as shifts. -/

/-- A binary interchange format: `p` fraction bits and `w` exponent bits. -/
structure Fmt where
  p : Nat
  w : Nat
  deriving DecidableEq, Repr

/-- The format of `double`. -/
def binary64 : Fmt := ⟨52, 11⟩

/-- The format of `float`. -/
def binary32 : Fmt := ⟨23, 8⟩

namespace Fmt

/-- The exponent field of infinities and NaNs. -/
def emax (f : Fmt) : Nat := (1 <<< f.w) - 1

/-- Every finite value is a multiple of `2^(-scale)`: `bias + p - 1`. -/
def scale (f : Fmt) : Nat := (1 <<< (f.w - 1)) + f.p - 2

/-- The sign bit of a pattern, the bit above the exponent field. -/
def signBit (f : Fmt) (x : Nat) : Nat := (x >>> (f.p + f.w)) % 2

/-- The biased exponent field of a pattern. -/
def expField (f : Fmt) (x : Nat) : Nat := (x >>> f.p) % (1 <<< f.w)

/-- The fraction field of a pattern, its low `p` bits. -/
def fracField (f : Fmt) (x : Nat) : Nat := x % (1 <<< f.p)

/-- The pattern denotes a number: it is neither an infinity nor a NaN. -/
def isFinite (f : Fmt) (x : Nat) : Prop := f.expField x ≠ f.emax

/-- The pattern is a NaN. -/
def isNaN (f : Fmt) (x : Nat) : Prop := f.expField x = f.emax ∧ f.fracField x ≠ 0

instance (f : Fmt) (x : Nat) : Decidable (f.isFinite x) := by
  unfold isFinite; infer_instance

instance (f : Fmt) (x : Nat) : Decidable (f.isNaN x) := by
  unfold isNaN; infer_instance

/-- Magnitude of a pattern in units of `2^(-scale)`.  For an infinity it is a value
above every finite magnitude. -/
def mag (f : Fmt) (x : Nat) : Nat :=
  if f.expField x = 0 then f.fracField x
  else ((1 <<< f.p) + f.fracField x) <<< (f.expField x - 1)

/-- Signed value of a pattern in units of `2^(-scale)`. -/
def sval (f : Fmt) (x : Nat) : Int :=
  if f.signBit x = 1 then -(f.mag x : Int) else (f.mag x : Int)

/-- The rational number a finite pattern denotes. -/
def toRat (f : Fmt) (x : Nat) : ℚ := (f.sval x : ℚ) / 2 ^ f.scale

/-- Binary search for the position of the leading one: with `k = 0` and `i = 13` the
result is `⌊log2 n⌋` for `1 ≤ n < 2^8192`, and 0 for `n = 0`. -/
def lg (i : Nat) (n k : Nat) : Nat :=
  match i with
  | 0 => k
  | i + 1 => if (1 <<< (k + (1 <<< i))) ≤ n then lg i n (k + (1 <<< i)) else lg i n k

/-- Quotient `a / b` rounded to the nearest integer, ties to the even one. -/
def rneDiv (a b : Nat) : Nat :=
  if b < 2 * (a % b) ∨ (2 * (a % b) = b ∧ (a / b) % 2 = 1) then a / b + 1 else a / b

/-- Round to nearest, ties to even: the pattern (sign bit clear) of the value nearest
to `n / d` units.  With `k` the number of low bits that do not fit the significand, the
pattern is `k * 2^p` plus the rounded significand; a carry out of the significand moves
into the exponent field, and a result beyond the largest finite value is infinity. -/
def roundMag (f : Fmt) (n d : Nat) : Nat :=
  let k := lg 13 (n / (d <<< f.p)) 0
  let r := (k <<< f.p) + rneDiv n (d <<< k)
  if f.emax <<< f.p ≤ r then f.emax <<< f.p else r

/-- Pattern with the given sign bit and magnitude pattern. -/
def withSign (f : Fmt) (sign m : Nat) : Nat := (sign <<< (f.p + f.w)) + m

/-- Magnitude pattern of infinity. -/
def inf (f : Fmt) : Nat := f.emax <<< f.p

/-- A NaN made quiet: the processor sets the top fraction bit. -/
def quiet (f : Fmt) (x : Nat) : Nat :=
  if (x >>> (f.p - 1)) % 2 = 1 then x else x + (1 <<< (f.p - 1))

/-- The NaN an invalid operation produces (negative, quiet, zero payload). -/
def defaultNaN (f : Fmt) : Nat := f.withSign 1 (f.inf + (1 <<< (f.p - 1)))

/-- The pattern of the exact value `v` units rounded to the format; an exact zero takes
the sign `zsign`. -/
def ofSigned (f : Fmt) (zsign : Nat) (v : Int) : Nat :=
  if v = 0 then f.withSign zsign 0
  else f.withSign (if v < 0 then 1 else 0) (f.roundMag v.natAbs 1)

/-- The pattern of 1.0. -/
def one (f : Fmt) : Nat := ((1 <<< (f.w - 1)) - 1) <<< f.p

/-- The pattern of 0.5. -/
def half (f : Fmt) : Nat := ((1 <<< (f.w - 1)) - 2) <<< f.p

/-- The library function `floor`: the largest integral value not above `x`, which the
format holds exactly; a zero result keeps the sign of `x`; infinities and NaNs are
returned as they are. -/
def floor (f : Fmt) (x : Nat) : Nat :=
  if f.isFinite x then
    f.withSign (f.signBit x)
      (f.roundMag ((f.sval x / ((1 <<< f.scale : Nat) : Int)).natAbs <<< f.scale) 1)
  else x

/-- The library function `ceil`: the smallest integral value not below `x`. -/
def ceil (f : Fmt) (x : Nat) : Nat :=
  if f.isFinite x then
    f.withSign (f.signBit x)
      (f.roundMag ((-(f.sval x) / ((1 <<< f.scale : Nat) : Int)).natAbs <<< f.scale) 1)
  else x

/-- Subtraction `a - b`, rounded to nearest. -/
def sub (f : Fmt) (a b : Nat) : Nat :=
  if f.isNaN a then f.quiet a
  else if f.isNaN b then f.quiet b
  else if ¬ f.isFinite a then
    if ¬ f.isFinite b ∧ f.signBit a = f.signBit b then f.defaultNaN else a
  else if ¬ f.isFinite b then f.withSign (1 - f.signBit b) f.inf
  else f.ofSigned (if f.signBit a = 1 ∧ f.signBit b = 0 then 1 else 0) (f.sval a - f.sval b)

/-- Addition `a + b`, rounded to nearest. -/
def add (f : Fmt) (a b : Nat) : Nat :=
  if f.isNaN a then f.quiet a
  else if f.isNaN b then f.quiet b
  else if ¬ f.isFinite a then
    if ¬ f.isFinite b ∧ f.signBit a ≠ f.signBit b then f.defaultNaN else a
  else if ¬ f.isFinite b then b
  else f.ofSigned (if f.signBit a = 1 ∧ f.signBit b = 1 then 1 else 0) (f.sval a + f.sval b)

/-- Comparison `a < b`; false when an operand is a NaN. -/
def lt (f : Fmt) (a b : Nat) : Prop := ¬ f.isNaN a ∧ ¬ f.isNaN b ∧ f.sval a < f.sval b

/-- Comparison `a > b`; false when an operand is a NaN. -/
def gt (f : Fmt) (a b : Nat) : Prop := f.lt b a

instance (f : Fmt) (a b : Nat) : Decidable (f.lt a b) := by
  unfold lt; infer_instance

instance (f : Fmt) (a b : Nat) : Decidable (f.gt a b) := by
  unfold gt; infer_instance

/-- Conversion `static_cast` to a signed integer of `bits` bits, as its two's-complement
pattern: the value truncated toward zero.  A value the integer type cannot hold (also a
NaN or an infinity) is undefined in C++; the processor's conversion instruction gives
the integer indefinite pattern `2^(bits-1)`. -/
def toSInt (f : Fmt) (bits : Nat) (x : Nat) : Nat :=
  let a := f.mag x >>> f.scale
  if f.isFinite x ∧ f.signBit x = 0 ∧ a < 1 <<< (bits - 1) then a
  else if f.isFinite x ∧ f.signBit x = 1 ∧ a ≤ 1 <<< (bits - 1) then ((1 <<< bits) - a) % (1 <<< bits)
  else 1 <<< (bits - 1)

/-- Comparison `a == b`; false when an operand is a NaN; the two zeros are equal. -/
def eq (f : Fmt) (a b : Nat) : Prop := ¬ f.isNaN a ∧ ¬ f.isNaN b ∧ f.sval a = f.sval b

/-- Comparison `a >= b`; false when an operand is a NaN. -/
def ge (f : Fmt) (a b : Nat) : Prop := ¬ f.isNaN a ∧ ¬ f.isNaN b ∧ f.sval b ≤ f.sval a

instance (f : Fmt) (a b : Nat) : Decidable (f.eq a b) := by
  unfold eq; infer_instance

instance (f : Fmt) (a b : Nat) : Decidable (f.ge a b) := by
  unfold ge; infer_instance

/-- Negation `-x`: the sign bit is flipped. -/
def neg (f : Fmt) (x : Nat) : Nat :=
  if f.signBit x = 1 then x - (1 <<< (f.p + f.w)) else x + (1 <<< (f.p + f.w))

/-- Multiplication `a * b`, rounded to nearest.  The exact product of two finite values
is `mag a * mag b / 2^scale` units. -/
def mul (f : Fmt) (a b : Nat) : Nat :=
  if f.isNaN a then f.quiet a
  else if f.isNaN b then f.quiet b
  else if (¬ f.isFinite a ∧ f.mag b = 0) ∨ (f.mag a = 0 ∧ ¬ f.isFinite b) then f.defaultNaN
  else if ¬ f.isFinite a ∨ ¬ f.isFinite b then f.withSign ((f.signBit a + f.signBit b) % 2) f.inf
  else f.withSign ((f.signBit a + f.signBit b) % 2) (f.roundMag (f.mag a * f.mag b) (1 <<< f.scale))

/-- Division `a / b`, rounded to nearest.  A finite non-zero value divided by zero is an
infinity, zero by zero and infinity by infinity are NaN; no case fails.  The exact
quotient of two finite values is `mag a * 2^scale / mag b` units. -/
def div (f : Fmt) (a b : Nat) : Nat :=
  if f.isNaN a then f.quiet a
  else if f.isNaN b then f.quiet b
  else if (¬ f.isFinite a ∧ ¬ f.isFinite b) ∨ (f.mag a = 0 ∧ f.mag b = 0) then f.defaultNaN
  else if ¬ f.isFinite a then f.withSign ((f.signBit a + f.signBit b) % 2) f.inf
  else if ¬ f.isFinite b then f.withSign ((f.signBit a + f.signBit b) % 2) 0
  else if f.mag b = 0 then f.withSign ((f.signBit a + f.signBit b) % 2) f.inf
  else f.withSign ((f.signBit a + f.signBit b) % 2) (f.roundMag (f.mag a <<< f.scale) (f.mag b))

/-- Conversion `static_cast<FVAL>(n)` of an integer: the integer rounded to the format;
zero gives +0. -/
def ofInt (f : Fmt) (n : Int) : Nat := f.ofSigned 0 (n * ((1 <<< f.scale : Nat) : Int))

/-- Conversion `static_cast` to an unsigned integer of `bits` bits: the value truncated
toward zero.  A value the integer type cannot hold (also a NaN or an infinity) is
undefined in C++; the model gives the pattern `2^(bits-1)` there. -/
def toUInt (f : Fmt) (bits : Nat) (x : Nat) : Nat :=
  let a := f.mag x >>> f.scale
  if f.isFinite x ∧ (f.signBit x = 0 ∨ a = 0) ∧ a < 1 <<< bits then a
  else 1 <<< (bits - 1)

/-- The pattern `x` denotes the integer `n` exactly: it is finite and its value is `n`. -/
def holdsInt (f : Fmt) (x : Nat) (n : Int) : Prop :=
  f.isFinite x ∧ f.sval x = n * ((1 <<< f.scale : Nat) : Int)

instance (f : Fmt) (x : Nat) (n : Int) : Decidable (f.holdsInt x n) := by
  unfold holdsInt; infer_instance

/-- The `ROUND_Nearest` case of `FROUND`, which has the same shape in both builds, for
the format `f` of `FVAL` and the width `bits` of the integer the floor is converted to:
`if (in-floor(in)>0.5) return floor(in)+1; else if (in-floor(in)<0.5) return floor(in);
else return ((static_cast<BitNs>(floor(in)))&1)!=0 ? floor(in)+1 : floor(in)`.
The constants 0.5 and 1 are exact in the format, so comparing with the `double` 0.5 and
adding the `int` 1 are operations of the format. -/
def nearest (f : Fmt) (bits : Nat) (x : Nat) : Nat :=
  if f.gt (f.sub x (f.floor x)) f.half then f.add (f.floor x) f.one
  else if f.lt (f.sub x (f.floor x)) f.half then f.floor x
  else if f.toSInt bits (f.floor x) &&& 1 ≠ 0 then f.add (f.floor x) f.one
  else f.floor x

/-- The conditions on a format that the theorems use: at least one fraction bit, between
3 and 12 exponent bits, and every integer up to `2^(p+1)` within range.  They hold for
`binary32` and `binary64`. -/
def Valid (f : Fmt) : Prop := 1 ≤ f.p ∧ 3 ≤ f.w ∧ f.w ≤ 12 ∧ f.p + 2 ≤ 2 ^ (f.w - 1)

end Fmt

/-! ## Rounding to an integer -/

/-- Rounding by the active mode: `FROUND` of the Extended build (`FVAL` is `double`,
the floor is converted to `Bit64s`).  `fpu.round` has the four values of `FPU_Round`, so
the `default` case of the `switch` is not reached. -/
def FROUND (s : FPU) (x : Nat) : Nat :=
  match s.round with
  | .ROUND_Nearest => binary64.nearest 64 x
  | .ROUND_Down => binary64.floor x
  | .ROUND_Up => binary64.ceil x
  | .ROUND_Chop => x

/-- Rounding by the active mode: `FROUND` of the Reduced build (`FPU_FLOAT`: `FVAL` is
`float`, with `floorf`, `ceilf` and a conversion of the floor to `Bit32s`). -/
def FROUND_Reduced (s : FPU) (x : Nat) : Nat :=
  match s.round with
  | .ROUND_Nearest => binary32.nearest 32 x
  | .ROUND_Down => binary32.floor x
  | .ROUND_Up => binary32.ceil x
  | .ROUND_Chop => x

/-- Conversion of a `float` to `double` (the Reduced build assigns the `Real32` result of
`FROUND` to a `double`): exact, with the sign kept.  A `float` value of `m` units
`2^(-149)` is `m * 2^925` units `2^(-1074)`. -/
def promote (x : Nat) : Nat :=
  if binary32.isNaN x then
    binary64.quiet (binary64.withSign (binary32.signBit x)
      (binary64.inf + (binary32.fracField x <<< 29)))
  else if ¬ binary32.isFinite x then binary64.withSign (binary32.signBit x) binary64.inf
  else binary64.withSign (binary32.signBit x) (binary64.roundMag (binary32.mag x <<< 925) 1)

/-! ## Emulated memory

`mem.h` is not among the sources.  The memory subsystem is modelled from the spec: it
reads and writes a byte, a word or a doubleword at a physical address, the low byte
first.  Addresses are natural numbers; wrap-around of the 32-bit address is not
modelled. -/

/-- Emulated memory: the byte stored at each physical address. -/
abbrev Mem := Nat → Nat

/-- Modelled from the spec: `mem_readb` of the memory subsystem. -/
def mem_readb (m : Mem) (a : Nat) : Nat := m a % 256

/-- Modelled from the spec: `mem_writeb` of the memory subsystem; the value is reduced
to a byte. -/
def mem_writeb (m : Mem) (a v : Nat) : Mem := fun j => if j = a then v % 256 else m j

/-- Modelled from the spec: `mem_readw` of the memory subsystem, low byte first. -/
def mem_readw (m : Mem) (a : Nat) : Nat := mem_readb m a + 256 * mem_readb m (a + 1)

/-- Modelled from the spec: `mem_writew` of the memory subsystem; the low 16 bits of the
value are written, low byte first. -/
def mem_writew (m : Mem) (a v : Nat) : Mem := mem_writeb (mem_writeb m a v) (a + 1) (v / 256)

/-- Modelled from the spec: `mem_readd` of the memory subsystem, low word first. -/
def mem_readd (m : Mem) (a : Nat) : Nat := mem_readw m a + 65536 * mem_readw m (a + 2)

/-- Modelled from the spec: `mem_writed` of the memory subsystem; the low 32 bits of the
value are written, low byte first. -/
def mem_writed (m : Mem) (a v : Nat) : Mem := mem_writew (mem_writew m a v) (a + 2) (v / 65536)

/-! ## 80-bit extended format

In the C code the fields are signed integers (`Bit16s`, `Bit32s`, `Bit64s`).  The model
keeps their two's-complement patterns as natural numbers and uses `Int` where the code
computes with a value that can be negative (the unbiased exponent).  A right shift of a
signed value is followed in the code by a mask that removes every bit the sign extension
could set, so it is the shift of the pattern. -/

/-- Exponent bias of the 80-bit format (`#define BIAS80`). -/
def BIAS80 : Nat := 16383

/-- Exponent bias of `double` (`#define BIAS64`). -/
def BIAS64 : Nat := 1023

/-- Exponent bias of `float` (`#define BIAS32`). -/
def BIAS32 : Nat := 127

/-- Store of register `reg` in the 80-bit format: `FPU_ST80` of the Extended build.
`test.eind.ll` is written as its low and high doubleword, then `test.begin`. -/
def FPU_ST80 (s : FPU) (mem : Mem) (addr reg : Nat) : Mem :=
  let sign80 := if s.regs reg &&& 0x8000000000000000 ≠ 0 then 1 else 0
  let exp80 := s.regs reg &&& 0x7ff0000000000000
  let exp80final := exp80 >>> 52
  let mant80 := s.regs reg &&& 0x000fffffffffffff
  let mant80final := mant80 <<< 11
  let nonzero := ¬ binary64.eq (s.regs reg) 0
  let mant80final := if nonzero then mant80final ||| 0x8000000000000000 else mant80final
  let exp80final := if nonzero then exp80final + (BIAS80 - BIAS64) else exp80final
  let begin := ((sign80 <<< 15) ||| exp80final) % 65536
  let mem := mem_writed mem addr (mant80final % 4294967296)
  let mem := mem_writed mem (addr + 4) (mant80final / 4294967296)
  mem_writew mem (addr + 8) begin

/-- Load of an 80-bit operand: `FPU_FLD80` of the Extended build; the result is the
pattern of the `double` it returns. -/
def FPU_FLD80 (mem : Mem) (addr : Nat) : Nat :=
  let lower := mem_readd mem addr
  let upper := mem_readd mem (addr + 4)
  let begin := mem_readw mem (addr + 8)
  let exp64 : Int := ((begin &&& 0x7fff : Nat) : Int) - (BIAS80 : Int)
  let blah : Nat := (if exp64 > 0 then exp64 else -exp64).toNat &&& 0x3ff
  let exp64final : Int := (if exp64 > 0 then (blah : Int) else -(blah : Int)) + (BIAS64 : Int)
  let mant64 := ((lower + (upper <<< 32)) >>> 11) &&& 0xfffffffffffff
  let sign := if begin &&& 0x8000 ≠ 0 then 1 else 0
  let result := (sign <<< 63) ||| (exp64final.toNat <<< 52) ||| mant64
  if lower = 0 ∧ upper = 0x80000000 ∧ begin &&& 0x7fff = 0x7fff then
    (if sign ≠ 0 then 0xFFF0000000000000 else 0x7FF0000000000000)
  else result

/-- Store of register `reg` in the 80-bit format: `FPU_ST80` of the Reduced build
(`FPU_FLOAT`), where a register is the 32-bit pattern of a `float`. -/
def FPU_ST80_Reduced (s : FPU) (mem : Mem) (addr reg : Nat) : Mem :=
  let sign80 := if s.regs reg &&& 0x80000000 ≠ 0 then 1 else 0
  let exp80 := (s.regs reg &&& 0x7f800000) >>> 23
  let exp80 := if exp80 = 0xff then 0x7fff else exp80 + (BIAS80 - BIAS32)
  let mant80 := (s.regs reg &&& 0x7fffff) <<< 8
  let mant80 := if ¬ binary32.eq (s.regs reg) 0 then mant80 ||| 0x80000000 else mant80
  let begin := ((sign80 <<< 15) ||| exp80) % 65536
  let mem := mem_writed mem addr 0
  let mem := mem_writed mem (addr + 4) mant80
  mem_writew mem (addr + 8) begin

/-- Load of an 80-bit operand: `FPU_FLD80` of the Reduced build; the result is the
pattern of the `float` it returns. -/
def FPU_FLD80_Reduced (mem : Mem) (addr : Nat) : Nat :=
  let upper := mem_readd mem (addr + 4)
  let begin := mem_readw mem (addr + 8)
  let exp32 : Int := ((begin &&& 0x7fff : Nat) : Int) - (BIAS80 : Int)
  let mant32 : Nat := (upper >>> 8) &&& 0x7fffff
  let sign : Nat := if begin &&& 0x8000 ≠ 0 then 1 else 0
  let clamped : Int × Nat × Nat :=
    if exp32 = 0x4000 then (0x80, mant32, sign)
    else if exp32 > (BIAS32 : Int) then (0x80, 0, 0)
    else if exp32 < -(BIAS32 : Int) then (-(BIAS32 : Int), 0, 0)
    else (exp32, mant32, sign)
  let exp32 : Nat := (clamped.1 + (BIAS32 : Int)).toNat &&& 0xff
  (clamped.2.2 <<< 31) ||| (exp32 <<< 23) ||| clamped.2.1

/-! ## Arithmetic and comparison

The code of these operations is shared by the two builds; `f` is the format of the
register values, `binary64` in the Extended build and `binary32` in the Reduced build. -/

/-- Addition: `FPU_FADD`. -/
def FPU_FADD (f : Fmt) (s : FPU) (op1 op2 : Nat) : FPU :=
  { s with regs := setSlot s.regs op1 (f.add (s.regs op1) (s.regs op2)) }

/-- Division: `FPU_FDIV`. -/
def FPU_FDIV (f : Fmt) (s : FPU) (st other : Nat) : FPU :=
  { s with regs := setSlot s.regs st (f.div (s.regs st) (s.regs other)) }

/-- Reversed division: `FPU_FDIVR`. -/
def FPU_FDIVR (f : Fmt) (s : FPU) (st other : Nat) : FPU :=
  { s with regs := setSlot s.regs st (f.div (s.regs other) (s.regs st)) }

/-- Multiplication: `FPU_FMUL`. -/
def FPU_FMUL (f : Fmt) (s : FPU) (st other : Nat) : FPU :=
  { s with regs := setSlot s.regs st (f.mul (s.regs st) (s.regs other)) }

/-- Subtraction: `FPU_FSUB`. -/
def FPU_FSUB (f : Fmt) (s : FPU) (st other : Nat) : FPU :=
  { s with regs := setSlot s.regs st (f.sub (s.regs st) (s.regs other)) }

/-- Reversed subtraction: `FPU_FSUBR`. -/
def FPU_FSUBR (f : Fmt) (s : FPU) (st other : Nat) : FPU :=
  { s with regs := setSlot s.regs st (f.sub (s.regs other) (s.regs st)) }

/-- Comparison: `FPU_FCOM`. -/
def FPU_FCOM (f : Fmt) (s : FPU) (st other : Nat) : FPU :=
  if (s.tags st ≠ .TAG_Valid ∧ s.tags st ≠ .TAG_Zero) ∨
      (s.tags other ≠ .TAG_Valid ∧ s.tags other ≠ .TAG_Zero) then
    FPU_SET_C0 (FPU_SET_C2 (FPU_SET_C3 s 1) 1) 1
  else if f.eq (s.regs st) (s.regs other) then
    FPU_SET_C0 (FPU_SET_C2 (FPU_SET_C3 s 1) 0) 0
  else if f.lt (s.regs st) (s.regs other) then
    FPU_SET_C0 (FPU_SET_C2 (FPU_SET_C3 s 0) 0) 1
  else
    FPU_SET_C0 (FPU_SET_C2 (FPU_SET_C3 s 0) 0) 0

/-- Unordered comparison: `FPU_FUCOM`, which calls `FPU_FCOM`. -/
def FPU_FUCOM (f : Fmt) (s : FPU) (st other : Nat) : FPU :=
  FPU_FCOM f s st other

/-- Classification: `FPU_FXAM` of the Extended build. -/
def FPU_FXAM (s : FPU) : FPU :=
  let s := if s.regs s.top &&& 0x8000000000000000 ≠ 0 then FPU_SET_C1 s 1 else FPU_SET_C1 s 0
  if s.tags s.top = .TAG_Empty then
    FPU_SET_C0 (FPU_SET_C2 (FPU_SET_C3 s 1) 0) 1
  else if binary64.eq (s.regs s.top) 0 then
    FPU_SET_C0 (FPU_SET_C2 (FPU_SET_C3 s 1) 0) 0
  else
    FPU_SET_C0 (FPU_SET_C2 (FPU_SET_C3 s 0) 1) 0

/-- Classification: `FPU_FXAM` of the Reduced build; the sign is bit 31 of the `float`
pattern. -/
def FPU_FXAM_Reduced (s : FPU) : FPU :=
  let s := if s.regs s.top &&& 0x80000000 ≠ 0 then FPU_SET_C1 s 1 else FPU_SET_C1 s 0
  if s.tags s.top = .TAG_Empty then
    FPU_SET_C0 (FPU_SET_C2 (FPU_SET_C3 s 1) 0) 1
  else if binary32.eq (s.regs s.top) 0 then
    FPU_SET_C0 (FPU_SET_C2 (FPU_SET_C3 s 1) 0) 0
  else
    FPU_SET_C0 (FPU_SET_C2 (FPU_SET_C3 s 0) 1) 0

/-! ## Integer load and store

`FPU_FST_I16` and `FPU_FST_I32` are shared by the two builds: they assign the result of
`FROUND` to a `double`, compare it with `double` constants and convert it to the integer
type.  In the Reduced build the result of `FROUND` is a `float`, which the assignment
converts to `double` (`promote`).  The memory write keeps the low 16 or 32 bits. -/

/-- Integer store of 16 bits: `FPU_FST_I16` of the Extended build.  The constants are
the patterns of 32768.0 and -32768.0. -/
def FPU_FST_I16 (s : FPU) (mem : Mem) (addr : Nat) : Mem :=
  let val := FROUND s (s.regs s.top)
  mem_writew mem addr
    (if binary64.lt val 0x40E0000000000000 ∧ binary64.ge val 0xC0E0000000000000
      then binary64.toSInt 16 val else 0x8000)

/-- Integer store of 32 bits: `FPU_FST_I32` of the Extended build.  The constants are
the patterns of 2147483648.0 and -2147483648.0. -/
def FPU_FST_I32 (s : FPU) (mem : Mem) (addr : Nat) : Mem :=
  let val := FROUND s (s.regs s.top)
  mem_writed mem addr
    (if binary64.lt val 0x41E0000000000000 ∧ binary64.ge val 0xC1E0000000000000
      then binary64.toSInt 32 val else 0x80000000)

/-- Integer store of 64 bits: `FPU_FST_I64` of the Extended build.  The constants are
the patterns of 9223372036854775808.0 and -9223372036854775808.0; the low doubleword is
written first. -/
def FPU_FST_I64 (s : FPU) (mem : Mem) (addr : Nat) : Mem :=
  let val := FROUND s (s.regs s.top)
  let blah :=
    if binary64.lt val 0x43E0000000000000 ∧ binary64.ge val 0xC3E0000000000000
      then binary64.toSInt 64 val else 0x8000000000000000
  let mem := mem_writed mem addr (blah % 4294967296)
  mem_writed mem (addr + 4) (blah / 4294967296)

/-- Integer store of 16 bits: `FPU_FST_I16` of the Reduced build. -/
def FPU_FST_I16_Reduced (s : FPU) (mem : Mem) (addr : Nat) : Mem :=
  let val := promote (FROUND_Reduced s (s.regs s.top))
  mem_writew mem addr
    (if binary64.lt val 0x40E0000000000000 ∧ binary64.ge val 0xC0E0000000000000
      then binary64.toSInt 16 val else 0x8000)

/-- Integer store of 32 bits: `FPU_FST_I32` of the Reduced build. -/
def FPU_FST_I32_Reduced (s : FPU) (mem : Mem) (addr : Nat) : Mem :=
  let val := promote (FROUND_Reduced s (s.regs s.top))
  mem_writed mem addr
    (if binary64.lt val 0x41E0000000000000 ∧ binary64.ge val 0xC1E0000000000000
      then binary64.toSInt 32 val else 0x80000000)

/-- Integer load of 16 bits: `FPU_FLD_I16`; the word read is taken as a `Bit16s` and
converted to the format `f` of the registers. -/
def FPU_FLD_I16 (f : Fmt) (s : FPU) (mem : Mem) (addr store_to : Nat) : FPU :=
  let blah : Int :=
    if mem_readw mem addr < 0x8000 then (mem_readw mem addr : Int)
    else (mem_readw mem addr : Int) - 65536
  { s with regs := setSlot s.regs store_to (f.ofInt blah) }

/-- Integer load of 32 bits: `FPU_FLD_I32`; the doubleword read is taken as a `Bit32s`
and converted to the format `f` of the registers. -/
def FPU_FLD_I32 (f : Fmt) (s : FPU) (mem : Mem) (addr store_to : Nat) : FPU :=
  let blah : Int :=
    if mem_readd mem addr < 0x80000000 then (mem_readd mem addr : Int)
    else (mem_readd mem addr : Int) - 4294967296
  { s with regs := setSlot s.regs store_to (f.ofInt blah) }

/-- The value `v` units of `2^(-k)` rounded to an integer by a rounding mode, as the
specification words it: to the nearest integer with ties to the even one, toward minus
infinity, toward plus infinity, or toward zero. -/
def roundInt (m : FPU_Round) (v : Int) (k : Nat) : Int :=
  match m with
  | .ROUND_Nearest =>
    if (2 : Int) * (v % ((1 <<< k : Nat) : Int)) > ((1 <<< k : Nat) : Int) ∨
        ((2 : Int) * (v % ((1 <<< k : Nat) : Int)) = ((1 <<< k : Nat) : Int) ∧
          (v / ((1 <<< k : Nat) : Int)) % 2 ≠ 0)
      then v / ((1 <<< k : Nat) : Int) + 1 else v / ((1 <<< k : Nat) : Int)
  | .ROUND_Down => v / ((1 <<< k : Nat) : Int)
  | .ROUND_Up => -(-v / ((1 <<< k : Nat) : Int))
  | .ROUND_Chop => Int.tdiv v ((1 <<< k : Nat) : Int)

/-- The two's-complement encoding in `bits` bits of an integer `r` the type holds, and
the integer indefinite pattern `2^(bits-1)` for any other `r`: what the specification
says an integer store writes. -/
def encodeInt (bits : Nat) (r : Int) : Nat :=
  if -((1 <<< (bits - 1) : Nat) : Int) ≤ r ∧ r < ((1 <<< (bits - 1) : Nat) : Int)
    then (r % ((1 <<< bits : Nat) : Int)).toNat else 1 <<< (bits - 1)

/-! ## Packed decimal (BCD) load and store -/

/-- The digit loop of `FPU_FBST`: `k` iterations, each writing one byte with two decimal
digits of `rndint` at `addr` and advancing `addr`. -/
def FBST_digits : Nat → Nat → Mem → Nat → Mem
  | 0, _, mem, _ => mem
  | k + 1, rndint, mem, addr =>
    let temp := rndint / 10
    let p := (rndint % 10) % 256
    let rndint := temp / 10
    let p := (p ||| (((temp % 10) % 256) <<< 4)) % 256
    FBST_digits k rndint (mem_writeb mem addr p) (addr + 1)

/-- Packed decimal store: `FPU_FBST` of the Extended build.  Byte 9 takes the sign, the
magnitude is rounded by `FROUND` and converted to `Bit64u`; above 999999999999999999 the
indefinite pattern is written, otherwise nine bytes of digits.  For a rounded magnitude
of `2^64` or more, an infinity or a NaN the conversion to `Bit64u` is undefined in C++ and
what is written depends on the compiler: a build whose conversion yields 0 there writes
zero digits, where `toUInt` yields `2^63` and the indefinite pattern is written.  The
theorems on `FPU_FBST` are about finite values with a rounded magnitude below `2^64`. -/
def FPU_FBST (s : FPU) (mem : Mem) (addr : Nat) : Mem :=
  let val := s.regs s.top
  let sign := val &&& 0x8000000000000000 ≠ 0
  let mem := if sign then mem_writeb mem (addr + 9) 0x80 else mem_writeb mem (addr + 9) 0
  let val := if sign then binary64.neg val else val
  let rndint := binary64.toUInt 64 (FROUND s val)
  if rndint > 999999999999999999 then
    mem_writew (mem_writed (mem_writed mem addr 0) (addr + 4) 0xC0000000) (addr + 8) 0xFFFF
  else FBST_digits 9 rndint mem addr

/-- The digit loop of `FPU_FBLD`: `k` iterations from index `i`, each adding the two
digits of the byte at `addr + i` to `val` and multiplying `base` by 100, in `Bit64u`
arithmetic.  The result is the pair of `val` and `base`. -/
def FBLD_digits (mem : Mem) (addr : Nat) : Nat → Nat → Nat → Nat → Nat × Nat
  | 0, _, val, base => (val, base)
  | k + 1, i, val, base =>
    let inp := mem_readb mem (addr + i)
    let val := (val + (inp &&& 0xf) * base) % 18446744073709551616
    let base := (base * 10) % 18446744073709551616
    let val := (val + ((inp >>> 4) &&& 0xf) * base) % 18446744073709551616
    let base := (base * 10) % 18446744073709551616
    FBLD_digits mem addr k (i + 1) val base

/-- Packed decimal load: `FPU_FBLD`, shared by the two builds; `f` is the format of the
registers.  The 18 digits are summed in `Bit64u`, converted to the format, the product of
the low nibble of byte 9 and `base` is added, and the result is multiplied by -1.0 when
bit 7 of byte 9 is set. -/
def FPU_FBLD (f : Fmt) (s : FPU) (mem : Mem) (addr store_to : Nat) : FPU :=
  let vb := FBLD_digits mem addr 9 0 0 1
  let temp := f.ofInt (vb.1 : Int)
  let inp := mem_readb mem (addr + 9)
  let temp := f.add temp (f.ofInt ((((inp &&& 0xf) * vb.2) % 18446744073709551616 : Nat) : Int))
  let temp := if inp &&& 0x80 ≠ 0 then f.mul temp (f.withSign 1 f.one) else temp
  { s with regs := setSlot s.regs store_to temp }

/-! ## Exchange and copy -/

/-- Exchange of two slots: `FPU_FXCH`. -/
def FPU_FXCH (s : FPU) (st other : Nat) : FPU :=
  let tag := s.tags other
  let reg := s.regs other
  let s := { s with tags := setSlot s.tags other (s.tags st) }
  let s := { s with regs := setSlot s.regs other (s.regs st) }
  let s := { s with tags := setSlot s.tags st tag }
  { s with regs := setSlot s.regs st reg }

/-- Copy of a slot: `FPU_FST`. -/
def FPU_FST (s : FPU) (st other : Nat) : FPU :=
  let s := { s with tags := setSlot s.tags other (s.tags st) }
  { s with regs := setSlot s.regs other (s.regs st) }

/-! ## Partial remainder and rounding to an integer -/

/-- The integer that a two's-complement pattern of `bits` bits denotes. -/
def signedOf (bits : Nat) (n : Nat) : Int :=
  if n < 1 <<< (bits - 1) then (n : Int) else (n : Int) - ((1 <<< bits : Nat) : Int)

/-- Partial remainder: `FPU_FPREM` of the Extended build.  `ressaved` is the pattern of
the `Bit64s`; in `ressaved*valdiv` it is converted to `double`. -/
def FPU_FPREM (s : FPU) : FPU :=
  let valtop := s.regs s.top
  let valdiv := s.regs (STV s 1)
  let ressaved := binary64.toSInt 64 (binary64.div valtop valdiv)
  let res := binary64.sub valtop (binary64.mul (binary64.ofInt (signedOf 64 ressaved)) valdiv)
  let s := { s with regs := setSlot s.regs s.top res }
  let s := FPU_SET_C0 s (ressaved &&& 4)
  let s := FPU_SET_C3 s (ressaved &&& 2)
  let s := FPU_SET_C1 s (ressaved &&& 1)
  FPU_SET_C2 s 0

/-- Partial remainder with the quotient rounded to nearest: `FPU_FPREM1` of the Extended
build.  The three-way choice of the quotient has the shape of the `ROUND_Nearest` case of
`FROUND` (`Fmt.nearest`). -/
def FPU_FPREM1 (s : FPU) : FPU :=
  let valtop := s.regs s.top
  let valdiv := s.regs (STV s 1)
  let quot := binary64.div valtop valdiv
  let ressaved := binary64.toSInt 64 (binary64.nearest 64 quot)
  let res := binary64.sub valtop (binary64.mul (binary64.ofInt (signedOf 64 ressaved)) valdiv)
  let s := { s with regs := setSlot s.regs s.top res }
  let s := FPU_SET_C0 s (ressaved &&& 4)
  let s := FPU_SET_C3 s (ressaved &&& 2)
  let s := FPU_SET_C1 s (ressaved &&& 1)
  FPU_SET_C2 s 0

/-- Round to integer: `FPU_FRNDINT` of the Extended build. -/
def FPU_FRNDINT (s : FPU) : FPU :=
  let temp := binary64.toSInt 64 (FROUND s (s.regs s.top))
  let tempd := binary64.ofInt (signedOf 64 temp)
  let s :=
    if s.cw &&& 0x20 ≠ 0 then
      if ¬ binary64.eq tempd (s.regs s.top) then { s with sw := s.sw ||| 0x20 } else s
    else s
  { s with regs := setSlot s.regs s.top tempd }

/-- Round to integer: `FPU_FRNDINT` of the Reduced build. -/
def FPU_FRNDINT_Reduced (s : FPU) : FPU :=
  let temp := binary32.toSInt 32 (FROUND_Reduced s (s.regs s.top))
  { s with regs := setSlot s.regs s.top (binary32.ofInt (signedOf 32 temp)) }

/-! ## Environment persistence

`cpu.code.big`, the addressing size of the CPU core, is the parameter `big`.  The store
and load of a register in the 80-bit format are those of the build: `FPU_FSAVE` and
`FPU_FRSTOR` take them as the parameters `st80` and `fld80`. -/

/-- Environment store: `FPU_FSTENV`.  It also writes top into the status word. -/
def FPU_FSTENV (big : Bool) (s : FPU) (mem : Mem) (addr : Nat) : FPU × Mem :=
  let s := FPU_SET_TOP s s.top
  if ¬ big then
    let mem := mem_writew mem (addr + 0) (s.cw % 65536)
    let mem := mem_writew mem (addr + 2) (s.sw % 65536)
    let mem := mem_writew mem (addr + 4) (FPU_GetTag s % 65536)
    (s, mem)
  else
    let mem := mem_writed mem (addr + 0) (s.cw % 4294967296)
    let mem := mem_writed mem (addr + 4) (s.sw % 4294967296)
    let mem := mem_writed mem (addr + 8) (FPU_GetTag s % 4294967296)
    (s, mem)

/-- Environment load: `FPU_FLDENV`. -/
def FPU_FLDENV (big : Bool) (s : FPU) (mem : Mem) (addr : Nat) : FPU :=
  let cw := if ¬ big then mem_readw mem (addr + 0) else mem_readd mem (addr + 0)
  let sw := if ¬ big then mem_readw mem (addr + 2) else mem_readd mem (addr + 4) % 65536
  let tag := if ¬ big then mem_readw mem (addr + 4) else mem_readd mem (addr + 8) % 65536
  let s := { s with sw := sw }
  let s := FPU_SetTag s tag
  let s := FPU_SetCW s cw
  { s with top := FPU_GET_TOP s }

/-- The register loop of `FPU_FSAVE`: `k` iterations from index `i`, each storing `ST(i)`
at `addr + start` and advancing `start` by 10. -/
def FSAVE_regs (st80 : FPU → Mem → Nat → Nat → Mem) (s : FPU) (addr : Nat) :
    Nat → Nat → Nat → Mem → Mem
  | 0, _, _, mem => mem
  | k + 1, i, start, mem =>
    FSAVE_regs st80 s addr k (i + 1) (start + 10) (st80 s mem (addr + start) (STV s i))

/-- Full save: `FPU_FSAVE`; the environment, the eight stack registers, then a reset. -/
def FPU_FSAVE (st80 : FPU → Mem → Nat → Nat → Mem) (big : Bool) (s : FPU) (mem : Mem)
    (addr : Nat) : FPU × Mem :=
  let r := FPU_FSTENV big s mem addr
  let start := if big then 28 else 14
  let mem := FSAVE_regs st80 r.1 addr 8 0 start r.2
  (FPU_FINIT r.1, mem)

/-- The register loop of `FPU_FRSTOR`: `k` iterations from index `i`, each loading
`ST(i)` from `addr + start` and advancing `start` by 10. -/
def FRSTOR_regs (fld80 : Mem → Nat → Nat) (mem : Mem) (addr : Nat) :
    Nat → Nat → Nat → FPU → FPU
  | 0, _, _, s => s
  | k + 1, i, start, s =>
    FRSTOR_regs fld80 mem addr k (i + 1) (start + 10)
      { s with regs := setSlot s.regs (STV s i) (fld80 mem (addr + start)) }

/-- Full restore: `FPU_FRSTOR`. -/
def FPU_FRSTOR (fld80 : Mem → Nat → Nat) (big : Bool) (s : FPU) (mem : Mem) (addr : Nat) :
    FPU :=
  let s := FPU_FLDENV big s mem addr
  let start := if big then 28 else 14
  FRSTOR_regs fld80 mem addr 8 0 start s

/-! ## Constant loads and transcendental operations

The C math library and the constant macros of `fpu.h` are not among the sources.  They
are the parameter `m`: each library function maps the patterns of its arguments to the
pattern of its result (`double` for `sin`, `float` for `sinf`), each constant is the
pattern of the `double` the macro denotes.  The theorems hold for every `m`. -/

/-- The math library functions the FPU core calls and the constants of `fpu.h`. -/
structure MathLib where
  sin : Nat → Nat
  cos : Nat → Nat
  tan : Nat → Nat
  log : Nat → Nat
  atan2 : Nat → Nat → Nat
  pow : Nat → Nat → Nat
  sinf : Nat → Nat
  cosf : Nat → Nat
  tanf : Nat → Nat
  logf : Nat → Nat
  atan2f : Nat → Nat → Nat
  powf : Nat → Nat → Nat
  sqrt : Nat → Nat
  sqrtf : Nat → Nat
  L2T : Nat
  L2E : Nat
  PI : Nat
  LG2 : Nat
  LN2 : Nat

/-- Conversion of a `double` to `float` (an assignment of a `double` to a register of the
Reduced build): the value rounded to nearest; a NaN keeps the high bits of its payload. -/
def demote (x : Nat) : Nat :=
  if binary64.isNaN x then
    binary32.quiet (binary32.withSign (binary64.signBit x)
      (binary32.inf + (binary64.fracField x >>> 29)))
  else if ¬ binary64.isFinite x then binary32.withSign (binary64.signBit x) binary32.inf
  else binary32.withSign (binary64.signBit x) (binary32.roundMag (binary64.mag x) (1 <<< 925))

/-- Load of a constant: the shape of `FPU_FLD1`, `FPU_FLDL2T`, `FPU_FLDL2E`, `FPU_FLDPI`,
`FPU_FLDLG2` and `FPU_FLDLN2`, which call `FPU_PREP_PUSH` and assign the constant `c` to
the new top register. -/
def FPU_FLDconst (chk : StackCheck) (s : FPU) (c : Nat) : Except String FPU :=
  match FPU_PREP_PUSH chk s with
  | .error e => .error e
  | .ok s => .ok { s with regs := setSlot s.regs s.top c }

/-- Load of 1.0: `FPU_FLD1`, for the register format `f` of the build. -/
def FPU_FLD1 (f : Fmt) (chk : StackCheck) (s : FPU) : Except String FPU :=
  FPU_FLDconst chk s f.one

/-- Load of log2(10): `FPU_FLDL2T` of the Extended build. -/
def FPU_FLDL2T (m : MathLib) (chk : StackCheck) (s : FPU) : Except String FPU :=
  FPU_FLDconst chk s m.L2T

/-- Load of log2(e): `FPU_FLDL2E` of the Extended build. -/
def FPU_FLDL2E (m : MathLib) (chk : StackCheck) (s : FPU) : Except String FPU :=
  FPU_FLDconst chk s m.L2E

/-- Load of pi: `FPU_FLDPI` of the Extended build. -/
def FPU_FLDPI (m : MathLib) (chk : StackCheck) (s : FPU) : Except String FPU :=
  FPU_FLDconst chk s m.PI

/-- Load of log10(2): `FPU_FLDLG2` of the Extended build. -/
def FPU_FLDLG2 (m : MathLib) (chk : StackCheck) (s : FPU) : Except String FPU :=
  FPU_FLDconst chk s m.LG2

/-- Load of ln(2): `FPU_FLDLN2` of the Extended build. -/
def FPU_FLDLN2 (m : MathLib) (chk : StackCheck) (s : FPU) : Except String FPU :=
  FPU_FLDconst chk s m.LN2

/-- The constant loads of the Reduced build assign the `double` constant to a `float`
register: `FPU_FLDL2T`, `FPU_FLDL2E`, `FPU_FLDPI`, `FPU_FLDLG2`, `FPU_FLDLN2` for `c` the
constant of the macro. -/
def FPU_FLDconst_Reduced (chk : StackCheck) (s : FPU) (c : Nat) : Except String FPU :=
  FPU_FLDconst chk s (demote c)

/-- Load of zero: `FPU_FLDZ`; the new top is tagged Zero. -/
def FPU_FLDZ (chk : StackCheck) (s : FPU) : Except String FPU :=
  match FPU_PREP_PUSH chk s with
  | .error e => .error e
  | .ok s =>
    let s := { s with regs := setSlot s.regs s.top 0 }
    .ok { s with tags := setSlot s.tags s.top .TAG_Zero }

/-- Sine and cosine: `FPU_FSINCOS` of the Extended build. -/
def FPU_FSINCOS (m : MathLib) (chk : StackCheck) (s : FPU) : Except String FPU :=
  let temp := s.regs s.top
  let s := { s with regs := setSlot s.regs s.top (m.sin temp) }
  match FPU_PUSH chk s (m.cos temp) with
  | .error e => .error e
  | .ok s => .ok (FPU_SET_C2 s 0)

/-- Tangent: `FPU_FPTAN` of the Extended build; it pushes 1.0. -/
def FPU_FPTAN (m : MathLib) (chk : StackCheck) (s : FPU) : Except String FPU :=
  let s := { s with regs := setSlot s.regs s.top (m.tan (s.regs s.top)) }
  match FPU_PUSH chk s binary64.one with
  | .error e => .error e
  | .ok s => .ok (FPU_SET_C2 s 0)

/-- Arc tangent: `FPU_FPATAN` of the Extended build. -/
def FPU_FPATAN (m : MathLib) (chk : StackCheck) (s : FPU) : Except String FPU :=
  let res := m.atan2 (s.regs (STV s 1)) (s.regs s.top)
  let s := { s with regs := setSlot s.regs (STV s 1) res }
  FPU_FPOP chk s

/-- `FPU_FYL2X` of the Extended build: `ST(1) *= log(ST(0)) / log(2.0)`, then a pop. -/
def FPU_FYL2X (m : MathLib) (chk : StackCheck) (s : FPU) : Except String FPU :=
  let res := binary64.mul (s.regs (STV s 1))
    (binary64.div (m.log (s.regs s.top)) (m.log 0x4000000000000000))
  let s := { s with regs := setSlot s.regs (STV s 1) res }
  FPU_FPOP chk s

/-- `FPU_FYL2XP1` of the Extended build: `ST(1) *= log(ST(0) + 1.0) / log(2.0)`, then a
pop. -/
def FPU_FYL2XP1 (m : MathLib) (chk : StackCheck) (s : FPU) : Except String FPU :=
  let res := binary64.mul (s.regs (STV s 1))
    (binary64.div (m.log (binary64.add (s.regs s.top) binary64.one))
      (m.log 0x4000000000000000))
  let s := { s with regs := setSlot s.regs (STV s 1) res }
  FPU_FPOP chk s

/-- Exponent and significand: `FPU_FXTRACT` of the Extended build. -/
def FPU_FXTRACT (m : MathLib) (chk : StackCheck) (s : FPU) : Except String FPU :=
  let test := s.regs s.top
  let exp80 := test &&& 0x7ff0000000000000
  let exp80final : Int := ((exp80 >>> 52 : Nat) : Int) - (BIAS64 : Int)
  let mant := binary64.div test (m.pow 0x4000000000000000 (binary64.ofInt exp80final))
  let s := { s with regs := setSlot s.regs s.top (binary64.ofInt exp80final) }
  FPU_PUSH chk s mant

/-- The pattern of `SINFIX`, the `float` literal `.0000001f`. -/
def SINFIX : Nat := 0x33D6BF95

/-- Sine and cosine: `FPU_FSINCOS` of the Reduced build. -/
def FPU_FSINCOS_Reduced (m : MathLib) (chk : StackCheck) (s : FPU) : Except String FPU :=
  let temp := s.regs s.top
  let s := { s with regs := setSlot s.regs s.top (binary32.sub (m.sinf temp) SINFIX) }
  match FPU_PUSH chk s (binary32.sub (m.cosf temp) SINFIX) with
  | .error e => .error e
  | .ok s => .ok (FPU_SET_C2 s 0)

/-- Tangent: `FPU_FPTAN` of the Reduced build. -/
def FPU_FPTAN_Reduced (m : MathLib) (chk : StackCheck) (s : FPU) : Except String FPU :=
  let s := { s with regs := setSlot s.regs s.top (m.tanf (s.regs s.top)) }
  match FPU_PUSH chk s binary32.one with
  | .error e => .error e
  | .ok s => .ok (FPU_SET_C2 s 0)

/-- Arc tangent: `FPU_FPATAN` of the Reduced build. -/
def FPU_FPATAN_Reduced (m : MathLib) (chk : StackCheck) (s : FPU) : Except String FPU :=
  let res := m.atan2f (s.regs (STV s 1)) (s.regs s.top)
  let s := { s with regs := setSlot s.regs (STV s 1) res }
  FPU_FPOP chk s

/-- `FPU_FYL2X` of the Reduced build: `ST(1) *= logf(ST(0)) / LN2`; the quotient and the
product are computed in `double` and the product is assigned to the `float` register. -/
def FPU_FYL2X_Reduced (m : MathLib) (chk : StackCheck) (s : FPU) : Except String FPU :=
  let res := demote (binary64.mul (promote (s.regs (STV s 1)))
    (binary64.div (promote (m.logf (s.regs s.top))) m.LN2))
  let s := { s with regs := setSlot s.regs (STV s 1) res }
  FPU_FPOP chk s

/-- `FPU_FYL2XP1` of the Reduced build: `ST(1) *= logf(ST(0) + 1.0) / LN2`; the sum is
computed in `double` and passed to `logf` as a `float`. -/
def FPU_FYL2XP1_Reduced (m : MathLib) (chk : StackCheck) (s : FPU) : Except String FPU :=
  let res := demote (binary64.mul (promote (s.regs (STV s 1)))
    (binary64.div
      (promote (m.logf (demote (binary64.add (promote (s.regs s.top)) binary64.one))))
      m.LN2))
  let s := { s with regs := setSlot s.regs (STV s 1) res }
  FPU_FPOP chk s

/-- Exponent and significand: `FPU_FXTRACT` of the Reduced build.  The quotient is a
`float`; its passage through the `Real64` variable `mant` is exact. -/
def FPU_FXTRACT_Reduced (m : MathLib) (chk : StackCheck) (s : FPU) : Except String FPU :=
  let test := s.regs s.top
  let exp80 := test &&& 0x7f800000
  let exp80final : Int := ((exp80 >>> 23 : Nat) : Int) - (BIAS32 : Int)
  let mant := binary32.div test (m.powf 0x40000000 (binary32.ofInt exp80final))
  let s := { s with regs := setSlot s.regs s.top (binary32.ofInt exp80final) }
  FPU_PUSH chk s mant

/-! ## Further operations on the top of the stack -/

/-- Absolute value `fabs`, `fabsf`: the sign bit is cleared. -/
def Fmt.abs (f : Fmt) (x : Nat) : Nat := x % (1 <<< (f.p + f.w))

/-- Sine: `FPU_FSIN` of the Extended build. -/
def FPU_FSIN (m : MathLib) (s : FPU) : FPU :=
  let s := { s with regs := setSlot s.regs s.top (m.sin (s.regs s.top)) }
  FPU_SET_C2 s 0

/-- Cosine: `FPU_FCOS` of the Extended build. -/
def FPU_FCOS (m : MathLib) (s : FPU) : FPU :=
  let s := { s with regs := setSlot s.regs s.top (m.cos (s.regs s.top)) }
  FPU_SET_C2 s 0

/-- Square root: `FPU_FSQRT` of the Extended build. -/
def FPU_FSQRT (m : MathLib) (s : FPU) : FPU :=
  { s with regs := setSlot s.regs s.top (m.sqrt (s.regs s.top)) }

/-- `FPU_F2XM1` of the Extended build: `pow(2.0, ST(0)) - 1`. -/
def FPU_F2XM1 (m : MathLib) (s : FPU) : FPU :=
  let res := binary64.sub (m.pow 0x4000000000000000 (s.regs s.top)) binary64.one
  { s with regs := setSlot s.regs s.top res }

/-- `FPU_FSCALE` of the Extended build: `ST(0) *= pow(2.0, x)` with `x` the value of
`ST(1)` converted to `Bit64s` and back to `double`. -/
def FPU_FSCALE (m : MathLib) (s : FPU) : FPU :=
  let x := binary64.ofInt (signedOf 64 (binary64.toSInt 64 (s.regs (STV s 1))))
  let res := binary64.mul (s.regs s.top) (m.pow 0x4000000000000000 x)
  { s with regs := setSlot s.regs s.top res }

/-- Absolute value: `FPU_FABS`, for the register format `f` of the build. -/
def FPU_FABS (f : Fmt) (s : FPU) : FPU :=
  { s with regs := setSlot s.regs s.top (f.abs (s.regs s.top)) }

/-- Change of sign: `FPU_FCHS` of the Extended build, `-1.0 * ST(0)`, as the
multiplication of the format.  For a NaN in the top register IEEE 754 leaves the sign of
the product open: `Fmt.mul` returns the NaN with its sign kept, a compiled build may flip
the sign bit.  No theorem states the value for a NaN. -/
def FPU_FCHS (s : FPU) : FPU :=
  let res := binary64.mul (binary64.withSign 1 binary64.one) (s.regs s.top)
  { s with regs := setSlot s.regs s.top res }

/-- Sine: `FPU_FSIN` of the Reduced build. -/
def FPU_FSIN_Reduced (m : MathLib) (s : FPU) : FPU :=
  let s := { s with regs := setSlot s.regs s.top (binary32.sub (m.sinf (s.regs s.top)) SINFIX) }
  FPU_SET_C2 s 0

/-- Cosine: `FPU_FCOS` of the Reduced build. -/
def FPU_FCOS_Reduced (m : MathLib) (s : FPU) : FPU :=
  let s := { s with regs := setSlot s.regs s.top (binary32.sub (m.cosf (s.regs s.top)) SINFIX) }
  FPU_SET_C2 s 0

/-- Square root: `FPU_FSQRT` of the Reduced build. -/
def FPU_FSQRT_Reduced (m : MathLib) (s : FPU) : FPU :=
  { s with regs := setSlot s.regs s.top (m.sqrtf (s.regs s.top)) }

/-- `FPU_F2XM1` of the Reduced build: `powf(2.0, ST(0)) - 1`. -/
def FPU_F2XM1_Reduced (m : MathLib) (s : FPU) : FPU :=
  let res := binary32.sub (m.powf 0x40000000 (s.regs s.top)) binary32.one
  { s with regs := setSlot s.regs s.top res }

/-- `FPU_FSCALE` of the Reduced build: `ST(0) *= powf(2.0, x)` with `x` the value of
`ST(1)` converted to `Bit32s` and back to `float`. -/
def FPU_FSCALE_Reduced (m : MathLib) (s : FPU) : FPU :=
  let x := binary32.ofInt (signedOf 32 (binary32.toSInt 32 (s.regs (STV s 1))))
  let res := binary32.mul (s.regs s.top) (m.powf 0x40000000 x)
  { s with regs := setSlot s.regs s.top res }

/-- Change of sign: `FPU_FCHS` of the Reduced build; the product with the `double` -1.0
is computed in `double` and assigned to the `float` register.  The sign of a NaN result
is open as in `FPU_FCHS`. -/
def FPU_FCHS_Reduced (s : FPU) : FPU :=
  let res := demote (binary64.mul (binary64.withSign 1 binary64.one) (promote (s.regs s.top)))
  { s with regs := setSlot s.regs s.top res }

/-- Comparison with zero: `FPU_FTST`, which writes 0.0 into the scratch register 8 and
compares the top with it. -/
def FPU_FTST (f : Fmt) (s : FPU) : FPU :=
  let s := { s with regs := setSlot s.regs 8 0 }
  FPU_FCOM f s s.top 8

/-- Load of an 80-bit operand into the top register: `FPU_FLD_F80`, for the load
`fld80` of the build. -/
def FPU_FLD_F80 (fld80 : Mem → Nat → Nat) (s : FPU) (mem : Mem) (addr : Nat) : FPU :=
  { s with regs := setSlot s.regs s.top (fld80 mem addr) }

/-! ## Packed decimal digits

The digits `d_k` of a packed decimal operand and their weighted sum, as the
specification words them. -/

/-- Nibble `k` of the packed decimal operand at `addr`, counted from the low nibble of
byte 0: the low nibble of byte `k / 2` for even `k`, its high nibble for odd `k`. -/
def bcdNibble (mem : Mem) (addr k : Nat) : Nat :=
  if k % 2 = 0 then mem_readb mem (addr + k / 2) &&& 0xf
  else (mem_readb mem (addr + k / 2) >>> 4) &&& 0xf

/-- The sum of `d_k * 10^k` over the nibbles `k < n` of the operand at `addr`. -/
def bcdSum (mem : Mem) (addr : Nat) : Nat → Nat
  | 0 => 0
  | n + 1 => bcdSum mem addr n + bcdNibble mem addr n * 10 ^ n

/-- Decimal digit `k` of a natural number. -/
def decDigit (r k : Nat) : Nat := r / 10 ^ k % 10

/-! ## Partial remainder over the rationals

The values `a - trunc(a/b)*b` and `a - rne(a/b)*b` of exact arithmetic that C38 speaks
of: the expressions of `FPU_FPREM` and `FPU_FPREM1` with the register values taken as
rationals and every operation exact.  They are not the embedding of the code, which is
`FPU_FPREM` and `FPU_FPREM1` and rounds the quotient, the product and the difference to
`double`; `FPREM_link`, `FPREM1_link` and `FPREM_of_ints` say when the value the code
stores is the exact one, which it is not for the operands 1.7 and 0.1. -/

/-- The conversion `static_cast<Bit64s>` of a rational: truncation toward zero; a value
the type cannot hold gives the integer indefinite. -/
def castBit64s (x : ℚ) : Int :=
  let q : Int := if 0 ≤ x then ⌊x⌋ else ⌈x⌉
  if -9223372036854775808 ≤ q ∧ q < 9223372036854775808 then q else -9223372036854775808

/-- The exact remainder `a - trunc(a/b)*b` of C38: the expression
`valtop - ressaved*valdiv` of `FPU_FPREM` over the rationals, no operation rounded. -/
def FPREM_exact (valtop valdiv : ℚ) : ℚ :=
  let ressaved := castBit64s (valtop / valdiv)
  valtop - (ressaved : ℚ) * valdiv

/-- The exact remainder `a - rne(a/b)*b` of C38: the expression
`valtop - ressaved*valdiv` of `FPU_FPREM1` over the rationals, no operation rounded, with
the three-way choice of the quotient of the source. -/
def FPREM1_exact (valtop valdiv : ℚ) : ℚ :=
  let quot := valtop / valdiv
  let quotf : ℚ := (⌊quot⌋ : Int)
  let ressaved :=
    if quot - quotf > 1 / 2 then castBit64s (quotf + 1)
    else if quot - quotf < 1 / 2 then castBit64s quotf
    else castBit64s (if castBit64s quotf % 2 ≠ 0 then quotf + 1 else quotf)
  valtop - (ressaved : ℚ) * valdiv

/-! ## Sequences of stack operations -/

/-- Runs a sequence of fallible operations from a state; the first failure ends it. -/
def runOps : List (FPU → Except String FPU) → FPU → Except String FPU
  | [], s => .ok s
  | op :: ops, s =>
    match op s with
    | .error e => .error e
    | .ok s => runOps ops s

/-! ## MPU-401 output queue

The part of the state `mpu` of `mpu401.cpp` that the queue functions read and write.
An index into `mpu.queue` outside the array is an error. -/

/-- The length `MPU401_QUEUE` of the queue array. -/
def MPU401_QUEUE : Nat := 32

/-- The message `MSG_MPU_ACK`. -/
def MSG_MPU_ACK : Nat := 0xfe

/-- The fields `intelligent`, `queue`, `queue_pos`, `queue_used` and `state.block_ack`
of `mpu`. -/
structure Mpu where
  intelligent : Bool
  queue : Nat → Nat
  queue_pos : Nat
  queue_used : Nat
  block_ack : Bool

/-- `QueueByte`.  The interrupt request raised for the first byte in intelligent mode
does not touch the queue and is left out; `Bitu` sums are taken modulo `2^32`. -/
def QueueByte (s : Mpu) (data : Nat) : Except String Mpu :=
  if s.block_ack then .ok { s with block_ack := false }
  else if s.queue_used < MPU401_QUEUE then
    let pos := (s.queue_used + s.queue_pos) % 4294967296
    let queue_pos := if s.queue_pos ≥ MPU401_QUEUE then s.queue_pos - MPU401_QUEUE
      else s.queue_pos
    let pos := if pos ≥ MPU401_QUEUE then pos - MPU401_QUEUE else pos
    let queue_used := (s.queue_used + 1) % 4294967296
    if pos < MPU401_QUEUE then
      .ok { s with queue_pos := queue_pos, queue_used := queue_used
                   queue := setSlot s.queue pos (data % 256) }
    else .error "mpu.queue index out of bounds"
  else .ok s

/-- `ClrQueue`. -/
def ClrQueue (s : Mpu) : Mpu :=
  { s with queue_used := 0, queue_pos := 0 }

/-- A call that the tail of `MPU401_ReadData` makes in intelligent mode, through
`MPU401_WriteCommand`, `MPU401_WriteData`, `MPU401_Reset` and `MPU401_EOIHandler`: these
touch the queue fields only by calling `QueueByte` and `ClrQueue` and by assigning
`state.block_ack`. -/
inductive TailCall where
  | queueByte (data : Nat)
  | clrQueue
  | blockAck (v : Bool)

/-- The effect of a call of the tail on the queue fields. -/
def TailCall.apply (s : Mpu) : TailCall → Except String Mpu
  | .queueByte data => QueueByte s data
  | .clrQueue => .ok (ClrQueue s)
  | .blockAck v => .ok { s with block_ack := v }

/-- The calls of a tail in order. -/
def runTail : List TailCall → Mpu → Except String Mpu
  | [], s => .ok s
  | c :: cs, s =>
    match c.apply s with
    | .error e => .error e
    | .ok s => runTail cs s

/-- `MPU401_ReadData`: the byte returned and the state.  In intelligent mode the
function goes on after the read with calls that depend on fields outside the queue;
`tail` is the sequence of those calls. -/
def MPU401_ReadData (tail : List TailCall) (s : Mpu) : Except String (Nat × Mpu) :=
  let r : Except String (Nat × Mpu) :=
    if s.queue_used ≠ 0 then
      let queue_pos := if s.queue_pos ≥ MPU401_QUEUE then s.queue_pos - MPU401_QUEUE
        else s.queue_pos
      if queue_pos < MPU401_QUEUE then
        .ok (s.queue queue_pos,
          { s with queue_pos := (queue_pos + 1) % 4294967296, queue_used := s.queue_used - 1 })
      else .error "mpu.queue index out of bounds"
    else .ok (MSG_MPU_ACK, s)
  match r with
  | .error e => .error e
  | .ok (ret, s) =>
    if ¬ s.intelligent then .ok (ret, s)
    else
      match runTail tail s with
      | .error e => .error e
      | .ok s => .ok (ret, s)

/-- A call of one of the three queue functions. -/
inductive MpuCall where
  | queueByte (data : Nat)
  | readData (tail : List TailCall)
  | clrQueue

/-- The state after a call. -/
def MpuCall.apply (s : Mpu) : MpuCall → Except String Mpu
  | .queueByte data => QueueByte s data
  | .readData tail =>
    match MPU401_ReadData tail s with
    | .error e => .error e
    | .ok r => .ok r.2
  | .clrQueue => .ok (ClrQueue s)

/-- The state after a sequence of calls. -/
def runCalls : List MpuCall → Mpu → Except String Mpu
  | [], s => .ok s
  | c :: cs, s =>
    match c.apply s with
    | .error e => .error e
    | .ok s => runCalls cs s

/-- The bytes in the queue, oldest first: `queue_used` bytes from index `queue_pos` on,
around the end of the array. -/
def queued (s : Mpu) : List Nat :=
  (List.range s.queue_used).map (fun i => s.queue ((s.queue_pos + i) % MPU401_QUEUE))

/-- A first-in-first-out list of capacity 32, as the specification words the queue:
appending a byte, which is dropped when 32 bytes are queued. -/
def fifoPut (l : List Nat) (b : Nat) : List Nat :=
  if l.length < 32 then l ++ [b % 256] else l

/-- Removing the oldest byte of the first-in-first-out list: the byte returned, 0xFE for
an empty list, and the list left. -/
def fifoGet : List Nat → Nat × List Nat
  | [] => (0xfe, [])
  | b :: l => (b, l)

/-- A call of the two functions of the first-in-first-out claim. -/
inductive FifoCall where
  | put (b : Nat)
  | get

/-- The bytes returned by the reads of a sequence of calls on the code, and the final
state; `none` after an index out of bounds. -/
def runFifoCode : List FifoCall → Mpu → Option (List Nat × Mpu)
  | [], s => some ([], s)
  | .put b :: cs, s =>
    match QueueByte s b with
    | .error _ => none
    | .ok s => runFifoCode cs s
  | .get :: cs, s =>
    match MPU401_ReadData [] s with
    | .error _ => none
    | .ok (ret, s) =>
      match runFifoCode cs s with
      | none => none
      | some (out, s) => some (ret :: out, s)

/-- The bytes returned by the reads of a sequence of calls on the first-in-first-out
list, and the final list. -/
def runFifoSpec : List FifoCall → List Nat → List Nat × List Nat
  | [], l => ([], l)
  | .put b :: cs, l => runFifoSpec cs (fifoPut l b)
  | .get :: cs, l =>
    let r := fifoGet l
    let rest := runFifoSpec cs r.2
    (r.1 :: rest.1, rest.2)

/-! ## Loads of `float`, `double` and 64-bit integers, and the Reduced partial remainder -/

/-- No operation: `FPU_FNOP`. -/
def FPU_FNOP (s : FPU) : FPU := s

/-- Load of a `float`: `FPU_FLD_F32` in the Extended build, where `FVAL` is `double`; the
doubleword read is taken as a `float` and converted. -/
def FPU_FLD_F32 (s : FPU) (mem : Mem) (addr store_to : Nat) : FPU :=
  { s with regs := setSlot s.regs store_to (promote (mem_readd mem addr)) }

/-- Load of a `float`: `FPU_FLD_F32` in the Reduced build, where `FVAL` is `float` and the
conversion leaves the pattern as it is. -/
def FPU_FLD_F32_Reduced (s : FPU) (mem : Mem) (addr store_to : Nat) : FPU :=
  { s with regs := setSlot s.regs store_to (mem_readd mem addr) }

/-- Load of a `double`: `FPU_FLD_F64` of the Extended build, which assigns the two
doublewords read to the low and the high half of the register. -/
def FPU_FLD_F64 (s : FPU) (mem : Mem) (addr store_to : Nat) : FPU :=
  let d := mem_readd mem addr + (mem_readd mem (addr + 4) <<< 32)
  { s with regs := setSlot s.regs store_to d }

/-- Load of a `double`: `FPU_FLD_F64` of the Reduced build, which converts the `double`
read to `float`. -/
def FPU_FLD_F64_Reduced (s : FPU) (mem : Mem) (addr store_to : Nat) : FPU :=
  let d := mem_readd mem addr + (mem_readd mem (addr + 4) <<< 32)
  { s with regs := setSlot s.regs store_to (demote d) }

/-- Integer load of 64 bits: `FPU_FLD_I64` of the Extended build; the two doublewords read
are taken as a `Bit64s` and converted to `double`. -/
def FPU_FLD_I64 (s : FPU) (mem : Mem) (addr store_to : Nat) : FPU :=
  let ll := mem_readd mem addr + (mem_readd mem (addr + 4) <<< 32)
  { s with regs := setSlot s.regs store_to (binary64.ofInt (signedOf 64 ll)) }

/-- Integer load of 64 bits: `FPU_FLD_I64` of the Reduced build; the `Bit64s` is converted
to `float`. -/
def FPU_FLD_I64_Reduced (s : FPU) (mem : Mem) (addr store_to : Nat) : FPU :=
  let ll := mem_readd mem addr + (mem_readd mem (addr + 4) <<< 32)
  { s with regs := setSlot s.regs store_to (binary32.ofInt (signedOf 64 ll)) }

/-- Partial remainder: `FPU_FPREM` of the Reduced build, in `float` arithmetic with a
`Bit32s` quotient. -/
def FPU_FPREM_Reduced (s : FPU) : FPU :=
  let valtop := s.regs s.top
  let valdiv := s.regs (STV s 1)
  let ressaved := binary32.toSInt 32 (binary32.div valtop valdiv)
  let res := binary32.sub valtop (binary32.mul (binary32.ofInt (signedOf 32 ressaved)) valdiv)
  let s := { s with regs := setSlot s.regs s.top res }
  let s := FPU_SET_C0 s (ressaved &&& 4)
  let s := FPU_SET_C3 s (ressaved &&& 2)
  let s := FPU_SET_C1 s (ressaved &&& 1)
  FPU_SET_C2 s 0

/-- Partial remainder with the quotient rounded to nearest: `FPU_FPREM1` of the Reduced
build.  In the third branch the source converts to `Bit64s` and assigns to the `Bit32s`
`ressaved`, which keeps the low 32 bits. -/
def FPU_FPREM1_Reduced (s : FPU) : FPU :=
  let valtop := s.regs s.top
  let valdiv := s.regs (STV s 1)
  let quot := binary32.div valtop valdiv
  let quotf := binary32.floor quot
  let ressaved :=
    if binary32.gt (binary32.sub quot quotf) binary32.half then
      binary32.toSInt 32 (binary32.add quotf binary32.one)
    else if binary32.lt (binary32.sub quot quotf) binary32.half then binary32.toSInt 32 quotf
    else binary32.toSInt 64
      (if binary32.toSInt 32 quotf &&& 1 ≠ 0 then binary32.add quotf binary32.one else quotf)
      % 4294967296
  let res := binary32.sub valtop (binary32.mul (binary32.ofInt (signedOf 32 ressaved)) valdiv)
  let s := { s with regs := setSlot s.regs s.top res }
  let s := FPU_SET_C0 s (ressaved &&& 4)
  let s := FPU_SET_C3 s (ressaved &&& 2)
  let s := FPU_SET_C1 s (ressaved &&& 1)
  FPU_SET_C2 s 0

/-! ## Operations on the stack and on the scratch register

The operations of the file as functions of the state, for the claims on sequences of
operations.  An index argument is stack-relative, `STV(i)`, as the instruction decoder
passes it, or the scratch register 8 of the memory-operand forms (`..._EA`).  The stores
(`FPU_FST_F32`, `FPU_FST_F64`, `FPU_FST_F80`, `FPU_FST_I16`, `FPU_FST_I32`, `FPU_FST_I64`,
`FPU_FBST`) read the top register and write memory; they assign no field of the state,
which `FPU_FNOP` stands for in the lists. -/

/-- The operations of both builds that push: `v` is a value pushed. -/
def pushOps (m : MathLib) (chk : StackCheck) (f : Fmt) (v : Nat) :
    List (FPU → Except String FPU) :=
  [FPU_PREP_PUSH chk, fun s => FPU_PUSH chk s v,
    FPU_FLD1 f chk, FPU_FLDL2T m chk, FPU_FLDL2E m chk, FPU_FLDPI m chk, FPU_FLDLG2 m chk,
    FPU_FLDLN2 m chk, fun s => FPU_FLDconst_Reduced chk s v, FPU_FLDZ chk,
    FPU_FSINCOS m chk, FPU_FPTAN m chk, FPU_FXTRACT m chk,
    FPU_FSINCOS_Reduced m chk, FPU_FPTAN_Reduced m chk, FPU_FXTRACT_Reduced m chk]

/-- The operations of both builds that pop. -/
def popOps (m : MathLib) (chk : StackCheck) : List (FPU → Except String FPU) :=
  [FPU_FPOP chk, FPU_FPATAN m chk, FPU_FYL2X m chk, FPU_FYL2XP1 m chk,
    FPU_FPATAN_Reduced m chk, FPU_FYL2X_Reduced m chk, FPU_FYL2XP1_Reduced m chk]

/-- The environment operations that do not reset the unit, for a memory operand. -/
def envOps (big : Bool) (mem : Mem) (addr : Nat) : List (FPU → Except String FPU) :=
  [fun s => .ok (FPU_FLDENV big s mem addr),
    fun s => .ok (FPU_FRSTOR FPU_FLD80 big s mem addr),
    fun s => .ok (FPU_FRSTOR FPU_FLD80_Reduced big s mem addr),
    fun s => .ok (FPU_FSTENV big s mem addr).1]

/-- The operations of both builds that neither push nor pop and address registers
through top and the stack-relative operands `i` and `j`. -/
def plainOps (m : MathLib) (f : Fmt) (mem : Mem) (addr i j : Nat) :
    List (FPU → Except String FPU) :=
  [fun s => .ok (FPU_FCLEX s),
    fun s => .ok (FPU_FADD f s (STV s i) (STV s j)),
    fun s => .ok (FPU_FDIV f s (STV s i) (STV s j)),
    fun s => .ok (FPU_FDIVR f s (STV s i) (STV s j)),
    fun s => .ok (FPU_FMUL f s (STV s i) (STV s j)),
    fun s => .ok (FPU_FSUB f s (STV s i) (STV s j)),
    fun s => .ok (FPU_FSUBR f s (STV s i) (STV s j)),
    fun s => .ok (FPU_FCOM f s (STV s i) (STV s j)),
    fun s => .ok (FPU_FUCOM f s (STV s i) (STV s j)),
    fun s => .ok (FPU_FXCH s (STV s i) (STV s j)),
    fun s => .ok (FPU_FST s (STV s i) (STV s j)),
    fun s => .ok (FPU_FXAM s), fun s => .ok (FPU_FXAM_Reduced s),
    fun s => .ok (FPU_FLD_I16 f s mem addr (STV s i)),
    fun s => .ok (FPU_FLD_I32 f s mem addr (STV s i)),
    fun s => .ok (FPU_FBLD f s mem addr (STV s i)),
    fun s => .ok (FPU_FLD_F80 FPU_FLD80 s mem addr),
    fun s => .ok (FPU_FLD_F80 FPU_FLD80_Reduced s mem addr),
    fun s => .ok (FPU_FPREM s), fun s => .ok (FPU_FPREM1 s),
    fun s => .ok (FPU_FRNDINT s), fun s => .ok (FPU_FRNDINT_Reduced s),
    fun s => .ok (FPU_FSIN m s), fun s => .ok (FPU_FCOS m s), fun s => .ok (FPU_FSQRT m s),
    fun s => .ok (FPU_FABS f s), fun s => .ok (FPU_FCHS s), fun s => .ok (FPU_F2XM1 m s),
    fun s => .ok (FPU_FSCALE m s),
    fun s => .ok (FPU_FSIN_Reduced m s), fun s => .ok (FPU_FCOS_Reduced m s),
    fun s => .ok (FPU_FSQRT_Reduced m s), fun s => .ok (FPU_FCHS_Reduced s),
    fun s => .ok (FPU_F2XM1_Reduced m s), fun s => .ok (FPU_FSCALE_Reduced m s)]

/-- The loads of a `float`, a `double` and a 64-bit integer of both builds into the
stack-relative register `i`, the partial remainders of the Reduced build, and the
operation that leaves the state as it is. -/
def loadOps (mem : Mem) (addr i : Nat) : List (FPU → Except String FPU) :=
  [fun s => .ok (FPU_FNOP s),
    fun s => .ok (FPU_FLD_F32 s mem addr (STV s i)),
    fun s => .ok (FPU_FLD_F32_Reduced s mem addr (STV s i)),
    fun s => .ok (FPU_FLD_F64 s mem addr (STV s i)),
    fun s => .ok (FPU_FLD_F64_Reduced s mem addr (STV s i)),
    fun s => .ok (FPU_FLD_I64 s mem addr (STV s i)),
    fun s => .ok (FPU_FLD_I64_Reduced s mem addr (STV s i)),
    fun s => .ok (FPU_FPREM_Reduced s), fun s => .ok (FPU_FPREM1_Reduced s)]

/-- The operations that address registers through top and stack-relative indices only:
every state-changing function of the file, in both builds, except those of `scratchOps`. -/
def stackOps (m : MathLib) (chk : StackCheck) (f : Fmt) (big : Bool) (mem : Mem)
    (addr v i j : Nat) : List (FPU → Except String FPU) :=
  pushOps m chk f v ++ popOps m chk ++ envOps big mem addr ++ plainOps m f mem addr i j
    ++ loadOps mem addr i

/-- The operations that use the scratch register 8 as an operand (`FPU_FTST` and the
memory-operand forms `FPU_FADD_EA`, ..., `FPU_FCOM_EA`, `FPU_FLD_I16_EA`,
`FPU_FLD_I32_EA`, `FPU_FLD_F32_EA`, `FPU_FLD_F64_EA`), and the two that reset the unit
(`FPU_FINIT`, `FPU_FSAVE`). -/
def scratchOps (f : Fmt) (big : Bool) (mem : Mem) (addr i : Nat) :
    List (FPU → Except String FPU) :=
  [fun s => .ok (FPU_FTST f s),
    fun s => .ok (FPU_FADD f s (STV s i) 8), fun s => .ok (FPU_FMUL f s (STV s i) 8),
    fun s => .ok (FPU_FSUB f s (STV s i) 8), fun s => .ok (FPU_FSUBR f s (STV s i) 8),
    fun s => .ok (FPU_FDIV f s (STV s i) 8), fun s => .ok (FPU_FDIVR f s (STV s i) 8),
    fun s => .ok (FPU_FCOM f s (STV s i) 8),
    fun s => .ok (FPU_FLD_I16 f s mem addr 8), fun s => .ok (FPU_FLD_I32 f s mem addr 8),
    fun s => .ok (FPU_FLD_F32 s mem addr 8), fun s => .ok (FPU_FLD_F32_Reduced s mem addr 8),
    fun s => .ok (FPU_FLD_F64 s mem addr 8), fun s => .ok (FPU_FLD_F64_Reduced s mem addr 8),
    fun s => .ok (FPU_FINIT s),
    fun s => .ok (FPU_FSAVE FPU_ST80 big s mem addr).1,
    fun s => .ok (FPU_FSAVE FPU_ST80_Reduced big s mem addr).1]

/-! ## Concrete contexts -/

/-- The context after reset: every stack slot Empty, default control word. -/
def emptyStack : FPU :=
  { regs := fun _ => 0
    tags := fun i => if i = 8 then .TAG_Valid else .TAG_Empty
    cw := 0x37F
    cw_mask_all := 0x37F
    sw := 0
    top := 0
    round := .ROUND_Nearest }

/-- A context whose eight stack slots are all Valid, default control word. -/
def fullStack : FPU :=
  { emptyStack with tags := fun _ => .TAG_Valid }

/-- The empty stack with every exception unmasked (control word 0x0340). -/
def emptyUnmasked : FPU :=
  { emptyStack with cw := 0x340 }

/-- An 80-bit operand at address 100 with sign bit 1, exponent field 0x4100 (unbiased
exponent 257) and mantissa 0x8000000000000000. -/
def operandHuge : Mem :=
  mem_writew (mem_writed (mem_writed (fun _ => 0) 100 0) 104 0x80000000) 108 0xC100

/-- An 80-bit operand at address 100 with sign bit 0, exponent field 0x4400 (unbiased
exponent 1025) and mantissa 0x8000000000000800. -/
def operandHuge64 : Mem :=
  mem_writew (mem_writed (mem_writed (fun _ => 0) 100 0x800) 104 0x80000000) 108 0x4400

/-- A context whose registers all hold the pattern `v`. -/
def withRegs (v : Nat) : FPU :=
  { emptyStack with regs := fun _ => v }

/-- A context on the empty stack whose register 0 holds the pattern `x` and whose other
registers hold the pattern `y`; top is 0, so `x` is the top value and `y` that of
`ST(1)`. -/
def withPair (x y : Nat) : FPU :=
  { emptyStack with regs := fun i => if i = 0 then x else y }

/-- The context that `FPU_FLDZ` leaves on the empty stack: top 7, slot 7 holds +0 and is
tagged Zero, the other stack slots are Empty. -/
def zeroLoaded : FPU :=
  { emptyStack with
    top := 7, tags := fun i => if i = 7 then .TAG_Zero else emptyStack.tags i }

/-- A math library for the examples: every function returns +0, and the constants are
the `double` values nearest to log2(10), log2(e), pi, log10(2) and ln(2). -/
def exampleLib : MathLib :=
  { sin := fun _ => 0, cos := fun _ => 0, tan := fun _ => 0, log := fun _ => 0
    atan2 := fun _ _ => 0, pow := fun _ _ => 0
    sinf := fun _ => 0, cosf := fun _ => 0, tanf := fun _ => 0, logf := fun _ => 0
    atan2f := fun _ _ => 0, powf := fun _ _ => 0
    sqrt := fun _ => 0, sqrtf := fun _ => 0
    L2T := 0x400A934F0979A371, L2E := 0x3FF71547652B82FE, PI := 0x400921FB54442D18
    LG2 := 0x3FD34413509F79FF, LN2 := 0x3FE62E42FEFA39EF }

/-- A context with top 3, the eight stack slots holding 17.0, 5.0, 2.5, -2.0, +infinity,
0.0, 1.0 and -0.5 from `ST(0)` on, tagged Valid except for a Zero tag on the slot of 0.0,
with a status word whose top field is stale. -/
def sampleState : FPU :=
  { regs := fun i =>
      if i = 3 then 0x4031000000000000 else if i = 4 then 0x4014000000000000
      else if i = 5 then 0x4004000000000000 else if i = 6 then 0xC000000000000000
      else if i = 7 then 0x7FF0000000000000 else if i = 0 then 0
      else if i = 1 then 0x3FF0000000000000 else if i = 2 then 0xBFE0000000000000 else 0
    tags := fun i => if i = 0 then .TAG_Zero else .TAG_Valid
    cw := 0x37F
    cw_mask_all := 0x37F
    sw := 0x4100
    top := 3
    round := .ROUND_Nearest }

/-- The sample context with 7.0 in the top register and 2.0 in every other register, so
that the quotient of top by `ST(1)` is 3.5. -/
def halfQuotient : FPU :=
  { sampleState with
    regs := fun i => if i = 3 then 0x401C000000000000 else 0x4000000000000000 }

/-! ## Auxiliary facts on words -/

theorem and_seven_eq_mod (n : Nat) : n &&& 7 = n % 8 := by
  have h : (7 : Nat) = 2 ^ 3 - 1 := by norm_num
  rw [h, Nat.and_pow_two_sub_one_eq_mod]

theorem top_dec_eq (top : Nat) : ((top + 4294967295) % 4294967296) &&& 7 = (top + 7) % 8 := by
  rw [and_seven_eq_mod]; omega

theorem top_inc_eq (top : Nat) : (top + 1) % 4294967296 &&& 7 = (top + 1) % 8 := by
  rw [and_seven_eq_mod]; omega

theorem testBit_word_high (w i : Nat) (hw : w < 65536) (hi : 16 ≤ i) : w.testBit i = false := by
  apply Nat.testBit_lt_two_pow
  calc w < 2 ^ 16 := hw
    _ ≤ 2 ^ i := Nat.pow_le_pow_right (by norm_num) hi

theorem testBit_FDFF (i : Nat) (hi : i < 16) (h9 : i ≠ 9) : Nat.testBit 0xFDFF i = true := by
  interval_cases i <;> first | exact absurd rfl h9 | decide

theorem testBit_one (i : Nat) (h0 : i ≠ 0) : Nat.testBit 1 i = false := by
  have h : (1 : Nat) = 2 ^ 0 := by norm_num
  rw [h, Nat.testBit_two_pow]
  simpa using fun h => h0 h.symm

theorem testBit_40 (i : Nat) (h6 : i ≠ 6) : Nat.testBit 0x40 i = false := by
  have h : (0x40 : Nat) = 2 ^ 6 := by norm_num
  rw [h, Nat.testBit_two_pow]
  simpa using fun h => h6 h.symm

theorem testBit_200 (i : Nat) (h9 : i ≠ 9) : Nat.testBit 0x200 i = false := by
  have h : (0x200 : Nat) = 2 ^ 9 := by norm_num
  rw [h, Nat.testBit_two_pow]
  simpa using fun h => h9 h.symm

/-- Bits of the status word after a masked overflow: `sw |= 1; sw |= 0x40; FPU_SET_C1(1)`. -/
theorem sw_overflow_bits (sw : Nat) (hsw : sw < 65536) :
    let sw1 := (((sw ||| 0x1) ||| 0x40) &&& 0xFDFF) ||| 0x0200
    sw1.testBit 0 = true ∧ sw1.testBit 6 = true ∧ sw1.testBit 9 = true ∧
      ∀ i, i ≠ 0 → i ≠ 6 → i ≠ 9 → sw1.testBit i = sw.testBit i := by
  intro sw1
  refine ⟨?_, ?_, ?_, ?_⟩
  · simp only [sw1, Nat.testBit_or, Nat.testBit_and]
    have h1 : Nat.testBit 0x1 0 = true := by decide
    have h2 : Nat.testBit 0xFDFF 0 = true := by decide
    simp [h1, h2]
  · simp only [sw1, Nat.testBit_or, Nat.testBit_and]
    have h1 : Nat.testBit 0x40 6 = true := by decide
    have h2 : Nat.testBit 0xFDFF 6 = true := by decide
    simp [h1, h2]
  · simp only [sw1, Nat.testBit_or, Nat.testBit_and]
    have h1 : Nat.testBit 0x0200 9 = true := by decide
    simp [h1]
  · intro i h0 h6 h9
    simp only [sw1, Nat.testBit_or, Nat.testBit_and]
    rw [testBit_one i h0, testBit_40 i h6, testBit_200 i h9]
    by_cases hi : i < 16
    · rw [testBit_FDFF i hi h9]; simp
    · rw [testBit_word_high sw i hsw (by omega)]; simp

/-- Bits of the status word after a masked underflow: `sw |= 1; sw |= 0x40; FPU_SET_C1(0)`. -/
theorem sw_underflow_bits (sw : Nat) (hsw : sw < 65536) :
    let sw1 := ((sw ||| 0x1) ||| 0x40) &&& 0xFDFF
    sw1.testBit 0 = true ∧ sw1.testBit 6 = true ∧ sw1.testBit 9 = false ∧
      ∀ i, i ≠ 0 → i ≠ 6 → i ≠ 9 → sw1.testBit i = sw.testBit i := by
  intro sw1
  refine ⟨?_, ?_, ?_, ?_⟩
  · simp only [sw1, Nat.testBit_or, Nat.testBit_and]
    have h1 : Nat.testBit 0x1 0 = true := by decide
    have h2 : Nat.testBit 0xFDFF 0 = true := by decide
    simp [h1, h2]
  · simp only [sw1, Nat.testBit_or, Nat.testBit_and]
    have h1 : Nat.testBit 0x40 6 = true := by decide
    have h2 : Nat.testBit 0xFDFF 6 = true := by decide
    simp [h1, h2]
  · simp only [sw1, Nat.testBit_or, Nat.testBit_and]
    have h1 : Nat.testBit 0xFDFF 9 = false := by decide
    simp [h1]
  · intro i h0 h6 h9
    simp only [sw1, Nat.testBit_or, Nat.testBit_and]
    rw [testBit_one i h0, testBit_40 i h6]
    by_cases hi : i < 16
    · rw [testBit_FDFF i hi h9]; simp
    · rw [testBit_word_high sw i hsw (by omega)]; simp

/-! ## Reset and clear exceptions -/

/-- C1: from every state, `FPU_FINIT` leaves tags 0..7 Empty, the scratch tag 8 Valid,
the control word 0x037F (rounding mode Nearest, exception-mask bits 0..5 all set), the
status word 0 and top 0. -/
theorem FPU_FINIT_state (s : FPU) :
    (∀ i, i < 8 → (FPU_FINIT s).tags i = .TAG_Empty) ∧
    (FPU_FINIT s).tags 8 = .TAG_Valid ∧
    (FPU_FINIT s).cw = 0x037F ∧
    (FPU_FINIT s).round = .ROUND_Nearest ∧
    (FPU_FINIT s).cw &&& 0x3f = 0x3f ∧
    (FPU_FINIT s).sw = 0 ∧
    (FPU_FINIT s).top = 0 := by
  refine ⟨?_, ?_, ?_, ?_, ?_, ?_, ?_⟩
  · intro i hi
    interval_cases i <;> simp [FPU_FINIT, setSlot]
  · simp [FPU_FINIT, setSlot]
  · simp [FPU_FINIT, FPU_SetCW]
  · simp only [FPU_FINIT, FPU_SetCW]; decide
  · simp only [FPU_FINIT, FPU_SetCW]; decide
  · simp [FPU_FINIT]
  · simp [FPU_FINIT, FPU_GET_TOP]

/-- C8: `FPU_FCLEX` leaves bit 15 and bits 0-6 of the status word zero and leaves the
stack-top mirror, bits 11-13, as it was, for every status word. -/
theorem FPU_FCLEX_bits (s : FPU) :
    (FPU_FCLEX s).sw &&& 0x807f = 0 ∧
    (FPU_FCLEX s).sw &&& 0x3800 = s.sw &&& 0x3800 ∧
    FPU_GET_TOP (FPU_FCLEX s) = FPU_GET_TOP s := by
  have h1 : (0x7f00 &&& 0x807f : Nat) = 0 := by decide
  have h2 : (0x7f00 &&& 0x3800 : Nat) = 0x3800 := by decide
  refine ⟨?_, ?_, ?_⟩
  · show (s.sw &&& 0x7f00) &&& 0x807f = 0
    rw [Nat.and_assoc, h1, Nat.and_zero]
  · show (s.sw &&& 0x7f00) &&& 0x3800 = s.sw &&& 0x3800
    rw [Nat.and_assoc, h2]
  · show ((s.sw &&& 0x7f00) &&& 0x3800) >>> 11 = (s.sw &&& 0x3800) >>> 11
    rw [Nat.and_assoc, h2]

/-! ## Push and pop -/

/-- Result of `FPU_PREP_PUSH` when no stack fault is taken. -/
theorem FPU_PREP_PUSH_nofault (chk : StackCheck) (s : FPU)
    (h : chk = .NONE ∨ s.tags ((s.top + 7) % 8) = .TAG_Empty) :
    FPU_PREP_PUSH chk s =
      .ok { s with top := (s.top + 7) % 8
                   tags := setSlot s.tags ((s.top + 7) % 8) .TAG_Valid } := by
  unfold FPU_PREP_PUSH
  simp only [top_dec_eq]
  rcases h with h | h
  · simp [h]
  · simp [h]

/-- Result of `FPU_PREP_PUSH` at the LOG level when the destination is in use and the
invalid-operation exception is masked. -/
theorem FPU_PREP_PUSH_masked (s : FPU) (hm : s.cw % 2 = 1)
    (ht : s.tags ((s.top + 7) % 8) ≠ .TAG_Empty) :
    FPU_PREP_PUSH .LOG s =
      .ok { s with top := (s.top + 7) % 8
                   sw := (((s.sw ||| 0x1) ||| 0x40) &&& 0xFDFF) ||| 0x0200
                   tags := setSlot s.tags ((s.top + 7) % 8) .TAG_Valid } := by
  unfold FPU_PREP_PUSH
  simp only [top_dec_eq]
  simp [ht, Nat.and_one_is_mod, hm, FPU_SET_C1]

/-- C2: when the destination slot `(top-1) mod 8` is Empty (any stack-check level, top
in range), and in every state at the NONE level, `FPU_PREP_PUSH` sets top to
`(top-1) mod 8`, tags the new top Valid and leaves the status word, the control word,
every register and every other tag unchanged; `FPU_PUSH v` does the same and then
stores `v` in the new top register. -/
theorem FPU_PUSH_effect (chk : StackCheck) (s : FPU) (v : Nat)
    (h : chk = .NONE ∨ (s.top < 8 ∧ s.tags ((s.top + 7) % 8) = .TAG_Empty)) :
    ∃ s1 s2, FPU_PREP_PUSH chk s = .ok s1 ∧ FPU_PUSH chk s v = .ok s2 ∧
      s1.top = (s.top + 7) % 8 ∧ s1.tags s1.top = .TAG_Valid ∧
      s1.sw = s.sw ∧ s1.cw = s.cw ∧ s1.cw_mask_all = s.cw_mask_all ∧ s1.round = s.round ∧
      s1.regs = s.regs ∧ (∀ j, j ≠ s1.top → s1.tags j = s.tags j) ∧
      s2 = { s1 with regs := setSlot s1.regs s1.top v } ∧
      s2.regs s2.top = v ∧ (∀ j, j ≠ s2.top → s2.regs j = s.regs j) := by
  have h1 : chk = .NONE ∨ s.tags ((s.top + 7) % 8) = .TAG_Empty := by
    rcases h with h | h
    · exact Or.inl h
    · exact Or.inr h.2
  have hp := FPU_PREP_PUSH_nofault chk s h1
  refine ⟨_, _, hp, ?_, rfl, ?_, rfl, rfl, rfl, rfl, rfl, ?_, rfl, ?_, ?_⟩
  · simp only [FPU_PUSH, hp]
  · simp [setSlot]
  · intro j hj
    simp only [setSlot]
    rw [if_neg hj]
  · simp [setSlot]
  · intro j hj
    simp only [setSlot]
    rw [if_neg hj]

/-- C2 applies to the empty stack at the EXIT level. -/
theorem FPU_PUSH_effect_witness :
    ∃ s1 s2, FPU_PREP_PUSH .EXIT emptyStack = .ok s1 ∧ FPU_PUSH .EXIT emptyStack 5 = .ok s2 ∧
      s1.top = 7 ∧ s1.tags s1.top = .TAG_Valid := by
  obtain ⟨s1, s2, h1, h2, h3, h4, _⟩ :=
    FPU_PUSH_effect .EXIT emptyStack 5 (Or.inr ⟨by decide, by decide⟩)
  exact ⟨s1, s2, h1, h2, h3, h4⟩

/-- C3: at the LOG level (Report), when the invalid-operation exception is masked
(control word bit 0 set) and the destination slot `(top-1) mod 8` is not Empty,
`FPU_PREP_PUSH` sets bits 0 (invalid operation) and 6 (stack fault) of the status word
and C1 (bit 9), changes no other status-word bit, and completes the push: top becomes
`(top-1) mod 8` and that slot is tagged Valid. -/
theorem FPU_PREP_PUSH_overflow_masked (s : FPU) (hsw : s.sw < 65536) (hm : s.cw % 2 = 1)
    (ht : s.tags ((s.top + 7) % 8) ≠ .TAG_Empty) :
    ∃ s1, FPU_PREP_PUSH .LOG s = .ok s1 ∧
      s1.sw.testBit 0 = true ∧ s1.sw.testBit 6 = true ∧ s1.sw.testBit 9 = true ∧
      (∀ i, i ≠ 0 → i ≠ 6 → i ≠ 9 → s1.sw.testBit i = s.sw.testBit i) ∧
      s1.top = (s.top + 7) % 8 ∧ s1.tags s1.top = .TAG_Valid := by
  obtain ⟨b0, b6, b9, bo⟩ := sw_overflow_bits s.sw hsw
  refine ⟨_, FPU_PREP_PUSH_masked s hm ht, b0, b6, b9, bo, rfl, ?_⟩
  simp [setSlot]

/-- C3 applies to a full stack with the default control word. -/
theorem FPU_PREP_PUSH_overflow_masked_witness :
    ∃ s1, FPU_PREP_PUSH .LOG fullStack = .ok s1 ∧
      s1.sw.testBit 0 = true ∧ s1.sw.testBit 6 = true ∧ s1.sw.testBit 9 = true := by
  obtain ⟨s1, h1, h2, h3, h4, _⟩ :=
    FPU_PREP_PUSH_overflow_masked fullStack (by decide) (by decide) (by decide)
  exact ⟨s1, h1, h2, h3, h4⟩

/-- C4: `FPU_PREP_PUSH` ends in `E_Exit` exactly in these cases: at the EXIT level
(Abort) iff the destination slot `(top-1) mod 8` is not Empty, whatever the control
word; at the LOG level (Report) iff that slot is not Empty and control word bit 0 is
clear; at the NONE level (Ignore) never. -/
theorem FPU_PREP_PUSH_fatal_iff (chk : StackCheck) (s : FPU) :
    (∃ e, FPU_PREP_PUSH chk s = .error e) ↔
      match chk with
      | .EXIT => s.tags ((s.top + 7) % 8) ≠ .TAG_Empty
      | .LOG => s.tags ((s.top + 7) % 8) ≠ .TAG_Empty ∧ s.cw % 2 = 0
      | .NONE => False := by
  cases chk
  · simp [FPU_PREP_PUSH_nofault .NONE s (Or.inl rfl)]
  · by_cases ht : s.tags ((s.top + 7) % 8) = .TAG_Empty
    · simp [FPU_PREP_PUSH_nofault .LOG s (Or.inr ht), ht]
    · by_cases hm : s.cw % 2 = 1
      · simp [FPU_PREP_PUSH_masked s hm ht, hm]
      · have hm0 : s.cw % 2 = 0 := by omega
        unfold FPU_PREP_PUSH
        simp only [top_dec_eq]
        simp [ht, Nat.and_one_is_mod, hm0]
  · by_cases ht : s.tags ((s.top + 7) % 8) = .TAG_Empty
    · simp [FPU_PREP_PUSH_nofault .EXIT s (Or.inr ht), ht]
    · unfold FPU_PREP_PUSH
      simp only [top_dec_eq]
      simp [ht]

/-- Result of `FPU_FPOP` when no status flag is written: the NONE level, a top slot
in use, or the LOG level with the invalid-operation exception unmasked. -/
theorem FPU_FPOP_plain (chk : StackCheck) (s : FPU)
    (h : chk = .NONE ∨ s.tags s.top ≠ .TAG_Empty ∨ (chk = .LOG ∧ s.cw % 2 = 0)) :
    FPU_FPOP chk s =
      .ok { s with tags := setSlot s.tags s.top .TAG_Empty
                   top := (s.top + 1) % 8 } := by
  unfold FPU_FPOP
  simp only [top_inc_eq]
  rcases h with h | h | ⟨h, hm⟩
  · simp [h]
  · simp [h]
  · simp [h, Nat.and_one_is_mod, hm]

/-- Result of `FPU_FPOP` at the LOG level on an Empty top slot with the
invalid-operation exception masked. -/
theorem FPU_FPOP_masked (s : FPU) (hm : s.cw % 2 = 1) (ht : s.tags s.top = .TAG_Empty) :
    FPU_FPOP .LOG s =
      .ok { s with sw := ((s.sw ||| 0x1) ||| 0x40) &&& 0xFDFF
                   tags := setSlot s.tags s.top .TAG_Empty
                   top := (s.top + 1) % 8 } := by
  unfold FPU_FPOP
  simp only [top_inc_eq]
  simp [ht, Nat.and_one_is_mod, hm, FPU_SET_C1]

/-- C5: at the NONE and LOG levels (Ignore, Report), for every state (in particular
every state with top in `[0,8)`), whatever the tag of the top slot and the control word, `FPU_FPOP` tags the
old top slot Empty, sets top to `(top+1) mod 8` and leaves every register and every
other tag unchanged. -/
theorem FPU_FPOP_effect (chk : StackCheck) (s : FPU) (hc : chk = .NONE ∨ chk = .LOG) :
    ∃ s1, FPU_FPOP chk s = .ok s1 ∧ s1.tags s.top = .TAG_Empty ∧
      s1.top = (s.top + 1) % 8 ∧ s1.regs = s.regs ∧
      (∀ j, j ≠ s.top → s1.tags j = s.tags j) ∧
      s1.cw = s.cw ∧ s1.cw_mask_all = s.cw_mask_all ∧ s1.round = s.round := by
  have key : ∀ j, j ≠ s.top → setSlot s.tags s.top FPU_Tag.TAG_Empty j = s.tags j := by
    intro j hj
    simp only [setSlot]
    rw [if_neg hj]
  by_cases hp : chk = .NONE ∨ s.tags s.top ≠ .TAG_Empty ∨ (chk = .LOG ∧ s.cw % 2 = 0)
  · exact ⟨_, FPU_FPOP_plain chk s hp, by simp [setSlot], rfl, rfl, key, rfl, rfl, rfl⟩
  · have hlog : chk = .LOG := by
      rcases hc with hc | hc
      · exact absurd (Or.inl hc) hp
      · exact hc
    have ht : s.tags s.top = .TAG_Empty := by
      by_contra hne
      exact hp (Or.inr (Or.inl hne))
    have hm : s.cw % 2 = 1 := by
      by_contra hne
      exact hp (Or.inr (Or.inr ⟨hlog, by omega⟩))
    subst hlog
    exact ⟨_, FPU_FPOP_masked s hm ht, by simp [setSlot], rfl, rfl, key, rfl, rfl, rfl⟩

/-- C5 applies to a pop from the empty stack at the LOG level. -/
theorem FPU_FPOP_effect_witness :
    ∃ s1, FPU_FPOP .LOG emptyStack = .ok s1 ∧ s1.tags emptyStack.top = .TAG_Empty ∧
      s1.top = (emptyStack.top + 1) % 8 := by
  obtain ⟨s1, h1, h2, h3, _⟩ := FPU_FPOP_effect .LOG emptyStack (Or.inr rfl)
  exact ⟨s1, h1, h2, h3⟩

/-- C6: at the LOG level (Report), when the top slot is Empty and the invalid-operation
exception is masked (control word bit 0 set), `FPU_FPOP` sets bits 0 (invalid operation)
and 6 (stack fault) of the status word, clears C1 (bit 9) and changes no other
status-word bit. -/
theorem FPU_FPOP_underflow_masked (s : FPU) (hsw : s.sw < 65536) (hm : s.cw % 2 = 1)
    (ht : s.tags s.top = .TAG_Empty) :
    ∃ s1, FPU_FPOP .LOG s = .ok s1 ∧
      s1.sw.testBit 0 = true ∧ s1.sw.testBit 6 = true ∧ s1.sw.testBit 9 = false ∧
      (∀ i, i ≠ 0 → i ≠ 6 → i ≠ 9 → s1.sw.testBit i = s.sw.testBit i) := by
  obtain ⟨b0, b6, b9, bo⟩ := sw_underflow_bits s.sw hsw
  exact ⟨_, FPU_FPOP_masked s hm ht, b0, b6, b9, bo⟩

/-- C6 applies to a pop from the empty stack with the default control word. -/
theorem FPU_FPOP_underflow_masked_witness :
    ∃ s1, FPU_FPOP .LOG emptyStack = .ok s1 ∧
      s1.sw.testBit 0 = true ∧ s1.sw.testBit 6 = true ∧ s1.sw.testBit 9 = false := by
  obtain ⟨s1, h1, h2, h3, h4, _⟩ :=
    FPU_FPOP_underflow_masked emptyStack (by decide) (by decide) (by decide)
  exact ⟨s1, h1, h2, h3, h4⟩

/-- C7: for a pop from an Empty top slot with the invalid-operation exception unmasked
(control word bit 0 clear), `FPU_FPOP` at the LOG level (Report) leaves the status word
unchanged and completes the pop, and at the EXIT level (Abort) it ends in `E_Exit`;
at the EXIT level `E_Exit` is reached iff the top slot is Empty, whatever the control
word. -/
theorem FPU_FPOP_underflow_unmasked (s : FPU) :
    (s.tags s.top = .TAG_Empty → s.cw % 2 = 0 →
      (∃ s1, FPU_FPOP .LOG s = .ok s1 ∧ s1.sw = s.sw ∧
        s1.tags s.top = .TAG_Empty ∧ s1.top = (s.top + 1) % 8) ∧
      (∃ e, FPU_FPOP .EXIT s = .error e)) ∧
    ((∃ e, FPU_FPOP .EXIT s = .error e) ↔ s.tags s.top = .TAG_Empty) := by
  have hexit : (∃ e, FPU_FPOP .EXIT s = .error e) ↔ s.tags s.top = .TAG_Empty := by
    by_cases ht : s.tags s.top = .TAG_Empty
    · unfold FPU_FPOP
      simp [ht]
    · simp [FPU_FPOP_plain .EXIT s (Or.inr (Or.inl ht)), ht]
  refine ⟨?_, hexit⟩
  intro ht hm
  refine ⟨⟨_, FPU_FPOP_plain .LOG s (Or.inr (Or.inr ⟨rfl, hm⟩)), rfl, ?_, rfl⟩, hexit.mpr ht⟩
  simp [setSlot]

/-- C7 applies to a pop from the empty stack with every exception unmasked. -/
theorem FPU_FPOP_underflow_unmasked_witness :
    (∃ s1, FPU_FPOP .LOG emptyUnmasked = .ok s1 ∧ s1.sw = emptyUnmasked.sw ∧
        s1.tags emptyUnmasked.top = .TAG_Empty ∧ s1.top = (emptyUnmasked.top + 1) % 8) ∧
      (∃ e, FPU_FPOP .EXIT emptyUnmasked = .error e) :=
  (FPU_FPOP_underflow_unmasked emptyUnmasked).1 (by decide) (by decide)

/-! ## Facts on the binary formats -/

namespace Fmt

theorem lg_spec (i : Nat) : ∀ n k : Nat, (k = 0 ∨ 2 ^ k ≤ n) → n < 2 ^ (k + 2 ^ i) →
    (lg i n k = 0 ∨ 2 ^ lg i n k ≤ n) ∧ n < 2 ^ (lg i n k + 1) := by
  induction i with
  | zero =>
    intro n k h1 h2
    simpa [lg] using ⟨h1, h2⟩
  | succ i ih =>
    intro n k h1 h2
    simp only [lg, Nat.one_shiftLeft]
    split
    · next h =>
      apply ih
      · exact Or.inr h
      · have : k + 2 ^ i + 2 ^ i = k + 2 ^ (i + 1) := by rw [pow_succ]; omega
        rw [this]; exact h2
    · next h =>
      apply ih
      · exact h1
      · omega

theorem lg_eq (n k : Nat) (h1 : 2 ^ k ≤ n) (h2 : n < 2 ^ (k + 1)) (hk : k < 8192) :
    lg 13 n 0 = k := by
  have hn : n < 2 ^ (0 + 2 ^ 13) := by
    calc n < 2 ^ (k + 1) := h2
      _ ≤ 2 ^ (0 + 2 ^ 13) := Nat.pow_le_pow_right (by norm_num) (by norm_num; omega)
  obtain ⟨ha, hb⟩ := lg_spec 13 n 0 (Or.inl rfl) hn
  have hpos : 1 ≤ n := le_trans Nat.one_le_two_pow h1
  have ha' : 2 ^ lg 13 n 0 ≤ n := by
    rcases ha with ha | ha
    · rw [ha]; simpa using hpos
    · exact ha
  have h3 : lg 13 n 0 < k + 1 := (Nat.pow_lt_pow_iff_right (by norm_num)).mp (lt_of_le_of_lt ha' h2)
  have h4 : k < lg 13 n 0 + 1 := (Nat.pow_lt_pow_iff_right (by norm_num)).mp (lt_of_le_of_lt h1 hb)
  omega

theorem lg_small (n : Nat) (h : n < 2) : lg 13 n 0 = 0 := by
  have hn : n < 2 ^ (0 + 2 ^ 13) := by
    calc n < 2 ^ 1 := by simpa using h
      _ ≤ 2 ^ (0 + 2 ^ 13) := Nat.pow_le_pow_right (by norm_num) (by norm_num)
  obtain ⟨ha, _⟩ := lg_spec 13 n 0 (Or.inl rfl) hn
  rcases ha with ha | ha
  · exact ha
  · by_contra hne
    have : 2 ^ 1 ≤ 2 ^ lg 13 n 0 := Nat.pow_le_pow_right (by norm_num) (by omega)
    omega

theorem rneDiv_exact (a b : Nat) (hb : 0 < b) (h : a % b = 0) : rneDiv a b = a / b := by
  unfold rneDiv
  rw [h]
  have : ¬ (b < 2 * 0 ∨ 2 * 0 = b ∧ a / b % 2 = 1) := by omega
  rw [if_neg this]


theorem emax_eq (f : Fmt) : f.emax = 2 ^ f.w - 1 := by
  simp [emax, Nat.one_shiftLeft]

theorem scale_eq (f : Fmt) : f.scale = 2 ^ (f.w - 1) + f.p - 2 := by
  simp [scale, Nat.one_shiftLeft]

theorem expField_eq (f : Fmt) (x : Nat) : f.expField x = x / 2 ^ f.p % 2 ^ f.w := by
  simp [expField, Nat.one_shiftLeft, Nat.shiftRight_eq_div_pow]

theorem fracField_eq (f : Fmt) (x : Nat) : f.fracField x = x % 2 ^ f.p := by
  simp [fracField, Nat.one_shiftLeft]

theorem signBit_eq (f : Fmt) (x : Nat) : f.signBit x = x / 2 ^ (f.p + f.w) % 2 := by
  simp [signBit, Nat.shiftRight_eq_div_pow]

theorem mag_eq (f : Fmt) (x : Nat) :
    f.mag x = if f.expField x = 0 then f.fracField x
      else (2 ^ f.p + f.fracField x) * 2 ^ (f.expField x - 1) := by
  simp [mag, Nat.one_shiftLeft, Nat.shiftLeft_eq]

theorem roundMag_eq (f : Fmt) (n d : Nat) :
    f.roundMag n d =
      if f.emax * 2 ^ f.p ≤ lg 13 (n / (d * 2 ^ f.p)) 0 * 2 ^ f.p + rneDiv n (d * 2 ^ lg 13 (n / (d * 2 ^ f.p)) 0)
      then f.emax * 2 ^ f.p
      else lg 13 (n / (d * 2 ^ f.p)) 0 * 2 ^ f.p + rneDiv n (d * 2 ^ lg 13 (n / (d * 2 ^ f.p)) 0) := by
  simp [roundMag, Nat.shiftLeft_eq]

theorem fracField_lt (f : Fmt) (x : Nat) : f.fracField x < 2 ^ f.p := by
  rw [fracField_eq]; exact Nat.mod_lt _ (by positivity)

theorem expField_lt (f : Fmt) (x : Nat) : f.expField x < 2 ^ f.w := by
  rw [expField_eq]; exact Nat.mod_lt _ (by positivity)

/-- A pattern below `2^(p+w)` is its exponent field times `2^p` plus its fraction. -/
theorem pattern_decomp (f : Fmt) (y : Nat) (hy : y < 2 ^ (f.p + f.w)) :
    f.expField y = y / 2 ^ f.p ∧ y = f.expField y * 2 ^ f.p + f.fracField y := by
  have h1 : y / 2 ^ f.p < 2 ^ f.w := by
    rw [Nat.div_lt_iff_lt_mul (by positivity)]
    rw [pow_add] at hy
    rw [Nat.mul_comm]; exact hy
  have h2 : f.expField y = y / 2 ^ f.p := by
    rw [expField_eq, Nat.mod_eq_of_lt h1]
  refine ⟨h2, ?_⟩
  rw [h2, fracField_eq]
  exact (Nat.div_add_mod' y (2 ^ f.p)).symm

theorem fields_of_parts (f : Fmt) (e fr : Nat) (he : e < 2 ^ f.w) (hfr : fr < 2 ^ f.p) :
    f.expField (e * 2 ^ f.p + fr) = e ∧ f.fracField (e * 2 ^ f.p + fr) = fr := by
  have hpos : 0 < 2 ^ f.p := by positivity
  have h1 : (e * 2 ^ f.p + fr) / 2 ^ f.p = e := by
    rw [Nat.mul_comm, Nat.mul_add_div hpos, Nat.div_eq_of_lt hfr]; rfl
  have h2 : (e * 2 ^ f.p + fr) % 2 ^ f.p = fr := by
    rw [Nat.mul_comm, Nat.mul_add_mod, Nat.mod_eq_of_lt hfr]
  rw [expField_eq, fracField_eq, h1, h2, Nat.mod_eq_of_lt he]
  exact ⟨rfl, rfl⟩

theorem mag_of_parts (f : Fmt) (e fr : Nat) (he : e < 2 ^ f.w) (hfr : fr < 2 ^ f.p) :
    f.mag (e * 2 ^ f.p + fr) = if e = 0 then fr else (2 ^ f.p + fr) * 2 ^ (e - 1) := by
  obtain ⟨h1, h2⟩ := fields_of_parts f e fr he hfr
  rw [mag_eq, h1, h2]

/-- Rounding is exact on the magnitude of a finite pattern. -/
theorem roundMag_parts (f : Fmt) (hf : f.Valid) (e fr : Nat) (he : e < f.emax) (hfr : fr < 2 ^ f.p) :
    f.roundMag (if e = 0 then fr else (2 ^ f.p + fr) * 2 ^ (e - 1)) 1 = e * 2 ^ f.p + fr := by
  have hpos : 0 < 2 ^ f.p := by positivity
  have hw : 2 ^ f.w ≤ 2 ^ 12 := Nat.pow_le_pow_right (by norm_num) hf.2.2.1
  have hemax : f.emax < 4096 := by rw [emax_eq]; omega
  rw [roundMag_eq]
  simp only [Nat.one_mul]
  by_cases h0 : e = 0
  · subst h0
    simp only [if_true]
    rw [Nat.div_eq_of_lt hfr, lg_small 0 (by norm_num)]
    simp only [pow_zero, Nat.zero_mul, Nat.zero_add]
    rw [rneDiv_exact fr 1 (by norm_num) (Nat.mod_one _), Nat.div_one]
    have : ¬ f.emax * 2 ^ f.p ≤ fr := by
      have : 1 * 2 ^ f.p ≤ f.emax * 2 ^ f.p := Nat.mul_le_mul_right _ (by omega)
      omega
    rw [if_neg this]
  · simp only [if_neg h0]
    have hq : (2 ^ f.p + fr) * 2 ^ (e - 1) / 2 ^ f.p = 2 ^ (e - 1) + fr * 2 ^ (e - 1) / 2 ^ f.p := by
      rw [Nat.add_mul, Nat.mul_comm (2 ^ f.p), Nat.add_comm, Nat.add_mul_div_right _ _ hpos, Nat.add_comm]
    have hq2 : fr * 2 ^ (e - 1) / 2 ^ f.p < 2 ^ (e - 1) := by
      rw [Nat.div_lt_iff_lt_mul hpos]
      rw [Nat.mul_comm]
      exact Nat.mul_lt_mul_of_pos_left hfr (by positivity)
    have hk : lg 13 ((2 ^ f.p + fr) * 2 ^ (e - 1) / 2 ^ f.p) 0 = e - 1 := by
      rw [hq]
      generalize fr * 2 ^ (e - 1) / 2 ^ f.p = j at hq2
      apply lg_eq
      · exact Nat.le_add_right _ _
      · rw [pow_succ]; omega
      · omega
    rw [hk, rneDiv_exact _ _ (by positivity) (Nat.mul_mod_left _ _),
      Nat.mul_div_cancel _ (by positivity)]
    have hr : (e - 1) * 2 ^ f.p + (2 ^ f.p + fr) = e * 2 ^ f.p + fr := by
      have : e = (e - 1) + 1 := by omega
      nth_rewrite 2 [this]
      rw [Nat.add_mul]; omega
    rw [hr]
    have : ¬ f.emax * 2 ^ f.p ≤ e * 2 ^ f.p + fr := by
      have : (e + 1) * 2 ^ f.p ≤ f.emax * 2 ^ f.p := Nat.mul_le_mul_right _ (by omega)
      rw [Nat.add_mul] at this
      omega
    rw [if_neg this]


/-- Every `m * 2^j` with `m` below `2^(p+1)` is the magnitude of a pattern with exponent
field at most `j + 1`. -/
theorem exists_parts (f : Fmt) (j : Nat) : ∀ m : Nat, m < 2 ^ (f.p + 1) →
    ∃ e fr, e ≤ j + 1 ∧ fr < 2 ^ f.p ∧
      (if e = 0 then fr else (2 ^ f.p + fr) * 2 ^ (e - 1)) = m * 2 ^ j := by
  induction j with
  | zero =>
    intro m hm
    rw [pow_succ] at hm
    by_cases h : m < 2 ^ f.p
    · exact ⟨0, m, by omega, h, by simp⟩
    · refine ⟨1, m - 2 ^ f.p, by omega, by omega, ?_⟩
      simp only [one_ne_zero, if_false, Nat.sub_self, pow_zero, Nat.mul_one]
      omega
  | succ j ih =>
    intro m hm
    rw [pow_succ] at hm
    by_cases h : m < 2 ^ f.p
    · obtain ⟨e, fr, he, hfr, heq⟩ := ih (2 * m) (by rw [pow_succ]; omega)
      refine ⟨e, fr, by omega, hfr, ?_⟩
      rw [heq, pow_succ]; ring
    · refine ⟨j + 2, m - 2 ^ f.p, by omega, by omega, ?_⟩
      have h1 : j + 2 ≠ 0 := by omega
      simp only [if_neg h1]
      have h2 : 2 ^ f.p + (m - 2 ^ f.p) = m := by omega
      rw [h2]
      rfl

/-- Rounding is exact on `m * 2^j` units when `m` fits the significand. -/
theorem roundMag_repr (f : Fmt) (hf : f.Valid) (m j : Nat) (hm : m < 2 ^ (f.p + 1))
    (hj : j + 1 < f.emax) :
    f.roundMag (m * 2 ^ j) 1 < f.emax * 2 ^ f.p ∧ f.mag (f.roundMag (m * 2 ^ j) 1) = m * 2 ^ j := by
  obtain ⟨e, fr, he, hfr, heq⟩ := exists_parts f j m hm
  have he' : e < f.emax := by omega
  have hr := roundMag_parts f hf e fr he' hfr
  rw [heq] at hr
  have hew : e < 2 ^ f.w := by
    have := emax_eq f
    omega
  rw [hr, mag_of_parts f e fr hew hfr]
  refine ⟨?_, heq⟩
  have : (e + 1) * 2 ^ f.p ≤ f.emax * 2 ^ f.p := Nat.mul_le_mul_right _ (by omega)
  rw [Nat.add_mul] at this
  omega

theorem withSign_eq (f : Fmt) (s y : Nat) : f.withSign s y = s * 2 ^ (f.p + f.w) + y := by
  simp [withSign, Nat.shiftLeft_eq]

theorem withSign_fields (f : Fmt) (s y : Nat) (hs : s ≤ 1) (hy : y < 2 ^ (f.p + f.w)) :
    f.signBit (f.withSign s y) = s ∧ f.expField (f.withSign s y) = f.expField y ∧
      f.fracField (f.withSign s y) = f.fracField y := by
  have hpos : 0 < 2 ^ f.p := by positivity
  have hposw : 0 < 2 ^ f.w := by positivity
  rw [withSign_eq, signBit_eq, expField_eq, fracField_eq, expField_eq, fracField_eq]
  refine ⟨?_, ?_, ?_⟩
  · rw [Nat.add_comm, Nat.add_mul_div_right _ _ (by positivity), Nat.div_eq_of_lt hy]
    omega
  · have h1 : s * 2 ^ (f.p + f.w) = (s * 2 ^ f.w) * 2 ^ f.p := by rw [pow_add]; ring
    rw [h1, Nat.add_comm, Nat.add_mul_div_right _ _ hpos, Nat.add_mul_mod_self_right]
  · have h1 : s * 2 ^ (f.p + f.w) = (s * 2 ^ f.w) * 2 ^ f.p := by rw [pow_add]; ring
    rw [h1, Nat.add_comm, Nat.add_mul_mod_self_right]

theorem withSign_mag (f : Fmt) (s y : Nat) (hs : s ≤ 1) (hy : y < 2 ^ (f.p + f.w)) :
    f.mag (f.withSign s y) = f.mag y := by
  obtain ⟨_, h2, h3⟩ := withSign_fields f s y hs hy
  rw [mag_eq, mag_eq, h2, h3]

theorem withSign_sval (f : Fmt) (s y : Nat) (hs : s ≤ 1) (hy : y < 2 ^ (f.p + f.w)) :
    f.sval (f.withSign s y) = if s = 1 then -(f.mag y : Int) else (f.mag y : Int) := by
  obtain ⟨h1, _, _⟩ := withSign_fields f s y hs hy
  rw [sval, h1, withSign_mag f s y hs hy]

theorem withSign_isFinite (f : Fmt) (s y : Nat) (hs : s ≤ 1) (hy : y < 2 ^ (f.p + f.w)) :
    f.isFinite (f.withSign s y) ↔ f.isFinite y := by
  obtain ⟨_, h2, _⟩ := withSign_fields f s y hs hy
  rw [isFinite, isFinite, h2]

theorem withSign_isNaN (f : Fmt) (s y : Nat) (hs : s ≤ 1) (hy : y < 2 ^ (f.p + f.w)) :
    f.isNaN (f.withSign s y) ↔ f.isNaN y := by
  obtain ⟨_, h2, h3⟩ := withSign_fields f s y hs hy
  rw [isNaN, isNaN, h2, h3]

theorem emax_mul_lt (f : Fmt) : f.emax * 2 ^ f.p < 2 ^ (f.p + f.w) := by
  have hposw : 0 < 2 ^ f.w := by positivity
  rw [emax_eq, pow_add, Nat.mul_comm (2 ^ f.p)]
  exact Nat.mul_lt_mul_of_pos_right (by omega) (by positivity)

/-- A pattern below `emax * 2^p` is finite and is no NaN. -/
theorem finite_of_lt (f : Fmt) (y : Nat) (hy : y < f.emax * 2 ^ f.p) :
    f.isFinite y ∧ ¬ f.isNaN y := by
  have hy2 : y < 2 ^ (f.p + f.w) := lt_trans hy (emax_mul_lt f)
  obtain ⟨h1, _⟩ := pattern_decomp f y hy2
  have h3 : y / 2 ^ f.p < f.emax := by
    rw [Nat.div_lt_iff_lt_mul (by positivity)]; exact hy
  have h4 : f.expField y ≠ f.emax := by omega
  exact ⟨h4, fun h => h4 h.1⟩


theorem expField_lt_emax (f : Fmt) (x : Nat) (hx : f.isFinite x) : f.expField x < f.emax := by
  have h1 := expField_lt f x
  have h2 := emax_eq f
  have h3 : f.expField x ≠ f.emax := hx
  omega

theorem scale_facts (f : Fmt) (hf : f.Valid) :
    f.p + 2 ≤ f.scale ∧ f.scale + 3 ≤ f.emax ∧ f.scale < 4096 := by
  obtain ⟨hp, hw3, hw12, hpw⟩ := hf
  have h1 : 2 ^ f.w = 2 * 2 ^ (f.w - 1) := by
    rw [← pow_succ']; congr 1; omega
  have h2 : 2 ^ 2 ≤ 2 ^ (f.w - 1) := Nat.pow_le_pow_right (by norm_num) (by omega)
  have h3 : 2 ^ f.w ≤ 2 ^ 12 := Nat.pow_le_pow_right (by norm_num) hw12
  rw [scale_eq, emax_eq]
  norm_num at h2 h3
  omega

/-- The magnitude of a finite pattern below `2^(p + scale)` units, or a multiple of
`2^scale` units (an integer). -/
theorem mag_small_or_int (f : Fmt) (x : Nat) :
    f.mag x < 2 ^ f.p * 2 ^ f.scale ∨ 2 ^ f.scale ∣ f.mag x := by
  rw [mag_eq]
  have hfr := fracField_lt f x
  by_cases h0 : f.expField x = 0
  · left
    rw [if_pos h0]
    calc f.fracField x < 2 ^ f.p := hfr
      _ ≤ 2 ^ f.p * 2 ^ f.scale := Nat.le_mul_of_pos_right _ (by positivity)
  · rw [if_neg h0]
    by_cases h1 : f.scale ≤ f.expField x - 1
    · right
      exact Dvd.dvd.mul_left (pow_dvd_pow 2 h1) _
    · left
      have h2 : f.expField x - 1 + 1 ≤ f.scale := by omega
      calc (2 ^ f.p + f.fracField x) * 2 ^ (f.expField x - 1)
          < (2 ^ f.p * 2) * 2 ^ (f.expField x - 1) :=
            Nat.mul_lt_mul_of_pos_right (by omega) (by positivity)
        _ = 2 ^ f.p * 2 ^ (f.expField x - 1 + 1) := by rw [pow_succ]; ring
        _ ≤ 2 ^ f.p * 2 ^ f.scale :=
            Nat.mul_le_mul_left _ (Nat.pow_le_pow_right (by norm_num) h2)

/-- Rounding is exact on the magnitude of a finite pattern. -/
theorem roundMag_mag (f : Fmt) (hf : f.Valid) (x : Nat) (hx : f.isFinite x) :
    f.roundMag (f.mag x) 1 = f.expField x * 2 ^ f.p + f.fracField x := by
  rw [mag_eq]
  exact roundMag_parts f hf _ _ (expField_lt_emax f x hx) (fracField_lt f x)

theorem mag_parts_self (f : Fmt) (x : Nat) :
    f.mag (f.expField x * 2 ^ f.p + f.fracField x) = f.mag x := by
  rw [mag_of_parts f _ _ (expField_lt f x) (fracField_lt f x), mag_eq]

/-- The integer part: if `n` is the floor of `u / 2^scale`, where `u` is the value of a
finite pattern up to sign, then `|n| * 2^scale` units is held exactly by the format. -/
theorem int_repr (f : Fmt) (hf : f.Valid) (x : Nat) (hx : f.isFinite x) (u n : Int)
    (hu : u.natAbs = f.mag x) (hn1 : n * (2 ^ f.scale : Nat) ≤ u)
    (hn2 : u < n * (2 ^ f.scale : Nat) + (2 ^ f.scale : Nat)) :
    f.roundMag (n.natAbs * 2 ^ f.scale) 1 < f.emax * 2 ^ f.p ∧
      f.mag (f.roundMag (n.natAbs * 2 ^ f.scale) 1) = n.natAbs * 2 ^ f.scale ∧
      (n.natAbs ≤ 2 ^ f.p ∨ u = n * (2 ^ f.scale : Nat)) := by
  obtain ⟨hs1, hs2, _⟩ := scale_facts f hf
  have hT : (0 : Int) < ((2 ^ f.scale : Nat) : Int) := by positivity
  rcases mag_small_or_int f x with h | h
  · have hu1 : u < ((2 ^ f.p : Nat) : Int) * ((2 ^ f.scale : Nat) : Int) := by
      have : (u.natAbs : Int) < ((2 ^ f.p * 2 ^ f.scale : Nat) : Int) := by
        rw [hu]; exact_mod_cast h
      rw [Nat.cast_mul] at this
      omega
    have hu2 : -(((2 ^ f.p : Nat) : Int) * ((2 ^ f.scale : Nat) : Int)) < u := by
      have : (u.natAbs : Int) < ((2 ^ f.p * 2 ^ f.scale : Nat) : Int) := by
        rw [hu]; exact_mod_cast h
      rw [Nat.cast_mul] at this
      omega
    have hnlt : n < ((2 ^ f.p : Nat) : Int) := by
      have : n * ((2 ^ f.scale : Nat) : Int) < ((2 ^ f.p : Nat) : Int) * ((2 ^ f.scale : Nat) : Int) :=
        lt_of_le_of_lt hn1 hu1
      exact lt_of_mul_lt_mul_right this (le_of_lt hT)
    have hnge : -((2 ^ f.p : Nat) : Int) < n + 1 := by
      have : (-((2 ^ f.p : Nat) : Int)) * ((2 ^ f.scale : Nat) : Int) <
          (n + 1) * ((2 ^ f.scale : Nat) : Int) := by
        rw [add_mul, one_mul, neg_mul]
        exact lt_trans hu2 hn2
      exact lt_of_mul_lt_mul_right this (le_of_lt hT)
    have habs : n.natAbs ≤ 2 ^ f.p := by omega
    have hm : n.natAbs < 2 ^ (f.p + 1) := by rw [pow_succ]; omega
    obtain ⟨h1, h2⟩ := roundMag_repr f hf n.natAbs f.scale hm (by omega)
    exact ⟨h1, h2, Or.inl habs⟩
  · have hdvd : ((2 ^ f.scale : Nat) : Int) ∣ u := by
      have : ((2 ^ f.scale : Nat) : Int) ∣ (u.natAbs : Int) := by
        rw [hu]; exact_mod_cast h
      exact (Int.dvd_natAbs).mp this
    obtain ⟨c, hc⟩ := hdvd
    have hcn : c = n := by
      rw [hc] at hn1 hn2
      have h1 : n ≤ c := by
        have : n * ((2 ^ f.scale : Nat) : Int) ≤ c * ((2 ^ f.scale : Nat) : Int) := by
          rw [mul_comm c]; exact hn1
        exact le_of_mul_le_mul_right this hT
      have h2 : c < n + 1 := by
        have : c * ((2 ^ f.scale : Nat) : Int) < (n + 1) * ((2 ^ f.scale : Nat) : Int) := by
          rw [add_mul, one_mul, mul_comm c]; exact hn2
        exact lt_of_mul_lt_mul_right this (le_of_lt hT)
      omega
    have hun : u = n * ((2 ^ f.scale : Nat) : Int) := by rw [hc, hcn, mul_comm]
    have hA : n.natAbs * 2 ^ f.scale = f.mag x := by
      rw [← hu, hun, Int.natAbs_mul, Int.natAbs_ofNat]
    rw [hA, roundMag_mag f hf x hx, mag_parts_self]
    refine ⟨?_, rfl, Or.inr hun⟩
    have he := expField_lt_emax f x hx
    have hfr := fracField_lt f x
    have : (f.expField x + 1) * 2 ^ f.p ≤ f.emax * 2 ^ f.p := Nat.mul_le_mul_right _ (by omega)
    rw [Nat.add_mul] at this
    omega


theorem signBit_le (f : Fmt) (x : Nat) : f.signBit x ≤ 1 := by
  rw [signBit_eq]; omega

theorem sval_natAbs (f : Fmt) (x : Nat) : (f.sval x).natAbs = f.mag x := by
  unfold sval
  split <;> simp

theorem sval_sign (f : Fmt) (x : Nat) :
    (f.signBit x = 1 → f.sval x = -(f.mag x : Int)) ∧ (f.signBit x = 0 → f.sval x = (f.mag x : Int)) := by
  unfold sval
  constructor
  · intro h; rw [if_pos h]
  · intro h; rw [if_neg (by omega)]

theorem floor_eq (f : Fmt) (x : Nat) (hx : f.isFinite x) :
    f.floor x = f.withSign (f.signBit x)
      (f.roundMag ((f.sval x / ((2 ^ f.scale : Nat) : Int)).natAbs * 2 ^ f.scale) 1) := by
  simp [floor, hx, Nat.shiftLeft_eq]

theorem ceil_eq (f : Fmt) (x : Nat) (hx : f.isFinite x) :
    f.ceil x = f.withSign (f.signBit x)
      (f.roundMag ((-(f.sval x) / ((2 ^ f.scale : Nat) : Int)).natAbs * 2 ^ f.scale) 1) := by
  simp [ceil, hx, Nat.shiftLeft_eq]

/-- The pattern with sign `s` and magnitude `|n| * 2^scale` units, for `n` the integer
part of a finite value. -/
theorem intPattern (f : Fmt) (hf : f.Valid) (x : Nat) (hx : f.isFinite x) (u n : Int)
    (hu : u.natAbs = f.mag x) (hn1 : n * (2 ^ f.scale : Nat) ≤ u)
    (hn2 : u < n * (2 ^ f.scale : Nat) + (2 ^ f.scale : Nat)) (s : Nat) (hs : s ≤ 1) :
    f.isFinite (f.withSign s (f.roundMag (n.natAbs * 2 ^ f.scale) 1)) ∧
    ¬ f.isNaN (f.withSign s (f.roundMag (n.natAbs * 2 ^ f.scale) 1)) ∧
    f.signBit (f.withSign s (f.roundMag (n.natAbs * 2 ^ f.scale) 1)) = s ∧
    f.mag (f.withSign s (f.roundMag (n.natAbs * 2 ^ f.scale) 1)) = n.natAbs * 2 ^ f.scale ∧
    f.withSign s (f.roundMag (n.natAbs * 2 ^ f.scale) 1) < 2 ^ (f.p + f.w + 1) := by
  obtain ⟨h1, h2, _⟩ := int_repr f hf x hx u n hu hn1 hn2
  have h3 := emax_mul_lt f
  have hy : f.roundMag (n.natAbs * 2 ^ f.scale) 1 < 2 ^ (f.p + f.w) := lt_trans h1 h3
  obtain ⟨hfin, hnan⟩ := finite_of_lt f _ h1
  refine ⟨(withSign_isFinite f s _ hs hy).mpr hfin, fun h => hnan ((withSign_isNaN f s _ hs hy).mp h),
    (withSign_fields f s _ hs hy).1, ?_, ?_⟩
  · rw [withSign_mag f s _ hs hy, h2]
  · rw [withSign_eq, pow_succ]
    have : s * 2 ^ (f.p + f.w) ≤ 1 * 2 ^ (f.p + f.w) := Nat.mul_le_mul_right _ hs
    omega

/-- The library `floor` on a finite pattern: the result is finite and its value is the
integer `⌊sval x / 2^scale⌋`. -/
theorem floor_spec (f : Fmt) (hf : f.Valid) (x : Nat) (hx : f.isFinite x) :
    f.isFinite (f.floor x) ∧ ¬ f.isNaN (f.floor x) ∧ f.signBit (f.floor x) = f.signBit x ∧
    f.mag (f.floor x) = (f.sval x / ((2 ^ f.scale : Nat) : Int)).natAbs * 2 ^ f.scale ∧
    f.floor x < 2 ^ (f.p + f.w + 1) ∧
    f.sval (f.floor x) = f.sval x / ((2 ^ f.scale : Nat) : Int) * ((2 ^ f.scale : Nat) : Int) := by
  have hT : (0 : Int) < ((2 ^ f.scale : Nat) : Int) := by positivity
  have hn1 : f.sval x / ((2 ^ f.scale : Nat) : Int) * ((2 ^ f.scale : Nat) : Int) ≤ f.sval x :=
    Int.ediv_mul_le _ (ne_of_gt hT)
  have hn2 : f.sval x < f.sval x / ((2 ^ f.scale : Nat) : Int) * ((2 ^ f.scale : Nat) : Int)
      + ((2 ^ f.scale : Nat) : Int) := by
    have := Int.lt_ediv_add_one_mul_self (f.sval x) hT
    rw [add_mul, one_mul] at this
    exact this
  obtain ⟨a1, a2, a3, a4, a5⟩ := intPattern f hf x hx (f.sval x) _ (sval_natAbs f x) hn1 hn2
    (f.signBit x) (signBit_le f x)
  rw [← floor_eq f x hx] at a1 a2 a3 a4 a5
  refine ⟨a1, a2, a3, a4, a5, ?_⟩
  generalize f.sval x / ((2 ^ f.scale : Nat) : Int) = n at *
  have hsv := sval_sign f (f.floor x)
  have hsx := sval_sign f x
  have hm : ((f.mag (f.floor x) : Nat) : Int) = (n.natAbs : Int) * ((2 ^ f.scale : Nat) : Int) := by
    rw [a4]; push_cast; rfl
  rcases Nat.lt_or_ge (f.signBit x) 1 with hs | hs
  · have hs0 : f.signBit x = 0 := by omega
    have hv : 0 ≤ f.sval x := by rw [hsx.2 hs0]; positivity
    have hn : 0 ≤ n := by
      by_contra hneg
      have : n + 1 ≤ 0 := by omega
      have : (n + 1) * ((2 ^ f.scale : Nat) : Int) ≤ 0 := mul_nonpos_of_nonpos_of_nonneg this (le_of_lt hT)
      rw [add_mul, one_mul] at this
      omega
    rw [hsv.2 (by omega), hm]
    congr 1
    omega
  · have hs1 : f.signBit x = 1 := by have := signBit_le f x; omega
    have hv : f.sval x ≤ 0 := by
      rw [hsx.1 hs1]
      have : (0 : Int) ≤ (f.mag x : Int) := by positivity
      omega
    have hn : n ≤ 0 := by
      by_contra hpos
      have h1 : 1 ≤ n := by omega
      have : 1 * ((2 ^ f.scale : Nat) : Int) ≤ n * ((2 ^ f.scale : Nat) : Int) :=
        mul_le_mul_of_nonneg_right h1 (le_of_lt hT)
      omega
    rw [hsv.1 (by omega), hm, ← neg_mul]
    congr 1
    omega

/-- The library `ceil` on a finite pattern: the result is finite and its value is the
integer `⌈sval x / 2^scale⌉`, written `-⌊-sval x / 2^scale⌋`. -/
theorem ceil_spec (f : Fmt) (hf : f.Valid) (x : Nat) (hx : f.isFinite x) :
    f.isFinite (f.ceil x) ∧ ¬ f.isNaN (f.ceil x) ∧ f.signBit (f.ceil x) = f.signBit x ∧
    f.ceil x < 2 ^ (f.p + f.w + 1) ∧
    f.sval (f.ceil x) = -(-(f.sval x) / ((2 ^ f.scale : Nat) : Int)) * ((2 ^ f.scale : Nat) : Int) := by
  have hT : (0 : Int) < ((2 ^ f.scale : Nat) : Int) := by positivity
  have hn1 : -(f.sval x) / ((2 ^ f.scale : Nat) : Int) * ((2 ^ f.scale : Nat) : Int) ≤ -(f.sval x) :=
    Int.ediv_mul_le _ (ne_of_gt hT)
  have hn2 : -(f.sval x) < -(f.sval x) / ((2 ^ f.scale : Nat) : Int) * ((2 ^ f.scale : Nat) : Int)
      + ((2 ^ f.scale : Nat) : Int) := by
    have := Int.lt_ediv_add_one_mul_self (-(f.sval x)) hT
    rw [add_mul, one_mul] at this
    exact this
  have hu : (-(f.sval x)).natAbs = f.mag x := by rw [Int.natAbs_neg]; exact sval_natAbs f x
  obtain ⟨a1, a2, a3, a4, a5⟩ := intPattern f hf x hx (-(f.sval x)) _ hu hn1 hn2
    (f.signBit x) (signBit_le f x)
  rw [← ceil_eq f x hx] at a1 a2 a3 a4 a5
  refine ⟨a1, a2, a3, a5, ?_⟩
  generalize -(f.sval x) / ((2 ^ f.scale : Nat) : Int) = n at *
  have hsv := sval_sign f (f.ceil x)
  have hsx := sval_sign f x
  have hm : ((f.mag (f.ceil x) : Nat) : Int) = (n.natAbs : Int) * ((2 ^ f.scale : Nat) : Int) := by
    rw [a4]; push_cast; rfl
  rcases Nat.lt_or_ge (f.signBit x) 1 with hs | hs
  · have hs0 : f.signBit x = 0 := by omega
    have hv : 0 ≤ f.sval x := by rw [hsx.2 hs0]; positivity
    have hn : n ≤ 0 := by
      by_contra hpos
      have h1 : 1 ≤ n := by omega
      have : 1 * ((2 ^ f.scale : Nat) : Int) ≤ n * ((2 ^ f.scale : Nat) : Int) :=
        mul_le_mul_of_nonneg_right h1 (le_of_lt hT)
      omega
    rw [hsv.2 (by omega), hm]
    congr 1
    omega
  · have hs1 : f.signBit x = 1 := by have := signBit_le f x; omega
    have hv : f.sval x ≤ 0 := by
      rw [hsx.1 hs1]
      have : (0 : Int) ≤ (f.mag x : Int) := by positivity
      omega
    have hn : 0 ≤ n := by
      by_contra hneg
      have : n + 1 ≤ 0 := by omega
      have : (n + 1) * ((2 ^ f.scale : Nat) : Int) ≤ 0 := mul_nonpos_of_nonpos_of_nonneg this (le_of_lt hT)
      rw [add_mul, one_mul] at this
      omega
    rw [hsv.1 (by omega), hm, ← neg_mul]
    congr 1
    omega


theorem not_nan_of_finite (f : Fmt) (x : Nat) (hx : f.isFinite x) : ¬ f.isNaN x :=
  fun h => hx h.1

theorem sub_finite (f : Fmt) (a b : Nat) (ha : f.isFinite a) (hb : f.isFinite b) :
    f.sub a b = f.ofSigned (if f.signBit a = 1 ∧ f.signBit b = 0 then 1 else 0) (f.sval a - f.sval b) := by
  unfold sub
  rw [if_neg (not_nan_of_finite f a ha), if_neg (not_nan_of_finite f b hb),
    if_neg (not_not.mpr ha), if_neg (not_not.mpr hb)]

theorem add_finite (f : Fmt) (a b : Nat) (ha : f.isFinite a) (hb : f.isFinite b) :
    f.add a b = f.ofSigned (if f.signBit a = 1 ∧ f.signBit b = 1 then 1 else 0) (f.sval a + f.sval b) := by
  unfold add
  rw [if_neg (not_nan_of_finite f a ha), if_neg (not_nan_of_finite f b hb),
    if_neg (not_not.mpr ha), if_neg (not_not.mpr hb)]

theorem zero_lt_emax_mul (f : Fmt) (hf : f.Valid) : 0 < f.emax * 2 ^ f.p := by
  obtain ⟨_, h2, _⟩ := scale_facts f hf
  have : 0 < f.emax := by omega
  positivity

theorem mag_zero (f : Fmt) : f.mag 0 = 0 := by
  rw [mag_eq, expField_eq, fracField_eq]; simp

/-- The rounded pattern of `w` units when the rounding of `|w|` is a finite pattern. -/
theorem ofSigned_spec (f : Fmt) (hf : f.Valid) (z : Nat) (hz : z ≤ 1) (w : Int)
    (hr : w ≠ 0 → f.roundMag w.natAbs 1 < f.emax * 2 ^ f.p) :
    f.isFinite (f.ofSigned z w) ∧ ¬ f.isNaN (f.ofSigned z w) ∧
    f.ofSigned z w < 2 ^ (f.p + f.w + 1) ∧
    (w = 0 → f.sval (f.ofSigned z w) = 0) ∧
    (0 < w → f.sval (f.ofSigned z w) = (f.mag (f.roundMag w.natAbs 1) : Int)) ∧
    (w < 0 → f.sval (f.ofSigned z w) = -(f.mag (f.roundMag w.natAbs 1) : Int)) := by
  have h3 := emax_mul_lt f
  have hlt : ∀ s y, s ≤ 1 → y < 2 ^ (f.p + f.w) → f.withSign s y < 2 ^ (f.p + f.w + 1) := by
    intro s y hs hy
    rw [withSign_eq, pow_succ]
    have : s * 2 ^ (f.p + f.w) ≤ 1 * 2 ^ (f.p + f.w) := Nat.mul_le_mul_right _ hs
    omega
  by_cases h0 : w = 0
  · have h0lt : 0 < f.emax * 2 ^ f.p := zero_lt_emax_mul f hf
    have hy : 0 < 2 ^ (f.p + f.w) := by positivity
    obtain ⟨hfin, hnan⟩ := finite_of_lt f 0 h0lt
    have hsv : f.sval (f.withSign z 0) = 0 := by
      rw [withSign_sval f z 0 hz hy, mag_zero]; simp
    simp only [ofSigned, if_pos h0]
    refine ⟨(withSign_isFinite f z 0 hz hy).mpr hfin,
      fun h => hnan ((withSign_isNaN f z 0 hz hy).mp h), hlt z 0 hz hy, fun _ => hsv, ?_, ?_⟩
    · intro h; omega
    · intro h; omega
  · have h1 := hr h0
    have hy : f.roundMag w.natAbs 1 < 2 ^ (f.p + f.w) := lt_trans h1 h3
    obtain ⟨hfin, hnan⟩ := finite_of_lt f _ h1
    have hs : (if w < 0 then 1 else 0) ≤ 1 := by split <;> omega
    simp only [ofSigned, if_neg h0]
    refine ⟨(withSign_isFinite f _ _ hs hy).mpr hfin,
      fun h => hnan ((withSign_isNaN f _ _ hs hy).mp h), hlt _ _ hs hy, fun h => absurd h h0, ?_, ?_⟩
    · intro hpos
      rw [withSign_sval f _ _ hs hy, if_neg (by omega : ¬ w < 0)]
      simp
    · intro hneg
      rw [withSign_sval f _ _ hs hy, if_pos hneg]
      simp

/-- The rounded pattern of `w` units is exact when `|w| = m * 2^j` with `m` fitting the
significand. -/
theorem ofSigned_exact (f : Fmt) (hf : f.Valid) (z : Nat) (hz : z ≤ 1) (w : Int) (m j : Nat)
    (hw : w.natAbs = m * 2 ^ j) (hm : m < 2 ^ (f.p + 1)) (hj : j + 1 < f.emax) :
    f.isFinite (f.ofSigned z w) ∧ ¬ f.isNaN (f.ofSigned z w) ∧
    f.ofSigned z w < 2 ^ (f.p + f.w + 1) ∧ f.sval (f.ofSigned z w) = w := by
  obtain ⟨h1, h2⟩ := roundMag_repr f hf m j hm hj
  rw [← hw] at h1 h2
  obtain ⟨a1, a2, a3, a4, a5, a6⟩ := ofSigned_spec f hf z hz w (fun _ => h1)
  refine ⟨a1, a2, a3, ?_⟩
  rcases lt_trichotomy w 0 with h | h | h
  · rw [a6 h, h2]; omega
  · rw [a4 h, h]
  · rw [a5 h, h2]; omega

theorem half_spec (f : Fmt) (hf : f.Valid) :
    ¬ f.isNaN f.half ∧ f.sval f.half = ((2 ^ (f.scale - 1) : Nat) : Int) := by
  obtain ⟨hs1, hs2, _⟩ := scale_facts f hf
  obtain ⟨hp, hw3, hw12, hpw⟩ := hf
  have hsc := scale_eq f
  have he : 2 ^ (f.w - 1) - 2 < f.emax := by omega
  have hew : 2 ^ (f.w - 1) - 2 < 2 ^ f.w := by have := emax_eq f; omega
  have hhalf : f.half = (2 ^ (f.w - 1) - 2) * 2 ^ f.p + 0 := by
    simp [half, Nat.shiftLeft_eq]
  have hlt : f.half < f.emax * 2 ^ f.p := by
    rw [hhalf, Nat.add_zero]
    exact Nat.mul_lt_mul_of_pos_right he (by positivity)
  obtain ⟨hfin, hnan⟩ := finite_of_lt f _ hlt
  refine ⟨hnan, ?_⟩
  have hsb : f.signBit f.half = 0 := by
    rw [signBit_eq, Nat.div_eq_of_lt (lt_trans hlt (emax_mul_lt f))]
  rw [(sval_sign f f.half).2 hsb, hhalf, mag_of_parts f _ 0 hew (by positivity)]
  have hne : 2 ^ (f.w - 1) - 2 ≠ 0 := by
    have : 2 ^ 2 ≤ 2 ^ (f.w - 1) := Nat.pow_le_pow_right (by norm_num) (by omega)
    norm_num at this
    omega
  rw [if_neg hne, Nat.add_zero, ← pow_add]
  congr 2
  omega

theorem one_spec (f : Fmt) (hf : f.Valid) :
    f.isFinite f.one ∧ f.signBit f.one = 0 ∧ f.sval f.one = ((2 ^ f.scale : Nat) : Int) := by
  obtain ⟨hs1, hs2, _⟩ := scale_facts f hf
  obtain ⟨hp, hw3, hw12, hpw⟩ := hf
  have hsc := scale_eq f
  have he : 2 ^ (f.w - 1) - 1 < f.emax := by omega
  have hew : 2 ^ (f.w - 1) - 1 < 2 ^ f.w := by have := emax_eq f; omega
  have hone : f.one = (2 ^ (f.w - 1) - 1) * 2 ^ f.p + 0 := by
    simp [one, Nat.shiftLeft_eq]
  have hlt : f.one < f.emax * 2 ^ f.p := by
    rw [hone, Nat.add_zero]
    exact Nat.mul_lt_mul_of_pos_right he (by positivity)
  obtain ⟨hfin, hnan⟩ := finite_of_lt f _ hlt
  have hsb : f.signBit f.one = 0 := by
    rw [signBit_eq, Nat.div_eq_of_lt (lt_trans hlt (emax_mul_lt f))]
  refine ⟨hfin, hsb, ?_⟩
  rw [(sval_sign f f.one).2 hsb, hone, mag_of_parts f _ 0 hew (by positivity)]
  have hne : 2 ^ (f.w - 1) - 1 ≠ 0 := by
    have : 2 ^ 2 ≤ 2 ^ (f.w - 1) := Nat.pow_le_pow_right (by norm_num) (by omega)
    norm_num at this
    omega
  rw [if_neg hne, Nat.add_zero, ← pow_add]
  congr 2
  omega


/-- The magnitude of a finite pattern is `M * 2^j` with `M` fitting the significand. -/
theorem mag_dyadic (f : Fmt) (hf : f.Valid) (x : Nat) (hx : f.isFinite x) :
    ∃ M j, f.mag x = M * 2 ^ j ∧ M < 2 ^ (f.p + 1) ∧ j + 1 < f.emax := by
  obtain ⟨_, hs2, _⟩ := scale_facts f hf
  have hfr := fracField_lt f x
  have he := expField_lt_emax f x hx
  rw [mag_eq]
  by_cases h0 : f.expField x = 0
  · exact ⟨f.fracField x, 0, by simp [h0], by rw [pow_succ]; omega, by omega⟩
  · exact ⟨2 ^ f.p + f.fracField x, f.expField x - 1, by simp [h0], by rw [pow_succ]; omega, by omega⟩

/-- The fraction `sval x mod 2^scale` of a finite value is held exactly by the format,
except for the values strictly between -1/2 and 0. -/
theorem frac_repr (f : Fmt) (hf : f.Valid) (x : Nat) (hx : f.isFinite x) :
    (∃ m j : Nat, (f.sval x % ((2 ^ f.scale : Nat) : Int)).natAbs = m * 2 ^ j ∧
        m < 2 ^ (f.p + 1) ∧ j + 1 < f.emax) ∨
      (f.signBit x = 1 ∧ 0 < f.mag x ∧ 2 * f.mag x < 2 ^ f.scale) := by
  obtain ⟨_, hs2, _⟩ := scale_facts f hf
  obtain ⟨M, j, hM, hMlt, hj⟩ := mag_dyadic f hf x hx
  have hsx := sval_sign f x
  have hT : (0 : Int) < ((2 ^ f.scale : Nat) : Int) := by positivity
  by_cases hjs : f.scale ≤ j
  · left
    refine ⟨0, 0, ?_, by positivity, by omega⟩
    have hd : ((2 ^ f.scale : Nat) : Int) ∣ f.sval x := by
      have h1 : 2 ^ f.scale ∣ f.mag x := by
        rw [hM]; exact Dvd.dvd.mul_left (pow_dvd_pow 2 hjs) _
      have h2 : ((2 ^ f.scale : Nat) : Int) ∣ ((f.sval x).natAbs : Int) := by
        rw [sval_natAbs]; exact_mod_cast h1
      exact (Int.dvd_natAbs).mp h2
    rw [Int.emod_eq_zero_of_dvd hd]; simp
  · have hsplit : 2 ^ f.scale = 2 ^ (f.scale - j) * 2 ^ j := by
      rw [← pow_add]; congr 1; omega
    rcases Nat.lt_or_ge (f.signBit x) 1 with hs | hs
    · left
      have hv : f.sval x = ((M * 2 ^ j : Nat) : Int) := by
        rw [hsx.2 (by omega), hM]
      refine ⟨M % 2 ^ (f.scale - j), j, ?_, lt_of_le_of_lt (Nat.mod_le _ _) hMlt, hj⟩
      rw [hv, hsplit, ← Int.natCast_mod, Nat.mul_mod_mul_right, Int.natAbs_ofNat]
    · have hs1 : f.signBit x = 1 := by have := signBit_le f x; omega
      have hv : f.sval x = -(M : Int) * ((2 ^ j : Nat) : Int) := by
        rw [hsx.1 hs1, hM]; push_cast; ring
      have hpj : (0 : Int) < ((2 ^ j : Nat) : Int) := by positivity
      have hB : (0 : Int) < ((2 ^ (f.scale - j) : Nat) : Int) := by positivity
      have hmod : f.sval x % ((2 ^ f.scale : Nat) : Int) =
          (-(M : Int) % ((2 ^ (f.scale - j) : Nat) : Int)) * ((2 ^ j : Nat) : Int) := by
        rw [hv, hsplit, Nat.cast_mul, mul_comm (-(M : Int)), mul_comm ((2 ^ (f.scale - j) : Nat) : Int),
          Int.mul_emod_mul_of_pos _ _ hpj, mul_comm]
      have hnn : 0 ≤ -(M : Int) % ((2 ^ (f.scale - j) : Nat) : Int) := Int.emod_nonneg _ (ne_of_gt hB)
      have hlt : -(M : Int) % ((2 ^ (f.scale - j) : Nat) : Int) < ((2 ^ (f.scale - j) : Nat) : Int) :=
        Int.emod_lt_of_pos _ hB
      by_cases hcase : f.scale - j ≤ f.p + 1
      · left
        refine ⟨(-(M : Int) % ((2 ^ (f.scale - j) : Nat) : Int)).toNat, j, ?_, ?_, hj⟩
        · rw [hmod, Int.natAbs_mul, Int.natAbs_ofNat]
          congr 1
          omega
        · have h1 : 2 ^ (f.scale - j) ≤ 2 ^ (f.p + 1) := Nat.pow_le_pow_right (by norm_num) hcase
          omega
      · by_cases hM0 : M = 0
        · left
          refine ⟨0, 0, ?_, by positivity, by omega⟩
          rw [hv, hM0]; simp
        · right
          refine ⟨hs1, ?_, ?_⟩
          · rw [hM]; positivity
          · rw [hM]
            calc 2 * (M * 2 ^ j) < 2 * (2 ^ (f.p + 1) * 2 ^ j) :=
                  Nat.mul_lt_mul_of_pos_left (Nat.mul_lt_mul_of_pos_right hMlt (by positivity)) (by norm_num)
              _ = 2 ^ (f.p + 1 + j + 1) := by rw [pow_succ, pow_add]; ring
              _ ≤ 2 ^ f.scale := Nat.pow_le_pow_right (by norm_num) (by omega)

/-- Rounding keeps a magnitude within its binade: the result is not below the power of
two under the argument. -/
theorem roundMag_binade (f : Fmt) (hf : f.Valid) (n k : Nat) (h1 : 2 ^ (f.p + k) ≤ n)
    (h2 : n < 2 ^ (f.p + k + 1)) (hk : k + 3 ≤ f.emax) :
    f.roundMag n 1 < f.emax * 2 ^ f.p ∧ 2 ^ (f.p + k) ≤ f.mag (f.roundMag n 1) := by
  have hpos : 0 < 2 ^ f.p := by positivity
  have hposk : 0 < 2 ^ k := by positivity
  have hw : 2 ^ f.w ≤ 2 ^ 12 := Nat.pow_le_pow_right (by norm_num) hf.2.2.1
  have hemax : f.emax < 4096 := by rw [emax_eq]; omega
  have hemw : f.emax < 2 ^ f.w := by
    have h1 := emax_eq f
    have h2 : 0 < 2 ^ f.w := by positivity
    omega
  rw [roundMag_eq]
  simp only [Nat.one_mul]
  have hlg : lg 13 (n / 2 ^ f.p) 0 = k := by
    apply lg_eq
    · rw [Nat.le_div_iff_mul_le hpos, ← pow_add, Nat.add_comm]; exact h1
    · rw [Nat.div_lt_iff_lt_mul hpos, ← pow_add]
      have : k + 1 + f.p = f.p + k + 1 := by omega
      rw [this]; exact h2
    · omega
  rw [hlg]
  have hq1 : 2 ^ f.p ≤ n / 2 ^ k := by
    rw [Nat.le_div_iff_mul_le hposk, ← pow_add]; exact h1
  have hq2 : n / 2 ^ k < 2 ^ f.p * 2 := by
    rw [Nat.div_lt_iff_lt_mul hposk, ← pow_succ, ← pow_add]
    have : f.p + 1 + k = f.p + k + 1 := by omega
    rw [this]; exact h2
  have hm : n / 2 ^ k ≤ rneDiv n (2 ^ k) ∧ rneDiv n (2 ^ k) ≤ n / 2 ^ k + 1 := by
    unfold rneDiv
    split <;> omega
  generalize rneDiv n (2 ^ k) = m at hm
  generalize n / 2 ^ k = q at hq1 hq2 hm
  have hpk : 2 ^ (f.p + k) = 2 ^ f.p * 2 ^ k := pow_add 2 _ _
  have hr : k * 2 ^ f.p + m < f.emax * 2 ^ f.p := by
    have : (k + 3) * 2 ^ f.p ≤ f.emax * 2 ^ f.p := Nat.mul_le_mul_right _ hk
    rw [Nat.add_mul] at this
    omega
  rw [if_neg (by omega)]
  refine ⟨hr, ?_⟩
  by_cases hc : m < 2 ^ f.p * 2
  · have hform : k * 2 ^ f.p + m = (k + 1) * 2 ^ f.p + (m - 2 ^ f.p) := by
      rw [Nat.add_mul]; omega
    rw [hform, mag_of_parts f (k + 1) (m - 2 ^ f.p) (by omega) (by omega)]
    simp only [Nat.add_one_ne_zero, if_false, Nat.add_sub_cancel]
    have : 2 ^ f.p + (m - 2 ^ f.p) = m := by omega
    rw [this, hpk]
    exact Nat.mul_le_mul_right _ (by omega)
  · have hm2 : m = 2 ^ f.p * 2 := by omega
    have hform : k * 2 ^ f.p + m = (k + 2) * 2 ^ f.p + 0 := by
      rw [Nat.add_mul, hm2]; omega
    rw [hform, mag_of_parts f (k + 2) 0 (by omega) hpos]
    have hne : k + 2 ≠ 0 := by omega
    simp only [if_neg hne, Nat.add_zero]
    rw [hpk]
    exact Nat.mul_le_mul_left _ (Nat.pow_le_pow_right (by norm_num) (by omega))


theorem two_pow_scale (f : Fmt) (hf : f.Valid) : 2 ^ f.scale = 2 * 2 ^ (f.scale - 1) := by
  obtain ⟨hs1, _, _⟩ := scale_facts f hf
  rw [← pow_succ']; congr 1; omega

/-- The difference `x - floor x` as the code computes it: either it is exact, or `x` lies
strictly between -1/2 and 0 and the rounded difference is not below 1/2. -/
theorem sub_floor_spec (f : Fmt) (hf : f.Valid) (x : Nat) (hx : f.isFinite x) :
    ¬ f.isNaN (f.sub x (f.floor x)) ∧
    (f.sval (f.sub x (f.floor x)) = f.sval x % ((2 ^ f.scale : Nat) : Int) ∨
      (f.signBit x = 1 ∧ 0 < f.mag x ∧ 2 * f.mag x < 2 ^ f.scale ∧
        ((2 ^ (f.scale - 1) : Nat) : Int) ≤ f.sval (f.sub x (f.floor x)))) := by
  obtain ⟨hs1, hs2, _⟩ := scale_facts f hf
  obtain ⟨b1, b2, b3, b4, b5, b6⟩ := floor_spec f hf x hx
  have hT : (0 : Int) < ((2 ^ f.scale : Nat) : Int) := by positivity
  have hd : f.sval x - f.sval (f.floor x) = f.sval x % ((2 ^ f.scale : Nat) : Int) := by
    rw [b6, Int.emod_def, mul_comm]
  have hd0 : 0 ≤ f.sval x % ((2 ^ f.scale : Nat) : Int) := Int.emod_nonneg _ (ne_of_gt hT)
  have hdT : f.sval x % ((2 ^ f.scale : Nat) : Int) < ((2 ^ f.scale : Nat) : Int) :=
    Int.emod_lt_of_pos _ hT
  rw [sub_finite f x _ hx b1, hd]
  have hz : (if f.signBit x = 1 ∧ f.signBit (f.floor x) = 0 then 1 else 0) ≤ 1 := by
    split <;> omega
  generalize (if f.signBit x = 1 ∧ f.signBit (f.floor x) = 0 then 1 else 0) = z at hz
  rcases frac_repr f hf x hx with ⟨m, j, hrep, hm, hj⟩ | ⟨c1, c2, c3⟩
  · obtain ⟨a1, a2, a3, a4⟩ := ofSigned_exact f hf z hz _ m j hrep hm hj
    exact ⟨a2, Or.inl a4⟩
  · have hv : f.sval x = -(f.mag x : Int) := (sval_sign f x).1 c1
    have h2T := two_pow_scale f hf
    have hmod : f.sval x % ((2 ^ f.scale : Nat) : Int) = ((2 ^ f.scale : Nat) : Int) - (f.mag x : Int) := by
      rw [hv]
      have h1 : -(f.mag x : Int) = (((2 ^ f.scale : Nat) : Int) - (f.mag x : Int)) +
          ((2 ^ f.scale : Nat) : Int) * (-1) := by ring
      rw [h1, Int.add_mul_emod_self_left]
      apply Int.emod_eq_of_lt
      · have : (f.mag x : Int) < ((2 ^ f.scale : Nat) : Int) := by exact_mod_cast (by omega : f.mag x < 2 ^ f.scale)
        omega
      · have : (0 : Int) < (f.mag x : Int) := by exact_mod_cast c2
        omega
    have hnat : (f.sval x % ((2 ^ f.scale : Nat) : Int)).natAbs = 2 ^ f.scale - f.mag x := by
      rw [hmod]
      have : ((2 ^ f.scale : Nat) : Int) - (f.mag x : Int) = ((2 ^ f.scale - f.mag x : Nat) : Int) := by
        rw [Nat.cast_sub (by omega)]
      rw [this, Int.natAbs_ofNat]
    have hk : f.p + (f.scale - 1 - f.p) = f.scale - 1 := by omega
    obtain ⟨r1, r2⟩ := roundMag_binade f hf (2 ^ f.scale - f.mag x) (f.scale - 1 - f.p)
      (by rw [hk]; omega) (by rw [hk]; have : f.scale - 1 + 1 = f.scale := by omega
                              rw [this]; omega) (by omega)
    rw [hk] at r2
    rw [← hnat] at r1 r2
    obtain ⟨a1, a2, a3, a4, a5, a6⟩ := ofSigned_spec f hf z hz _ (fun _ => r1)
    refine ⟨a2, Or.inr ⟨c1, c2, c3, ?_⟩⟩
    have hpos : 0 < f.sval x % ((2 ^ f.scale : Nat) : Int) := by
      rw [hmod]
      have : (f.mag x : Int) < ((2 ^ f.scale : Nat) : Int) := by exact_mod_cast (by omega : f.mag x < 2 ^ f.scale)
      omega
    rw [a5 hpos]
    exact_mod_cast r2

/-- Parity of the integer conversion of an integral pattern of small magnitude. -/
theorem toSInt_parity (f : Fmt) (bits : Nat) (hb : 2 ≤ bits) (y a : Nat) (hy : f.isFinite y)
    (hmag : f.mag y = a * 2 ^ f.scale) (ha : a < 2 ^ (bits - 1)) :
    f.toSInt bits y &&& 1 = a % 2 := by
  have hsb := signBit_le f y
  have hbits : 2 ^ bits = 2 * 2 ^ (bits - 1) := by
    rw [← pow_succ']; congr 1; omega
  have hdiv : f.mag y / 2 ^ f.scale = a := by
    rw [hmag, Nat.mul_div_cancel _ (by positivity)]
  rw [Nat.and_one_is_mod]
  simp only [toSInt, Nat.shiftRight_eq_div_pow, Nat.one_shiftLeft, hdiv]
  by_cases hs : f.signBit y = 0
  · rw [if_pos ⟨hy, hs, ha⟩]
  · have hs1 : f.signBit y = 1 := by omega
    rw [if_neg (fun h => hs h.2.1), if_pos ⟨hy, hs1, le_of_lt ha⟩]
    by_cases ha0 : a = 0
    · subst ha0; simp
    · have hlt : 2 ^ bits - a < 2 ^ bits := Nat.sub_lt (by positivity) (by omega)
      rw [Nat.mod_eq_of_lt hlt]
      omega


/-- Adding 1.0 to an integral pattern `n` of small magnitude gives exactly `n + 1`. -/
theorem add_one_spec (f : Fmt) (hf : f.Valid) (y : Nat) (hy : f.isFinite y) (n : Int)
    (hsv : f.sval y = n * ((2 ^ f.scale : Nat) : Int)) (hn : (n + 1).natAbs < 2 ^ (f.p + 1)) :
    f.isFinite (f.add y f.one) ∧ f.add y f.one < 2 ^ (f.p + f.w + 1) ∧
      f.sval (f.add y f.one) = (n + 1) * ((2 ^ f.scale : Nat) : Int) := by
  obtain ⟨_, hs2, _⟩ := scale_facts f hf
  obtain ⟨o1, o2, o3⟩ := one_spec f hf
  rw [add_finite f y _ hy o1, hsv, o3]
  have hz : (if f.signBit y = 1 ∧ f.signBit f.one = 1 then 1 else 0) ≤ 1 := by
    split <;> omega
  generalize (if f.signBit y = 1 ∧ f.signBit f.one = 1 then 1 else 0) = z at hz
  have hw : n * ((2 ^ f.scale : Nat) : Int) + ((2 ^ f.scale : Nat) : Int)
      = (n + 1) * ((2 ^ f.scale : Nat) : Int) := by ring
  rw [hw]
  have hnat : ((n + 1) * ((2 ^ f.scale : Nat) : Int)).natAbs = (n + 1).natAbs * 2 ^ f.scale := by
    rw [Int.natAbs_mul, Int.natAbs_ofNat]
  obtain ⟨a1, _, a3, a4⟩ := ofSigned_exact f hf z hz _ _ _ hnat hn (by omega)
  exact ⟨a1, a3, a4⟩

/-- The ROUND_Nearest branch of `FROUND` on a finite pattern, for a format `f` and an
integer conversion of `bits` bits: the result is an integral finite pattern `r` whose
distance to the argument is at most 1/2, and `r` is even when the distance is 1/2.
Values are in units of `2^(-scale)`. -/
theorem nearest_spec (f : Fmt) (hf : f.Valid) (bits : Nat) (hb : f.p + 2 ≤ bits) (x : Nat)
    (hx : f.isFinite x) :
    ∃ r : Int,
      f.isFinite (f.nearest bits x) ∧
      (f.nearest bits x) < 2 ^ (f.p + f.w + 1) ∧
      f.sval (f.nearest bits x) = r * ((2 ^ f.scale : Nat) : Int) ∧
      2 * (f.sval x - r * ((2 ^ f.scale : Nat) : Int)).natAbs ≤ 2 ^ f.scale ∧
      (2 * (f.sval x - r * ((2 ^ f.scale : Nat) : Int)).natAbs = 2 ^ f.scale → r % 2 = 0) := by
  simp only [nearest]
  obtain ⟨hs1, hs2, _⟩ := scale_facts f hf
  obtain ⟨b1, b2, b3, b4, b5, b6⟩ := floor_spec f hf x hx
  obtain ⟨d1, d2⟩ := sub_floor_spec f hf x hx
  obtain ⟨e1, e2⟩ := half_spec f hf
  have h2T := two_pow_scale f hf
  have hT : (0 : Int) < ((2 ^ f.scale : Nat) : Int) := by positivity
  have hTc : ((2 ^ f.scale : Nat) : Int) = 2 * ((2 ^ (f.scale - 1) : Nat) : Int) := by
    exact_mod_cast h2T
  have hpP : 2 ≤ 2 ^ f.p := by
    have : 2 ^ 1 ≤ 2 ^ f.p := Nat.pow_le_pow_right (by norm_num) hf.1
    simpa using this
  have hpP1 : 2 ^ (f.p + 1) = 2 * 2 ^ f.p := by rw [pow_succ]; ring
  have hbits : 2 ^ f.p < 2 ^ (bits - 1) := Nat.pow_lt_pow_right (by norm_num) (by omega)
  have hn1 : f.sval x / ((2 ^ f.scale : Nat) : Int) * ((2 ^ f.scale : Nat) : Int) ≤ f.sval x :=
    Int.ediv_mul_le _ (ne_of_gt hT)
  have hn2 : f.sval x < f.sval x / ((2 ^ f.scale : Nat) : Int) * ((2 ^ f.scale : Nat) : Int)
      + ((2 ^ f.scale : Nat) : Int) := by
    have := Int.lt_ediv_add_one_mul_self (f.sval x) hT
    rw [add_mul, one_mul] at this
    exact this
  obtain ⟨_, _, hsmall⟩ := int_repr f hf x hx (f.sval x) _ (sval_natAbs f x) hn1 hn2
  have hmod : f.sval x % ((2 ^ f.scale : Nat) : Int) =
      f.sval x - f.sval x / ((2 ^ f.scale : Nat) : Int) * ((2 ^ f.scale : Nat) : Int) := by
    rw [Int.emod_def, mul_comm]
  have hgt : f.gt (f.sub x (f.floor x)) f.half ↔
      ((2 ^ (f.scale - 1) : Nat) : Int) < f.sval (f.sub x (f.floor x)) := by
    unfold gt lt
    rw [e2]
    exact ⟨fun h => h.2.2, fun h => ⟨e1, d1, h⟩⟩
  have hlt : f.lt (f.sub x (f.floor x)) f.half ↔
      f.sval (f.sub x (f.floor x)) < ((2 ^ (f.scale - 1) : Nat) : Int) := by
    unfold lt
    rw [e2]
    exact ⟨fun h => h.2.2, fun h => ⟨d1, e1, h⟩⟩
  simp only [hgt, hlt]
  generalize f.sval (f.sub x (f.floor x)) = D at d2
  generalize hn : f.sval x / ((2 ^ f.scale : Nat) : Int) = n at *
  have hnT : ∀ k : Int, (n + k) * ((2 ^ f.scale : Nat) : Int) =
      n * ((2 ^ f.scale : Nat) : Int) + k * ((2 ^ f.scale : Nat) : Int) := fun k => add_mul _ _ _
  have hpar : n.natAbs ≤ 2 ^ f.p → (f.toSInt bits (f.floor x) &&& 1) = n.natAbs % 2 :=
    fun h => toSInt_parity f bits (by omega) _ _ b1 b4 (by omega)
  have haddfl : n.natAbs ≤ 2 ^ f.p →
      f.isFinite (f.add (f.floor x) f.one) ∧ f.add (f.floor x) f.one < 2 ^ (f.p + f.w + 1) ∧
      f.sval (f.add (f.floor x) f.one) = (n + 1) * ((2 ^ f.scale : Nat) : Int) :=
    fun h => add_one_spec f hf _ b1 n b6 (by omega)
  generalize hTT : ((2 ^ f.scale : Nat) : Int) = T at *
  generalize hHH : ((2 ^ (f.scale - 1) : Nat) : Int) = H at *
  rcases d2 with hD | ⟨c1, c2, c3, c4⟩
  · -- the difference is exact
    have hnz : D ≠ 0 → n.natAbs ≤ 2 ^ f.p := by
      intro h
      rcases hsmall with h1 | h1
      · exact h1
      · exfalso; apply h; rw [hD, hmod, h1]; omega
    have hD2 : D = f.sval x - n * T := by rw [hD, hmod]
    by_cases g1 : H < D
    · obtain ⟨a1, a2, a3⟩ := haddfl (hnz (by omega))
      refine ⟨n + 1, ?_⟩
      rw [if_pos g1]
      refine ⟨a1, a2, a3, ?_, ?_⟩
      · rw [hnT, one_mul]; omega
      · rw [hnT, one_mul]; omega
    · rw [if_neg g1]
      by_cases g2 : D < H
      · rw [if_pos g2]
        refine ⟨n, b1, b5, b6, ?_, ?_⟩
        · omega
        · omega
      · rw [if_neg g2]
        have hDH : D = H := by omega
        have hsm := hnz (by omega)
        rw [hpar hsm]
        by_cases g3 : n.natAbs % 2 ≠ 0
        · obtain ⟨a1, a2, a3⟩ := haddfl hsm
          rw [if_pos g3]
          refine ⟨n + 1, a1, a2, a3, ?_, ?_⟩
          · rw [hnT, one_mul]; omega
          · intro _; omega
        · rw [if_neg g3]
          refine ⟨n, b1, b5, b6, ?_, ?_⟩
          · omega
          · intro _; omega
  · -- the argument lies strictly between -1/2 and 0
    have hv : f.sval x = -(f.mag x : Int) := (sval_sign f x).1 c1
    have hmT : 2 * (f.mag x : Int) < T := by rw [← hTT]; exact_mod_cast c3
    have hm0 : (0 : Int) < (f.mag x : Int) := by exact_mod_cast c2
    have hneg1 : n = -1 := by
      have h1 : n < 0 := by
        by_contra h
        have : 0 ≤ n * T := mul_nonneg (by omega) (le_of_lt hT)
        omega
      have h2 : -2 < n := by
        by_contra h
        have : (n + 2) * T ≤ 0 := mul_nonpos_of_nonpos_of_nonneg (by omega) (le_of_lt hT)
        rw [hnT] at this
        omega
      omega
    have hsm : n.natAbs ≤ 2 ^ f.p := by rw [hneg1]; simp; omega
    obtain ⟨a1, a2, a3⟩ := haddfl hsm
    have g2 : ¬ D < H := by omega
    have hodd : n.natAbs % 2 ≠ 0 := by rw [hneg1]; decide
    refine ⟨n + 1, ?_⟩
    have hres : (if H < D then f.add (f.floor x) f.one
        else if D < H then f.floor x
        else if f.toSInt bits (f.floor x) &&& 1 ≠ 0 then f.add (f.floor x) f.one
        else f.floor x) = f.add (f.floor x) f.one := by
      rw [if_neg g2, hpar hsm, if_pos hodd]
      exact ite_self _
    have hz : (n + 1) * T = 0 := by rw [hneg1]; simp
    rw [hres]
    refine ⟨a1, a2, a3, ?_, ?_⟩
    · rw [hz, sub_zero, sval_natAbs]; omega
    · intro h
      rw [hz, sub_zero, sval_natAbs] at h
      omega

/-- A pattern of the format's width is its sign bit, exponent field and fraction. -/
theorem pattern_eq (f : Fmt) (y : Nat) (hy : y < 2 ^ (f.p + f.w + 1)) :
    f.withSign (f.signBit y) (f.expField y * 2 ^ f.p + f.fracField y) = y := by
  have hpos : 0 < 2 ^ (f.p + f.w) := by positivity
  have hq : y / 2 ^ (f.p + f.w) ≤ 1 := by
    have : y / 2 ^ (f.p + f.w) < 2 := by
      rw [Nat.div_lt_iff_lt_mul hpos, Nat.mul_comm, ← pow_succ]; exact hy
    omega
  have hy0 : y % 2 ^ (f.p + f.w) < 2 ^ (f.p + f.w) := Nat.mod_lt _ hpos
  have hsplit : f.withSign (y / 2 ^ (f.p + f.w)) (y % 2 ^ (f.p + f.w)) = y := by
    rw [withSign_eq]; exact Nat.div_add_mod' y _
  obtain ⟨h1, h2, h3⟩ := withSign_fields f _ _ hq hy0
  rw [hsplit] at h1 h2 h3
  obtain ⟨_, h5⟩ := pattern_decomp f _ hy0
  rw [h1, h2, h3, ← h5, hsplit]

/-- The library `floor` and `ceil` return an integral finite pattern as it is. -/
theorem floor_ceil_fix (f : Fmt) (hf : f.Valid) (y : Nat) (hy : f.isFinite y)
    (hlt : y < 2 ^ (f.p + f.w + 1)) (r : Int) (hr : f.sval y = r * ((2 ^ f.scale : Nat) : Int)) :
    f.floor y = y ∧ f.ceil y = y := by
  have hT : ((2 ^ f.scale : Nat) : Int) ≠ 0 := by positivity
  have h1 : f.sval y / ((2 ^ f.scale : Nat) : Int) = r := by
    rw [hr, Int.mul_ediv_cancel _ hT]
  have h2 : -(f.sval y) / ((2 ^ f.scale : Nat) : Int) = -r := by
    rw [hr, ← neg_mul, Int.mul_ediv_cancel _ hT]
  have h3 : r.natAbs * 2 ^ f.scale = f.mag y := by
    rw [← sval_natAbs, hr, Int.natAbs_mul, Int.natAbs_ofNat]
  rw [floor_eq f y hy, ceil_eq f y hy, h1, h2, Int.natAbs_neg, h3, roundMag_mag f hf y hy]
  exact ⟨pattern_eq f y hlt, pattern_eq f y hlt⟩

/-- The ROUND_Nearest case returns an integral finite pattern as it is. -/
theorem nearest_fix (f : Fmt) (hf : f.Valid) (bits : Nat) (y : Nat) (hy : f.isFinite y)
    (hlt : y < 2 ^ (f.p + f.w + 1)) (r : Int) (hr : f.sval y = r * ((2 ^ f.scale : Nat) : Int)) :
    f.nearest bits y = y := by
  obtain ⟨hfl, _⟩ := floor_ceil_fix f hf y hy hlt r hr
  obtain ⟨e1, e2⟩ := half_spec f hf
  unfold nearest
  rw [hfl, sub_finite f y y hy hy, sub_self]
  have hz : (if f.signBit y = 1 ∧ f.signBit y = 0 then 1 else 0) ≤ 1 := by
    split <;> omega
  generalize (if f.signBit y = 1 ∧ f.signBit y = 0 then 1 else 0) = z at hz
  obtain ⟨_, a2, _, a4, _, _⟩ := ofSigned_spec f hf z hz 0 (fun h => absurd rfl h)
  have hH : (0 : Int) < ((2 ^ (f.scale - 1) : Nat) : Int) := by positivity
  have hngt : ¬ f.gt (f.ofSigned z 0) f.half := by
    unfold gt lt
    rw [a4 rfl, e2]
    intro h; omega
  have hlt2 : f.lt (f.ofSigned z 0) f.half := by
    unfold lt
    rw [a4 rfl, e2]
    exact ⟨a2, e1, hH⟩
  rw [if_neg hngt, if_pos hlt2]

theorem isNaN_quiet (f : Fmt) (hf : f.Valid) (x : Nat) (hx : f.isNaN x) : f.isNaN (f.quiet x) := by
  unfold quiet
  split
  · exact hx
  · next hbit =>
    obtain ⟨hp, _⟩ := hf
    have hA : 0 < 2 ^ (f.p - 1) := by positivity
    have hP : 2 ^ f.p = 2 ^ (f.p - 1) * 2 := by
      rw [← pow_succ]; congr 1; omega
    have hbit0 : x / 2 ^ (f.p - 1) % 2 = 0 := by
      rw [Nat.shiftRight_eq_div_pow] at hbit; omega
    have hmod : x % 2 ^ f.p = x % 2 ^ (f.p - 1) := by
      rw [hP, Nat.mod_mul, hbit0]; simp
    have hlt : x % 2 ^ f.p < 2 ^ (f.p - 1) := by
      rw [hmod]; exact Nat.mod_lt _ hA
    have hx2 : x + 2 ^ (f.p - 1) = 2 ^ f.p * (x / 2 ^ f.p) + (x % 2 ^ f.p + 2 ^ (f.p - 1)) := by
      have := Nat.div_add_mod x (2 ^ f.p)
      omega
    have hsum : x % 2 ^ f.p + 2 ^ (f.p - 1) < 2 ^ f.p := by omega
    have hdiv : (x + 2 ^ (f.p - 1)) / 2 ^ f.p = x / 2 ^ f.p := by
      rw [hx2, Nat.mul_add_div (by positivity), Nat.div_eq_of_lt hsum]; rfl
    have hmod2 : (x + 2 ^ (f.p - 1)) % 2 ^ f.p = x % 2 ^ f.p + 2 ^ (f.p - 1) := by
      rw [hx2, Nat.mul_add_mod, Nat.mod_eq_of_lt hsum]
    obtain ⟨h1, _⟩ := hx
    rw [expField_eq] at h1
    refine ⟨?_, ?_⟩
    · rw [expField_eq, Nat.one_shiftLeft, hdiv]; exact h1
    · rw [fracField_eq, Nat.one_shiftLeft, hmod2]; omega

theorem isNaN_defaultNaN (f : Fmt) (hf : f.Valid) : f.isNaN f.defaultNaN := by
  obtain ⟨hp, _⟩ := hf
  have hA : 0 < 2 ^ (f.p - 1) := by positivity
  have hP : 2 ^ f.p = 2 ^ (f.p - 1) * 2 := by
    rw [← pow_succ]; congr 1; omega
  have hW : 0 < 2 ^ f.w := by positivity
  have he : f.emax < 2 ^ f.w := by have := emax_eq f; omega
  have hfr : 2 ^ (f.p - 1) < 2 ^ f.p := by omega
  have hform : f.defaultNaN = f.withSign 1 (f.emax * 2 ^ f.p + 2 ^ (f.p - 1)) := by
    simp [defaultNaN, inf, Nat.shiftLeft_eq]
  have hy : f.emax * 2 ^ f.p + 2 ^ (f.p - 1) < 2 ^ (f.p + f.w) := by
    have : (f.emax + 1) * 2 ^ f.p ≤ 2 ^ f.w * 2 ^ f.p := Nat.mul_le_mul_right _ (by omega)
    rw [Nat.add_mul] at this
    rw [pow_add, Nat.mul_comm (2 ^ f.p)]
    omega
  obtain ⟨h1, h2⟩ := fields_of_parts f f.emax (2 ^ (f.p - 1)) he hfr
  rw [hform, withSign_isNaN f 1 _ (le_refl 1) hy]
  exact ⟨h1, by rw [h2]; omega⟩

/-- On an infinity or a NaN the library `floor` and `ceil` and the ROUND_Nearest case
return the argument. -/
theorem nonfinite_fix (f : Fmt) (hf : f.Valid) (bits : Nat) (hb : 2 ≤ bits) (x : Nat)
    (hx : ¬ f.isFinite x) :
    f.floor x = x ∧ f.ceil x = x ∧ f.nearest bits x = x := by
  have hfl : f.floor x = x := by unfold floor; rw [if_neg hx]
  have hce : f.ceil x = x := by unfold ceil; rw [if_neg hx]
  refine ⟨hfl, hce, ?_⟩
  have hnan : f.isNaN (f.sub x x) := by
    unfold sub
    by_cases h : f.isNaN x
    · rw [if_pos h]; exact isNaN_quiet f hf x h
    · rw [if_neg h, if_neg h, if_pos hx, if_pos ⟨hx, rfl⟩]
      exact isNaN_defaultNaN f hf
  have hcast : f.toSInt bits x &&& 1 = 0 := by
    have h2 : 2 ^ (bits - 1) = 2 * 2 ^ (bits - 2) := by
      rw [← pow_succ']; congr 1; omega
    simp only [toSInt, Nat.one_shiftLeft]
    rw [if_neg (fun h => hx h.1), if_neg (fun h => hx h.1), Nat.and_one_is_mod, h2]
    omega
  unfold nearest
  rw [hfl]
  have hngt : ¬ f.gt (f.sub x x) f.half := fun h => h.2.1 hnan
  have hnlt : ¬ f.lt (f.sub x x) f.half := fun h => h.1 hnan
  rw [if_neg hngt, if_neg hnlt, hcast]
  simp

theorem floor_idem (f : Fmt) (hf : f.Valid) (x : Nat) : f.floor (f.floor x) = f.floor x := by
  by_cases hx : f.isFinite x
  · obtain ⟨b1, _, _, _, b5, b6⟩ := floor_spec f hf x hx
    exact (floor_ceil_fix f hf _ b1 b5 _ b6).1
  · rw [(nonfinite_fix f hf 2 (le_refl 2) x hx).1, (nonfinite_fix f hf 2 (le_refl 2) x hx).1]

theorem ceil_idem (f : Fmt) (hf : f.Valid) (x : Nat) : f.ceil (f.ceil x) = f.ceil x := by
  by_cases hx : f.isFinite x
  · obtain ⟨b1, _, _, b5, b6⟩ := ceil_spec f hf x hx
    exact (floor_ceil_fix f hf _ b1 b5 _ b6).2
  · rw [(nonfinite_fix f hf 2 (le_refl 2) x hx).2.1, (nonfinite_fix f hf 2 (le_refl 2) x hx).2.1]

theorem nearest_idem (f : Fmt) (hf : f.Valid) (bits : Nat) (hb : f.p + 2 ≤ bits) (x : Nat) :
    f.nearest bits (f.nearest bits x) = f.nearest bits x := by
  by_cases hx : f.isFinite x
  · obtain ⟨r, b1, b2, b3, _, _⟩ := nearest_spec f hf bits hb x hx
    exact nearest_fix f hf bits _ b1 b2 r b3
  · have h := (nonfinite_fix f hf bits (by omega) x hx).2.2
    rw [h, h]

theorem toRat_of_sval (f : Fmt) (y : Nat) (r : Int)
    (h : f.sval y = r * ((2 ^ f.scale : Nat) : Int)) : f.toRat y = (r : ℚ) := by
  unfold toRat
  rw [h]
  push_cast
  field_simp

theorem toRat_floor (f : Fmt) (hf : f.Valid) (x : Nat) (hx : f.isFinite x) :
    f.toRat (f.floor x) = (⌊f.toRat x⌋ : ℚ) := by
  obtain ⟨_, _, _, _, _, b6⟩ := floor_spec f hf x hx
  rw [toRat_of_sval f _ _ b6]
  congr 1
  unfold toRat
  have : ((2 : ℚ) ^ f.scale) = ((2 ^ f.scale : Nat) : ℚ) := by push_cast; rfl
  rw [this, Rat.floor_intCast_div_natCast]

theorem toRat_ceil (f : Fmt) (hf : f.Valid) (x : Nat) (hx : f.isFinite x) :
    f.toRat (f.ceil x) = (⌈f.toRat x⌉ : ℚ) := by
  obtain ⟨_, _, _, _, b6⟩ := ceil_spec f hf x hx
  rw [toRat_of_sval f _ _ b6]
  congr 1
  unfold toRat
  have h1 : ((2 : ℚ) ^ f.scale) = ((2 ^ f.scale : Nat) : ℚ) := by push_cast; rfl
  have h2 : ⌈(f.sval x : ℚ) / ((2 ^ f.scale : Nat) : ℚ)⌉ =
      -⌊((-(f.sval x) : Int) : ℚ) / ((2 ^ f.scale : Nat) : ℚ)⌋ := by
    rw [Int.cast_neg, neg_div, Int.floor_neg, neg_neg]
  rw [h1, h2, Rat.floor_intCast_div_natCast]

/-- The ROUND_Nearest case on a finite pattern, in rational numbers: the result is the
integer nearest to the argument, the even one of the two when the argument is halfway. -/
theorem toRat_nearest (f : Fmt) (hf : f.Valid) (bits : Nat) (hb : f.p + 2 ≤ bits) (x : Nat)
    (hx : f.isFinite x) :
    f.isFinite (f.nearest bits x) ∧ ∃ r : Int, f.toRat (f.nearest bits x) = (r : ℚ) ∧
      |f.toRat x - (r : ℚ)| ≤ 1 / 2 ∧ (|f.toRat x - (r : ℚ)| = 1 / 2 → Even r) := by
  obtain ⟨r, b1, _, b3, b4, b5⟩ := nearest_spec f hf bits hb x hx
  refine ⟨b1, r, toRat_of_sval f _ _ b3, ?_⟩
  have hTpos : (0 : ℚ) < (2 : ℚ) ^ f.scale := by positivity
  have hdist : |f.toRat x - (r : ℚ)| =
      (((f.sval x - r * ((2 ^ f.scale : Nat) : Int)).natAbs : Nat) : ℚ) / (2 : ℚ) ^ f.scale := by
    rw [Nat.cast_natAbs, Int.cast_abs]
    unfold toRat
    have : (f.sval x : ℚ) / 2 ^ f.scale - (r : ℚ) =
        ((f.sval x - r * ((2 ^ f.scale : Nat) : Int) : Int) : ℚ) / 2 ^ f.scale := by
      push_cast
      field_simp
      ring
    rw [this, abs_div, abs_of_pos hTpos]
  generalize (f.sval x - r * ((2 ^ f.scale : Nat) : Int)).natAbs = a at b4 b5 hdist
  rw [hdist]
  constructor
  · rw [div_le_iff₀ hTpos]
    have : ((2 * a : Nat) : ℚ) ≤ ((2 ^ f.scale : Nat) : ℚ) := by exact_mod_cast b4
    push_cast at this
    linarith
  · intro h
    rw [div_eq_iff (ne_of_gt hTpos)] at h
    have h2 : ((2 * a : Nat) : ℚ) = ((2 ^ f.scale : Nat) : ℚ) := by
      push_cast
      linarith
    have h3 : 2 * a = 2 ^ f.scale := by exact_mod_cast h2
    exact Int.even_iff.mpr (b5 h3)

end Fmt

theorem binary64_valid : binary64.Valid := by
  unfold Fmt.Valid binary64; norm_num

theorem binary32_valid : binary32.Valid := by
  unfold Fmt.Valid binary32; norm_num

/-! ## Rounding to an integer: `FROUND` -/

/-- C9: for each of the four rounding modes and every register pattern `x` (finite value,
infinity or NaN), `FROUND` is idempotent, in the Extended build (`FROUND`, on `double`) and
in the Reduced build (`FROUND_Reduced`, on `float`). -/
theorem FROUND_idempotent (s : FPU) (x : Nat) :
    FROUND s (FROUND s x) = FROUND s x ∧
    FROUND_Reduced s (FROUND_Reduced s x) = FROUND_Reduced s x := by
  constructor
  · cases hr : s.round
    · simp only [FROUND, hr]
      exact Fmt.nearest_idem binary64 binary64_valid 64 (by decide) x
    · simp only [FROUND, hr]
      exact Fmt.floor_idem binary64 binary64_valid x
    · simp only [FROUND, hr]
      exact Fmt.ceil_idem binary64 binary64_valid x
    · simp only [FROUND, hr]
  · cases hr : s.round
    · simp only [FROUND_Reduced, hr]
      exact Fmt.nearest_idem binary32 binary32_valid 32 (by decide) x
    · simp only [FROUND_Reduced, hr]
      exact Fmt.floor_idem binary32 binary32_valid x
    · simp only [FROUND_Reduced, hr]
      exact Fmt.ceil_idem binary32 binary32_valid x
    · simp only [FROUND_Reduced, hr]

/-- C10: `FROUND` of the Extended build on a register pattern `x`.  In mode Chop the result
is `x` itself, for every pattern.  For every finite `x` the result is finite and denotes:
in mode Nearest the integer nearest to the value of `x`, the even neighbour when `x` is
exactly halfway; in mode Down the floor of the value; in mode Up its ceiling. -/
theorem FROUND_value (s : FPU) (x : Nat) :
    (s.round = .ROUND_Chop → FROUND s x = x) ∧
    (binary64.isFinite x →
      binary64.isFinite (FROUND s x) ∧
      (s.round = .ROUND_Nearest → ∃ r : Int, binary64.toRat (FROUND s x) = (r : ℚ) ∧
        |binary64.toRat x - (r : ℚ)| ≤ 1 / 2 ∧ (|binary64.toRat x - (r : ℚ)| = 1 / 2 → Even r)) ∧
      (s.round = .ROUND_Down → binary64.toRat (FROUND s x) = (⌊binary64.toRat x⌋ : ℚ)) ∧
      (s.round = .ROUND_Up → binary64.toRat (FROUND s x) = (⌈binary64.toRat x⌉ : ℚ))) := by
  refine ⟨fun hr => by simp only [FROUND, hr], fun hx => ⟨?_, ?_, ?_, ?_⟩⟩
  · cases hr : s.round
    · simp only [FROUND, hr]
      exact (Fmt.toRat_nearest binary64 binary64_valid 64 (by decide) x hx).1
    · simp only [FROUND, hr]
      exact (Fmt.floor_spec binary64 binary64_valid x hx).1
    · simp only [FROUND, hr]
      exact (Fmt.ceil_spec binary64 binary64_valid x hx).1
    · simp only [FROUND, hr]
      exact hx
  · intro hr
    simp only [FROUND, hr]
    exact (Fmt.toRat_nearest binary64 binary64_valid 64 (by decide) x hx).2
  · intro hr
    simp only [FROUND, hr]
    exact Fmt.toRat_floor binary64 binary64_valid x hx
  · intro hr
    simp only [FROUND, hr]
    exact Fmt.toRat_ceil binary64 binary64_valid x hx

/-- Concrete evaluations of `FROUND`: in mode Nearest 2.5 gives 2.0, 3.5 gives 4.0 and
-0.5 gives 0.0; in mode Down -0.5 gives -1.0; an infinity is returned as it is; and
`FROUND_Reduced` takes 2.5 to 2.0. -/
theorem FROUND_examples :
    FROUND emptyStack 0x4004000000000000 = 0x4000000000000000 ∧
    FROUND emptyStack 0x400C000000000000 = 0x4010000000000000 ∧
    FROUND emptyStack 0xBFE0000000000000 = 0 ∧
    FROUND { emptyStack with round := .ROUND_Down } 0xBFE0000000000000 = 0xBFF0000000000000 ∧
    FROUND emptyStack 0x7FF0000000000000 = 0x7FF0000000000000 ∧
    FROUND_Reduced emptyStack 0x40200000 = 0x40000000 := by
  decide

/-- C10 applies to the pattern of 2.5 in mode Nearest. -/
theorem FROUND_value_witness :
    binary64.isFinite 0x4004000000000000 ∧
    ∃ r : Int, binary64.toRat (FROUND emptyStack 0x4004000000000000) = (r : ℚ) ∧
      |binary64.toRat 0x4004000000000000 - (r : ℚ)| ≤ 1 / 2 ∧
      (|binary64.toRat 0x4004000000000000 - (r : ℚ)| = 1 / 2 → Even r) :=
  ⟨by decide, ((FROUND_value emptyStack 0x4004000000000000).2 (by decide)).2.1 rfl⟩

/-! ## Facts on bit operations and memory -/

/-- Masking with a mask shifted left is masking the shifted value. -/
theorem and_shiftLeft_mask (x m p : Nat) : x &&& (m <<< p) = ((x >>> p) &&& m) <<< p := by
  apply Nat.eq_of_testBit_eq
  intro i
  simp only [Nat.testBit_and, Nat.testBit_shiftLeft, Nat.testBit_shiftRight]
  by_cases h : p ≤ i
  · have : p + (i - p) = i := by omega
    simp [h, this]
  · simp [h]

/-- A field of `w` bits at position `p`, selected by a mask. -/
theorem and_field (x w p : Nat) : x &&& ((2 ^ w - 1) <<< p) = (x / 2 ^ p % 2 ^ w) * 2 ^ p := by
  rw [and_shiftLeft_mask, Nat.and_pow_two_sub_one_eq_mod, Nat.shiftLeft_eq,
    Nat.shiftRight_eq_div_pow]

/-- Or of a shifted value with a value below the shift is their sum. -/
theorem shiftLeft_or (a p b : Nat) (hb : b < 2 ^ p) : (a <<< p) ||| b = a * 2 ^ p + b := by
  rw [Nat.shiftLeft_eq, Nat.mul_comm, ← Nat.mul_add_lt_is_or hb]

theorem and_low (x n : Nat) : x &&& (2 ^ n - 1) = x % 2 ^ n :=
  Nat.and_pow_two_sub_one_eq_mod x n

theorem mem_readb_writeb (m : Mem) (a v j : Nat) :
    mem_readb (mem_writeb m a v) j = if j = a then v % 256 else mem_readb m j := by
  unfold mem_readb mem_writeb
  split
  · exact Nat.mod_mod _ _
  · rfl

theorem mem_readb_writew (m : Mem) (a v j : Nat) :
    mem_readb (mem_writew m a v) j =
      if j = a then v % 256 else if j = a + 1 then v / 256 % 256 else mem_readb m j := by
  unfold mem_writew
  rw [mem_readb_writeb, mem_readb_writeb]
  by_cases h1 : j = a
  · have h2 : ¬ j = a + 1 := by omega
    simp [h1]
  · simp [h1]

theorem mem_readb_writed (m : Mem) (a v j : Nat) :
    mem_readb (mem_writed m a v) j =
      if j = a then v % 256 else if j = a + 1 then v / 256 % 256
      else if j = a + 2 then v / 65536 % 256 else if j = a + 3 then v / 16777216 % 256
      else mem_readb m j := by
  unfold mem_writed
  rw [mem_readb_writew, mem_readb_writew]
  have e1 : v / 65536 / 256 = v / 16777216 := by rw [Nat.div_div_eq_div_mul]
  rw [e1]
  split_ifs <;> omega

theorem mem_readw_lt (m : Mem) (a : Nat) : mem_readw m a < 65536 := by
  unfold mem_readw mem_readb; omega

theorem mem_readd_lt (m : Mem) (a : Nat) : mem_readd m a < 4294967296 := by
  unfold mem_readd
  have h1 := mem_readw_lt m a
  have h2 := mem_readw_lt m (a + 2)
  omega

/-- A word that is written and not overwritten is read back, reduced to 16 bits. -/
theorem mem_readw_of_bytes (m : Mem) (a v : Nat) (h0 : mem_readb m a = v % 256)
    (h1 : mem_readb m (a + 1) = v / 256 % 256) : mem_readw m a = v % 65536 := by
  unfold mem_readw; rw [h0, h1]; omega

/-- A doubleword that is written and not overwritten is read back, reduced to 32 bits. -/
theorem mem_readd_of_bytes (m : Mem) (a v : Nat) (h0 : mem_readb m a = v % 256)
    (h1 : mem_readb m (a + 1) = v / 256 % 256) (h2 : mem_readb m (a + 2) = v / 65536 % 256)
    (h3 : mem_readb m (a + 3) = v / 16777216 % 256) : mem_readd m a = v % 4294967296 := by
  unfold mem_readd mem_readw
  have e : a + 2 + 1 = a + 3 := rfl
  rw [e, h0, h1, h2, h3]; omega

theorem pack64 (sign e mant : Nat) (he : e < 2048) (hm : mant < 4503599627370496) :
    (sign <<< 63) ||| (e <<< 52) ||| mant =
      sign * 9223372036854775808 + e * 4503599627370496 + mant := by
  have h1 : (sign <<< 63) ||| (e <<< 52) = ((sign * 2048 + e) <<< 52) := by
    have hb : e <<< 52 < 2 ^ 63 := by rw [Nat.shiftLeft_eq]; omega
    rw [shiftLeft_or sign 63 _ hb, Nat.shiftLeft_eq, Nat.shiftLeft_eq]; omega
  rw [h1, shiftLeft_or _ 52 _ (by norm_num; exact hm)]; norm_num; omega

theorem pack32 (sign e mant : Nat) (he : e < 256) (hm : mant < 8388608) :
    (sign <<< 31) ||| (e <<< 23) ||| mant = sign * 2147483648 + e * 8388608 + mant := by
  have h1 : (sign <<< 31) ||| (e <<< 23) = ((sign * 256 + e) <<< 23) := by
    have hb : e <<< 23 < 2 ^ 31 := by rw [Nat.shiftLeft_eq]; omega
    rw [shiftLeft_or sign 31 _ hb, Nat.shiftLeft_eq, Nat.shiftLeft_eq]; omega
  rw [h1, shiftLeft_or _ 23 _ (by norm_num; exact hm)]; norm_num; omega

/-- The test of one bit by a mask. -/
theorem and_bit (x p : Nat) : (x &&& (1 <<< p) ≠ 0) ↔ x / 2 ^ p % 2 = 1 := by
  have h := and_field x 1 p
  have h1 : (2 ^ 1 - 1 : Nat) = 1 := by norm_num
  rw [h1, Nat.pow_one] at h
  rw [h]
  have hpos : 0 < 2 ^ p := by positivity
  constructor
  · intro hne
    by_contra hc
    have : x / 2 ^ p % 2 = 0 := by omega
    rw [this] at hne
    simp at hne
  · intro h2
    rw [h2]; simp

/-- `FPU_FLD80` of the Extended build in arithmetic form: `e` is the exponent field and
`sign` the sign bit of the word at offset 8. -/
theorem FPU_FLD80_eq (mem : Mem) (addr : Nat) :
    FPU_FLD80 mem addr =
      if mem_readd mem addr = 0 ∧ mem_readd mem (addr + 4) = 0x80000000 ∧
          mem_readw mem (addr + 8) % 32768 = 0x7fff then
        (if mem_readw mem (addr + 8) / 32768 % 2 = 1 then 0xFFF0000000000000
          else 0x7FF0000000000000)
      else mem_readw mem (addr + 8) / 32768 % 2 * 9223372036854775808 +
        (if 16383 < mem_readw mem (addr + 8) % 32768
          then (mem_readw mem (addr + 8) % 32768 - 16383) % 1024 + 1023
          else 1023 - (16383 - mem_readw mem (addr + 8) % 32768) % 1024) * 4503599627370496 +
        (mem_readd mem addr + mem_readd mem (addr + 4) * 4294967296) / 2048
          % 4503599627370496 := by
  unfold FPU_FLD80
  have m1 : (0x7fff : Nat) = 2 ^ 15 - 1 := by norm_num
  have m2 : (0x8000 : Nat) = 1 <<< 15 := by decide
  have m3 : (0x3ff : Nat) = 2 ^ 10 - 1 := by norm_num
  have m4 : (0xfffffffffffff : Nat) = 2 ^ 52 - 1 := by norm_num
  have hs : (if mem_readw mem (addr + 8) &&& 0x8000 ≠ 0 then 1 else 0) =
      mem_readw mem (addr + 8) / 32768 % 2 := by
    have hb : mem_readw mem (addr + 8) &&& 0x8000 ≠ 0 ↔
        mem_readw mem (addr + 8) / 32768 % 2 = 1 := by
      have hb := and_bit (mem_readw mem (addr + 8)) 15
      have p15 : (2 : Nat) ^ 15 = 32768 := by norm_num
      rw [p15, ← m2] at hb
      exact hb
    by_cases h : mem_readw mem (addr + 8) / 32768 % 2 = 1
    · rw [if_pos (hb.mpr h)]; omega
    · rw [if_neg (fun hc => h (hb.mp hc))]; omega
  have he : mem_readw mem (addr + 8) &&& 0x7fff = mem_readw mem (addr + 8) % 32768 := by
    rw [m1, and_low]; norm_num
  simp only [hs, he]
  have hsign : mem_readw mem (addr + 8) / 32768 % 2 < 2 := Nat.mod_lt _ (by norm_num)
  generalize mem_readw mem (addr + 8) % 32768 = e
  generalize mem_readw mem (addr + 8) / 32768 % 2 = sign at hsign
  have hm : ((mem_readd mem addr + (mem_readd mem (addr + 4) <<< 32)) >>> 11) &&& 0xfffffffffffff
      = (mem_readd mem addr + mem_readd mem (addr + 4) * 4294967296) / 2048
          % 4503599627370496 := by
    rw [m4, and_low, Nat.shiftRight_eq_div_pow, Nat.shiftLeft_eq]; norm_num
  rw [hm]
  have hmlt : (mem_readd mem addr + mem_readd mem (addr + 4) * 4294967296) / 2048
      % 4503599627370496 < 4503599627370496 := Nat.mod_lt _ (by norm_num)
  generalize (mem_readd mem addr + mem_readd mem (addr + 4) * 4294967296) / 2048
    % 4503599627370496 = mant at hmlt
  have hexp : ((if ((e : Int) - (BIAS80 : Int)) > 0
        then (((if ((e : Int) - (BIAS80 : Int)) > 0 then ((e : Int) - (BIAS80 : Int))
          else -((e : Int) - (BIAS80 : Int))).toNat &&& 0x3ff : Nat) : Int)
        else -(((if ((e : Int) - (BIAS80 : Int)) > 0 then ((e : Int) - (BIAS80 : Int))
          else -((e : Int) - (BIAS80 : Int))).toNat &&& 0x3ff : Nat) : Int)) + (BIAS64 : Int)).toNat
      = (if 16383 < e then (e - 16383) % 1024 + 1023 else 1023 - (16383 - e) % 1024) := by
    rw [m3, and_low]
    unfold BIAS80 BIAS64
    by_cases h : 16383 < e
    · have h1 : ((e : Int) - ((16383 : Nat) : Int)) > 0 := by omega
      simp only [if_pos h1, if_pos h]
      omega
    · have h1 : ¬ ((e : Int) - ((16383 : Nat) : Int)) > 0 := by omega
      simp only [if_neg h1, if_neg h]
      omega
  rw [hexp]
  have helt : (if 16383 < e then (e - 16383) % 1024 + 1023 else 1023 - (16383 - e) % 1024) < 2048 := by
    split <;> omega
  rw [pack64 _ _ _ helt hmlt]
  by_cases hinf : mem_readd mem addr = 0 ∧ mem_readd mem (addr + 4) = 0x80000000 ∧ e = 0x7fff
  · rw [if_pos hinf, if_pos hinf]
    by_cases hsg : sign = 1
    · simp [hsg]
    · have : sign = 0 := by omega
      simp [this]
  · rw [if_neg hinf, if_neg hinf]

/-- The ten-byte layout written by two doubleword stores and a word store. -/
theorem mem_layout10 (mem : Mem) (addr A B C : Nat) :
    mem_readd (mem_writew (mem_writed (mem_writed mem addr A) (addr + 4) B) (addr + 8) C) addr
      = A % 4294967296 ∧
    mem_readd (mem_writew (mem_writed (mem_writed mem addr A) (addr + 4) B) (addr + 8) C) (addr + 4)
      = B % 4294967296 ∧
    mem_readw (mem_writew (mem_writed (mem_writed mem addr A) (addr + 4) B) (addr + 8) C) (addr + 8)
      = C % 65536 := by
  refine ⟨?_, ?_, ?_⟩
  · refine mem_readd_of_bytes _ _ A ?_ ?_ ?_ ?_ <;>
      simp [mem_readb_writew, mem_readb_writed, Nat.add_assoc]
  · refine mem_readd_of_bytes _ _ B ?_ ?_ ?_ ?_ <;>
      simp [mem_readb_writew, mem_readb_writed, Nat.add_assoc]
  · refine mem_readw_of_bytes _ _ C ?_ ?_ <;>
      simp [mem_readb_writew, mem_readb_writed, Nat.add_assoc]

namespace Fmt

theorem isNaN_zero (f : Fmt) (hf : f.Valid) : ¬ f.isNaN 0 := by
  intro h
  have h1 := h.1
  rw [expField_eq] at h1
  have h2 := scale_facts f hf
  simp at h1
  omega

theorem sval_zero (f : Fmt) : f.sval 0 = 0 := by
  unfold sval
  rw [mag_zero]
  simp

/-- Comparison with zero: `x == 0` holds exactly for the two zero patterns. -/
theorem eq_zero_iff (f : Fmt) (hf : f.Valid) (x : Nat) :
    f.eq x 0 ↔ f.expField x = 0 ∧ f.fracField x = 0 := by
  have h2 := scale_facts f hf
  unfold eq
  rw [sval_zero]
  have hm : f.sval x = 0 ↔ f.mag x = 0 := by
    rw [← Int.natAbs_eq_zero, sval_natAbs]
  rw [hm, mag_eq]
  constructor
  · rintro ⟨_, _, h⟩
    by_cases h0 : f.expField x = 0
    · rw [if_pos h0] at h; exact ⟨h0, h⟩
    · rw [if_neg h0] at h
      exfalso
      have : 0 < (2 ^ f.p + f.fracField x) * 2 ^ (f.expField x - 1) := by positivity
      omega
  · rintro ⟨h0, h1⟩
    refine ⟨?_, isNaN_zero f hf, ?_⟩
    · intro h; have := h.1; omega
    · rw [if_pos h0]; exact h1

end Fmt

theorem binary64_eq_zero (x : Nat) :
    binary64.eq x 0 ↔ x / 4503599627370496 % 2048 = 0 ∧ x % 4503599627370496 = 0 := by
  rw [Fmt.eq_zero_iff binary64 binary64_valid, Fmt.expField_eq, Fmt.fracField_eq]
  norm_num [binary64]

theorem binary32_eq_zero (x : Nat) :
    binary32.eq x 0 ↔ x / 8388608 % 256 = 0 ∧ x % 8388608 = 0 := by
  rw [Fmt.eq_zero_iff binary32 binary32_valid, Fmt.expField_eq, Fmt.fracField_eq]
  norm_num [binary32]

/-- The three fields `FPU_ST80` writes, in arithmetic form: the 64-bit mantissa as two
doublewords and the sign and exponent word. -/
theorem FPU_ST80_fields (s : FPU) (mem : Mem) (addr reg : Nat)
    (hx : s.regs reg < 18446744073709551616) :
    mem_readd (FPU_ST80 s mem addr reg) addr =
      (s.regs reg % 4503599627370496 * 2048 +
        (if binary64.eq (s.regs reg) 0 then 0 else 9223372036854775808)) % 4294967296 ∧
    mem_readd (FPU_ST80 s mem addr reg) (addr + 4) =
      (s.regs reg % 4503599627370496 * 2048 +
        (if binary64.eq (s.regs reg) 0 then 0 else 9223372036854775808)) / 4294967296 ∧
    mem_readw (FPU_ST80 s mem addr reg) (addr + 8) =
      s.regs reg / 9223372036854775808 * 32768 +
        (s.regs reg / 4503599627370496 % 2048 +
          (if binary64.eq (s.regs reg) 0 then 0 else 15360)) := by
  unfold FPU_ST80
  generalize s.regs reg = x at hx
  have m1 : (0x8000000000000000 : Nat) = 1 <<< 63 := by decide
  have m2 : (0x7ff0000000000000 : Nat) = (2 ^ 11 - 1) <<< 52 := by decide
  have m3 : (0x000fffffffffffff : Nat) = 2 ^ 52 - 1 := by norm_num
  have hsign : (if x &&& 0x8000000000000000 ≠ 0 then 1 else 0) = x / 9223372036854775808 := by
    have hb : x &&& 0x8000000000000000 ≠ 0 ↔ x / 9223372036854775808 % 2 = 1 := by
      have hb := and_bit x 63
      have p63 : (2 : Nat) ^ 63 = 9223372036854775808 := by norm_num
      rw [p63, ← m1] at hb
      exact hb
    by_cases h : x / 9223372036854775808 % 2 = 1
    · rw [if_pos (hb.mpr h)]; omega
    · rw [if_neg (fun hc => h (hb.mp hc))]; omega
  have hexp : (x &&& 0x7ff0000000000000) >>> 52 = x / 4503599627370496 % 2048 := by
    rw [m2, and_field, Nat.shiftRight_eq_div_pow, Nat.mul_div_cancel _ (by positivity)]
    norm_num
  have hmant : (x &&& 0x000fffffffffffff) <<< 11 = x % 4503599627370496 * 2048 := by
    rw [m3, and_low, Nat.shiftLeft_eq]; norm_num
  have hor : x % 4503599627370496 * 2048 ||| 0x8000000000000000 =
      x % 4503599627370496 * 2048 + 9223372036854775808 := by
    have hb : x % 4503599627370496 * 2048 < 2 ^ 63 := by norm_num; omega
    rw [Nat.or_comm, m1, shiftLeft_or 1 63 _ hb]; norm_num; omega
  simp only [hsign, hexp, hmant]
  have hbegin : ∀ e, e < 32768 →
      ((x / 9223372036854775808) <<< 15 ||| e) % 65536 = x / 9223372036854775808 * 32768 + e := by
    intro e he
    rw [shiftLeft_or _ 15 _ (by norm_num; exact he)]
    norm_num; omega
  obtain ⟨l1, l2, l3⟩ := mem_layout10 mem addr
    ((if ¬ binary64.eq x 0 then x % 4503599627370496 * 2048 ||| 0x8000000000000000
      else x % 4503599627370496 * 2048) % 4294967296)
    ((if ¬ binary64.eq x 0 then x % 4503599627370496 * 2048 ||| 0x8000000000000000
      else x % 4503599627370496 * 2048) / 4294967296)
    (((x / 9223372036854775808) <<< 15 |||
      (if ¬ binary64.eq x 0 then x / 4503599627370496 % 2048 + (BIAS80 - BIAS64)
        else x / 4503599627370496 % 2048)) % 65536)
  rw [l1, l2, l3]
  by_cases hz : binary64.eq x 0
  · simp only [hz, not_true_eq_false, if_false, if_true]
    rw [hbegin _ (by omega)]
    refine ⟨?_, ?_, ?_⟩ <;> omega
  · simp only [hz, not_false_eq_true, if_true, if_false, hor]
    have hb : BIAS80 - BIAS64 = 15360 := by decide
    rw [hb, hbegin _ (by omega)]
    refine ⟨?_, ?_, ?_⟩ <;> omega

theorem binary64_isFinite_iff (x : Nat) :
    binary64.isFinite x ↔ x / 4503599627370496 % 2048 ≠ 2047 := by
  unfold Fmt.isFinite
  rw [Fmt.expField_eq, Fmt.emax_eq]
  norm_num [binary64]

/-- C13: in the Extended build, for every register pattern that denotes a finite value
(normal, denormal, +0 or -0), `FPU_ST80` followed by `FPU_FLD80` at the same address
returns exactly the original 64-bit pattern. -/
theorem FPU_ST80_FLD80_finite (s : FPU) (mem : Mem) (addr reg : Nat)
    (hx : s.regs reg < 18446744073709551616) (hfin : binary64.isFinite (s.regs reg)) :
    FPU_FLD80 (FPU_ST80 s mem addr reg) addr = s.regs reg := by
  obtain ⟨f1, f2, f3⟩ := FPU_ST80_fields s mem addr reg hx
  rw [FPU_FLD80_eq, f1, f2, f3]
  rw [binary64_isFinite_iff] at hfin
  have hz := binary64_eq_zero (s.regs reg)
  generalize s.regs reg = x at *
  by_cases h0 : binary64.eq x 0
  · obtain ⟨z1, z2⟩ := hz.mp h0
    simp only [h0, if_true]
    have hq : x = x / 9223372036854775808 * 9223372036854775808 := by omega
    have hnot : ¬ ((x % 4503599627370496 * 2048 + 0) % 4294967296 = 0 ∧
        (x % 4503599627370496 * 2048 + 0) / 4294967296 = 0x80000000 ∧
        (x / 9223372036854775808 * 32768 + (x / 4503599627370496 % 2048 + 0)) % 32768 = 0x7fff) := by
      omega
    rw [if_neg hnot]
    have hlt : ¬ 16383 < (x / 9223372036854775808 * 32768 +
        (x / 4503599627370496 % 2048 + 0)) % 32768 := by omega
    rw [if_neg hlt]
    omega
  · simp only [h0, if_false]
    have hnot : ¬ ((x % 4503599627370496 * 2048 + 9223372036854775808) % 4294967296 = 0 ∧
        (x % 4503599627370496 * 2048 + 9223372036854775808) / 4294967296 = 0x80000000 ∧
        (x / 9223372036854775808 * 32768 + (x / 4503599627370496 % 2048 + 15360)) % 32768
          = 0x7fff) := by
      omega
    rw [if_neg hnot]
    split <;> omega

/-- C13 applies to the pattern of 2.5. -/
theorem FPU_ST80_FLD80_finite_witness :
    FPU_FLD80 (FPU_ST80 (withRegs 0x4004000000000000) (fun _ => 0) 100 0) 100
      = 0x4004000000000000 :=
  FPU_ST80_FLD80_finite (withRegs 0x4004000000000000) (fun _ => 0) 100 0 (by decide) (by decide)

/-- Evaluation for C14: in the Extended build `FPU_ST80` writes +infinity with the
exponent field 0x43FF, not 0x7FFF, and `FPU_FLD80` reads the ten bytes back as 1.0;
-infinity comes back as -1.0.  In the Reduced build the store maps the exponent field
0xff to 0x7fff and both infinities come back. -/
theorem FPU_ST80_FLD80_infinity :
    mem_readw (FPU_ST80 (withRegs 0x7FF0000000000000)
      (fun _ => 0) 100 0) 108 = 0x43FF ∧
    FPU_FLD80 (FPU_ST80 (withRegs 0x7FF0000000000000)
      (fun _ => 0) 100 0) 100 = 0x3FF0000000000000 ∧
    FPU_FLD80 (FPU_ST80 (withRegs 0xFFF0000000000000)
      (fun _ => 0) 100 0) 100 = 0xBFF0000000000000 ∧
    FPU_FLD80_Reduced (FPU_ST80_Reduced (withRegs 0x7F800000)
      (fun _ => 0) 100 0) 100 = 0x7F800000 ∧
    FPU_FLD80_Reduced (FPU_ST80_Reduced (withRegs 0xFF800000)
      (fun _ => 0) 100 0) 100 = 0xFF800000 := by
  decide

/-- Counterexample to C15 as stated.  Reduced build: the operand `operandHuge` has sign
bit 1 and unbiased exponent 257, above +127, and is not the infinity pattern; the sign
bit of the loaded value is 0, not the operand's.  Extended build: the operand
`operandHuge64` has unbiased exponent 1025, above +1023; the loaded value has exponent
field 1024, not the maximum 2047, and a mantissa field that is not zero. -/
theorem FPU_FLD80_clamp_counterexample :
    mem_readw operandHuge 108 / 32768 % 2 = 1 ∧
    mem_readw operandHuge 108 % 32768 = 16383 + 257 ∧
    binary32.signBit (FPU_FLD80_Reduced operandHuge 100) ≠ mem_readw operandHuge 108 / 32768 % 2 ∧
    mem_readw operandHuge64 108 % 32768 = 16383 + 1025 ∧
    binary64.expField (FPU_FLD80 operandHuge64 100) ≠ binary64.emax ∧
    binary64.fracField (FPU_FLD80 operandHuge64 100) ≠ 0 := by
  decide

theorem FPU_FLD80_Reduced_exp (mem : Mem) (addr : Nat) :
    mem_readw mem (addr + 8) &&& 0x7fff = mem_readw mem (addr + 8) % 32768 := by
  have m1 : (0x7fff : Nat) = 2 ^ 15 - 1 := by norm_num
  rw [m1, and_low]; norm_num

/-- C15, as amended.  Reduced build: for every 80-bit operand whose exponent field is not
0x7FFF, `FPU_FLD80` returns exponent field 255, mantissa field 0 and sign bit 0 (the
pattern 0x7F800000) when the unbiased exponent is above +127, and exponent field 0,
mantissa field 0 and sign bit 0 (the pattern 0) when it is below -127, whatever the sign
of the operand.  Extended build: for every operand the sign bit of the result is the
sign bit of the operand. -/
theorem FPU_FLD80_out_of_range (mem : Mem) (addr : Nat) :
    (mem_readw mem (addr + 8) % 32768 ≠ 0x7fff →
      (16383 + 127 < mem_readw mem (addr + 8) % 32768 →
        FPU_FLD80_Reduced mem addr = 0x7F800000 ∧
        binary32.expField (FPU_FLD80_Reduced mem addr) = 255 ∧
        binary32.fracField (FPU_FLD80_Reduced mem addr) = 0 ∧
        binary32.signBit (FPU_FLD80_Reduced mem addr) = 0) ∧
      (mem_readw mem (addr + 8) % 32768 + 127 < 16383 →
        FPU_FLD80_Reduced mem addr = 0 ∧
        binary32.expField (FPU_FLD80_Reduced mem addr) = 0 ∧
        binary32.fracField (FPU_FLD80_Reduced mem addr) = 0 ∧
        binary32.signBit (FPU_FLD80_Reduced mem addr) = 0)) ∧
    binary64.signBit (FPU_FLD80 mem addr) = mem_readw mem (addr + 8) / 32768 % 2 := by
  refine ⟨fun hne => ⟨fun hhi => ?_, fun hlo => ?_⟩, ?_⟩
  · have h : FPU_FLD80_Reduced mem addr = 0x7F800000 := by
      unfold FPU_FLD80_Reduced
      simp only [FPU_FLD80_Reduced_exp]
      generalize mem_readw mem (addr + 8) % 32768 = e at hne hhi
      have c1 : ¬ ((e : Int) - (BIAS80 : Int) = 0x4000) := by unfold BIAS80; omega
      have c2 : (e : Int) - (BIAS80 : Int) > (BIAS32 : Int) := by unfold BIAS80 BIAS32; omega
      simp only [if_neg c1, if_pos c2]
      decide
    rw [h]
    exact ⟨rfl, by decide, by decide, by decide⟩
  · have h : FPU_FLD80_Reduced mem addr = 0 := by
      unfold FPU_FLD80_Reduced
      simp only [FPU_FLD80_Reduced_exp]
      generalize mem_readw mem (addr + 8) % 32768 = e at hne hlo
      have c1 : ¬ ((e : Int) - (BIAS80 : Int) = 0x4000) := by unfold BIAS80; omega
      have c2 : ¬ (e : Int) - (BIAS80 : Int) > (BIAS32 : Int) := by unfold BIAS80 BIAS32; omega
      have c3 : (e : Int) - (BIAS80 : Int) < -(BIAS32 : Int) := by unfold BIAS80 BIAS32; omega
      simp only [if_neg c1, if_neg c2, if_pos c3]
      decide
    rw [h]
    exact ⟨rfl, by decide, by decide, by decide⟩
  · rw [FPU_FLD80_eq, Fmt.signBit_eq]
    have hp : (2 : Nat) ^ (binary64.p + binary64.w) = 9223372036854775808 := by
      norm_num [binary64]
    rw [hp]
    have hsign : mem_readw mem (addr + 8) / 32768 % 2 < 2 := Nat.mod_lt _ (by norm_num)
    generalize mem_readw mem (addr + 8) / 32768 % 2 = sign at hsign
    generalize mem_readw mem (addr + 8) % 32768 = e
    generalize (mem_readd mem addr + mem_readd mem (addr + 4) * 4294967296) / 2048 = q
    split
    · split <;> omega
    · split <;> omega

/-- C15 as amended applies to an operand with sign bit 1 and unbiased exponent 257. -/
theorem FPU_FLD80_out_of_range_witness :
    FPU_FLD80_Reduced
      operandHuge 100
      = 0x7F800000 :=
  (((FPU_FLD80_out_of_range
      operandHuge 100).1
    (by decide)).1 (by decide)).1

/-! ## Arithmetic, comparison and classification -/

theorem ite_or_testBit (sw m n C i : Nat) :
    (if C ≠ 0 then sw &&& m ||| n else sw &&& m).testBit i =
      ((sw.testBit i && m.testBit i) || (decide (C ≠ 0) && n.testBit i)) := by
  by_cases h : C ≠ 0 <;> simp [h, Nat.testBit_or, Nat.testBit_and]

theorem FPU_SET_C0_testBit (s : FPU) (C i : Nat) :
    (FPU_SET_C0 s C).sw.testBit i =
      ((s.sw.testBit i && Nat.testBit 0xFEFF i) || (decide (C ≠ 0) && Nat.testBit 0x0100 i)) :=
  ite_or_testBit s.sw 0xFEFF 0x0100 C i

theorem FPU_SET_C1_testBit (s : FPU) (C i : Nat) :
    (FPU_SET_C1 s C).sw.testBit i =
      ((s.sw.testBit i && Nat.testBit 0xFDFF i) || (decide (C ≠ 0) && Nat.testBit 0x0200 i)) :=
  ite_or_testBit s.sw 0xFDFF 0x0200 C i

theorem FPU_SET_C2_testBit (s : FPU) (C i : Nat) :
    (FPU_SET_C2 s C).sw.testBit i =
      ((s.sw.testBit i && Nat.testBit 0xFBFF i) || (decide (C ≠ 0) && Nat.testBit 0x0400 i)) :=
  ite_or_testBit s.sw 0xFBFF 0x0400 C i

theorem FPU_SET_C3_testBit (s : FPU) (C i : Nat) :
    (FPU_SET_C3 s C).sw.testBit i =
      ((s.sw.testBit i && Nat.testBit 0xBFFF i) || (decide (C ≠ 0) && Nat.testBit 0x4000 i)) :=
  ite_or_testBit s.sw 0xBFFF 0x4000 C i

/-- Condition codes after `FPU_SET_C3`, `FPU_SET_C2`, `FPU_SET_C0` in this order: C3 is
bit 14, C2 bit 10 and C0 bit 8 of the status word; C1 (bit 9) and every other field are
unchanged. -/
theorem set_C3_C2_C0 (s : FPU) (c3 c2 c0 : Nat) :
    (FPU_SET_C0 (FPU_SET_C2 (FPU_SET_C3 s c3) c2) c0).sw.testBit 14 = decide (c3 ≠ 0) ∧
    (FPU_SET_C0 (FPU_SET_C2 (FPU_SET_C3 s c3) c2) c0).sw.testBit 10 = decide (c2 ≠ 0) ∧
    (FPU_SET_C0 (FPU_SET_C2 (FPU_SET_C3 s c3) c2) c0).sw.testBit 8 = decide (c0 ≠ 0) ∧
    (FPU_SET_C0 (FPU_SET_C2 (FPU_SET_C3 s c3) c2) c0).sw.testBit 9 = s.sw.testBit 9 ∧
    (FPU_SET_C0 (FPU_SET_C2 (FPU_SET_C3 s c3) c2) c0).regs = s.regs ∧
    (FPU_SET_C0 (FPU_SET_C2 (FPU_SET_C3 s c3) c2) c0).tags = s.tags ∧
    (FPU_SET_C0 (FPU_SET_C2 (FPU_SET_C3 s c3) c2) c0).top = s.top ∧
    (FPU_SET_C0 (FPU_SET_C2 (FPU_SET_C3 s c3) c2) c0).cw = s.cw := by
  have a1 : Nat.testBit 0xBFFF 14 = false := by decide
  have a2 : Nat.testBit 0xFBFF 14 = true := by decide
  have a3 : Nat.testBit 0xFEFF 14 = true := by decide
  have a4 : Nat.testBit 0x4000 14 = true := by decide
  have a5 : Nat.testBit 0x0400 14 = false := by decide
  have a6 : Nat.testBit 0x0100 14 = false := by decide
  have b1 : Nat.testBit 0xFBFF 10 = false := by decide
  have b3 : Nat.testBit 0xFEFF 10 = true := by decide
  have b5 : Nat.testBit 0x0400 10 = true := by decide
  have b6 : Nat.testBit 0x0100 10 = false := by decide
  have c1 : Nat.testBit 0xFEFF 8 = false := by decide
  have c6 : Nat.testBit 0x0100 8 = true := by decide
  have d1 : Nat.testBit 0xBFFF 9 = true := by decide
  have d2 : Nat.testBit 0xFBFF 9 = true := by decide
  have d3 : Nat.testBit 0xFEFF 9 = true := by decide
  have d4 : Nat.testBit 0x4000 9 = false := by decide
  have d5 : Nat.testBit 0x0400 9 = false := by decide
  have d6 : Nat.testBit 0x0100 9 = false := by decide
  refine ⟨?_, ?_, ?_, ?_, rfl, rfl, rfl, rfl⟩
  · rw [FPU_SET_C0_testBit, FPU_SET_C2_testBit, FPU_SET_C3_testBit, a1, a2, a3, a4, a5, a6]
    simp
  · rw [FPU_SET_C0_testBit, FPU_SET_C2_testBit, b1, b3, b5, b6]
    simp
  · rw [FPU_SET_C0_testBit, c1, c6]
    simp
  · rw [FPU_SET_C0_testBit, FPU_SET_C2_testBit, FPU_SET_C3_testBit, d1, d2, d3, d4, d5, d6]
    simp

/-- C19: `FPU_FCOM` on indices `(a, b)` sets (C3, C2, C0), bits 14, 10 and 8 of the status
word, to (1,1,1) if the tag of `a` or of `b` is neither Valid nor Zero; otherwise to
(1,0,0) if `regs[a] == regs[b]`, to (0,0,1) if `regs[a] < regs[b]` and to (0,0,0) if
`regs[a] > regs[b]`, with the comparisons of the format (one of the three holds unless an
operand is a NaN).  `FPU_FUCOM` is the same function.  Registers, tags, top and the
control word are unchanged. -/
theorem FPU_FCOM_table (f : Fmt) (s : FPU) (a b : Nat) :
    ((s.tags a ≠ .TAG_Valid ∧ s.tags a ≠ .TAG_Zero) ∨
        (s.tags b ≠ .TAG_Valid ∧ s.tags b ≠ .TAG_Zero) →
      (FPU_FCOM f s a b).sw.testBit 14 = true ∧ (FPU_FCOM f s a b).sw.testBit 10 = true ∧
      (FPU_FCOM f s a b).sw.testBit 8 = true) ∧
    (¬ ((s.tags a ≠ .TAG_Valid ∧ s.tags a ≠ .TAG_Zero) ∨
        (s.tags b ≠ .TAG_Valid ∧ s.tags b ≠ .TAG_Zero)) →
      (f.eq (s.regs a) (s.regs b) →
        (FPU_FCOM f s a b).sw.testBit 14 = true ∧ (FPU_FCOM f s a b).sw.testBit 10 = false ∧
        (FPU_FCOM f s a b).sw.testBit 8 = false) ∧
      (f.lt (s.regs a) (s.regs b) →
        (FPU_FCOM f s a b).sw.testBit 14 = false ∧ (FPU_FCOM f s a b).sw.testBit 10 = false ∧
        (FPU_FCOM f s a b).sw.testBit 8 = true) ∧
      (f.gt (s.regs a) (s.regs b) →
        (FPU_FCOM f s a b).sw.testBit 14 = false ∧ (FPU_FCOM f s a b).sw.testBit 10 = false ∧
        (FPU_FCOM f s a b).sw.testBit 8 = false)) ∧
    (¬ f.isNaN (s.regs a) → ¬ f.isNaN (s.regs b) →
      f.eq (s.regs a) (s.regs b) ∨ f.lt (s.regs a) (s.regs b) ∨ f.gt (s.regs a) (s.regs b)) ∧
    FPU_FUCOM f s a b = FPU_FCOM f s a b ∧
    (FPU_FCOM f s a b).regs = s.regs ∧ (FPU_FCOM f s a b).tags = s.tags ∧
    (FPU_FCOM f s a b).top = s.top ∧ (FPU_FCOM f s a b).cw = s.cw := by
  refine ⟨?_, ?_, ?_, rfl, ?_⟩
  · intro hbad
    unfold FPU_FCOM
    rw [if_pos hbad]
    obtain ⟨h1, h2, h3, _⟩ := set_C3_C2_C0 s 1 1 1
    exact ⟨by rw [h1]; decide, by rw [h2]; decide, by rw [h3]; decide⟩
  · intro hgood
    refine ⟨?_, ?_, ?_⟩
    · intro heq
      unfold FPU_FCOM
      rw [if_neg hgood, if_pos heq]
      obtain ⟨h1, h2, h3, _⟩ := set_C3_C2_C0 s 1 0 0
      exact ⟨by rw [h1]; decide, by rw [h2]; decide, by rw [h3]; decide⟩
    · intro hlt
      have hne : ¬ f.eq (s.regs a) (s.regs b) := by
        intro h
        have h1 := h.2.2
        have h2 := hlt.2.2
        omega
      unfold FPU_FCOM
      rw [if_neg hgood, if_neg hne, if_pos hlt]
      obtain ⟨h1, h2, h3, _⟩ := set_C3_C2_C0 s 0 0 1
      exact ⟨by rw [h1]; decide, by rw [h2]; decide, by rw [h3]; decide⟩
    · intro hgt
      have hne : ¬ f.eq (s.regs a) (s.regs b) := by
        intro h
        have h1 := h.2.2
        have h2 := hgt.2.2
        omega
      have hnl : ¬ f.lt (s.regs a) (s.regs b) := by
        intro h
        have h1 := h.2.2
        have h2 := hgt.2.2
        omega
      unfold FPU_FCOM
      rw [if_neg hgood, if_neg hne, if_neg hnl]
      obtain ⟨h1, h2, h3, _⟩ := set_C3_C2_C0 s 0 0 0
      exact ⟨by rw [h1]; decide, by rw [h2]; decide, by rw [h3]; decide⟩
  · intro ha hb
    rcases lt_trichotomy (f.sval (s.regs a)) (f.sval (s.regs b)) with h | h | h
    · exact Or.inr (Or.inl ⟨ha, hb, h⟩)
    · exact Or.inl ⟨ha, hb, h⟩
    · exact Or.inr (Or.inr ⟨hb, ha, h⟩)
  · unfold FPU_FCOM
    split_ifs
    · obtain ⟨_, _, _, _, h⟩ := set_C3_C2_C0 s 1 1 1; exact h
    · obtain ⟨_, _, _, _, h⟩ := set_C3_C2_C0 s 1 0 0; exact h
    · obtain ⟨_, _, _, _, h⟩ := set_C3_C2_C0 s 0 0 1; exact h
    · obtain ⟨_, _, _, _, h⟩ := set_C3_C2_C0 s 0 0 0; exact h

/-- C19 applies to the comparison of 1.0 in slot 0 with 2.0 in slot 1, both Valid. -/
theorem FPU_FCOM_table_witness :
    (FPU_FCOM binary64 { fullStack with
        regs := fun i => if i = 0 then 0x3FF0000000000000 else 0x4000000000000000 } 0 1).sw.testBit 14
      = false ∧
    (FPU_FCOM binary64 { fullStack with
        regs := fun i => if i = 0 then 0x3FF0000000000000 else 0x4000000000000000 } 0 1).sw.testBit 10
      = false ∧
    (FPU_FCOM binary64 { fullStack with
        regs := fun i => if i = 0 then 0x3FF0000000000000 else 0x4000000000000000 } 0 1).sw.testBit 8
      = true :=
  ((FPU_FCOM_table binary64 { fullStack with
        regs := fun i => if i = 0 then 0x3FF0000000000000 else 0x4000000000000000 } 0 1).2.1
    (by decide)).2.1 (by decide)

/-! ## Integer store -/

theorem shl_cast (k : Nat) : ((1 <<< k : Nat) : Int) = ((2 ^ k : Nat) : Int) := by
  rw [Nat.one_shiftLeft]

/-- The guarded conversion of an integer store, on any finite pattern `y`: with `hi` and
`lo` the patterns of `2^(bits-1)` and `-2^(bits-1)`, the value written is the encoding of
the value of `y` truncated toward zero. -/
theorem guarded_toSInt (f : Fmt) (bits : Nat) (hb : 1 ≤ bits) (y hi lo : Nat)
    (hy : f.isFinite y) (hhi : ¬ f.isNaN hi) (hlo : ¬ f.isNaN lo)
    (vhi : f.sval hi = (((2 ^ (bits - 1) * 2 ^ f.scale : Nat)) : Int))
    (vlo : f.sval lo = -(((2 ^ (bits - 1) * 2 ^ f.scale : Nat)) : Int)) :
    (if f.lt y hi ∧ f.ge y lo then f.toSInt bits y else 1 <<< (bits - 1))
      = encodeInt bits (Int.tdiv (f.sval y) ((1 <<< f.scale : Nat) : Int)) := by
  have hnan : ¬ f.isNaN y := fun h => hy h.1
  have hS : 0 < 2 ^ f.scale := Nat.pow_pos (by norm_num)
  have hB : 0 < 2 ^ (bits - 1) := Nat.pow_pos (by norm_num)
  have hP : 2 ^ bits = 2 * 2 ^ (bits - 1) := by
    obtain ⟨c, rfl⟩ : ∃ c, bits = c + 1 := ⟨bits - 1, by omega⟩
    rw [Nat.add_sub_cancel, pow_succ]; ring
  have hsb := f.signBit_le y
  have hsv := f.sval_sign y
  have ha : f.mag y >>> f.scale = f.mag y / 2 ^ f.scale := Nat.shiftRight_eq_div_pow _ _
  unfold Fmt.toSInt encodeInt Fmt.lt Fmt.ge
  simp only [ha, Nat.one_shiftLeft, vhi, vlo]
  generalize hm : f.mag y = m at *
  generalize hSS : 2 ^ f.scale = S at *
  generalize hBB : 2 ^ (bits - 1) = B at *
  generalize hPP : 2 ^ bits = P at *
  have hBS : 0 < B * S := Nat.mul_pos hB hS
  have d1 : m / S < B ↔ m < B * S := Nat.div_lt_iff_lt_mul hS
  have d2 : B ≤ m / S ↔ B * S ≤ m := Nat.le_div_iff_mul_le hS
  have d3 : m ≤ B * S → m / S ≤ B := fun h => by
    have := Nat.div_le_div_right (c := S) h
    rwa [Nat.mul_div_cancel _ hS] at this
  rcases Nat.lt_or_ge (f.signBit y) 1 with h0 | h1
  · have h0 : f.signBit y = 0 := by omega
    have sv : f.sval y = (m : Int) := hsv.2 h0
    have td : Int.tdiv (m : Int) (S : Int) = ((m / S : Nat) : Int) := (Int.ofNat_tdiv m S).symm
    rw [sv, td]
    generalize ha2 : m / S = a at *
    by_cases hlt : m < B * S
    · have haB : a < B := d1.mpr hlt
      have c1 : (¬ f.isNaN y ∧ ¬ f.isNaN hi ∧ (m : Int) < ((B * S : Nat) : Int)) ∧
          (¬ f.isNaN y ∧ ¬ f.isNaN lo ∧ -((B * S : Nat) : Int) ≤ (m : Int)) :=
        ⟨⟨hnan, hhi, by exact_mod_cast hlt⟩, ⟨hnan, hlo, by omega⟩⟩
      rw [if_pos c1, if_pos ⟨hy, h0, haB⟩, if_pos ⟨by omega, by exact_mod_cast haB⟩]
      have : (a : Int) % (P : Int) = (a : Int) :=
        Int.emod_eq_of_lt (by omega) (by exact_mod_cast (by omega : a < P))
      rw [this]; rfl
    · have haB : B ≤ a := d2.mpr (by omega)
      have c1 : ¬ ((¬ f.isNaN y ∧ ¬ f.isNaN hi ∧ (m : Int) < ((B * S : Nat) : Int)) ∧
          (¬ f.isNaN y ∧ ¬ f.isNaN lo ∧ -((B * S : Nat) : Int) ≤ (m : Int))) := by
        intro h
        have := h.1.2.2
        omega
      have c2 : ¬ (-(B : Int) ≤ (a : Int) ∧ (a : Int) < (B : Int)) := by omega
      rw [if_neg c1, if_neg c2]
  · have h1 : f.signBit y = 1 := by omega
    have sv : f.sval y = -(m : Int) := hsv.1 h1
    have td : Int.tdiv (-(m : Int)) (S : Int) = -((m / S : Nat) : Int) := by
      rw [Int.neg_tdiv, ← Int.ofNat_tdiv]
    rw [sv, td]
    generalize ha2 : m / S = a at *
    have s0 : ¬ (f.isFinite y ∧ f.signBit y = 0 ∧ a < B) := by
      intro h; omega
    by_cases hle : m ≤ B * S
    · have haB : a ≤ B := d3 hle
      have c1 : (¬ f.isNaN y ∧ ¬ f.isNaN hi ∧ -(m : Int) < ((B * S : Nat) : Int)) ∧
          (¬ f.isNaN y ∧ ¬ f.isNaN lo ∧ -((B * S : Nat) : Int) ≤ -(m : Int)) :=
        ⟨⟨hnan, hhi, by omega⟩, ⟨hnan, hlo, by omega⟩⟩
      rw [if_pos c1, if_neg s0, if_pos ⟨hy, h1, haB⟩, if_pos ⟨by omega, by omega⟩]
      rcases Nat.eq_zero_or_pos a with z | pos
      · subst z
        simp
      · have e1 : (P - a) % P = P - a := Nat.mod_eq_of_lt (by omega)
        have e2 : (-(a : Int)) % (P : Int) = ((P - a : Nat) : Int) := by
          have : (-(a : Int)) % (P : Int) = (-(a : Int) + (P : Int)) % (P : Int) := by
            rw [Int.add_emod_self]
          rw [this, Int.emod_eq_of_lt (by omega) (by omega)]
          omega
        rw [e1, e2]; rfl
    · have haB : B ≤ a := d2.mpr (by omega)
      have c1 : ¬ ((¬ f.isNaN y ∧ ¬ f.isNaN hi ∧ -(m : Int) < ((B * S : Nat) : Int)) ∧
          (¬ f.isNaN y ∧ ¬ f.isNaN lo ∧ -((B * S : Nat) : Int) ≤ -(m : Int))) := by
        intro h
        have := h.2.2.2
        omega
      rw [if_neg c1]
      by_cases hab : a = B
      · have c2 : -(B : Int) ≤ -(a : Int) ∧ -(a : Int) < (B : Int) := by omega
        rw [if_pos c2]
        have e2 : (-(a : Int)) % (P : Int) = (B : Int) := by
          have : (-(a : Int)) % (P : Int) = (-(a : Int) + (P : Int)) % (P : Int) := by
            rw [Int.add_emod_self]
          rw [this, Int.emod_eq_of_lt (by omega) (by omega)]
          omega
        rw [e2]; rfl
      · have c2 : ¬ (-(B : Int) ≤ -(a : Int) ∧ -(a : Int) < (B : Int)) := by omega
        rw [if_neg c2]

/-- The integer nearest to `v / S`, ties to even, is determined by its two properties. -/
theorem nearest_unique (v r : Int) (S : Nat) (hS : 0 < S)
    (h1 : 2 * (v - r * (S : Int)).natAbs ≤ S)
    (h2 : 2 * (v - r * (S : Int)).natAbs = S → r % 2 = 0) :
    r = if 2 * (v % (S : Int)) > (S : Int) ∨
        (2 * (v % (S : Int)) = (S : Int) ∧ (v / (S : Int)) % 2 ≠ 0)
      then v / (S : Int) + 1 else v / (S : Int) := by
  have hS0 : (0 : Int) < (S : Int) := by exact_mod_cast hS
  have e1 := Int.emod_add_ediv v (S : Int)
  have e2 := Int.emod_nonneg v (ne_of_gt hS0)
  have e3 := Int.emod_lt_of_pos v hS0
  generalize hq : v / (S : Int) = q at *
  generalize hrem : v % (S : Int) = rem at *
  obtain ⟨d, rfl⟩ : ∃ d, r = q + d := ⟨r - q, by ring⟩
  have e4 : v - (q + d) * (S : Int) = rem - d * (S : Int) := by rw [← e1]; ring
  rw [e4] at h1 h2
  have hd : d = 0 ∨ d = 1 := by
    by_contra hne
    push_neg at hne
    rcases lt_or_gt_of_ne hne.1 with hneg | hpos
    · have : d * (S : Int) ≤ (-1) * (S : Int) := mul_le_mul_of_nonneg_right (by omega) (le_of_lt hS0)
      omega
    · have hd2 : 2 ≤ d := by omega
      have : 2 * (S : Int) ≤ d * (S : Int) := mul_le_mul_of_nonneg_right hd2 (le_of_lt hS0)
      omega
  rcases hd with rfl | rfl
  · simp only [zero_mul, sub_zero, add_zero] at h1 h2 ⊢
    have c : ¬ (2 * rem > (S : Int) ∨ (2 * rem = (S : Int) ∧ q % 2 ≠ 0)) := by
      rintro (h | ⟨h, h3⟩)
      · omega
      · exact h3 (h2 (by omega))
    rw [if_neg c]
  · simp only [one_mul] at h1 h2 ⊢
    have c : 2 * rem > (S : Int) ∨ (2 * rem = (S : Int) ∧ q % 2 ≠ 0) := by
      by_cases h : 2 * rem > (S : Int)
      · exact Or.inl h
      · refine Or.inr ⟨by omega, ?_⟩
        have := h2 (by omega)
        omega
    rw [if_pos c]

/-- The three rounding functions on a finite pattern give integral values: the value
rounded by the mode, as `roundInt` words it. -/
theorem round_modes (f : Fmt) (hf : f.Valid) (bits : Nat) (hb : f.p + 2 ≤ bits) (x : Nat)
    (hx : f.isFinite x) :
    (f.isFinite (f.nearest bits x) ∧ f.nearest bits x < 2 ^ (f.p + f.w + 1) ∧
      f.sval (f.nearest bits x)
        = roundInt .ROUND_Nearest (f.sval x) f.scale * ((2 ^ f.scale : Nat) : Int)) ∧
    (f.isFinite (f.floor x) ∧ f.floor x < 2 ^ (f.p + f.w + 1) ∧
      f.sval (f.floor x)
        = roundInt .ROUND_Down (f.sval x) f.scale * ((2 ^ f.scale : Nat) : Int)) ∧
    (f.isFinite (f.ceil x) ∧ f.ceil x < 2 ^ (f.p + f.w + 1) ∧
      f.sval (f.ceil x)
        = roundInt .ROUND_Up (f.sval x) f.scale * ((2 ^ f.scale : Nat) : Int)) := by
  have hS : 0 < 2 ^ f.scale := Nat.pow_pos (by norm_num)
  refine ⟨?_, ?_, ?_⟩
  · obtain ⟨r, h1, h2, h3, h4, h5⟩ := f.nearest_spec hf bits hb x hx
    refine ⟨h1, h2, ?_⟩
    rw [h3]
    congr 1
    have := nearest_unique (f.sval x) r (2 ^ f.scale) hS h4 h5
    rw [this]
    simp only [roundInt, shl_cast]
  · obtain ⟨h1, _, _, _, h5, h6⟩ := f.floor_spec hf x hx
    refine ⟨h1, h5, ?_⟩
    rw [h6]
    simp only [roundInt, shl_cast]
  · obtain ⟨h1, _, _, h5, h6⟩ := f.ceil_spec hf x hx
    refine ⟨h1, h5, ?_⟩
    rw [h6]
    simp only [roundInt, shl_cast]

/-- Truncation of an integral value gives the integer. -/
theorem tdiv_integral (r : Int) (k : Nat) :
    Int.tdiv (r * ((2 ^ k : Nat) : Int)) ((1 <<< k : Nat) : Int) = r := by
  rw [shl_cast]
  have : ((2 ^ k : Nat) : Int) ≠ 0 := by
    have : 0 < 2 ^ k := Nat.pow_pos (by norm_num)
    omega
  exact Int.mul_tdiv_cancel r this

/-- The value of `FROUND` of the Extended build, truncated as the conversion to an
integer type does, is the register value rounded by the active mode. -/
theorem FROUND_trunc (s : FPU) (x : Nat) (hx : binary64.isFinite x) :
    binary64.isFinite (FROUND s x) ∧
    Int.tdiv (binary64.sval (FROUND s x)) ((1 <<< binary64.scale : Nat) : Int)
      = roundInt s.round (binary64.sval x) binary64.scale := by
  obtain ⟨⟨a1, _, a3⟩, ⟨b1, _, b3⟩, ⟨c1, _, c3⟩⟩ :=
    round_modes binary64 binary64_valid 64 (by decide) x hx
  cases hr : s.round
  · simp only [FROUND, hr]
    exact ⟨a1, by rw [a3, tdiv_integral]⟩
  · simp only [FROUND, hr]
    exact ⟨b1, by rw [b3, tdiv_integral]⟩
  · simp only [FROUND, hr]
    exact ⟨c1, by rw [c3, tdiv_integral]⟩
  · simp only [FROUND, hr]
    exact ⟨hx, rfl⟩

/-- The same fact for `FROUND` of the Reduced build, on `float` patterns. -/
theorem FROUND_Reduced_trunc (s : FPU) (x : Nat) (hx : binary32.isFinite x) :
    binary32.isFinite (FROUND_Reduced s x) ∧
    Int.tdiv (binary32.sval (FROUND_Reduced s x)) ((1 <<< binary32.scale : Nat) : Int)
      = roundInt s.round (binary32.sval x) binary32.scale := by
  obtain ⟨⟨a1, _, a3⟩, ⟨b1, _, b3⟩, ⟨c1, _, c3⟩⟩ :=
    round_modes binary32 binary32_valid 32 (by decide) x hx
  cases hr : s.round
  · simp only [FROUND_Reduced, hr]
    exact ⟨a1, by rw [a3, tdiv_integral]⟩
  · simp only [FROUND_Reduced, hr]
    exact ⟨b1, by rw [b3, tdiv_integral]⟩
  · simp only [FROUND_Reduced, hr]
    exact ⟨c1, by rw [c3, tdiv_integral]⟩
  · simp only [FROUND_Reduced, hr]
    exact ⟨hx, rfl⟩

theorem tdiv_scale (v : Int) (S c : Nat) (hc : 0 < c) :
    Int.tdiv (v * (c : Int)) (((S * c : Nat)) : Int) = Int.tdiv v (S : Int) := by
  obtain ⟨n, rfl | rfl⟩ := Int.eq_nat_or_neg v
  · rw [← Int.ofNat_tdiv, ← Nat.cast_mul, ← Int.ofNat_tdiv, Nat.mul_div_mul_right _ _ hc]
  · rw [Int.neg_mul, Int.neg_tdiv, Int.neg_tdiv, ← Int.ofNat_tdiv, ← Nat.cast_mul,
      ← Int.ofNat_tdiv, Nat.mul_div_mul_right _ _ hc]

/-- A pattern that is not finite fails one of the two range tests of an integer store. -/
theorem guarded_nonfinite (f : Fmt) (hf : f.Valid) (bits : Nat) (y hi lo : Nat)
    (hy : ¬ f.isFinite y) (hbits : bits - 1 + f.scale < f.p + (f.emax - 1))
    (vhi : f.sval hi = (((2 ^ (bits - 1) * 2 ^ f.scale : Nat)) : Int))
    (vlo : f.sval lo = -(((2 ^ (bits - 1) * 2 ^ f.scale : Nat)) : Int)) :
    ¬ (f.lt y hi ∧ f.ge y lo) := by
  rintro ⟨h1, h2⟩
  have hnan : ¬ f.isNaN y := h1.1
  have he : f.expField y = f.emax := by
    unfold Fmt.isFinite at hy
    exact not_not.mp hy
  have hfr : f.fracField y = 0 := by
    by_contra h
    exact hnan ⟨he, h⟩
  have hpos : 0 < f.emax := by
    have := (f.scale_facts hf).2.1
    omega
  have hmag : 2 ^ (bits - 1) * 2 ^ f.scale < f.mag y := by
    rw [f.mag_eq, he, hfr, ← pow_add, if_neg (by omega), Nat.add_zero, ← pow_add]
    exact Nat.pow_lt_pow_right (by norm_num) hbits
  have hsv := f.sval_sign y
  have hsb := f.signBit_le y
  have l1 := h1.2.2
  have l2 := h2.2.2
  rw [vhi] at l1
  rw [vlo] at l2
  generalize 2 ^ (bits - 1) * 2 ^ f.scale = T at hmag l1 l2
  rcases Nat.lt_or_ge (f.signBit y) 1 with h0 | h1
  · rw [hsv.2 (by omega)] at l1
    omega
  · rw [hsv.1 (by omega)] at l2
    omega

theorem shl_dyadic (m M j k : Nat) (hm : m = M * 2 ^ j) : m <<< k = M * 2 ^ (j + k) := by
  rw [Nat.shiftLeft_eq, hm, Nat.mul_assoc, ← Nat.pow_add]

theorem dyadic_split (m M j k : Nat) (hm : m = M * 2 ^ j) : M * 2 ^ (j + k) = m * 2 ^ k := by
  rw [hm, pow_add, Nat.mul_assoc]

/-- The conversion of a finite `float` to `double` is exact. -/
theorem promote_finite (x : Nat) (hx : binary32.isFinite x) :
    binary64.isFinite (promote x) ∧
      binary64.sval (promote x) = binary32.sval x * ((1 <<< 925 : Nat) : Int) := by
  have hc : ∀ k : Nat, (1 <<< k : Nat) = 2 ^ k := fun k => Nat.one_shiftLeft k
  rw [hc 925]
  obtain ⟨M, j, hm, hM, hj⟩ := binary32.mag_dyadic binary32_valid x hx
  have e32 : binary32.emax = 255 := by decide
  have p32 : binary32.p = 23 := rfl
  rw [e32] at hj
  rw [p32] at hM
  have hr := binary64.roundMag_repr binary64_valid M (j + 925)
    (by
      have : binary64.p = 52 := rfl
      rw [this]
      calc M < 2 ^ (23 + 1) := hM
        _ ≤ 2 ^ (52 + 1) := Nat.pow_le_pow_right (by norm_num) (by norm_num))
    (by
      have : binary64.emax = 2047 := by decide
      rw [this]; omega)
  have hnan : ¬ binary32.isNaN x := fun h => hx h.1
  have e1 : binary32.mag x <<< 925 = M * 2 ^ (j + 925) := by
    exact shl_dyadic _ M j 925 hm
  unfold promote
  rw [if_neg hnan, if_neg (not_not.mpr hx), e1]
  have hlt := lt_trans hr.1 (binary64.emax_mul_lt)
  have hsb := binary32.signBit_le x
  have hsb1 : binary32.signBit x ≤ 1 := by omega
  refine ⟨(binary64.withSign_isFinite _ _ hsb1 hlt).mpr (binary64.finite_of_lt _ hr.1).1, ?_⟩
  rw [binary64.withSign_sval _ _ hsb1 hlt, hr.2]
  have hsv := binary32.sval_sign x
  have e2 : M * 2 ^ (j + 925) = binary32.mag x * 2 ^ 925 := dyadic_split _ M j 925 hm
  rw [e2]
  generalize (2 ^ 925 : Nat) = c
  by_cases h : binary32.signBit x = 1
  · rw [if_pos h, hsv.1 h]
    push_cast; ring
  · rw [if_neg h, hsv.2 (by omega)]
    push_cast; ring

/-- The conversion of a `float` infinity or NaN to `double` is an infinity or a NaN. -/
theorem promote_nonfinite (x : Nat) (hx : ¬ binary32.isFinite x) :
    ¬ binary64.isFinite (promote x) := by
  have hsb := binary32.signBit_le x
  have hsb1 : binary32.signBit x ≤ 1 := by omega
  have hinf : binary64.inf = 2047 * 2 ^ 52 := by decide
  have p64 : binary64.p = 52 := rfl
  have w64 : binary64.w = 11 := rfl
  have em : binary64.emax = 2047 := by decide
  unfold promote
  by_cases hn : binary32.isNaN x
  · rw [if_pos hn]
    have hfr := binary32.fracField_lt x
    have p32 : binary32.p = 23 := rfl
    rw [p32] at hfr
    have hfr0 : binary32.fracField x ≠ 0 := hn.2
    have e1 : binary32.fracField x <<< 29 = binary32.fracField x * 536870912 := by
      rw [Nat.shiftLeft_eq]
    have hb : binary32.fracField x * 536870912 < 2 ^ binary64.p := by
      rw [p64]; norm_num at hfr ⊢; omega
    have hfields := binary64.fields_of_parts 2047 (binary32.fracField x * 536870912)
      (by rw [w64]; norm_num) hb
    rw [p64] at hfields
    have hnan : binary64.isNaN (binary64.withSign (binary32.signBit x)
        (binary64.inf + (binary32.fracField x <<< 29))) := by
      rw [binary64.withSign_isNaN _ _ hsb1 (by
        rw [hinf, e1, p64, w64]; norm_num at hfr ⊢; omega)]
      rw [hinf, e1]
      refine ⟨by rw [hfields.1, em], ?_⟩
      rw [hfields.2]
      omega
    exact fun h => h (binary64.isNaN_quiet binary64_valid _ hnan).1
  · rw [if_neg hn, if_pos hx]
    rw [binary64.withSign_isFinite _ _ hsb1 (by rw [hinf, p64, w64]; norm_num)]
    decide

theorem encodeInt_lt (bits : Nat) (hb : 1 ≤ bits) (r : Int) : encodeInt bits r < 2 ^ bits := by
  have hP : 2 ^ bits = 2 * 2 ^ (bits - 1) := by
    obtain ⟨c, rfl⟩ : ∃ c, bits = c + 1 := ⟨bits - 1, by omega⟩
    rw [Nat.add_sub_cancel, pow_succ]; ring
  have hB : 0 < 2 ^ (bits - 1) := Nat.pow_pos (by norm_num)
  unfold encodeInt
  simp only [Nat.one_shiftLeft]
  split
  · have hpos : (0 : Int) < ((2 ^ bits : Nat) : Int) := by
      have : 0 < 2 ^ bits := Nat.pow_pos (by norm_num)
      exact_mod_cast this
    have h1 := Int.emod_lt_of_pos r hpos
    have h2 := Int.emod_nonneg r (ne_of_gt hpos)
    omega
  · omega

/-- The patterns the integer stores compare with: `2^15`, `2^31`, `2^63` and their
negations, in `double`. -/
theorem store_bounds :
    (¬ binary64.isNaN 0x40E0000000000000 ∧ ¬ binary64.isNaN 0xC0E0000000000000 ∧
      binary64.sval 0x40E0000000000000 = ((2 ^ (16 - 1) * 2 ^ binary64.scale : Nat) : Int) ∧
      binary64.sval 0xC0E0000000000000 = -((2 ^ (16 - 1) * 2 ^ binary64.scale : Nat) : Int)) ∧
    (¬ binary64.isNaN 0x41E0000000000000 ∧ ¬ binary64.isNaN 0xC1E0000000000000 ∧
      binary64.sval 0x41E0000000000000 = ((2 ^ (32 - 1) * 2 ^ binary64.scale : Nat) : Int) ∧
      binary64.sval 0xC1E0000000000000 = -((2 ^ (32 - 1) * 2 ^ binary64.scale : Nat) : Int)) ∧
    (¬ binary64.isNaN 0x43E0000000000000 ∧ ¬ binary64.isNaN 0xC3E0000000000000 ∧
      binary64.sval 0x43E0000000000000 = ((2 ^ (64 - 1) * 2 ^ binary64.scale : Nat) : Int) ∧
      binary64.sval 0xC3E0000000000000 = -((2 ^ (64 - 1) * 2 ^ binary64.scale : Nat) : Int)) := by
  have hc : ∀ a b : Nat, 2 ^ a * 2 ^ b = 1 <<< (a + b) := fun a b => by
    rw [Nat.one_shiftLeft, pow_add]
  simp only [hc]
  decide

/-- The guarded conversion of an integer store of the Extended build, on any pattern. -/
theorem guarded64 (bits : Nat) (hb1 : 1 ≤ bits) (hb2 : bits ≤ 64) (y hi lo : Nat)
    (hhi : ¬ binary64.isNaN hi) (hlo : ¬ binary64.isNaN lo)
    (vhi : binary64.sval hi = (((2 ^ (bits - 1) * 2 ^ binary64.scale : Nat)) : Int))
    (vlo : binary64.sval lo = -(((2 ^ (bits - 1) * 2 ^ binary64.scale : Nat)) : Int)) :
    (if binary64.lt y hi ∧ binary64.ge y lo then binary64.toSInt bits y else 1 <<< (bits - 1))
      = if binary64.isFinite y
          then encodeInt bits (Int.tdiv (binary64.sval y) ((1 <<< binary64.scale : Nat) : Int))
          else 1 <<< (bits - 1) := by
  by_cases hy : binary64.isFinite y
  · rw [if_pos hy]
    exact guarded_toSInt binary64 bits hb1 y hi lo hy hhi hlo vhi vlo
  · rw [if_neg hy, if_neg]
    refine guarded_nonfinite binary64 binary64_valid bits y hi lo hy ?_ vhi vlo
    have e1 : binary64.scale = 1074 := by decide
    have e2 : binary64.emax = 2047 := by decide
    have e3 : binary64.p = 52 := rfl
    rw [e1, e2, e3]
    omega

/-- The value `FROUND` gives the integer stores of the Extended build. -/
theorem FROUND_cases (s : FPU) (x : Nat) (bits : Nat) :
    (if binary64.isFinite (FROUND s x)
      then encodeInt bits
        (Int.tdiv (binary64.sval (FROUND s x)) ((1 <<< binary64.scale : Nat) : Int))
      else 1 <<< (bits - 1))
    = if binary64.isFinite x
        then encodeInt bits (roundInt s.round (binary64.sval x) binary64.scale)
        else 1 <<< (bits - 1) := by
  by_cases hx : binary64.isFinite x
  · obtain ⟨h1, h2⟩ := FROUND_trunc s x hx
    rw [if_pos hx, if_pos h1, h2]
  · have hfix := binary64.nonfinite_fix binary64_valid 64 (by norm_num) x hx
    have e : FROUND s x = x := by
      cases hr : s.round <;> simp only [FROUND, hr]
      · exact hfix.2.2
      · exact hfix.1
      · exact hfix.2.1
    rw [e, if_neg hx, if_neg hx]

/-- The value `FROUND` gives the integer stores of the Reduced build. -/
theorem FROUND_Reduced_cases (s : FPU) (x : Nat) (bits : Nat) :
    (if binary64.isFinite (promote (FROUND_Reduced s x))
      then encodeInt bits
        (Int.tdiv (binary64.sval (promote (FROUND_Reduced s x)))
          ((1 <<< binary64.scale : Nat) : Int))
      else 1 <<< (bits - 1))
    = if binary32.isFinite x
        then encodeInt bits (roundInt s.round (binary32.sval x) binary32.scale)
        else 1 <<< (bits - 1) := by
  by_cases hx : binary32.isFinite x
  · obtain ⟨h1, h2⟩ := FROUND_Reduced_trunc s x hx
    obtain ⟨h3, h4⟩ := promote_finite _ h1
    have e : (1 <<< binary64.scale : Nat) = (1 <<< binary32.scale) * (1 <<< 925) := by decide
    rw [if_pos hx, if_pos h3, h4, e, tdiv_scale _ _ _ (by decide), h2]
  · have hfix := binary32.nonfinite_fix binary32_valid 32 (by norm_num) x hx
    have e : FROUND_Reduced s x = x := by
      cases hr : s.round <;> simp only [FROUND_Reduced, hr]
      · exact hfix.2.2
      · exact hfix.1
      · exact hfix.2.1
    rw [e, if_neg hx, if_neg (promote_nonfinite x hx)]

theorem mem_readw_writew (m : Mem) (a v : Nat) : mem_readw (mem_writew m a v) a = v % 65536 := by
  refine mem_readw_of_bytes _ _ v ?_ ?_ <;> simp [mem_readb_writew]

theorem mem_readd_writed (m : Mem) (a v : Nat) :
    mem_readd (mem_writed m a v) a = v % 4294967296 := by
  refine mem_readd_of_bytes _ _ v ?_ ?_ ?_ ?_ <;> simp [mem_readb_writed]

theorem mem_writew_frame (m : Mem) (a v j : Nat) (h : j < a ∨ a + 2 ≤ j) :
    mem_writew m a v j = m j := by
  unfold mem_writew mem_writeb
  have h1 : j ≠ a + 1 := by omega
  have h2 : j ≠ a := by omega
  simp [h1, h2]

theorem mem_writed_frame (m : Mem) (a v j : Nat) (h : j < a ∨ a + 4 ≤ j) :
    mem_writed m a v j = m j := by
  unfold mem_writed
  rw [mem_writew_frame _ _ _ _ (by omega), mem_writew_frame _ _ _ _ (by omega)]

theorem mem_readd_pair (m : Mem) (a v : Nat) (hv : v < 18446744073709551616) :
    mem_readd (mem_writed (mem_writed m a (v % 4294967296)) (a + 4) (v / 4294967296)) a
      + 4294967296 * mem_readd (mem_writed (mem_writed m a (v % 4294967296)) (a + 4)
          (v / 4294967296)) (a + 4) = v := by
  have h1 : mem_readd (mem_writed (mem_writed m a (v % 4294967296)) (a + 4) (v / 4294967296)) a
      = v % 4294967296 % 4294967296 := by
    refine mem_readd_of_bytes _ _ _ ?_ ?_ ?_ ?_ <;> simp [mem_readb_writed, Nat.add_assoc]
  rw [h1, mem_readd_writed]
  omega

/-- The integer `roundInt` gives, characterised for the value `v / 2^k`: in mode Down it
is the floor, in mode Up the ceiling, in mode Chop the floor of a non-negative and the
ceiling of a non-positive value, and in mode Nearest an integer at distance at most one
half, the even one at distance exactly one half. -/
theorem roundInt_spec (v : Int) (k : Nat) :
    (roundInt .ROUND_Down v k * ((2 ^ k : Nat) : Int) ≤ v ∧
      v < (roundInt .ROUND_Down v k + 1) * ((2 ^ k : Nat) : Int)) ∧
    ((roundInt .ROUND_Up v k - 1) * ((2 ^ k : Nat) : Int) < v ∧
      v ≤ roundInt .ROUND_Up v k * ((2 ^ k : Nat) : Int)) ∧
    ((0 ≤ v → roundInt .ROUND_Chop v k = roundInt .ROUND_Down v k) ∧
      (v ≤ 0 → roundInt .ROUND_Chop v k = roundInt .ROUND_Up v k)) ∧
    (2 * |v - roundInt .ROUND_Nearest v k * ((2 ^ k : Nat) : Int)| ≤ ((2 ^ k : Nat) : Int) ∧
      (2 * |v - roundInt .ROUND_Nearest v k * ((2 ^ k : Nat) : Int)| = ((2 ^ k : Nat) : Int) →
        roundInt .ROUND_Nearest v k % 2 = 0)) := by
  have hS : (0 : Int) < ((2 ^ k : Nat) : Int) := by
    have : 0 < 2 ^ k := Nat.pow_pos (by norm_num)
    exact_mod_cast this
  simp only [roundInt, shl_cast]
  generalize ((2 ^ k : Nat) : Int) = S at hS ⊢
  have e1 := Int.emod_add_ediv v S
  have e2 := Int.emod_nonneg v (ne_of_gt hS)
  have e3 := Int.emod_lt_of_pos v hS
  have f1 := Int.emod_add_ediv (-v) S
  have f2 := Int.emod_nonneg (-v) (ne_of_gt hS)
  have f3 := Int.emod_lt_of_pos (-v) hS
  refine ⟨⟨?_, ?_⟩, ⟨?_, ?_⟩, ⟨?_, ?_⟩, ?_⟩
  · rw [Int.mul_comm]; omega
  · rw [Int.add_mul, Int.mul_comm (v / S)]; omega
  · rw [Int.sub_mul, Int.neg_mul, Int.mul_comm (-v / S)]; omega
  · rw [Int.neg_mul, Int.mul_comm (-v / S)]; omega
  · intro h
    exact Int.tdiv_eq_ediv h (le_of_lt hS)
  · intro h
    have : v = -(-v) := by ring
    rw [this, Int.neg_tdiv, Int.tdiv_eq_ediv (by omega) (le_of_lt hS), neg_neg]
  · by_cases c : 2 * (v % S) > S ∨ (2 * (v % S) = S ∧ v / S % 2 ≠ 0)
    · rw [if_pos c]
      have e4 : v - (v / S + 1) * S = v % S - S := by
        rw [Int.add_mul, Int.mul_comm (v / S)]; omega
      rw [e4]
      have e5 : |v % S - S| = S - v % S := by
        rw [abs_of_nonpos (by omega)]; ring
      rw [e5]
      refine ⟨by rcases c with c | c <;> omega, fun h => ?_⟩
      rcases c with c | c
      · omega
      · omega
    · rw [if_neg c]
      have e4 : v - v / S * S = v % S := by
        rw [Int.mul_comm (v / S)]; omega
      rw [e4, abs_of_nonneg e2]
      push_neg at c
      refine ⟨by omega, fun h => ?_⟩
      have := c.2 h
      omega

theorem FPU_FST_I16_value (s : FPU) (mem : Mem) (addr : Nat) :
    mem_readw (FPU_FST_I16 s mem addr) addr =
      if binary64.isFinite (s.regs s.top)
        then encodeInt 16 (roundInt s.round (binary64.sval (s.regs s.top)) binary64.scale)
        else 0x8000 := by
  obtain ⟨⟨a1, a2, a3, a4⟩, _, _⟩ := store_bounds
  have e0 : (0x8000 : Nat) = 1 <<< (16 - 1) := by decide
  unfold FPU_FST_I16
  simp only []
  rw [mem_readw_writew, e0, guarded64 16 (by norm_num) (by norm_num) _ _ _ a1 a2 a3 a4,
    FROUND_cases]
  apply Nat.mod_eq_of_lt
  split
  · exact encodeInt_lt 16 (by norm_num) _
  · decide

theorem FPU_FST_I32_value (s : FPU) (mem : Mem) (addr : Nat) :
    mem_readd (FPU_FST_I32 s mem addr) addr =
      if binary64.isFinite (s.regs s.top)
        then encodeInt 32 (roundInt s.round (binary64.sval (s.regs s.top)) binary64.scale)
        else 0x80000000 := by
  obtain ⟨_, ⟨a1, a2, a3, a4⟩, _⟩ := store_bounds
  have e0 : (0x80000000 : Nat) = 1 <<< (32 - 1) := by decide
  unfold FPU_FST_I32
  simp only []
  rw [mem_readd_writed, e0, guarded64 32 (by norm_num) (by norm_num) _ _ _ a1 a2 a3 a4,
    FROUND_cases]
  apply Nat.mod_eq_of_lt
  split
  · exact encodeInt_lt 32 (by norm_num) _
  · decide

theorem FPU_FST_I64_value (s : FPU) (mem : Mem) (addr : Nat) :
    mem_readd (FPU_FST_I64 s mem addr) addr
        + 4294967296 * mem_readd (FPU_FST_I64 s mem addr) (addr + 4) =
      if binary64.isFinite (s.regs s.top)
        then encodeInt 64 (roundInt s.round (binary64.sval (s.regs s.top)) binary64.scale)
        else 0x8000000000000000 := by
  obtain ⟨_, _, ⟨a1, a2, a3, a4⟩⟩ := store_bounds
  have e0 : (0x8000000000000000 : Nat) = 1 <<< (64 - 1) := by decide
  unfold FPU_FST_I64
  simp only []
  rw [e0, guarded64 64 (by norm_num) (by norm_num) _ _ _ a1 a2 a3 a4, FROUND_cases]
  apply mem_readd_pair
  split
  · exact encodeInt_lt 64 (by norm_num) _
  · decide

theorem FPU_FST_I16_Reduced_value (s : FPU) (mem : Mem) (addr : Nat) :
    mem_readw (FPU_FST_I16_Reduced s mem addr) addr =
      if binary32.isFinite (s.regs s.top)
        then encodeInt 16 (roundInt s.round (binary32.sval (s.regs s.top)) binary32.scale)
        else 0x8000 := by
  obtain ⟨⟨a1, a2, a3, a4⟩, _, _⟩ := store_bounds
  have e0 : (0x8000 : Nat) = 1 <<< (16 - 1) := by decide
  unfold FPU_FST_I16_Reduced
  simp only []
  rw [mem_readw_writew, e0, guarded64 16 (by norm_num) (by norm_num) _ _ _ a1 a2 a3 a4,
    FROUND_Reduced_cases]
  apply Nat.mod_eq_of_lt
  split
  · exact encodeInt_lt 16 (by norm_num) _
  · decide

theorem FPU_FST_I32_Reduced_value (s : FPU) (mem : Mem) (addr : Nat) :
    mem_readd (FPU_FST_I32_Reduced s mem addr) addr =
      if binary32.isFinite (s.regs s.top)
        then encodeInt 32 (roundInt s.round (binary32.sval (s.regs s.top)) binary32.scale)
        else 0x80000000 := by
  obtain ⟨_, ⟨a1, a2, a3, a4⟩, _⟩ := store_bounds
  have e0 : (0x80000000 : Nat) = 1 <<< (32 - 1) := by decide
  unfold FPU_FST_I32_Reduced
  simp only []
  rw [mem_readd_writed, e0, guarded64 32 (by norm_num) (by norm_num) _ _ _ a1 a2 a3 a4,
    FROUND_Reduced_cases]
  apply Nat.mod_eq_of_lt
  split
  · exact encodeInt_lt 32 (by norm_num) _
  · decide

/-- C11: the integer stores saturate.  With `r` the value of the top register rounded to
an integer by the active rounding mode (`roundInt`), `FPU_FST_I16` and `FPU_FST_I32`, in
the Extended and in the Reduced build, and `FPU_FST_I64` of the Extended build write
`encodeInt w r`: the `w`-bit two's-complement encoding of `r` if
`-2^(w-1) <= r < 2^(w-1)`, and the indefinite pattern `2^(w-1)` otherwise.  For an
infinity or a NaN in the top register the indefinite pattern is written.  The store is a
total function, and it changes no byte outside the operand. -/
theorem FPU_FST_I_saturates (s : FPU) (mem : Mem) (addr : Nat) :
    (mem_readw (FPU_FST_I16 s mem addr) addr =
      if binary64.isFinite (s.regs s.top)
        then encodeInt 16 (roundInt s.round (binary64.sval (s.regs s.top)) binary64.scale)
        else 0x8000) ∧
    (mem_readd (FPU_FST_I32 s mem addr) addr =
      if binary64.isFinite (s.regs s.top)
        then encodeInt 32 (roundInt s.round (binary64.sval (s.regs s.top)) binary64.scale)
        else 0x80000000) ∧
    (mem_readd (FPU_FST_I64 s mem addr) addr
        + 4294967296 * mem_readd (FPU_FST_I64 s mem addr) (addr + 4) =
      if binary64.isFinite (s.regs s.top)
        then encodeInt 64 (roundInt s.round (binary64.sval (s.regs s.top)) binary64.scale)
        else 0x8000000000000000) ∧
    (mem_readw (FPU_FST_I16_Reduced s mem addr) addr =
      if binary32.isFinite (s.regs s.top)
        then encodeInt 16 (roundInt s.round (binary32.sval (s.regs s.top)) binary32.scale)
        else 0x8000) ∧
    (mem_readd (FPU_FST_I32_Reduced s mem addr) addr =
      if binary32.isFinite (s.regs s.top)
        then encodeInt 32 (roundInt s.round (binary32.sval (s.regs s.top)) binary32.scale)
        else 0x80000000) ∧
    (∀ j, j < addr ∨ addr + 2 ≤ j →
      FPU_FST_I16 s mem addr j = mem j ∧ FPU_FST_I16_Reduced s mem addr j = mem j) ∧
    (∀ j, j < addr ∨ addr + 4 ≤ j →
      FPU_FST_I32 s mem addr j = mem j ∧ FPU_FST_I32_Reduced s mem addr j = mem j) ∧
    (∀ j, j < addr ∨ addr + 8 ≤ j → FPU_FST_I64 s mem addr j = mem j) := by
  refine ⟨FPU_FST_I16_value s mem addr, FPU_FST_I32_value s mem addr,
    FPU_FST_I64_value s mem addr, FPU_FST_I16_Reduced_value s mem addr,
    FPU_FST_I32_Reduced_value s mem addr, ?_, ?_, ?_⟩
  · intro j hj
    exact ⟨mem_writew_frame _ _ _ _ hj, mem_writew_frame _ _ _ _ hj⟩
  · intro j hj
    exact ⟨mem_writed_frame _ _ _ _ hj, mem_writed_frame _ _ _ _ hj⟩
  · intro j hj
    unfold FPU_FST_I64
    rw [mem_writed_frame _ _ _ _ (by omega), mem_writed_frame _ _ _ _ (by omega)]

/-- C11 applied to three top register values, in mode Nearest: 32767.5 rounds to 32768,
outside the 16-bit range, so the 16-bit store writes 0x8000 and the 32-bit store writes
32768; -2.5 rounds to -2, which the 16-bit store writes as 0xFFFE; and the byte above the
16-bit operand keeps its value. -/
theorem FPU_FST_I_saturates_witness :
    mem_readw (FPU_FST_I16 (withRegs 0x40DFFFE000000000) (fun _ => 7) 100) 100 = 0x8000 ∧
    mem_readd (FPU_FST_I32 (withRegs 0x40DFFFE000000000) (fun _ => 7) 100) 100 = 32768 ∧
    mem_readw (FPU_FST_I16 (withRegs 0xC004000000000000) (fun _ => 7) 100) 100 = 0xFFFE ∧
    FPU_FST_I16 (withRegs 0xC004000000000000) (fun _ => 7) 100 102 = 7 :=
  ⟨(FPU_FST_I_saturates (withRegs 0x40DFFFE000000000) (fun _ => 7) 100).1.trans (by decide),
   (FPU_FST_I_saturates (withRegs 0x40DFFFE000000000) (fun _ => 7) 100).2.1.trans (by decide),
   (FPU_FST_I_saturates (withRegs 0xC004000000000000) (fun _ => 7) 100).1.trans (by decide),
   ((FPU_FST_I_saturates (withRegs 0xC004000000000000) (fun _ => 7) 100).2.2.2.2.2.1 102
      (by decide)).1⟩

/-! ## Integer load -/

/-- Conversion of an integer the format represents is exact. -/
theorem ofInt_exact (f : Fmt) (hf : f.Valid) (n : Int) (M j : Nat) (hn : n.natAbs = M * 2 ^ j)
    (hM : M < 2 ^ (f.p + 1)) (hj : j + f.scale + 1 < f.emax) : f.holdsInt (f.ofInt n) n := by
  unfold Fmt.holdsInt Fmt.ofInt
  have h := f.ofSigned_exact hf 0 (by norm_num) (n * ((1 <<< f.scale : Nat) : Int)) M (j + f.scale)
    (by
      rw [Int.natAbs_mul, hn, Int.natAbs_ofNat, Nat.one_shiftLeft, pow_add, Nat.mul_assoc])
    hM hj
  exact ⟨h.1, h.2.2.2⟩

/-- Conversion of an integer of magnitude below `2^(p+1)` is exact. -/
theorem ofInt_small (f : Fmt) (hf : f.Valid) (n : Int) (hn : n.natAbs < 2 ^ (f.p + 1)) :
    f.holdsInt (f.ofInt n) n := by
  have hs := f.scale_facts hf
  exact ofInt_exact f hf n n.natAbs 0 (by simp) hn (by omega)

theorem roundInt_integral (m : FPU_Round) (n : Int) (k : Nat) :
    roundInt m (n * ((1 <<< k : Nat) : Int)) k = n := by
  have hpos : (0 : Int) < ((1 <<< k : Nat) : Int) := by
    rw [shl_cast]
    have : 0 < 2 ^ k := Nat.pow_pos (by norm_num)
    exact_mod_cast this
  have hne : ((1 <<< k : Nat) : Int) ≠ 0 := ne_of_gt hpos
  cases m
  · simp only [roundInt, Int.mul_emod_left, Int.mul_ediv_cancel _ hne]
    rw [if_neg]
    rintro (h | ⟨h, _⟩) <;> omega
  · simp only [roundInt, Int.mul_ediv_cancel _ hne]
  · simp only [roundInt]
    rw [← Int.neg_mul, Int.mul_ediv_cancel _ hne, neg_neg]
  · simp only [roundInt]
    exact Int.mul_tdiv_cancel _ hne


/-- The signed reading of a 16-bit word, converted to either register format, is exact. -/
theorem FPU_FLD_I16_exact (f : Fmt) (hf : f.Valid) (hp : 16 ≤ f.p) (s : FPU) (mem : Mem)
    (addr store_to : Nat) :
    f.holdsInt ((FPU_FLD_I16 f s mem addr store_to).regs store_to)
      (if mem_readw mem addr < 0x8000 then (mem_readw mem addr : Int)
        else (mem_readw mem addr : Int) - 65536) := by
  have hlt := mem_readw_lt mem addr
  have e : (FPU_FLD_I16 f s mem addr store_to).regs store_to
      = f.ofInt (if mem_readw mem addr < 0x8000 then (mem_readw mem addr : Int)
        else (mem_readw mem addr : Int) - 65536) := by
    simp [FPU_FLD_I16, setSlot]
  rw [e]
  apply ofInt_small f hf
  have h2 : 2 ^ 16 ≤ 2 ^ (f.p + 1) := Nat.pow_le_pow_right (by norm_num) (by omega)
  split <;> omega

/-- The signed reading of a 32-bit doubleword, converted to `double`, is exact. -/
theorem FPU_FLD_I32_exact (s : FPU) (mem : Mem) (addr store_to : Nat) :
    binary64.holdsInt ((FPU_FLD_I32 binary64 s mem addr store_to).regs store_to)
      (if mem_readd mem addr < 0x80000000 then (mem_readd mem addr : Int)
        else (mem_readd mem addr : Int) - 4294967296) := by
  have hlt := mem_readd_lt mem addr
  have e : (FPU_FLD_I32 binary64 s mem addr store_to).regs store_to
      = binary64.ofInt (if mem_readd mem addr < 0x80000000 then (mem_readd mem addr : Int)
        else (mem_readd mem addr : Int) - 4294967296) := by
    simp [FPU_FLD_I32, setSlot]
  rw [e]
  apply ofInt_small binary64 binary64_valid
  have h2 : (2 : Nat) ^ (binary64.p + 1) = 9007199254740992 := by
    have : binary64.p = 52 := rfl
    rw [this]; norm_num
  rw [h2]
  split <;> omega

/-- The signed reading of a 32-bit doubleword of magnitude at most `2^24`, converted to
`float`, is exact. -/
theorem FPU_FLD_I32_Reduced_exact (s : FPU) (mem : Mem) (addr store_to : Nat) (v : Int)
    (hv : v = if mem_readd mem addr < 0x80000000 then (mem_readd mem addr : Int)
        else (mem_readd mem addr : Int) - 4294967296)
    (hsmall : -16777216 ≤ v ∧ v ≤ 16777216) :
    binary32.holdsInt ((FPU_FLD_I32 binary32 s mem addr store_to).regs store_to) v := by
  have e : (FPU_FLD_I32 binary32 s mem addr store_to).regs store_to = binary32.ofInt v := by
    rw [hv]
    simp [FPU_FLD_I32, setSlot]
  rw [e]
  have hp : binary32.p = 23 := rfl
  have hsc : binary32.scale = 149 := by decide
  have hem : binary32.emax = 255 := by decide
  rcases Nat.lt_or_ge v.natAbs 16777216 with h | h
  · apply ofInt_small binary32 binary32_valid
    rw [hp]; norm_num; exact h
  · have e1 : v.natAbs = 1 * 2 ^ 24 := by omega
    refine ofInt_exact binary32 binary32_valid v 1 24 e1 ?_ ?_
    · rw [hp]; norm_num
    · rw [hsc, hem]; norm_num


theorem encodeInt16_signed (n : Int) (h1 : -32768 ≤ n) (h2 : n ≤ 32767) :
    (if encodeInt 16 n < 0x8000 then (encodeInt 16 n : Int) else (encodeInt 16 n : Int) - 65536)
      = n := by
  have a1 : (1 <<< (16 - 1) : Nat) = 32768 := by decide
  have a2 : (1 <<< 16 : Nat) = 65536 := by decide
  have c : -((32768 : Nat) : Int) ≤ n ∧ n < ((32768 : Nat) : Int) := ⟨by omega, by omega⟩
  have e : encodeInt 16 n = (n % ((65536 : Nat) : Int)).toNat := by
    unfold encodeInt
    rw [a1, a2, if_pos c]
  have h3 : ((n % ((65536 : Nat) : Int)).toNat : Int) = n % 65536 := by
    rw [Int.toNat_of_nonneg]
    · rfl
    · exact Int.emod_nonneg _ (by norm_num)
  rw [e, h3]
  split
  · rename_i h
    omega
  · rename_i h
    omega

/-- C12 (as amended): the integer loads sign-extend.  `FPU_FLD_I16` sets the target
register to the value `m` of the word read if `m < 0x8000` and to `m - 65536` otherwise,
in both builds; `FPU_FLD_I32` sets it to the doubleword `m` if `m < 0x80000000` and to
`m - 2^32` otherwise in the Extended build, and in the Reduced build whenever that value
has magnitude at most `2^24`.  The load changes nothing else.  Consequently, for every
integer `n` in [-32768, 32767] held in the top register, `FPU_FST_I16` followed by
`FPU_FLD_I16` at the same address yields `n` again, in both builds. -/
theorem FPU_FLD_I_sign_extends (s : FPU) (mem : Mem) (addr store_to : Nat) :
    binary64.holdsInt ((FPU_FLD_I16 binary64 s mem addr store_to).regs store_to)
      (if mem_readw mem addr < 0x8000 then (mem_readw mem addr : Int)
        else (mem_readw mem addr : Int) - 65536) ∧
    binary32.holdsInt ((FPU_FLD_I16 binary32 s mem addr store_to).regs store_to)
      (if mem_readw mem addr < 0x8000 then (mem_readw mem addr : Int)
        else (mem_readw mem addr : Int) - 65536) ∧
    binary64.holdsInt ((FPU_FLD_I32 binary64 s mem addr store_to).regs store_to)
      (if mem_readd mem addr < 0x80000000 then (mem_readd mem addr : Int)
        else (mem_readd mem addr : Int) - 4294967296) ∧
    (∀ v : Int,
      v = (if mem_readd mem addr < 0x80000000 then (mem_readd mem addr : Int)
        else (mem_readd mem addr : Int) - 4294967296) →
      -16777216 ≤ v ∧ v ≤ 16777216 →
      binary32.holdsInt ((FPU_FLD_I32 binary32 s mem addr store_to).regs store_to) v) ∧
    (∀ f : Fmt, ∀ s1 : FPU,
      s1 = FPU_FLD_I16 f s mem addr store_to ∨ s1 = FPU_FLD_I32 f s mem addr store_to →
      (∀ j, j ≠ store_to → s1.regs j = s.regs j) ∧ s1.tags = s.tags ∧ s1.top = s.top ∧
      s1.sw = s.sw ∧ s1.cw = s.cw ∧ s1.round = s.round) ∧
    (∀ n : Int, -32768 ≤ n ∧ n ≤ 32767 →
      (binary64.holdsInt (s.regs s.top) n →
        binary64.holdsInt
          ((FPU_FLD_I16 binary64 s (FPU_FST_I16 s mem addr) addr store_to).regs store_to) n) ∧
      (binary32.holdsInt (s.regs s.top) n →
        binary32.holdsInt
          ((FPU_FLD_I16 binary32 s (FPU_FST_I16_Reduced s mem addr) addr store_to).regs
            store_to) n)) := by
  refine ⟨FPU_FLD_I16_exact binary64 binary64_valid (by decide) s mem addr store_to,
    FPU_FLD_I16_exact binary32 binary32_valid (by decide) s mem addr store_to,
    FPU_FLD_I32_exact s mem addr store_to,
    fun v hv hs => FPU_FLD_I32_Reduced_exact s mem addr store_to v hv hs, ?_, ?_⟩
  · intro f s1 h
    rcases h with rfl | rfl
    · refine ⟨fun j hj => ?_, rfl, rfl, rfl, rfl, rfl⟩
      simp [FPU_FLD_I16, setSlot, hj]
    · refine ⟨fun j hj => ?_, rfl, rfl, rfl, rfl, rfl⟩
      simp [FPU_FLD_I32, setSlot, hj]
  · intro n hn
    constructor
    · intro hx
      have h := FPU_FLD_I16_exact binary64 binary64_valid (by decide) s
        (FPU_FST_I16 s mem addr) addr store_to
      rw [FPU_FST_I16_value, if_pos hx.1, hx.2, roundInt_integral,
        encodeInt16_signed n hn.1 hn.2] at h
      exact h
    · intro hx
      have h := FPU_FLD_I16_exact binary32 binary32_valid (by decide) s
        (FPU_FST_I16_Reduced s mem addr) addr store_to
      rw [FPU_FST_I16_Reduced_value, if_pos hx.1, hx.2, roundInt_integral,
        encodeInt16_signed n hn.1 hn.2] at h
      exact h

/-- C12 (as amended) applied to -2.0 in the top register, stored and loaded at address
100 in the Extended build, and to the doubleword 0xFFFFFFFF, which the Reduced build loads
as -1. -/
theorem FPU_FLD_I_sign_extends_witness :
    binary64.holdsInt ((withRegs 0xC000000000000000).regs 0) (-2) ∧
    binary64.holdsInt
      ((FPU_FLD_I16 binary64 (withRegs 0xC000000000000000)
        (FPU_FST_I16 (withRegs 0xC000000000000000) (fun _ => 0) 100) 100 3).regs 3) (-2) ∧
    binary32.holdsInt
      ((FPU_FLD_I32 binary32 emptyStack (mem_writed (fun _ => 0) 100 0xFFFFFFFF) 100 3).regs 3)
      (-1) :=
  ⟨by decide,
   ((FPU_FLD_I_sign_extends (withRegs 0xC000000000000000) (fun _ => 0) 100 3).2.2.2.2.2 (-2)
      (by decide)).1 (by decide),
   (FPU_FLD_I_sign_extends emptyStack (mem_writed (fun _ => 0) 100 0xFFFFFFFF) 100 3).2.2.2.1
      (-1) (by decide) (by decide)⟩

/-- C12, counterexample: in the Reduced build `FPU_FLD_I32` of the doubleword 16777217,
which is below 0x80000000, does not set the register to the value 16777217: it sets it to
16777216, the nearest value a `float` register holds. -/
theorem FPU_FLD_I32_counterexample :
    mem_readd (mem_writed (fun _ => 0) 100 16777217) 100 = 16777217 ∧
    ¬ binary32.holdsInt
      ((FPU_FLD_I32 binary32 emptyStack (mem_writed (fun _ => 0) 100 16777217) 100 3).regs 3)
      16777217 ∧
    binary32.holdsInt
      ((FPU_FLD_I32 binary32 emptyStack (mem_writed (fun _ => 0) 100 16777217) 100 3).regs 3)
      16777216 := by
  decide

/-! ## Packed decimal (BCD) -/

/-- The pattern `FPU_FBST` rounds: the top register with the sign bit cleared. -/
theorem abs_pattern (x : Nat) (hx : x < 18446744073709551616) :
    (if x &&& 0x8000000000000000 ≠ 0 then binary64.neg x else x)
      = binary64.expField x * 2 ^ 52 + binary64.fracField x ∧
    (x &&& 0x8000000000000000 ≠ 0 ↔ binary64.signBit x = 1) := by
  have m1 : (0x8000000000000000 : Nat) = 1 <<< 63 := by decide
  have hb : x &&& 0x8000000000000000 ≠ 0 ↔ binary64.signBit x = 1 := by
    rw [m1, and_bit, Fmt.signBit_eq]
    norm_num [binary64]
  have hp := binary64.pattern_eq x (by
    have : binary64.p + binary64.w + 1 = 64 := rfl
    rw [this]; norm_num; exact hx)
  rw [Fmt.withSign_eq] at hp
  have e1 : binary64.p + binary64.w = 63 := rfl
  have e2 : binary64.p = 52 := rfl
  rw [e1, e2] at hp
  have hsb := binary64.signBit_le x
  refine ⟨?_, hb⟩
  by_cases h : x &&& 0x8000000000000000 ≠ 0
  · have h1 := hb.mp h
    rw [if_pos h]
    unfold Fmt.neg
    rw [if_pos h1, e1, Nat.one_shiftLeft]
    rw [h1] at hp
    omega
  · have h1 : binary64.signBit x = 0 := by
      have : ¬ binary64.signBit x = 1 := fun h2 => h (hb.mpr h2)
      omega
    rw [if_neg h]
    rw [h1] at hp
    omega

/-- The sign-cleared pattern is finite when the register is, has the same magnitude and
sign bit 0. -/
theorem body_facts (x : Nat) :
    (binary64.isFinite (binary64.expField x * 2 ^ 52 + binary64.fracField x)
      ↔ binary64.isFinite x) ∧
    binary64.signBit (binary64.expField x * 2 ^ 52 + binary64.fracField x) = 0 ∧
    binary64.mag (binary64.expField x * 2 ^ 52 + binary64.fracField x) = binary64.mag x ∧
    binary64.sval (binary64.expField x * 2 ^ 52 + binary64.fracField x)
      = (binary64.mag x : Int) := by
  have e2 : binary64.p = 52 := rfl
  have h1 := binary64.expField_lt x
  have h2 := binary64.fracField_lt x
  have hf := binary64.fields_of_parts _ _ h1 h2
  have hm := binary64.mag_parts_self x
  rw [e2] at hf hm h2
  have w11 : binary64.w = 11 := rfl
  rw [w11] at h1
  have hs : binary64.signBit (binary64.expField x * 2 ^ 52 + binary64.fracField x) = 0 := by
    rw [Fmt.signBit_eq]
    have e1 : binary64.p + binary64.w = 63 := rfl
    rw [e1]
    norm_num at h1 h2 ⊢
    have : (binary64.expField x * 4503599627370496 + binary64.fracField x) / 9223372036854775808 = 0 := by
      apply Nat.div_eq_of_lt
      omega
    rw [this]
  refine ⟨?_, hs, hm, ?_⟩
  · unfold Fmt.isFinite
    rw [hf.1]
  · rw [(binary64.sval_sign _).2 hs, hm]

theorem toUInt_of_trunc (f : Fmt) (bits : Nat) (z : Nat) (hz : f.isFinite z) (t : Nat)
    (ht : Int.tdiv (f.sval z) ((1 <<< f.scale : Nat) : Int) = (t : Int))
    (hlt : t < 1 <<< bits) : f.toUInt bits z = t := by
  have hsb := f.signBit_le z
  have hsv := f.sval_sign z
  have ha : f.mag z >>> f.scale = f.mag z / 2 ^ f.scale := Nat.shiftRight_eq_div_pow _ _
  rw [shl_cast] at ht
  unfold Fmt.toUInt
  simp only [ha]
  rcases Nat.lt_or_ge (f.signBit z) 1 with h0 | h1
  · have h0 : f.signBit z = 0 := by omega
    rw [hsv.2 h0, ← Int.ofNat_tdiv] at ht
    have e : f.mag z / 2 ^ f.scale = t := by exact_mod_cast ht
    rw [e, if_pos ⟨hz, Or.inl h0, hlt⟩]
  · have h1 : f.signBit z = 1 := by omega
    rw [hsv.1 h1, Int.neg_tdiv, ← Int.ofNat_tdiv] at ht
    generalize f.mag z / 2 ^ f.scale = a at ht ⊢
    have e : a = 0 := by omega
    have e2 : t = 0 := by omega
    rw [e, e2, if_pos ⟨hz, Or.inr rfl, by rw [← e2]; exact hlt⟩]

/-- The integer `FPU_FBST` converts: the magnitude of the top register rounded by the
active mode, when that is below `2^64`. -/
theorem FBST_rndint (s : FPU) (x : Nat) (hx : x < 18446744073709551616)
    (hfin : binary64.isFinite x) (R : Nat)
    (hR : roundInt s.round (binary64.mag x : Int) binary64.scale = (R : Int))
    (hlt : R < 18446744073709551616) :
    binary64.toUInt 64 (FROUND s (if x &&& 0x8000000000000000 ≠ 0 then binary64.neg x else x))
      = R := by
  rw [(abs_pattern x hx).1]
  obtain ⟨b1, _, _, b4⟩ := body_facts x
  obtain ⟨h1, h2⟩ := FROUND_trunc s _ (b1.mpr hfin)
  rw [b4, hR] at h2
  exact toUInt_of_trunc binary64 64 _ h1 R h2 (by
    have : (1 <<< 64 : Nat) = 18446744073709551616 := by decide
    rw [this]; exact hlt)

/-- C17: BCD store overflow (Extended build).  Whenever the magnitude of the top register,
rounded by the active mode, exceeds 999999999999999999 and is below `2^64`, `FPU_FBST`
writes the BCD indefinite pattern: the ten bytes 00 00 00 00 00 00 00 C0 FF FF from the
lowest address up, whatever the sign of the value; no digit byte and no sign byte remains,
and no byte outside the operand changes. -/
theorem FPU_FBST_overflow (s : FPU) (mem : Mem) (addr : Nat)
    (hx : s.regs s.top < 18446744073709551616) (hfin : binary64.isFinite (s.regs s.top))
    (h1 : 999999999999999999
      < roundInt s.round (binary64.mag (s.regs s.top) : Int) binary64.scale)
    (h2 : roundInt s.round (binary64.mag (s.regs s.top) : Int) binary64.scale
      < 18446744073709551616) :
    mem_readb (FPU_FBST s mem addr) addr = 0x00 ∧
    mem_readb (FPU_FBST s mem addr) (addr + 1) = 0x00 ∧
    mem_readb (FPU_FBST s mem addr) (addr + 2) = 0x00 ∧
    mem_readb (FPU_FBST s mem addr) (addr + 3) = 0x00 ∧
    mem_readb (FPU_FBST s mem addr) (addr + 4) = 0x00 ∧
    mem_readb (FPU_FBST s mem addr) (addr + 5) = 0x00 ∧
    mem_readb (FPU_FBST s mem addr) (addr + 6) = 0x00 ∧
    mem_readb (FPU_FBST s mem addr) (addr + 7) = 0xC0 ∧
    mem_readb (FPU_FBST s mem addr) (addr + 8) = 0xFF ∧
    mem_readb (FPU_FBST s mem addr) (addr + 9) = 0xFF ∧
    ∀ j, j < addr ∨ addr + 10 ≤ j → FPU_FBST s mem addr j = mem j := by
  obtain ⟨R, hR⟩ : ∃ R : Nat,
      roundInt s.round (binary64.mag (s.regs s.top) : Int) binary64.scale = (R : Int) :=
    ⟨(roundInt s.round (binary64.mag (s.regs s.top) : Int) binary64.scale).toNat,
      (Int.toNat_of_nonneg (by omega)).symm⟩
  have hrnd := FBST_rndint s (s.regs s.top) hx hfin R hR (by omega)
  have hgt : R > 999999999999999999 := by omega
  have e : FPU_FBST s mem addr =
      mem_writew (mem_writed (mem_writed
        (if s.regs s.top &&& 0x8000000000000000 ≠ 0 then mem_writeb mem (addr + 9) 0x80
          else mem_writeb mem (addr + 9) 0) addr 0) (addr + 4) 0xC0000000) (addr + 8) 0xFFFF := by
    unfold FPU_FBST
    simp only [hrnd, if_pos hgt]
  rw [e]
  refine ⟨?_, ?_, ?_, ?_, ?_, ?_, ?_, ?_, ?_, ?_, ?_⟩
  any_goals simp [mem_readb_writew, mem_readb_writed, Nat.add_assoc]
  intro j hj
  rw [mem_writew_frame _ _ _ _ (by omega), mem_writed_frame _ _ _ _ (by omega),
    mem_writed_frame _ _ _ _ (by omega)]
  have hne : j ≠ addr + 9 := by omega
  split <;> simp [mem_writeb, hne]

/-- C17 applied to the top register values 1e18 and -1e18 in mode Nearest. -/
theorem FPU_FBST_overflow_witness :
    (mem_readb (FPU_FBST (withRegs 0x43ABC16D674EC800) (fun _ => 7) 100) 107 = 0xC0 ∧
      mem_readb (FPU_FBST (withRegs 0x43ABC16D674EC800) (fun _ => 7) 100) 109 = 0xFF) ∧
    (mem_readb (FPU_FBST (withRegs 0xC3ABC16D674EC800) (fun _ => 7) 100) 100 = 0x00 ∧
      mem_readb (FPU_FBST (withRegs 0xC3ABC16D674EC800) (fun _ => 7) 100) 109 = 0xFF) :=
  ⟨⟨(FPU_FBST_overflow (withRegs 0x43ABC16D674EC800) (fun _ => 7) 100
        (by decide) (by decide) (by decide) (by decide)).2.2.2.2.2.2.2.1,
     (FPU_FBST_overflow (withRegs 0x43ABC16D674EC800) (fun _ => 7) 100
        (by decide) (by decide) (by decide) (by decide)).2.2.2.2.2.2.2.2.2.1⟩,
   ⟨(FPU_FBST_overflow (withRegs 0xC3ABC16D674EC800) (fun _ => 7) 100
        (by decide) (by decide) (by decide) (by decide)).1,
     (FPU_FBST_overflow (withRegs 0xC3ABC16D674EC800) (fun _ => 7) 100
        (by decide) (by decide) (by decide) (by decide)).2.2.2.2.2.2.2.2.2.1⟩⟩

/-- Two decimal digits packed into a byte and unpacked again. -/
theorem nibbles : ∀ d0 : Fin 10, ∀ d1 : Fin 10,
    ((d0.val % 10 % 256) ||| ((d1.val % 10 % 256) <<< 4)) % 256 = d0.val + 16 * d1.val ∧
    (d0.val + 16 * d1.val) &&& 0xf = d0.val ∧
    ((d0.val + 16 * d1.val) >>> 4) &&& 0xf = d1.val := by
  decide

theorem nibbles_nat (a b : Nat) :
    ((a % 10 % 256) ||| ((b % 10 % 256) <<< 4)) % 256 = a % 10 + 16 * (b % 10) ∧
    (a % 10 + 16 * (b % 10)) &&& 0xf = a % 10 ∧
    ((a % 10 + 16 * (b % 10)) >>> 4) &&& 0xf = b % 10 := by
  have h := nibbles ⟨a % 10, Nat.mod_lt _ (by norm_num)⟩ ⟨b % 10, Nat.mod_lt _ (by norm_num)⟩
  simp only [Nat.mod_mod] at h
  simpa using h

/-- The digit loop of `FPU_FBST` writes only the `k` bytes from `addr` up. -/
theorem FBST_digits_frame : ∀ (k r : Nat) (mem : Mem) (a j : Nat), j < a ∨ a + k ≤ j →
    FBST_digits k r mem a j = mem j := by
  intro k
  induction k with
  | zero => intro r mem a j _; rfl
  | succ k ih =>
    intro r mem a j hj
    unfold FBST_digits
    simp only []
    rw [ih _ _ _ _ (by omega)]
    have : j ≠ a := by omega
    simp [mem_writeb, this]

/-- Byte `i` of the digit loop of `FPU_FBST` holds decimal digits `2i` and `2i+1` of
`rndint`, the lower digit in the low nibble. -/
theorem FBST_digits_byte : ∀ (k r : Nat) (mem : Mem) (a i : Nat), i < k →
    mem_readb (FBST_digits k r mem a) (a + i)
      = (r / 100 ^ i) % 10 + 16 * ((r / 100 ^ i / 10) % 10) := by
  intro k
  induction k with
  | zero => intro r mem a i hi; omega
  | succ k ih =>
    intro r mem a i hi
    unfold FBST_digits
    simp only []
    rcases Nat.eq_zero_or_pos i with rfl | hpos
    · simp only [Nat.add_zero, pow_zero, Nat.div_one]
      unfold mem_readb
      rw [FBST_digits_frame _ _ _ _ _ (by omega)]
      simp only [mem_writeb, eq_self_iff_true, if_true, Nat.mod_mod]
      exact (nibbles_nat r (r / 10)).1
    · obtain ⟨i, rfl⟩ : ∃ c, i = c + 1 := ⟨i - 1, by omega⟩
      have e : a + (i + 1) = a + 1 + i := by omega
      rw [e, ih _ _ _ _ (by omega)]
      have e2 : r / 10 / 10 / 100 ^ i = r / 100 ^ (i + 1) := by
        rw [Nat.div_div_eq_div_mul, Nat.div_div_eq_div_mul, pow_succ]
        congr 1
        ring
      rw [e2]

/-- The digit loop of `FPU_FBLD` on bytes that hold the decimal digits of `r`: without
overflow of the `Bit64u` variables, `val` gains the low `2k` digits of `r`, scaled by
`base`, and `base` is multiplied by `100^k`. -/
theorem FBLD_digits_value : ∀ (k i val base r : Nat) (mem : Mem) (addr : Nat),
    (∀ j, j < k → mem_readb mem (addr + (i + j))
      = (r / 100 ^ j) % 10 + 16 * ((r / 100 ^ j / 10) % 10)) →
    val < base → base * 100 ^ k * 2 ≤ 18446744073709551616 →
    FBLD_digits mem addr k i val base = (val + base * (r % 100 ^ k), base * 100 ^ k) := by
  intro k
  induction k with
  | zero =>
    intro i val base r mem addr _ _ _
    unfold FBLD_digits
    simp only [pow_zero, Nat.mod_one, Nat.mul_zero, Nat.add_zero, Nat.mul_one]
  | succ k ih =>
    intro i val base r mem addr hbytes hvb hb
    have hP : 0 < 100 ^ k := Nat.pow_pos (by norm_num)
    have hbyte := hbytes 0 (by omega)
    simp only [Nat.add_zero, pow_zero, Nat.div_one] at hbyte
    obtain ⟨_, n1, n2⟩ := nibbles_nat r (r / 10)
    have hd0 : r % 10 ≤ 9 := by omega
    have hd1 : r / 10 % 10 ≤ 9 := by omega
    have m0 : r % 10 * base ≤ 9 * base := Nat.mul_le_mul_right _ hd0
    have m1 : r / 10 % 10 * (base * 10) ≤ 9 * (base * 10) := Nat.mul_le_mul_right _ hd1
    have hBP : base ≤ base * 100 ^ k := Nat.le_mul_of_pos_right _ hP
    have e100 : base * 100 ^ (k + 1) * 2 = 200 * (base * 100 ^ k) := by
      rw [pow_succ]; ring
    rw [e100] at hb
    have v1 : (val + r % 10 * base) % 18446744073709551616 = val + r % 10 * base :=
      Nat.mod_eq_of_lt (by omega)
    have b1 : base * 10 % 18446744073709551616 = base * 10 := Nat.mod_eq_of_lt (by omega)
    have v2 : (val + r % 10 * base + r / 10 % 10 * (base * 10)) % 18446744073709551616
        = val + r % 10 * base + r / 10 % 10 * (base * 10) := Nat.mod_eq_of_lt (by omega)
    have b2 : base * 10 * 10 % 18446744073709551616 = base * 10 * 10 :=
      Nat.mod_eq_of_lt (by omega)
    unfold FBLD_digits
    simp only [hbyte, n1, n2, v1, b1, v2, b2]
    rw [ih (i + 1) _ _ (r / 100) mem addr ?_ (by omega) ?_]
    · have s1 : r % 100 ^ (k + 1) = r % 100 + 100 * (r / 100 % 100 ^ k) := by
        rw [pow_succ, Nat.mul_comm (100 ^ k) 100, Nat.mod_mul]
      have s2 : r % 100 = r % 10 + 10 * (r / 10 % 10) := by omega
      rw [s1, s2, pow_succ]
      congr 1 <;> ring
    · intro j hj
      have := hbytes (j + 1) (by omega)
      have e : addr + (i + 1 + j) = addr + (i + (j + 1)) := by omega
      have e2 : r / 100 / 100 ^ j = r / 100 ^ (j + 1) := by
        rw [Nat.div_div_eq_div_mul, pow_succ]
        congr 1
        ring
      rw [e, e2]
      exact this
    · have : base * 10 * 10 * 100 ^ k * 2 = 200 * (base * 100 ^ k) := by ring
      rw [this]
      exact hb

namespace Fmt

theorem rneDiv_scale (a b c : Nat) (hc : 0 < c) : rneDiv (a * c) (b * c) = rneDiv a b := by
  unfold rneDiv
  rw [Nat.mul_mod_mul_right, Nat.mul_div_mul_right _ _ hc]
  have e1 : (b * c < 2 * (a % b * c)) ↔ (b < 2 * (a % b)) := by
    rw [← Nat.mul_assoc]
    exact Nat.mul_lt_mul_right hc
  have e2 : (2 * (a % b * c) = b * c) ↔ (2 * (a % b) = b) := by
    rw [← Nat.mul_assoc]
    exact Nat.mul_left_inj (by omega)
  simp only [e1, e2]

/-- Rounding a quotient does not depend on a common factor of numerator and denominator. -/
theorem roundMag_scale (f : Fmt) (n d c : Nat) (hc : 0 < c) :
    f.roundMag (n * c) (d * c) = f.roundMag n d := by
  unfold roundMag
  have e1 : ∀ k, (d * c) <<< k = (d <<< k) * c := fun k => by
    rw [Nat.shiftLeft_eq, Nat.shiftLeft_eq]; ring
  simp only [e1, Nat.mul_div_mul_right _ _ hc, rneDiv_scale _ _ _ hc]

theorem roundMag_unit (f : Fmt) (n c : Nat) (hc : 0 < c) :
    f.roundMag (n * c) c = f.roundMag n 1 := by
  have h := f.roundMag_scale n 1 c hc
  rwa [Nat.one_mul] at h

end Fmt

/-- Conversion of the magnitude of a finite register gives the register with the sign
bit cleared. -/
theorem ofSigned_mag (x : Nat) (hx : binary64.isFinite x) :
    binary64.ofSigned 0 (binary64.mag x : Int)
      = binary64.expField x * 2 ^ 52 + binary64.fracField x := by
  have hr := binary64.roundMag_mag binary64_valid x hx
  have e2 : binary64.p = 52 := rfl
  rw [e2] at hr
  unfold Fmt.ofSigned
  by_cases h0 : (binary64.mag x : Int) = 0
  · rw [if_pos h0]
    have h0 : binary64.mag x = 0 := by exact_mod_cast h0
    rw [h0] at hr
    rw [← hr]
    decide
  · rw [if_neg h0, if_neg (by omega), Int.natAbs_ofNat, hr, Fmt.withSign_eq]
    omega

theorem holdsInt_mag (f : Fmt) (x : Nat) (n : Int) (hn : f.holdsInt x n) :
    (f.mag x : Int) = (n.natAbs : Int) * ((1 <<< f.scale : Nat) : Int) := by
  have h := f.sval_natAbs x
  rw [hn.2, Int.natAbs_mul, Int.natAbs_ofNat] at h
  rw [← h]
  push_cast
  rfl

/-- The register `FPU_FBLD` loads, as an expression of the bytes read. -/
theorem FPU_FBLD_regs (f : Fmt) (s : FPU) (mem : Mem) (addr store_to : Nat) :
    (FPU_FBLD f s mem addr store_to).regs store_to =
      if mem_readb mem (addr + 9) &&& 0x80 ≠ 0 then
        f.mul (f.add (f.ofInt ((FBLD_digits mem addr 9 0 0 1).1 : Int))
          (f.ofInt ((((mem_readb mem (addr + 9) &&& 0xf) * (FBLD_digits mem addr 9 0 0 1).2)
            % 18446744073709551616 : Nat) : Int))) (f.withSign 1 f.one)
      else f.add (f.ofInt ((FBLD_digits mem addr 9 0 0 1).1 : Int))
          (f.ofInt ((((mem_readb mem (addr + 9) &&& 0xf) * (FBLD_digits mem addr 9 0 0 1).2)
            % 18446744073709551616 : Nat) : Int)) := by
  unfold FPU_FBLD
  simp only [setSlot, if_true]

/-- What `FPU_FBST` writes when the rounded magnitude `r` is at most 999999999999999999,
as `FPU_FBLD` reads it: the 18 digits sum to `r`, and byte 9 is 0x80 or 0 by the sign. -/
theorem FBST_digits_read (r : Nat) (hr : r ≤ 999999999999999999) (mem : Mem) (addr : Nat)
    (sign : Prop) [Decidable sign] :
    FBLD_digits (FBST_digits 9 r
        (if sign then mem_writeb mem (addr + 9) 0x80 else mem_writeb mem (addr + 9) 0) addr)
      addr 9 0 0 1 = (r, 1000000000000000000) ∧
    mem_readb (FBST_digits 9 r
        (if sign then mem_writeb mem (addr + 9) 0x80 else mem_writeb mem (addr + 9) 0) addr)
      (addr + 9) = if sign then 0x80 else 0 := by
  constructor
  · have hbytes : ∀ j, j < 9 → mem_readb (FBST_digits 9 r
        (if sign then mem_writeb mem (addr + 9) 0x80 else mem_writeb mem (addr + 9) 0) addr)
        (addr + (0 + j)) = (r / 100 ^ j) % 10 + 16 * ((r / 100 ^ j / 10) % 10) := by
      intro j hj
      rw [Nat.zero_add]
      exact FBST_digits_byte 9 r _ addr j hj
    rw [FBLD_digits_value 9 0 0 1 r _ addr hbytes (by norm_num) (by norm_num)]
    have hr9 : r % 100 ^ 9 = r := Nat.mod_eq_of_lt (by norm_num; omega)
    rw [hr9]
    norm_num
  · unfold mem_readb
    rw [FBST_digits_frame _ _ _ _ _ (by omega)]
    split <;> simp [mem_writeb]

/-- C16: BCD round trip (Extended build).  For every integer `n` with
`-999999999999999999 <= n <= 999999999999999999` that the top register, a 64-bit pattern,
holds exactly, and for every rounding mode, `FPU_FBST` to an address followed by
`FPU_FBLD` from that address sets the target register to the pattern of the top register,
which holds `n`. -/
theorem FPU_FBST_FBLD_roundtrip (s : FPU) (mem : Mem) (addr store_to : Nat) (n : Int)
    (hx : s.regs s.top < 18446744073709551616)
    (hn : binary64.holdsInt (s.regs s.top) n)
    (hr : -999999999999999999 ≤ n ∧ n ≤ 999999999999999999) :
    (FPU_FBLD binary64 s (FPU_FBST s mem addr) addr store_to).regs store_to = s.regs s.top ∧
    binary64.holdsInt
      ((FPU_FBLD binary64 s (FPU_FBST s mem addr) addr store_to).regs store_to) n := by
  have hfin := hn.1
  have hmag := holdsInt_mag binary64 _ n hn
  have hR : roundInt s.round (binary64.mag (s.regs s.top) : Int) binary64.scale
      = (n.natAbs : Int) := by
    rw [hmag, roundInt_integral]
  have hrnd := FBST_rndint s (s.regs s.top) hx hfin n.natAbs hR (by omega)
  have hle : ¬ n.natAbs > 999999999999999999 := by omega
  have e : FPU_FBST s mem addr = FBST_digits 9 n.natAbs
      (if s.regs s.top &&& 0x8000000000000000 ≠ 0 then mem_writeb mem (addr + 9) 0x80
        else mem_writeb mem (addr + 9) 0) addr := by
    unfold FPU_FBST
    simp only [hrnd, if_neg hle]
  obtain ⟨hdig, hb9⟩ := FBST_digits_read n.natAbs (by omega) mem addr
    (s.regs s.top &&& 0x8000000000000000 ≠ 0)
  obtain ⟨_, hsign⟩ := abs_pattern (s.regs s.top) hx
  obtain ⟨b1, b2, b3, b4⟩ := body_facts (s.regs s.top)
  have hbody := ofSigned_mag (s.regs s.top) hfin
  have hbfin := b1.mpr hfin
  -- the value converted from the digits is the register with the sign cleared
  have t0 : binary64.ofInt ((n.natAbs : Nat) : Int)
      = binary64.expField (s.regs s.top) * 2 ^ 52 + binary64.fracField (s.regs s.top) := by
    unfold Fmt.ofInt
    rw [← hmag, hbody]
  have z0 : binary64.ofInt ((0 : Nat) : Int) = 0 := by decide
  have t1 : binary64.add
      (binary64.expField (s.regs s.top) * 2 ^ 52 + binary64.fracField (s.regs s.top)) 0
      = binary64.expField (s.regs s.top) * 2 ^ 52 + binary64.fracField (s.regs s.top) := by
    rw [binary64.add_finite _ _ hbfin (by decide), b2, b4, binary64.sval_zero, add_zero,
      if_neg (by decide), hbody]
  have hpat := binary64.pattern_eq (s.regs s.top) (by
    have : binary64.p + binary64.w + 1 = 64 := rfl
    rw [this]; norm_num; exact hx)
  have e2 : binary64.p = 52 := rfl
  rw [e2] at hpat
  have hsb := binary64.signBit_le (s.regs s.top)
  have key : (FPU_FBLD binary64 s (FPU_FBST s mem addr) addr store_to).regs store_to
      = s.regs s.top := by
    rw [FPU_FBLD_regs, e, hdig, hb9]
    by_cases hs : s.regs s.top &&& 0x8000000000000000 ≠ 0
    · have hs1 := hsign.mp hs
      have a1 : (0x80 : Nat) &&& 0x80 ≠ 0 := by decide
      have a2 : (0x80 : Nat) &&& 0xf = 0 := by decide
      simp only [if_pos hs, if_pos a1, a2, Nat.zero_mul, Nat.zero_mod]
      rw [t0, z0, t1]
      have c1 : ¬ binary64.isNaN (binary64.withSign 1 binary64.one) := by decide
      have c2 : binary64.isFinite (binary64.withSign 1 binary64.one) := by decide
      have c3 : binary64.signBit (binary64.withSign 1 binary64.one) = 1 := by decide
      have c4 : binary64.mag (binary64.withSign 1 binary64.one) = 1 <<< binary64.scale := by
        decide
      have hnan : ¬ binary64.isNaN
          (binary64.expField (s.regs s.top) * 2 ^ 52 + binary64.fracField (s.regs s.top)) :=
        fun h => hbfin h.1
      unfold Fmt.mul
      rw [if_neg hnan, if_neg c1, if_neg (by
        rintro (⟨h, _⟩ | ⟨_, h⟩)
        · exact h hbfin
        · exact h c2), if_neg (by
        rintro (h | h)
        · exact h hbfin
        · exact h c2), b2, c3, b3, c4]
      rw [binary64.roundMag_unit _ _ (by decide), binary64.roundMag_mag binary64_valid _ hfin]
      rw [hs1] at hpat
      exact hpat
    · have hs0 : binary64.signBit (s.regs s.top) = 0 := by
        have : ¬ binary64.signBit (s.regs s.top) = 1 := fun h => hs (hsign.mpr h)
        omega
      have a1 : ¬ ((0 : Nat) &&& 0x80 ≠ 0) := by decide
      have a2 : (0 : Nat) &&& 0xf = 0 := by decide
      simp only [if_neg hs, if_neg a1, a2, Nat.zero_mul, Nat.zero_mod]
      rw [t0, z0, t1]
      rw [hs0, Fmt.withSign_eq] at hpat
      omega
  exact ⟨key, by rw [key]; exact hn⟩

/-- C16 applied to 123456789 and to -12 in the top register, in modes Nearest and Up. -/
theorem FPU_FBST_FBLD_roundtrip_witness :
    (FPU_FBLD binary64 (withRegs 0x419D6F3454000000)
      (FPU_FBST (withRegs 0x419D6F3454000000) (fun _ => 0) 100) 100 2).regs 2
        = 0x419D6F3454000000 ∧
    binary64.holdsInt
      ((FPU_FBLD binary64 { withRegs 0xC028000000000000 with round := .ROUND_Up }
        (FPU_FBST { withRegs 0xC028000000000000 with round := .ROUND_Up } (fun _ => 0) 100)
        100 2).regs 2) (-12) :=
  ⟨(FPU_FBST_FBLD_roundtrip (withRegs 0x419D6F3454000000) (fun _ => 0) 100 2 123456789
      (by decide) (by decide) (by decide)).1,
   (FPU_FBST_FBLD_roundtrip { withRegs 0xC028000000000000 with round := .ROUND_Up }
      (fun _ => 0) 100 2 (-12) (by decide) (by decide) (by decide)).2⟩

/-- The truth table of `FPU_FXAM` of the Extended build. -/
theorem FPU_FXAM_Extended_table (s : FPU) :
    (FPU_FXAM s).sw.testBit 9 = decide (binary64.signBit (s.regs s.top) = 1) ∧
    (s.tags s.top = .TAG_Empty →
      (FPU_FXAM s).sw.testBit 14 = true ∧ (FPU_FXAM s).sw.testBit 10 = false ∧
      (FPU_FXAM s).sw.testBit 8 = true) ∧
    (s.tags s.top ≠ .TAG_Empty →
      (binary64.eq (s.regs s.top) 0 →
        (FPU_FXAM s).sw.testBit 14 = true ∧ (FPU_FXAM s).sw.testBit 10 = false ∧
        (FPU_FXAM s).sw.testBit 8 = false) ∧
      (¬ binary64.eq (s.regs s.top) 0 →
        (FPU_FXAM s).sw.testBit 14 = false ∧ (FPU_FXAM s).sw.testBit 10 = true ∧
        (FPU_FXAM s).sw.testBit 8 = false)) ∧
    (binary64.eq (s.regs s.top) 0 ↔
      s.regs s.top / 4503599627370496 % 2048 = 0 ∧ s.regs s.top % 4503599627370496 = 0) := by
  have m1 : (0x8000000000000000 : Nat) = 1 <<< 63 := by decide
  have hb : s.regs s.top &&& 0x8000000000000000 ≠ 0 ↔ binary64.signBit (s.regs s.top) = 1 := by
    rw [m1, and_bit, Fmt.signBit_eq]
    norm_num [binary64]
  have e1 : Nat.testBit 0xBFFF 9 = true := by decide
  have e2 : Nat.testBit 0xFBFF 9 = true := by decide
  have e3 : Nat.testBit 0xFEFF 9 = true := by decide
  have e4 : Nat.testBit 0xFDFF 9 = false := by decide
  have e5 : Nat.testBit 0x0200 9 = true := by decide
  -- the state after the sign test
  have key : ∀ c3 c2 c0 : Nat, ∀ c1 : Nat,
      (FPU_SET_C0 (FPU_SET_C2 (FPU_SET_C3 (FPU_SET_C1 s c1) c3) c2) c0).sw.testBit 9
        = decide (c1 ≠ 0) := by
    intro c3 c2 c0 c1
    rw [(set_C3_C2_C0 (FPU_SET_C1 s c1) c3 c2 c0).2.2.2.1, FPU_SET_C1_testBit, e4, e5]
    simp
  refine ⟨?_, ?_, ?_, binary64_eq_zero _⟩
  · unfold FPU_FXAM
    by_cases hs : s.regs s.top &&& 0x8000000000000000 ≠ 0
    · have hs1 := hb.mp hs
      simp only [if_pos hs]
      have ht : (FPU_SET_C1 s 1).tags (FPU_SET_C1 s 1).top = s.tags s.top := rfl
      have hr : (FPU_SET_C1 s 1).regs (FPU_SET_C1 s 1).top = s.regs s.top := rfl
      rw [ht, hr]
      split_ifs <;> rw [key] <;> simp [hs1]
    · have hs1 : ¬ binary64.signBit (s.regs s.top) = 1 := fun h => hs (hb.mpr h)
      simp only [if_neg hs]
      have ht : (FPU_SET_C1 s 0).tags (FPU_SET_C1 s 0).top = s.tags s.top := rfl
      have hr : (FPU_SET_C1 s 0).regs (FPU_SET_C1 s 0).top = s.regs s.top := rfl
      rw [ht, hr]
      split_ifs <;> rw [key] <;> simp [hs1]
  · intro hE
    unfold FPU_FXAM
    by_cases hs : s.regs s.top &&& 0x8000000000000000 ≠ 0
    · simp only [if_pos hs]
      have ht : (FPU_SET_C1 s 1).tags (FPU_SET_C1 s 1).top = s.tags s.top := rfl
      rw [ht, if_pos hE]
      obtain ⟨h1, h2, h3, _⟩ := set_C3_C2_C0 (FPU_SET_C1 s 1) 1 0 1
      exact ⟨by rw [h1]; decide, by rw [h2]; decide, by rw [h3]; decide⟩
    · simp only [if_neg hs]
      have ht : (FPU_SET_C1 s 0).tags (FPU_SET_C1 s 0).top = s.tags s.top := rfl
      rw [ht, if_pos hE]
      obtain ⟨h1, h2, h3, _⟩ := set_C3_C2_C0 (FPU_SET_C1 s 0) 1 0 1
      exact ⟨by rw [h1]; decide, by rw [h2]; decide, by rw [h3]; decide⟩
  · intro hE
    refine ⟨fun hz => ?_, fun hz => ?_⟩
    · unfold FPU_FXAM
      by_cases hs : s.regs s.top &&& 0x8000000000000000 ≠ 0
      · simp only [if_pos hs]
        have ht : (FPU_SET_C1 s 1).tags (FPU_SET_C1 s 1).top = s.tags s.top := rfl
        have hr : (FPU_SET_C1 s 1).regs (FPU_SET_C1 s 1).top = s.regs s.top := rfl
        rw [ht, hr, if_neg hE, if_pos hz]
        obtain ⟨h1, h2, h3, _⟩ := set_C3_C2_C0 (FPU_SET_C1 s 1) 1 0 0
        exact ⟨by rw [h1]; decide, by rw [h2]; decide, by rw [h3]; decide⟩
      · simp only [if_neg hs]
        have ht : (FPU_SET_C1 s 0).tags (FPU_SET_C1 s 0).top = s.tags s.top := rfl
        have hr : (FPU_SET_C1 s 0).regs (FPU_SET_C1 s 0).top = s.regs s.top := rfl
        rw [ht, hr, if_neg hE, if_pos hz]
        obtain ⟨h1, h2, h3, _⟩ := set_C3_C2_C0 (FPU_SET_C1 s 0) 1 0 0
        exact ⟨by rw [h1]; decide, by rw [h2]; decide, by rw [h3]; decide⟩
    · unfold FPU_FXAM
      by_cases hs : s.regs s.top &&& 0x8000000000000000 ≠ 0
      · simp only [if_pos hs]
        have ht : (FPU_SET_C1 s 1).tags (FPU_SET_C1 s 1).top = s.tags s.top := rfl
        have hr : (FPU_SET_C1 s 1).regs (FPU_SET_C1 s 1).top = s.regs s.top := rfl
        rw [ht, hr, if_neg hE, if_neg hz]
        obtain ⟨h1, h2, h3, _⟩ := set_C3_C2_C0 (FPU_SET_C1 s 1) 0 1 0
        exact ⟨by rw [h1]; decide, by rw [h2]; decide, by rw [h3]; decide⟩
      · simp only [if_neg hs]
        have ht : (FPU_SET_C1 s 0).tags (FPU_SET_C1 s 0).top = s.tags s.top := rfl
        have hr : (FPU_SET_C1 s 0).regs (FPU_SET_C1 s 0).top = s.regs s.top := rfl
        rw [ht, hr, if_neg hE, if_neg hz]
        obtain ⟨h1, h2, h3, _⟩ := set_C3_C2_C0 (FPU_SET_C1 s 0) 0 1 0
        exact ⟨by rw [h1]; decide, by rw [h2]; decide, by rw [h3]; decide⟩


/-- The truth table of `FPU_FXAM` of the Reduced build. -/
theorem FPU_FXAM_Reduced_table (s : FPU) :
    (FPU_FXAM_Reduced s).sw.testBit 9 = decide (binary32.signBit (s.regs s.top) = 1) ∧
    (s.tags s.top = .TAG_Empty →
      (FPU_FXAM_Reduced s).sw.testBit 14 = true ∧ (FPU_FXAM_Reduced s).sw.testBit 10 = false ∧
      (FPU_FXAM_Reduced s).sw.testBit 8 = true) ∧
    (s.tags s.top ≠ .TAG_Empty →
      (binary32.eq (s.regs s.top) 0 →
        (FPU_FXAM_Reduced s).sw.testBit 14 = true ∧ (FPU_FXAM_Reduced s).sw.testBit 10 = false ∧
        (FPU_FXAM_Reduced s).sw.testBit 8 = false) ∧
      (¬ binary32.eq (s.regs s.top) 0 →
        (FPU_FXAM_Reduced s).sw.testBit 14 = false ∧ (FPU_FXAM_Reduced s).sw.testBit 10 = true ∧
        (FPU_FXAM_Reduced s).sw.testBit 8 = false)) ∧
    (binary32.eq (s.regs s.top) 0 ↔
      s.regs s.top / 8388608 % 256 = 0 ∧ s.regs s.top % 8388608 = 0) := by
  have m1 : (0x80000000 : Nat) = 1 <<< 31 := by decide
  have hb : s.regs s.top &&& 0x80000000 ≠ 0 ↔ binary32.signBit (s.regs s.top) = 1 := by
    rw [m1, and_bit, Fmt.signBit_eq]
    norm_num [binary32]
  have e1 : Nat.testBit 0xBFFF 9 = true := by decide
  have e2 : Nat.testBit 0xFBFF 9 = true := by decide
  have e3 : Nat.testBit 0xFEFF 9 = true := by decide
  have e4 : Nat.testBit 0xFDFF 9 = false := by decide
  have e5 : Nat.testBit 0x0200 9 = true := by decide
  -- the state after the sign test
  have key : ∀ c3 c2 c0 : Nat, ∀ c1 : Nat,
      (FPU_SET_C0 (FPU_SET_C2 (FPU_SET_C3 (FPU_SET_C1 s c1) c3) c2) c0).sw.testBit 9
        = decide (c1 ≠ 0) := by
    intro c3 c2 c0 c1
    rw [(set_C3_C2_C0 (FPU_SET_C1 s c1) c3 c2 c0).2.2.2.1, FPU_SET_C1_testBit, e4, e5]
    simp
  refine ⟨?_, ?_, ?_, binary32_eq_zero _⟩
  · unfold FPU_FXAM_Reduced
    by_cases hs : s.regs s.top &&& 0x80000000 ≠ 0
    · have hs1 := hb.mp hs
      simp only [if_pos hs]
      have ht : (FPU_SET_C1 s 1).tags (FPU_SET_C1 s 1).top = s.tags s.top := rfl
      have hr : (FPU_SET_C1 s 1).regs (FPU_SET_C1 s 1).top = s.regs s.top := rfl
      rw [ht, hr]
      split_ifs <;> rw [key] <;> simp [hs1]
    · have hs1 : ¬ binary32.signBit (s.regs s.top) = 1 := fun h => hs (hb.mpr h)
      simp only [if_neg hs]
      have ht : (FPU_SET_C1 s 0).tags (FPU_SET_C1 s 0).top = s.tags s.top := rfl
      have hr : (FPU_SET_C1 s 0).regs (FPU_SET_C1 s 0).top = s.regs s.top := rfl
      rw [ht, hr]
      split_ifs <;> rw [key] <;> simp [hs1]
  · intro hE
    unfold FPU_FXAM_Reduced
    by_cases hs : s.regs s.top &&& 0x80000000 ≠ 0
    · simp only [if_pos hs]
      have ht : (FPU_SET_C1 s 1).tags (FPU_SET_C1 s 1).top = s.tags s.top := rfl
      rw [ht, if_pos hE]
      obtain ⟨h1, h2, h3, _⟩ := set_C3_C2_C0 (FPU_SET_C1 s 1) 1 0 1
      exact ⟨by rw [h1]; decide, by rw [h2]; decide, by rw [h3]; decide⟩
    · simp only [if_neg hs]
      have ht : (FPU_SET_C1 s 0).tags (FPU_SET_C1 s 0).top = s.tags s.top := rfl
      rw [ht, if_pos hE]
      obtain ⟨h1, h2, h3, _⟩ := set_C3_C2_C0 (FPU_SET_C1 s 0) 1 0 1
      exact ⟨by rw [h1]; decide, by rw [h2]; decide, by rw [h3]; decide⟩
  · intro hE
    refine ⟨fun hz => ?_, fun hz => ?_⟩
    · unfold FPU_FXAM_Reduced
      by_cases hs : s.regs s.top &&& 0x80000000 ≠ 0
      · simp only [if_pos hs]
        have ht : (FPU_SET_C1 s 1).tags (FPU_SET_C1 s 1).top = s.tags s.top := rfl
        have hr : (FPU_SET_C1 s 1).regs (FPU_SET_C1 s 1).top = s.regs s.top := rfl
        rw [ht, hr, if_neg hE, if_pos hz]
        obtain ⟨h1, h2, h3, _⟩ := set_C3_C2_C0 (FPU_SET_C1 s 1) 1 0 0
        exact ⟨by rw [h1]; decide, by rw [h2]; decide, by rw [h3]; decide⟩
      · simp only [if_neg hs]
        have ht : (FPU_SET_C1 s 0).tags (FPU_SET_C1 s 0).top = s.tags s.top := rfl
        have hr : (FPU_SET_C1 s 0).regs (FPU_SET_C1 s 0).top = s.regs s.top := rfl
        rw [ht, hr, if_neg hE, if_pos hz]
        obtain ⟨h1, h2, h3, _⟩ := set_C3_C2_C0 (FPU_SET_C1 s 0) 1 0 0
        exact ⟨by rw [h1]; decide, by rw [h2]; decide, by rw [h3]; decide⟩
    · unfold FPU_FXAM_Reduced
      by_cases hs : s.regs s.top &&& 0x80000000 ≠ 0
      · simp only [if_pos hs]
        have ht : (FPU_SET_C1 s 1).tags (FPU_SET_C1 s 1).top = s.tags s.top := rfl
        have hr : (FPU_SET_C1 s 1).regs (FPU_SET_C1 s 1).top = s.regs s.top := rfl
        rw [ht, hr, if_neg hE, if_neg hz]
        obtain ⟨h1, h2, h3, _⟩ := set_C3_C2_C0 (FPU_SET_C1 s 1) 0 1 0
        exact ⟨by rw [h1]; decide, by rw [h2]; decide, by rw [h3]; decide⟩
      · simp only [if_neg hs]
        have ht : (FPU_SET_C1 s 0).tags (FPU_SET_C1 s 0).top = s.tags s.top := rfl
        have hr : (FPU_SET_C1 s 0).regs (FPU_SET_C1 s 0).top = s.regs s.top := rfl
        rw [ht, hr, if_neg hE, if_neg hz]
        obtain ⟨h1, h2, h3, _⟩ := set_C3_C2_C0 (FPU_SET_C1 s 0) 0 1 0
        exact ⟨by rw [h1]; decide, by rw [h2]; decide, by rw [h3]; decide⟩

/-- C20: `FPU_FXAM`, in the Extended and in the Reduced build, sets C1 (bit 9 of the
status word) to the sign bit of the top register, also when the slot is Empty, and sets
(C3, C2, C0), bits 14, 10 and 8, to (1,0,1) if the top slot is tagged Empty, otherwise to
(1,0,0) if the top value compares equal to zero (it is +0 or -0: exponent and fraction
fields are zero) and to (0,1,0) for any other value. -/
theorem FPU_FXAM_table (s : FPU) :
    ((FPU_FXAM s).sw.testBit 9 = decide (binary64.signBit (s.regs s.top) = 1) ∧
      (s.tags s.top = .TAG_Empty →
        (FPU_FXAM s).sw.testBit 14 = true ∧ (FPU_FXAM s).sw.testBit 10 = false ∧
        (FPU_FXAM s).sw.testBit 8 = true) ∧
      (s.tags s.top ≠ .TAG_Empty →
        (binary64.eq (s.regs s.top) 0 →
          (FPU_FXAM s).sw.testBit 14 = true ∧ (FPU_FXAM s).sw.testBit 10 = false ∧
          (FPU_FXAM s).sw.testBit 8 = false) ∧
        (¬ binary64.eq (s.regs s.top) 0 →
          (FPU_FXAM s).sw.testBit 14 = false ∧ (FPU_FXAM s).sw.testBit 10 = true ∧
          (FPU_FXAM s).sw.testBit 8 = false)) ∧
      (binary64.eq (s.regs s.top) 0 ↔
        s.regs s.top / 4503599627370496 % 2048 = 0 ∧ s.regs s.top % 4503599627370496 = 0)) ∧
    ((FPU_FXAM_Reduced s).sw.testBit 9 = decide (binary32.signBit (s.regs s.top) = 1) ∧
      (s.tags s.top = .TAG_Empty →
        (FPU_FXAM_Reduced s).sw.testBit 14 = true ∧ (FPU_FXAM_Reduced s).sw.testBit 10 = false ∧
        (FPU_FXAM_Reduced s).sw.testBit 8 = true) ∧
      (s.tags s.top ≠ .TAG_Empty →
        (binary32.eq (s.regs s.top) 0 →
          (FPU_FXAM_Reduced s).sw.testBit 14 = true ∧ (FPU_FXAM_Reduced s).sw.testBit 10 = false ∧
          (FPU_FXAM_Reduced s).sw.testBit 8 = false) ∧
        (¬ binary32.eq (s.regs s.top) 0 →
          (FPU_FXAM_Reduced s).sw.testBit 14 = false ∧ (FPU_FXAM_Reduced s).sw.testBit 10 = true ∧
          (FPU_FXAM_Reduced s).sw.testBit 8 = false)) ∧
      (binary32.eq (s.regs s.top) 0 ↔
        s.regs s.top / 8388608 % 256 = 0 ∧ s.regs s.top % 8388608 = 0)) :=
  ⟨FPU_FXAM_Extended_table s, FPU_FXAM_Reduced_table s⟩

/-- C20 applies to the empty stack (top slot Empty), to a stack whose top holds -2.0 in the
Extended build, and to a stack whose top holds the `float` -0.0 in the Reduced build. -/
theorem FPU_FXAM_table_witness :
    ((FPU_FXAM emptyStack).sw.testBit 14 = true ∧ (FPU_FXAM emptyStack).sw.testBit 10 = false ∧
      (FPU_FXAM emptyStack).sw.testBit 8 = true) ∧
    ((FPU_FXAM { fullStack with regs := fun _ => 0xC000000000000000 }).sw.testBit 14 = false ∧
      (FPU_FXAM { fullStack with regs := fun _ => 0xC000000000000000 }).sw.testBit 10 = true ∧
      (FPU_FXAM { fullStack with regs := fun _ => 0xC000000000000000 }).sw.testBit 8 = false) ∧
    ((FPU_FXAM_Reduced { fullStack with regs := fun _ => 0x80000000 }).sw.testBit 14 = true ∧
      (FPU_FXAM_Reduced { fullStack with regs := fun _ => 0x80000000 }).sw.testBit 10 = false ∧
      (FPU_FXAM_Reduced { fullStack with regs := fun _ => 0x80000000 }).sw.testBit 8 = false) :=
  ⟨(FPU_FXAM_table emptyStack).1.2.1 (by decide),
   ((FPU_FXAM_table { fullStack with regs := fun _ => 0xC000000000000000 }).1.2.2.1
      (by decide)).2 (by decide),
   ((FPU_FXAM_table { fullStack with regs := fun _ => 0x80000000 }).2.2.2.1
      (by decide)).1 (by decide)⟩

/-! ## Exchange -/

theorem setSlot_same {α : Type} (a : Nat → α) (i : Nat) (v : α) : setSlot a i v i = v := by
  simp [setSlot]

theorem setSlot_other {α : Type} (a : Nat → α) (i j : Nat) (v : α) (h : j ≠ i) :
    setSlot a i v j = a j := by
  simp [setSlot, h]

theorem setSlot_self {α : Type} (a : Nat → α) (i : Nat) : setSlot a i (a i) = a := by
  funext j
  unfold setSlot
  split
  · rename_i h; rw [h]
  · rfl

/-- C28: `FPU_FXCH(a, b)` swaps the value and the tag of the slots `a` and `b`: slot `a`
takes the old value and tag of `b`, slot `b` those of `a`; every other slot, top, the
status word, the control word (with its mask copy and the rounding mode) are unchanged.
For `a = b` the state is unchanged.  The function is total: no input makes it fail. -/
theorem FPU_FXCH_swap (s : FPU) (a b : Nat) :
    (FPU_FXCH s a b).regs a = s.regs b ∧ (FPU_FXCH s a b).regs b = s.regs a ∧
    (FPU_FXCH s a b).tags a = s.tags b ∧ (FPU_FXCH s a b).tags b = s.tags a ∧
    (∀ j, j ≠ a → j ≠ b →
      (FPU_FXCH s a b).regs j = s.regs j ∧ (FPU_FXCH s a b).tags j = s.tags j) ∧
    (FPU_FXCH s a b).top = s.top ∧ (FPU_FXCH s a b).sw = s.sw ∧
    (FPU_FXCH s a b).cw = s.cw ∧ (FPU_FXCH s a b).cw_mask_all = s.cw_mask_all ∧
    (FPU_FXCH s a b).round = s.round ∧
    (a = b → FPU_FXCH s a b = s) := by
  refine ⟨?_, ?_, ?_, ?_, ?_, rfl, rfl, rfl, rfl, rfl, ?_⟩
  · simp [FPU_FXCH, setSlot]
  · by_cases h : b = a
    · simp [FPU_FXCH, setSlot, h]
    · simp [FPU_FXCH, setSlot, h]
  · simp [FPU_FXCH, setSlot]
  · by_cases h : b = a
    · simp [FPU_FXCH, setSlot, h]
    · simp [FPU_FXCH, setSlot, h]
  · intro j ha hb
    simp [FPU_FXCH, setSlot, ha, hb]
  · intro h
    subst h
    unfold FPU_FXCH
    simp only [setSlot_same, setSlot_self]

/-- C28 applies to the exchange of the slots 3 and 4 of the sample context, which hold
17.0 and 5.0, and to the exchange of slot 3 with itself. -/
theorem FPU_FXCH_swap_witness :
    (FPU_FXCH sampleState 3 4).regs 3 = 0x4014000000000000 ∧
    (FPU_FXCH sampleState 3 4).regs 4 = 0x4031000000000000 ∧
    ((FPU_FXCH sampleState 3 4).regs 5 = sampleState.regs 5 ∧
      (FPU_FXCH sampleState 3 4).tags 5 = sampleState.tags 5) ∧
    FPU_FXCH sampleState 3 3 = sampleState :=
  ⟨(FPU_FXCH_swap sampleState 3 4).1, (FPU_FXCH_swap sampleState 3 4).2.1,
   (FPU_FXCH_swap sampleState 3 4).2.2.2.2.1 5 (by decide) (by decide),
   (FPU_FXCH_swap sampleState 3 3).2.2.2.2.2.2.2.2.2.2 rfl⟩

/-! ## 80-bit load of infinity and 80-bit store format -/

theorem and_7fff (x : Nat) : x &&& 0x7fff = x % 32768 := by
  have := and_low x 15
  norm_num at this
  exact this

theorem and_8000 (x : Nat) : (x &&& 0x8000 ≠ 0) ↔ x / 32768 % 2 = 1 := by
  have m2 : (0x8000 : Nat) = 1 <<< 15 := by decide
  have := and_bit x 15
  rw [← m2] at this
  norm_num at this ⊢
  exact this

/-- The Reduced load on an operand with exponent field 0x7FFF: the exponent field of the
result is 255, sign and the 23 mantissa bits below the integer bit are kept. -/
theorem FPU_FLD80_Reduced_max (mem : Mem) (addr : Nat)
    (he : mem_readw mem (addr + 8) % 32768 = 0x7fff) :
    FPU_FLD80_Reduced mem addr =
      ((if mem_readw mem (addr + 8) / 32768 % 2 = 1 then 1 else 0) <<< 31) |||
        (255 <<< 23) ||| ((mem_readd mem (addr + 4) >>> 8) &&& 0x7fffff) := by
  unfold FPU_FLD80_Reduced
  simp only [and_7fff, he, and_8000]
  have c1 : (((0x7fff : Nat) : Int) - (BIAS80 : Int) = 0x4000) := by decide
  simp only [if_pos c1]
  rfl

/-- C29: 80-bit load of the infinity pattern.  On the ten bytes with exponent field 0x7FFF
(the low 15 bits of the word at offset 8) and 64-bit mantissa 0x8000000000000000 (low
doubleword 0, high doubleword 0x80000000), `FPU_FLD80` of the Extended build returns the
`double` +infinity 0x7FF0000000000000 when bit 15 of the word at offset 8 is clear and
-infinity 0xFFF0000000000000 when it is set, and `FPU_FLD80` of the Reduced build returns
the `float` +infinity 0x7F800000, resp. -infinity 0xFF800000. -/
theorem FPU_FLD80_infinity (mem : Mem) (addr : Nat)
    (hlo : mem_readd mem addr = 0) (hhi : mem_readd mem (addr + 4) = 0x80000000)
    (he : mem_readw mem (addr + 8) % 32768 = 0x7fff) :
    (mem_readw mem (addr + 8) / 32768 % 2 = 0 →
      FPU_FLD80 mem addr = 0x7FF0000000000000 ∧
      FPU_FLD80 mem addr = binary64.withSign 0 binary64.inf ∧
      FPU_FLD80_Reduced mem addr = 0x7F800000 ∧
      FPU_FLD80_Reduced mem addr = binary32.withSign 0 binary32.inf) ∧
    (mem_readw mem (addr + 8) / 32768 % 2 = 1 →
      FPU_FLD80 mem addr = 0xFFF0000000000000 ∧
      FPU_FLD80 mem addr = binary64.withSign 1 binary64.inf ∧
      FPU_FLD80_Reduced mem addr = 0xFF800000 ∧
      FPU_FLD80_Reduced mem addr = binary32.withSign 1 binary32.inf) := by
  have e64 := FPU_FLD80_eq mem addr
  rw [if_pos ⟨hlo, hhi, he⟩] at e64
  have e32 := FPU_FLD80_Reduced_max mem addr he
  rw [hhi] at e32
  constructor
  · intro hs
    rw [hs] at e64 e32
    rw [e64, e32]
    exact ⟨by decide, by decide, by decide, by decide⟩
  · intro hs
    rw [hs] at e64 e32
    rw [e64, e32]
    exact ⟨by decide, by decide, by decide, by decide⟩

/-- An operand with the infinity pattern and the sign bit set, at address 100. -/
theorem FPU_FLD80_infinity_witness :
    FPU_FLD80 (mem_writew (mem_writed (mem_writed (fun _ => 0) 100 0) 104 0x80000000) 108 0xFFFF)
      100 = 0xFFF0000000000000 ∧
    FPU_FLD80_Reduced
      (mem_writew (mem_writed (mem_writed (fun _ => 0) 100 0) 104 0x80000000) 108 0xFFFF)
      100 = 0xFF800000 :=
  ⟨((FPU_FLD80_infinity
      (mem_writew (mem_writed (mem_writed (fun _ => 0) 100 0) 104 0x80000000) 108 0xFFFF)
      100 (by decide) (by decide) (by decide)).2 (by decide)).1,
   ((FPU_FLD80_infinity
      (mem_writew (mem_writed (mem_writed (fun _ => 0) 100 0) 104 0x80000000) 108 0xFFFF)
      100 (by decide) (by decide) (by decide)).2 (by decide)).2.2.1⟩

theorem FPU_ST80_frame (s : FPU) (mem : Mem) (addr reg j : Nat) (h : j < addr ∨ addr + 10 ≤ j) :
    FPU_ST80 s mem addr reg j = mem j := by
  unfold FPU_ST80
  rw [mem_writew_frame _ _ _ _ (by omega), mem_writed_frame _ _ _ _ (by omega),
    mem_writed_frame _ _ _ _ (by omega)]

theorem FPU_ST80_Reduced_frame (s : FPU) (mem : Mem) (addr reg j : Nat)
    (h : j < addr ∨ addr + 10 ≤ j) : FPU_ST80_Reduced s mem addr reg j = mem j := by
  unfold FPU_ST80_Reduced
  rw [mem_writew_frame _ _ _ _ (by omega), mem_writed_frame _ _ _ _ (by omega),
    mem_writed_frame _ _ _ _ (by omega)]

/-- C30: 80-bit store format (Extended build).  For every 64-bit register pattern `x`,
`FPU_ST80` writes the sign bit of `x` in bit 15 of the word at offset 8.  If `x` does not
compare equal to zero, the exponent field (the low 15 bits of that word) is the 11-bit
exponent field of `x` plus 15360 and the 64-bit mantissa (doublewords at offsets 0 and 4)
is the 52-bit fraction shifted left by 11 with bit 63 set.  If `x` is +0 or -0, exponent
field and mantissa are 0.  So bit 63 of the mantissa is set iff `x` is not zero.  No byte
outside the ten bytes of the operand changes. -/
theorem FPU_ST80_format (s : FPU) (mem : Mem) (addr reg : Nat)
    (hx : s.regs reg < 18446744073709551616) :
    mem_readw (FPU_ST80 s mem addr reg) (addr + 8) / 32768 % 2
      = binary64.signBit (s.regs reg) ∧
    (¬ binary64.eq (s.regs reg) 0 →
      mem_readw (FPU_ST80 s mem addr reg) (addr + 8) % 32768
        = binary64.expField (s.regs reg) + 15360 ∧
      mem_readd (FPU_ST80 s mem addr reg) addr
          + 4294967296 * mem_readd (FPU_ST80 s mem addr reg) (addr + 4)
        = binary64.fracField (s.regs reg) * 2048 + 9223372036854775808) ∧
    (binary64.eq (s.regs reg) 0 →
      mem_readw (FPU_ST80 s mem addr reg) (addr + 8) % 32768 = 0 ∧
      mem_readd (FPU_ST80 s mem addr reg) addr
          + 4294967296 * mem_readd (FPU_ST80 s mem addr reg) (addr + 4) = 0) ∧
    ((mem_readd (FPU_ST80 s mem addr reg) addr
          + 4294967296 * mem_readd (FPU_ST80 s mem addr reg) (addr + 4))
        / 9223372036854775808 % 2 = 1 ↔ ¬ binary64.eq (s.regs reg) 0) ∧
    (binary64.eq (s.regs reg) 0 ↔ s.regs reg = 0 ∨ s.regs reg = 0x8000000000000000) ∧
    (∀ j, j < addr ∨ addr + 10 ≤ j → FPU_ST80 s mem addr reg j = mem j) := by
  obtain ⟨h1, h2, h3⟩ := FPU_ST80_fields s mem addr reg hx
  have hz := binary64_eq_zero (s.regs reg)
  have hs : binary64.signBit (s.regs reg) = s.regs reg / 9223372036854775808 % 2 := by
    rw [Fmt.signBit_eq]; norm_num [binary64]
  have he : binary64.expField (s.regs reg) = s.regs reg / 4503599627370496 % 2048 := by
    rw [Fmt.expField_eq]; norm_num [binary64]
  have hf : binary64.fracField (s.regs reg) = s.regs reg % 4503599627370496 := by
    rw [Fmt.fracField_eq]; norm_num [binary64]
  rw [h1, h2, h3, hs, he, hf]
  clear h1 h2 h3 hs he hf
  generalize s.regs reg = x at hx hz ⊢
  refine ⟨?_, ?_, ?_, ?_, ?_, fun j hj => FPU_ST80_frame s mem addr reg j hj⟩
  · split <;> omega
  · intro hne
    simp only [if_neg hne]
    omega
  · intro hzero
    have := hz.mp hzero
    simp only [if_pos hzero]
    omega
  · by_cases hzero : binary64.eq x 0
    · have := hz.mp hzero
      simp only [if_pos hzero]
      constructor
      · intro h; omega
      · intro h; exact absurd hzero h
    · simp only [if_neg hzero]
      constructor
      · intro _; exact hzero
      · intro _; omega
  · rw [hz]
    omega

/-- C30 applies to the registers 2.5 and -0.0. -/
theorem FPU_ST80_format_witness :
    (mem_readw (FPU_ST80 (withRegs 0x4004000000000000) (fun _ => 0) 100 0) 108 % 32768
        = 0x400 + 15360 ∧
      mem_readd (FPU_ST80 (withRegs 0x4004000000000000) (fun _ => 0) 100 0) 100
          + 4294967296 * mem_readd (FPU_ST80 (withRegs 0x4004000000000000) (fun _ => 0) 100 0) 104
        = 0xA000000000000000) ∧
    (mem_readw (FPU_ST80 (withRegs 0x8000000000000000) (fun _ => 0) 100 0) 108 % 32768 = 0 ∧
      mem_readd (FPU_ST80 (withRegs 0x8000000000000000) (fun _ => 0) 100 0) 100
          + 4294967296 * mem_readd (FPU_ST80 (withRegs 0x8000000000000000) (fun _ => 0) 100 0) 104
        = 0) :=
  ⟨(FPU_ST80_format (withRegs 0x4004000000000000) (fun _ => 0) 100 0 (by decide)).2.1
      (by decide),
   (FPU_ST80_format (withRegs 0x8000000000000000) (fun _ => 0) 100 0 (by decide)).2.2.1
      (by decide)⟩

/-! ## Environment persistence -/

theorem toBits_lt (t : FPU_Tag) : t.toBits < 4 := by
  cases t <;> decide

theorem ofBits_toBits (t : FPU_Tag) :
    FPU_Tag.ofBits t.toBits = if t = .TAG_Zero then .TAG_Valid else t := by
  cases t <;> rfl

theorem and_three (x : Nat) : x &&& 3 = x % 4 := by
  have := and_low x 2
  norm_num at this
  exact this

theorem or_shiftLeft (a b p : Nat) (ha : a < 2 ^ p) : a ||| (b <<< p) = a + b * 2 ^ p := by
  rw [Nat.lor_comm, shiftLeft_or b p a ha, Nat.add_comm]

/-- The tag summary in arithmetic form: slot `i` contributes its code times `4^i`. -/
theorem FPU_GetTag_eq (s : FPU) :
    FPU_GetTag s = (s.tags 0).toBits + 4 * (s.tags 1).toBits + 16 * (s.tags 2).toBits
      + 64 * (s.tags 3).toBits + 256 * (s.tags 4).toBits + 1024 * (s.tags 5).toBits
      + 4096 * (s.tags 6).toBits + 16384 * (s.tags 7).toBits := by
  have h0 := toBits_lt (s.tags 0)
  have h1 := toBits_lt (s.tags 1)
  have h2 := toBits_lt (s.tags 2)
  have h3 := toBits_lt (s.tags 3)
  have h4 := toBits_lt (s.tags 4)
  have h5 := toBits_lt (s.tags 5)
  have h6 := toBits_lt (s.tags 6)
  have h7 := toBits_lt (s.tags 7)
  have hr : List.range 8 = [0, 1, 2, 3, 4, 5, 6, 7] := by decide
  unfold FPU_GetTag
  rw [hr]
  simp only [List.foldl, and_three]
  generalize (s.tags 0).toBits = b0 at *
  generalize (s.tags 1).toBits = b1 at *
  generalize (s.tags 2).toBits = b2 at *
  generalize (s.tags 3).toBits = b3 at *
  generalize (s.tags 4).toBits = b4 at *
  generalize (s.tags 5).toBits = b5 at *
  generalize (s.tags 6).toBits = b6 at *
  generalize (s.tags 7).toBits = b7 at *
  rw [or_shiftLeft 0 _ (2 * 0) (by norm_num)]
  rw [or_shiftLeft _ _ (2 * 1) (by norm_num; omega)]
  rw [or_shiftLeft _ _ (2 * 2) (by norm_num; omega)]
  rw [or_shiftLeft _ _ (2 * 3) (by norm_num; omega)]
  rw [or_shiftLeft _ _ (2 * 4) (by norm_num; omega)]
  rw [or_shiftLeft _ _ (2 * 5) (by norm_num; omega)]
  rw [or_shiftLeft _ _ (2 * 6) (by norm_num; omega)]
  rw [or_shiftLeft _ _ (2 * 7) (by norm_num; omega)]
  norm_num
  omega

theorem FPU_GetTag_lt (s : FPU) : FPU_GetTag s < 65536 := by
  rw [FPU_GetTag_eq]
  have h0 := toBits_lt (s.tags 0)
  have h1 := toBits_lt (s.tags 1)
  have h2 := toBits_lt (s.tags 2)
  have h3 := toBits_lt (s.tags 3)
  have h4 := toBits_lt (s.tags 4)
  have h5 := toBits_lt (s.tags 5)
  have h6 := toBits_lt (s.tags 6)
  have h7 := toBits_lt (s.tags 7)
  omega

/-- The tags after `FPU_SetTag`: the eight stack slots take the coded tags, the scratch
slot and every other field are unchanged. -/
theorem FPU_SetTag_fields (s : FPU) (tag : Nat) :
    (∀ i, (FPU_SetTag s tag).tags i =
      if i < 8 then FPU_Tag.ofBits (tag / 4 ^ i % 4) else s.tags i) ∧
    (FPU_SetTag s tag).regs = s.regs ∧ (FPU_SetTag s tag).cw = s.cw ∧
    (FPU_SetTag s tag).cw_mask_all = s.cw_mask_all ∧ (FPU_SetTag s tag).sw = s.sw ∧
    (FPU_SetTag s tag).top = s.top ∧ (FPU_SetTag s tag).round = s.round := by
  have hr : List.range 8 = [0, 1, 2, 3, 4, 5, 6, 7] := by decide
  refine ⟨fun i => ?_, rfl, rfl, rfl, rfl, rfl, rfl⟩
  unfold FPU_SetTag
  rw [hr]
  simp only [List.foldl, and_three, Nat.shiftRight_eq_div_pow]
  by_cases hi : i < 8
  · rw [if_pos hi]
    interval_cases i <;> simp [setSlot, pow_mul]
  · rw [if_neg hi]
    have h0 : i ≠ 0 := by omega
    have h1 : i ≠ 1 := by omega
    have h2 : i ≠ 2 := by omega
    have h3 : i ≠ 3 := by omega
    have h4 : i ≠ 4 := by omega
    have h5 : i ≠ 5 := by omega
    have h6 : i ≠ 6 := by omega
    have h7 : i ≠ 7 := by omega
    simp [setSlot, h0, h1, h2, h3, h4, h5, h6, h7]

/-- Restoring the tag summary of a context reproduces its eight stack tags, except that a
Zero tag comes back as Valid. -/
theorem FPU_SetTag_GetTag (s t : FPU) (i : Nat) (hi : i < 8) :
    (FPU_SetTag t (FPU_GetTag s)).tags i
      = if s.tags i = .TAG_Zero then .TAG_Valid else s.tags i := by
  rw [(FPU_SetTag_fields t (FPU_GetTag s)).1 i, if_pos hi, FPU_GetTag_eq]
  have h0 := toBits_lt (s.tags 0)
  have h1 := toBits_lt (s.tags 1)
  have h2 := toBits_lt (s.tags 2)
  have h3 := toBits_lt (s.tags 3)
  have h4 := toBits_lt (s.tags 4)
  have h5 := toBits_lt (s.tags 5)
  have h6 := toBits_lt (s.tags 6)
  have h7 := toBits_lt (s.tags 7)
  have key : ∀ (t : FPU_Tag) (n : Nat), n = t.toBits →
      FPU_Tag.ofBits n = if t = .TAG_Zero then .TAG_Valid else t :=
    fun t n h => by rw [h, ofBits_toBits]
  interval_cases i
  all_goals
    apply key
    norm_num
    omega

theorem FPU_SET_TOP_sw (s : FPU) (val : Nat) :
    (FPU_SET_TOP s val).sw = (s.sw / 16384 % 4) * 16384 + (val % 8) * 2048 + s.sw % 2048 := by
  have m1 : (0xC7FF : Nat) = ((2 ^ 2 - 1) <<< 14) ||| (2 ^ 11 - 1) := by decide
  have a1 := and_field s.sw 2 14
  have a2 := and_low s.sw 11
  have hlo : s.sw % 2 ^ 11 < 2 ^ 11 := Nat.mod_lt _ (by norm_num)
  have hv : val % 8 < 8 := Nat.mod_lt _ (by norm_num)
  show (s.sw &&& 0xC7FF) ||| ((val &&& 7) <<< 11) = _
  rw [m1, Nat.and_or_distrib_left, a1, a2, and_seven_eq_mod, Nat.lor_assoc,
    or_shiftLeft _ _ 11 hlo, ← Nat.shiftLeft_eq,
    shiftLeft_or _ 14 _ (by norm_num at hlo ⊢; omega)]
  norm_num
  omega

theorem FPU_GET_TOP_eq (s : FPU) : FPU_GET_TOP s = s.sw / 2048 % 8 := by
  have m1 : (0x3800 : Nat) = (2 ^ 3 - 1) <<< 11 := by decide
  unfold FPU_GET_TOP
  rw [m1, and_field, Nat.shiftRight_eq_div_pow, Nat.mul_div_cancel _ (by norm_num)]
  norm_num

theorem FPU_GetTag_congr (s t : FPU) (h : ∀ i, i < 8 → s.tags i = t.tags i) :
    FPU_GetTag s = FPU_GetTag t := by
  rw [FPU_GetTag_eq, FPU_GetTag_eq, h 0 (by norm_num), h 1 (by norm_num), h 2 (by norm_num),
    h 3 (by norm_num), h 4 (by norm_num), h 5 (by norm_num), h 6 (by norm_num),
    h 7 (by norm_num)]

/-- What `FPU_FSTENV` does: the state keeps everything but the top field of the status
word, and the three words of the environment are in memory at the offsets of the
addressing size. -/
theorem FPU_FSTENV_spec (big : Bool) (s : FPU) (mem : Mem) (addr : Nat) :
    (FPU_FSTENV big s mem addr).1 = FPU_SET_TOP s s.top ∧
    (big = false →
      mem_readw (FPU_FSTENV big s mem addr).2 addr = s.cw % 65536 ∧
      mem_readw (FPU_FSTENV big s mem addr).2 (addr + 2) = (FPU_SET_TOP s s.top).sw % 65536 ∧
      mem_readw (FPU_FSTENV big s mem addr).2 (addr + 4) = FPU_GetTag s ∧
      ∀ j, j < addr ∨ addr + 6 ≤ j → (FPU_FSTENV big s mem addr).2 j = mem j) ∧
    (big = true →
      mem_readd (FPU_FSTENV big s mem addr).2 addr = s.cw % 4294967296 ∧
      mem_readd (FPU_FSTENV big s mem addr).2 (addr + 4)
        = (FPU_SET_TOP s s.top).sw % 4294967296 ∧
      mem_readd (FPU_FSTENV big s mem addr).2 (addr + 8) = FPU_GetTag s ∧
      ∀ j, j < addr ∨ addr + 12 ≤ j → (FPU_FSTENV big s mem addr).2 j = mem j) := by
  have hg : FPU_GetTag (FPU_SET_TOP s s.top) = FPU_GetTag s :=
    FPU_GetTag_congr _ _ (fun _ _ => rfl)
  have hlt := FPU_GetTag_lt s
  refine ⟨?_, ?_, ?_⟩
  · cases big <;> rfl
  · intro hb
    subst hb
    have e : (FPU_FSTENV false s mem addr).2 =
        mem_writew (mem_writew (mem_writew mem (addr + 0) (s.cw % 65536)) (addr + 2)
          ((FPU_SET_TOP s s.top).sw % 65536)) (addr + 4) (FPU_GetTag s % 65536) := by
      simp [FPU_FSTENV, hg]
      rfl
    rw [e]
    refine ⟨?_, ?_, ?_, ?_⟩
    · rw [← Nat.mod_mod (s.cw) 65536]
      refine mem_readw_of_bytes _ _ _ ?_ ?_ <;> simp [mem_readb_writew, Nat.add_assoc]
    · rw [← Nat.mod_mod ((FPU_SET_TOP s s.top).sw) 65536]
      refine mem_readw_of_bytes _ _ _ ?_ ?_ <;> simp [mem_readb_writew, Nat.add_assoc]
    · have : FPU_GetTag s = FPU_GetTag s % 65536 % 65536 := by omega
      rw [this]
      refine mem_readw_of_bytes _ _ _ ?_ ?_ <;> simp [mem_readb_writew, Nat.add_assoc]
    · intro j hj
      rw [mem_writew_frame _ _ _ _ (by omega), mem_writew_frame _ _ _ _ (by omega),
        mem_writew_frame _ _ _ _ (by omega)]
  · intro hb
    subst hb
    have e : (FPU_FSTENV true s mem addr).2 =
        mem_writed (mem_writed (mem_writed mem (addr + 0) (s.cw % 4294967296)) (addr + 4)
          ((FPU_SET_TOP s s.top).sw % 4294967296)) (addr + 8) (FPU_GetTag s % 4294967296) := by
      simp [FPU_FSTENV, hg]
      rfl
    rw [e]
    refine ⟨?_, ?_, ?_, ?_⟩
    · rw [← Nat.mod_mod (s.cw) 4294967296]
      refine mem_readd_of_bytes _ _ _ ?_ ?_ ?_ ?_ <;> simp [mem_readb_writed, Nat.add_assoc]
    · rw [← Nat.mod_mod ((FPU_SET_TOP s s.top).sw) 4294967296]
      refine mem_readd_of_bytes _ _ _ ?_ ?_ ?_ ?_ <;> simp [mem_readb_writed, Nat.add_assoc]
    · have : FPU_GetTag s = FPU_GetTag s % 4294967296 % 4294967296 := by omega
      rw [this]
      refine mem_readd_of_bytes _ _ _ ?_ ?_ ?_ ?_ <;> simp [mem_readb_writed, Nat.add_assoc]
    · intro j hj
      rw [mem_writed_frame _ _ _ _ (by omega), mem_writed_frame _ _ _ _ (by omega),
        mem_writed_frame _ _ _ _ (by omega)]

/-- What `FPU_FLDENV` does, in terms of the three words it reads. -/
theorem FPU_FLDENV_spec (big : Bool) (s : FPU) (mem : Mem) (addr : Nat) (cw sw tag : Nat)
    (hcw : cw = if big then mem_readd mem addr else mem_readw mem addr)
    (hsw : sw = if big then mem_readd mem (addr + 4) % 65536 else mem_readw mem (addr + 2))
    (htag : tag = if big then mem_readd mem (addr + 8) % 65536 else mem_readw mem (addr + 4)) :
    (FPU_FLDENV big s mem addr).cw = cw % 65536 ∧
    (FPU_FLDENV big s mem addr).sw = sw ∧
    (FPU_FLDENV big s mem addr).top = sw / 2048 % 8 ∧
    (∀ i, (FPU_FLDENV big s mem addr).tags i =
      if i < 8 then FPU_Tag.ofBits (tag / 4 ^ i % 4) else s.tags i) ∧
    (FPU_FLDENV big s mem addr).regs = s.regs ∧
    (FPU_FLDENV big s mem addr).cw_mask_all = (cw ||| 0x3f) % 65536 ∧
    (FPU_FLDENV big s mem addr).round = FPU_Round.ofBits ((cw >>> 10) &&& 3) := by
  have e : FPU_FLDENV big s mem addr =
      { FPU_SetCW (FPU_SetTag { s with sw := sw } tag) cw with
        top := FPU_GET_TOP (FPU_SetCW (FPU_SetTag { s with sw := sw } tag) cw) } := by
    rw [hcw, hsw, htag]
    cases big <;> simp [FPU_FLDENV]
  obtain ⟨t1, t2, t3, t4, t5, t6, t7⟩ := FPU_SetTag_fields { s with sw := sw } tag
  rw [e]
  refine ⟨rfl, ?_, ?_, ?_, ?_, rfl, rfl⟩
  · show (FPU_SetTag { s with sw := sw } tag).sw = sw
    rw [t5]
  · show FPU_GET_TOP (FPU_SetCW (FPU_SetTag { s with sw := sw } tag) cw) = _
    rw [FPU_GET_TOP_eq]
    show (FPU_SetTag { s with sw := sw } tag).sw / 2048 % 8 = _
    rw [t5]
  · intro i
    show (FPU_SetTag { s with sw := sw } tag).tags i = _
    rw [t1 i]
  · show (FPU_SetTag { s with sw := sw } tag).regs = _
    rw [t2]

/-- C26 (amended): environment round trip.  `FPU_FLDENV` sets top to bits 11-13 of the
status word it read.  For every state with top in [0,8) (and the control and status word
within 16 bits, as in C) and either addressing size, `FPU_FSTENV(addr)` followed by
`FPU_FLDENV(addr)` with the same addressing size leaves the control word and top as they
were, every stack tag other than Zero as it was and a Zero tag as Valid, and the status
word equal to the original with its top field (bits 11-13) set to top.  The registers
and the scratch tag are unchanged too. -/
theorem FPU_FSTENV_FLDENV (big : Bool) (s : FPU) (mem : Mem) (addr : Nat) :
    (FPU_FLDENV big s mem addr).top = (FPU_FLDENV big s mem addr).sw / 2048 % 8 ∧
    (FPU_FLDENV big s mem addr).sw =
      (if big then mem_readd mem (addr + 4) % 65536 else mem_readw mem (addr + 2)) ∧
    (s.top < 8 → s.cw < 65536 → s.sw < 65536 →
      (FPU_FLDENV big (FPU_FSTENV big s mem addr).1 (FPU_FSTENV big s mem addr).2 addr).cw
        = s.cw ∧
      (∀ i, i < 8 →
        (FPU_FLDENV big (FPU_FSTENV big s mem addr).1 (FPU_FSTENV big s mem addr).2 addr).tags i
          = if s.tags i = .TAG_Zero then .TAG_Valid else s.tags i) ∧
      (FPU_FLDENV big (FPU_FSTENV big s mem addr).1 (FPU_FSTENV big s mem addr).2 addr).top
        = s.top ∧
      (FPU_FLDENV big (FPU_FSTENV big s mem addr).1 (FPU_FSTENV big s mem addr).2 addr).sw
        = s.sw / 16384 * 16384 + s.top * 2048 + s.sw % 2048 ∧
      (FPU_FLDENV big (FPU_FSTENV big s mem addr).1 (FPU_FSTENV big s mem addr).2 addr).sw
        = (FPU_FSTENV big s mem addr).1.sw ∧
      (FPU_FLDENV big (FPU_FSTENV big s mem addr).1 (FPU_FSTENV big s mem addr).2 addr).regs
        = s.regs ∧
      (FPU_FLDENV big (FPU_FSTENV big s mem addr).1 (FPU_FSTENV big s mem addr).2 addr).tags 8
        = s.tags 8) := by
  obtain ⟨a1, a2, a3, _⟩ := FPU_FLDENV_spec big s mem addr _ _ _ rfl rfl rfl
  refine ⟨?_, a2, ?_⟩
  · rw [a3, a2]
  · intro htop hcw hsw
    obtain ⟨f1, f2, f3⟩ := FPU_FSTENV_spec big s mem addr
    have hsw1 := FPU_SET_TOP_sw s s.top
    have hsw1lt : (FPU_SET_TOP s s.top).sw < 65536 := by rw [hsw1]; omega
    obtain ⟨b1, b2, b3, b4, b5, _, _⟩ :=
      FPU_FLDENV_spec big (FPU_FSTENV big s mem addr).1 (FPU_FSTENV big s mem addr).2 addr
        s.cw (FPU_SET_TOP s s.top).sw (FPU_GetTag s)
        (by
          cases big
          · rw [(f2 rfl).1]; simp; omega
          · rw [(f3 rfl).1]; simp; omega)
        (by
          cases big
          · rw [(f2 rfl).2.1]; simp; omega
          · rw [(f3 rfl).2.1]; simp; omega)
        (by
          have := FPU_GetTag_lt s
          cases big
          · rw [(f2 rfl).2.2.1]; simp
          · rw [(f3 rfl).2.2.1]; simp; omega)
    have hsw2 : (FPU_SET_TOP s s.top).sw = s.sw / 16384 * 16384 + s.top * 2048 + s.sw % 2048 := by
      rw [hsw1]; omega
    refine ⟨?_, ?_, ?_, ?_, ?_, ?_, ?_⟩
    · rw [b1]; omega
    · intro i hi
      rw [b4 i, f1, if_pos hi]
      have := FPU_SetTag_GetTag s s i hi
      rw [(FPU_SetTag_fields s (FPU_GetTag s)).1 i, if_pos hi] at this
      exact this
    · rw [b3, hsw2]; omega
    · rw [b2, hsw2]
    · rw [b2, f1]
    · rw [b5, f1]; rfl
    · rw [b4 8, f1]; rfl

/-- C26 applies to the sample context (top 3, stale top field in the status word) under
16-bit and 32-bit addressing. -/
theorem FPU_FSTENV_FLDENV_witness :
    (FPU_FLDENV false (FPU_FSTENV false sampleState (fun _ => 0) 100).1
      (FPU_FSTENV false sampleState (fun _ => 0) 100).2 100).top = 3 ∧
    (FPU_FLDENV true (FPU_FSTENV true sampleState (fun _ => 0) 100).1
      (FPU_FSTENV true sampleState (fun _ => 0) 100).2 100).sw = 0x5900 :=
  ⟨((FPU_FSTENV_FLDENV false sampleState (fun _ => 0) 100).2.2
      (by decide) (by decide) (by decide)).2.2.1,
   ((FPU_FSTENV_FLDENV true sampleState (fun _ => 0) 100).2.2
      (by decide) (by decide) (by decide)).2.2.2.1⟩

/-! ## Save and restore of the registers -/

/-- Store and load of any 64-bit register pattern in the 80-bit format (Extended
build): a finite pattern comes back as it was; an infinity or a NaN comes back with the
exponent field 1023, its sign and its fraction (an infinity as 1.0 or -1.0). -/
theorem FPU_ST80_FLD80_any (s : FPU) (mem : Mem) (addr reg : Nat)
    (hx : s.regs reg < 18446744073709551616) :
    FPU_FLD80 (FPU_ST80 s mem addr reg) addr =
      if binary64.isFinite (s.regs reg) then s.regs reg
      else s.regs reg / 9223372036854775808 * 9223372036854775808
        + 1023 * 4503599627370496 + s.regs reg % 4503599627370496 := by
  obtain ⟨f1, f2, f3⟩ := FPU_ST80_fields s mem addr reg hx
  rw [FPU_FLD80_eq, f1, f2, f3]
  have hfi := binary64_isFinite_iff (s.regs reg)
  have hz := binary64_eq_zero (s.regs reg)
  generalize s.regs reg = x at *
  by_cases h0 : binary64.eq x 0
  · obtain ⟨z1, z2⟩ := hz.mp h0
    have hfin : binary64.isFinite x := hfi.mpr (by omega)
    simp only [h0, if_true, hfin]
    have hnot : ¬ ((x % 4503599627370496 * 2048 + 0) % 4294967296 = 0 ∧
        (x % 4503599627370496 * 2048 + 0) / 4294967296 = 0x80000000 ∧
        (x / 9223372036854775808 * 32768 + (x / 4503599627370496 % 2048 + 0)) % 32768 = 0x7fff) := by
      omega
    rw [if_neg hnot]
    have hlt : ¬ 16383 < (x / 9223372036854775808 * 32768 +
        (x / 4503599627370496 % 2048 + 0)) % 32768 := by omega
    rw [if_neg hlt]
    omega
  · simp only [h0, if_false]
    have hnot : ¬ ((x % 4503599627370496 * 2048 + 9223372036854775808) % 4294967296 = 0 ∧
        (x % 4503599627370496 * 2048 + 9223372036854775808) / 4294967296 = 0x80000000 ∧
        (x / 9223372036854775808 * 32768 + (x / 4503599627370496 % 2048 + 15360)) % 32768
          = 0x7fff) := by
      omega
    rw [if_neg hnot]
    by_cases hfin : binary64.isFinite x
    · have := hfi.mp hfin
      rw [if_pos hfin]
      split <;> omega
    · have : x / 4503599627370496 % 2048 = 2047 := by
        by_contra hc
        exact hfin (hfi.mpr hc)
      rw [if_neg hfin]
      split <;> omega

theorem and_80000000 (x : Nat) : (x &&& 0x80000000 ≠ 0) ↔ x / 2147483648 % 2 = 1 := by
  have m2 : (0x80000000 : Nat) = 1 <<< 31 := by decide
  have := and_bit x 31
  rw [← m2] at this
  norm_num at this ⊢
  exact this

/-- Store and load of any 32-bit register pattern in the 80-bit format (Reduced build):
every pattern comes back as it was. -/
theorem FPU_ST80_FLD80_Reduced_any (s : FPU) (mem : Mem) (addr reg : Nat)
    (hx : s.regs reg < 4294967296) :
    FPU_FLD80_Reduced (FPU_ST80_Reduced s mem addr reg) addr = s.regs reg := by
  have hz := binary32_eq_zero (s.regs reg)
  unfold FPU_ST80_Reduced
  generalize s.regs reg = x at hx hz
  have m2 : (0x7f800000 : Nat) = (2 ^ 8 - 1) <<< 23 := by decide
  have m3 : (0x7fffff : Nat) = 2 ^ 23 - 1 := by norm_num
  have hsign : (if x &&& 0x80000000 ≠ 0 then 1 else 0) = x / 2147483648 := by
    have hb := and_80000000 x
    by_cases h : x / 2147483648 % 2 = 1
    · rw [if_pos (hb.mpr h)]; omega
    · rw [if_neg (fun hc => h (hb.mp hc))]; omega
  have hexp : (x &&& 0x7f800000) >>> 23 = x / 8388608 % 256 := by
    rw [m2, and_field, Nat.shiftRight_eq_div_pow, Nat.mul_div_cancel _ (by positivity)]
    norm_num
  have hmant : (x &&& 0x7fffff) <<< 8 = x % 8388608 * 256 := by
    rw [m3, and_low, Nat.shiftLeft_eq]; norm_num
  have hor : x % 8388608 * 256 ||| 0x80000000 = x % 8388608 * 256 + 2147483648 := by
    have m1 : (0x80000000 : Nat) = 1 <<< 31 := by decide
    have hb : x % 8388608 * 256 < 2 ^ 31 := by norm_num; omega
    rw [Nat.or_comm, m1, shiftLeft_or 1 31 _ hb]; norm_num; omega
  simp only [hsign, hexp, hmant]
  have hbegin : ∀ e, e < 32768 →
      ((x / 2147483648) <<< 15 ||| e) % 65536 = x / 2147483648 * 32768 + e := by
    intro e he
    rw [shiftLeft_or _ 15 _ (by norm_num; exact he)]
    norm_num; omega
  have hb : BIAS80 - BIAS32 = 16256 := by decide
  have hexp80 : (if x / 8388608 % 256 = 0xff then 0x7fff else x / 8388608 % 256 + (BIAS80 - BIAS32))
      < 32768 := by
    rw [hb]; split <;> omega
  rw [hbegin _ hexp80]
  generalize hE : (if x / 8388608 % 256 = 0xff then 0x7fff
    else x / 8388608 % 256 + (BIAS80 - BIAS32)) = E at hexp80
  generalize hM : (if ¬ binary32.eq x 0 then x % 8388608 * 256 ||| 0x80000000
    else x % 8388608 * 256) = M
  have hMv : M = x % 8388608 * 256 + (if binary32.eq x 0 then 0 else 2147483648) := by
    rw [← hM]
    by_cases h0 : binary32.eq x 0
    · simp [h0]
    · simp only [h0, not_false_eq_true, if_true, if_false, hor]
  obtain ⟨_, l2, l3⟩ := mem_layout10 mem addr 0 M (x / 2147483648 * 32768 + E)
  unfold FPU_FLD80_Reduced
  simp only [l2, l3, and_7fff, and_8000]
  have hMlt : M < 4294967296 := by rw [hMv]; split <;> omega
  have e1 : (x / 2147483648 * 32768 + E) % 65536 = x / 2147483648 * 32768 + E := by omega
  have e2 : (x / 2147483648 * 32768 + E) % 32768 = E := by omega
  have e3 : (x / 2147483648 * 32768 + E) / 32768 % 2 = x / 2147483648 := by omega
  have e4 : M % 4294967296 = M := Nat.mod_eq_of_lt hMlt
  have e5 : (M >>> 8) &&& 0x7fffff = x % 8388608 := by
    rw [m3, and_low, Nat.shiftRight_eq_div_pow, hMv]
    norm_num
    split <;> omega
  rw [e1, e2, e3, e4, e5]
  have hsg : (if x / 2147483648 = 1 then 1 else 0) = x / 2147483648 := by split <;> omega
  rw [hsg]
  have m4 : ∀ y : Nat, y &&& 0xff = y % 256 := fun y => by
    have := and_low y 8
    norm_num at this
    exact this
  simp only [m4]
  by_cases hff : x / 8388608 % 256 = 0xff
  · rw [if_pos hff] at hE
    have c1 : ((E : Nat) : Int) - (BIAS80 : Int) = 0x4000 := by rw [← hE]; decide
    simp only [if_pos c1]
    have : ((0x80 : Int) + (BIAS32 : Int)).toNat % 256 = 255 := by decide
    rw [this, pack32 _ _ _ (by norm_num) (by omega)]
    omega
  · rw [if_neg hff, hb] at hE
    have c1 : ¬ (((E : Nat) : Int) - (BIAS80 : Int) = 0x4000) := by
      unfold BIAS80; omega
    have c2 : ¬ (((E : Nat) : Int) - (BIAS80 : Int) > (BIAS32 : Int)) := by
      unfold BIAS80 BIAS32; omega
    have c3 : ¬ (((E : Nat) : Int) - (BIAS80 : Int) < -(BIAS32 : Int)) := by
      unfold BIAS80 BIAS32; omega
    simp only [if_neg c1, if_neg c2, if_neg c3]
    have : (((E : Nat) : Int) - (BIAS80 : Int) + (BIAS32 : Int)).toNat % 256
        = x / 8388608 % 256 := by
      unfold BIAS80 BIAS32; omega
    rw [this, pack32 _ _ _ (by omega) (by omega)]
    omega

theorem mem_readw_congr (m1 m2 : Mem) (a : Nat) (h : ∀ j, a ≤ j → j < a + 2 → m1 j = m2 j) :
    mem_readw m1 a = mem_readw m2 a := by
  unfold mem_readw mem_readb
  rw [h a (by omega) (by omega), h (a + 1) (by omega) (by omega)]

theorem mem_readd_congr (m1 m2 : Mem) (a : Nat) (h : ∀ j, a ≤ j → j < a + 4 → m1 j = m2 j) :
    mem_readd m1 a = mem_readd m2 a := by
  unfold mem_readd
  rw [mem_readw_congr m1 m2 a (fun j h1 h2 => h j h1 (by omega)),
    mem_readw_congr m1 m2 (a + 2) (fun j h1 h2 => h j (by omega) (by omega))]

/-- The ten bytes of an 80-bit operand do not depend on the memory they are written to. -/
theorem layout10_indep (m1 m2 : Mem) (a A B C j : Nat) (h1 : a ≤ j) (h2 : j < a + 10) :
    mem_writew (mem_writed (mem_writed m1 a A) (a + 4) B) (a + 8) C j
      = mem_writew (mem_writed (mem_writed m2 a A) (a + 4) B) (a + 8) C j := by
  obtain ⟨t, rfl⟩ : ∃ t, j = a + t := ⟨j - a, by omega⟩
  have ht : t < 10 := by omega
  interval_cases t <;> simp [mem_writew, mem_writed, mem_writeb, Nat.add_assoc]

theorem FPU_ST80_indep (s : FPU) (m1 m2 : Mem) (a reg j : Nat) (h1 : a ≤ j) (h2 : j < a + 10) :
    FPU_ST80 s m1 a reg j = FPU_ST80 s m2 a reg j := by
  unfold FPU_ST80
  exact layout10_indep m1 m2 a _ _ _ j h1 h2

theorem FPU_ST80_Reduced_indep (s : FPU) (m1 m2 : Mem) (a reg j : Nat) (h1 : a ≤ j)
    (h2 : j < a + 10) : FPU_ST80_Reduced s m1 a reg j = FPU_ST80_Reduced s m2 a reg j := by
  unfold FPU_ST80_Reduced
  exact layout10_indep m1 m2 a _ _ _ j h1 h2

/-- The 80-bit load reads only the ten bytes of its operand (Extended build). -/
theorem FPU_FLD80_congr (m1 m2 : Mem) (a : Nat) (h : ∀ j, a ≤ j → j < a + 10 → m1 j = m2 j) :
    FPU_FLD80 m1 a = FPU_FLD80 m2 a := by
  unfold FPU_FLD80
  rw [mem_readd_congr m1 m2 a (fun j h1 h2 => h j h1 (by omega)),
    mem_readd_congr m1 m2 (a + 4) (fun j h1 h2 => h j (by omega) (by omega)),
    mem_readw_congr m1 m2 (a + 8) (fun j h1 h2 => h j (by omega) (by omega))]

/-- The 80-bit load reads only the ten bytes of its operand (Reduced build). -/
theorem FPU_FLD80_Reduced_congr (m1 m2 : Mem) (a : Nat)
    (h : ∀ j, a ≤ j → j < a + 10 → m1 j = m2 j) :
    FPU_FLD80_Reduced m1 a = FPU_FLD80_Reduced m2 a := by
  unfold FPU_FLD80_Reduced
  rw [mem_readd_congr m1 m2 (a + 4) (fun j h1 h2 => h j (by omega) (by omega)),
    mem_readw_congr m1 m2 (a + 8) (fun j h1 h2 => h j (by omega) (by omega))]

/-- The register loop of `FPU_FSAVE` writes only the `10 k` bytes from `addr + start`. -/
theorem FSAVE_regs_frame (st80 : FPU → Mem → Nat → Nat → Mem)
    (hfr : ∀ s mem a reg j, j < a ∨ a + 10 ≤ j → st80 s mem a reg j = mem j)
    (s : FPU) (addr : Nat) : ∀ (k i start : Nat) (mem : Mem) (j : Nat),
    j < addr + start ∨ addr + start + 10 * k ≤ j →
    FSAVE_regs st80 s addr k i start mem j = mem j := by
  intro k
  induction k with
  | zero => intro i start mem j _; rfl
  | succ k ih =>
    intro i start mem j hj
    unfold FSAVE_regs
    rw [ih _ _ _ _ (by omega), hfr _ _ _ _ _ (by omega)]

/-- Block `n` of the register loop of `FPU_FSAVE` holds the bytes that the store of
`ST(i + n)` writes at `addr + start + 10 n`. -/
theorem FSAVE_regs_block (st80 : FPU → Mem → Nat → Nat → Mem)
    (hfr : ∀ s mem a reg j, j < a ∨ a + 10 ≤ j → st80 s mem a reg j = mem j)
    (hind : ∀ s m1 m2 a reg j, a ≤ j → j < a + 10 → st80 s m1 a reg j = st80 s m2 a reg j)
    (s : FPU) (addr : Nat) : ∀ (k i start : Nat) (mem : Mem) (n : Nat), n < k →
    ∀ j, addr + start + 10 * n ≤ j → j < addr + start + 10 * n + 10 →
    FSAVE_regs st80 s addr k i start mem j
      = st80 s mem (addr + start + 10 * n) (STV s (i + n)) j := by
  intro k
  induction k with
  | zero => intro i start mem n hn; omega
  | succ k ih =>
    intro i start mem n hn j h1 h2
    unfold FSAVE_regs
    rcases Nat.eq_zero_or_pos n with rfl | hpos
    · rw [FSAVE_regs_frame st80 hfr s addr _ _ _ _ _ (by omega)]
      rfl
    · obtain ⟨n, rfl⟩ : ∃ c, n = c + 1 := ⟨n - 1, by omega⟩
      rw [ih (i + 1) (start + 10) _ n (by omega) j (by omega) (by omega)]
      have e1 : addr + (start + 10) + 10 * n = addr + start + 10 * (n + 1) := by omega
      have e2 : i + 1 + n = i + (n + 1) := by omega
      rw [e1, e2]
      exact hind _ _ _ _ _ _ (by omega) (by omega)

/-- The register loop of `FPU_FRSTOR` changes only the registers. -/
theorem FRSTOR_regs_fields (fld80 : Mem → Nat → Nat) (mem : Mem) (addr : Nat) :
    ∀ (k i start : Nat) (s : FPU),
    (FRSTOR_regs fld80 mem addr k i start s).top = s.top ∧
    (FRSTOR_regs fld80 mem addr k i start s).tags = s.tags ∧
    (FRSTOR_regs fld80 mem addr k i start s).cw = s.cw ∧
    (FRSTOR_regs fld80 mem addr k i start s).sw = s.sw ∧
    (FRSTOR_regs fld80 mem addr k i start s).cw_mask_all = s.cw_mask_all ∧
    (FRSTOR_regs fld80 mem addr k i start s).round = s.round := by
  intro k
  induction k with
  | zero => intro i start s; exact ⟨rfl, rfl, rfl, rfl, rfl, rfl⟩
  | succ k ih =>
    intro i start s
    unfold FRSTOR_regs
    exact ih _ _ _

/-- A slot that is none of `ST(i)`, ..., `ST(i + k - 1)` keeps its register. -/
theorem FRSTOR_regs_other (fld80 : Mem → Nat → Nat) (mem : Mem) (addr : Nat) :
    ∀ (k i start : Nat) (s : FPU) (p : Nat), (∀ n, n < k → STV s (i + n) ≠ p) →
    (FRSTOR_regs fld80 mem addr k i start s).regs p = s.regs p := by
  intro k
  induction k with
  | zero => intro i start s p _; rfl
  | succ k ih =>
    intro i start s p h
    unfold FRSTOR_regs
    rw [ih (i + 1) (start + 10) _ p (fun n hn => by
      have := h (n + 1) (by omega)
      have e : i + 1 + n = i + (n + 1) := by omega
      rw [e]
      exact this)]
    have h0 := h 0 (by omega)
    simp only [Nat.add_zero] at h0
    simp [setSlot, Ne.symm h0]

/-- The slot `ST(i + n)` takes the value loaded from block `n`, when no later iteration
writes the same slot. -/
theorem FRSTOR_regs_slot (fld80 : Mem → Nat → Nat) (mem : Mem) (addr : Nat) :
    ∀ (k i start : Nat) (s : FPU) (n : Nat), n < k →
    (∀ n2, n < n2 → n2 < k → STV s (i + n2) ≠ STV s (i + n)) →
    (FRSTOR_regs fld80 mem addr k i start s).regs (STV s (i + n))
      = fld80 mem (addr + start + 10 * n) := by
  intro k
  induction k with
  | zero => intro i start s n hn; omega
  | succ k ih =>
    intro i start s n hn hlater
    unfold FRSTOR_regs
    rcases Nat.eq_zero_or_pos n with rfl | hpos
    · rw [FRSTOR_regs_other fld80 mem addr k (i + 1) (start + 10) _ _ (fun n2 hn2 => by
        have := hlater (n2 + 1) (by omega) (by omega)
        have e : i + 1 + n2 = i + (n2 + 1) := by omega
        show STV s (i + 1 + n2) ≠ STV s (i + 0)
        rw [e]
        exact this)]
      simp [setSlot]
    · obtain ⟨n, rfl⟩ : ∃ c, n = c + 1 := ⟨n - 1, by omega⟩
      have e2 : i + (n + 1) = i + 1 + n := by omega
      have e1 : addr + start + 10 * (n + 1) = addr + (start + 10) + 10 * n := by omega
      rw [e1]
      have := ih (i + 1) (start + 10)
        { s with regs := setSlot s.regs (STV s i) (fld80 mem (addr + start)) } n (by omega)
        (fun n2 h1 h2 => by
          have := hlater (n2 + 1) (by omega) (by omega)
          have e : i + 1 + n2 = i + (n2 + 1) := by omega
          show STV s (i + 1 + n2) ≠ STV s (i + 1 + n)
          rw [e, ← e2]
          exact this)
      have e3 : STV s (i + (n + 1)) =
          STV { s with regs := setSlot s.regs (STV s i) (fld80 mem (addr + start)) } (i + 1 + n) := by
        rw [e2]; rfl
      rw [e3]
      exact this

theorem STV_eq (s : FPU) (i : Nat) : STV s i = (s.top + i) % 8 := and_seven_eq_mod _

/-- The fields that `FPU_FINIT` sets, for any context. -/
theorem FPU_FINIT_fields (s : FPU) :
    (FPU_FINIT s).cw = 0x037F ∧ (FPU_FINIT s).sw = 0 ∧ (FPU_FINIT s).top = 0 ∧
    (∀ i, i < 8 → (FPU_FINIT s).tags i = .TAG_Empty) ∧ (FPU_FINIT s).tags 8 = .TAG_Valid ∧
    (FPU_FINIT s).regs = s.regs := by
  refine ⟨?_, ?_, ?_, ?_, ?_, rfl⟩
  · simp [FPU_FINIT, FPU_SetCW]
  · simp [FPU_FINIT]
  · simp [FPU_FINIT, FPU_GET_TOP]
  · intro i hi
    interval_cases i <;> simp [FPU_FINIT, setSlot]
  · simp [FPU_FINIT, setSlot]

/-- C24: save implies reset.  For every state, either addressing size and the 80-bit
store `st80` of either build, after `FPU_FSAVE` the control word, the status word, top
and all nine tags equal those produced by `FPU_FINIT`: tags[0..7] Empty, tags[8] Valid,
control word 0x037F, status word 0, top 0. -/
theorem FPU_FSAVE_reset (st80 : FPU → Mem → Nat → Nat → Mem) (big : Bool) (s : FPU)
    (mem : Mem) (addr : Nat) :
    (FPU_FSAVE st80 big s mem addr).1.cw = 0x037F ∧
    (FPU_FSAVE st80 big s mem addr).1.sw = 0 ∧
    (FPU_FSAVE st80 big s mem addr).1.top = 0 ∧
    (∀ i, i < 8 → (FPU_FSAVE st80 big s mem addr).1.tags i = .TAG_Empty) ∧
    (FPU_FSAVE st80 big s mem addr).1.tags 8 = .TAG_Valid ∧
    (FPU_FSAVE st80 big s mem addr).1.cw = (FPU_FINIT s).cw ∧
    (FPU_FSAVE st80 big s mem addr).1.sw = (FPU_FINIT s).sw ∧
    (FPU_FSAVE st80 big s mem addr).1.top = (FPU_FINIT s).top ∧
    (∀ i, i ≤ 8 → (FPU_FSAVE st80 big s mem addr).1.tags i = (FPU_FINIT s).tags i) := by
  have e : (FPU_FSAVE st80 big s mem addr).1 = FPU_FINIT (FPU_FSTENV big s mem addr).1 := rfl
  obtain ⟨a1, a2, a3, a4, a5, _⟩ := FPU_FINIT_fields (FPU_FSTENV big s mem addr).1
  obtain ⟨b1, b2, b3, b4, b5, _⟩ := FPU_FINIT_fields s
  rw [e]
  refine ⟨a1, a2, a3, a4, a5, by rw [a1, b1], by rw [a2, b2], by rw [a3, b3], ?_⟩
  intro i hi
  rcases Nat.lt_or_ge i 8 with h | h
  · rw [a4 i h, b4 i h]
  · have : i = 8 := by omega
    rw [this, a5, b5]

/-- C24 applies to the sample context, whose top is 3 and whose slots are not Empty,
under 16-bit addressing with the store of the Extended build. -/
theorem FPU_FSAVE_reset_witness :
    (FPU_FSAVE FPU_ST80 false sampleState (fun _ => 0) 100).1.top = 0 ∧
    (FPU_FSAVE FPU_ST80 false sampleState (fun _ => 0) 100).1.tags 3 = .TAG_Empty ∧
    (FPU_FSAVE FPU_ST80 false sampleState (fun _ => 0) 100).1.tags 8
      = (FPU_FINIT sampleState).tags 8 :=
  ⟨(FPU_FSAVE_reset FPU_ST80 false sampleState (fun _ => 0) 100).2.2.1,
   (FPU_FSAVE_reset FPU_ST80 false sampleState (fun _ => 0) 100).2.2.2.1 3 (by decide),
   (FPU_FSAVE_reset FPU_ST80 false sampleState (fun _ => 0) 100).2.2.2.2.2.2.2.2 8
      (by decide)⟩

/-- Save followed by restore, for the store and load of either build: control word and
top come back, the stack tags come back with Zero as Valid, the status word comes back
with its top field set, and the slot of `ST(n)` takes what the load returns on what the
store wrote. -/
theorem FSAVE_FRSTOR_generic (st80 : FPU → Mem → Nat → Nat → Mem) (fld80 : Mem → Nat → Nat)
    (hfr : ∀ s mem a reg j, j < a ∨ a + 10 ≤ j → st80 s mem a reg j = mem j)
    (hind : ∀ s m1 m2 a reg j, a ≤ j → j < a + 10 → st80 s m1 a reg j = st80 s m2 a reg j)
    (hcongr : ∀ m1 m2 a, (∀ j, a ≤ j → j < a + 10 → m1 j = m2 j) → fld80 m1 a = fld80 m2 a)
    (big : Bool) (s : FPU) (mem : Mem) (addr : Nat)
    (htop : s.top < 8) (hcw : s.cw < 65536) :
    (FPU_FRSTOR fld80 big (FPU_FSAVE st80 big s mem addr).1
      (FPU_FSAVE st80 big s mem addr).2 addr).cw = s.cw ∧
    (FPU_FRSTOR fld80 big (FPU_FSAVE st80 big s mem addr).1
      (FPU_FSAVE st80 big s mem addr).2 addr).top = s.top ∧
    (FPU_FRSTOR fld80 big (FPU_FSAVE st80 big s mem addr).1
      (FPU_FSAVE st80 big s mem addr).2 addr).sw = (FPU_SET_TOP s s.top).sw ∧
    (∀ i, i < 8 → (FPU_FRSTOR fld80 big (FPU_FSAVE st80 big s mem addr).1
      (FPU_FSAVE st80 big s mem addr).2 addr).tags i
        = if s.tags i = .TAG_Zero then .TAG_Valid else s.tags i) ∧
    (∀ n, n < 8 → (FPU_FRSTOR fld80 big (FPU_FSAVE st80 big s mem addr).1
      (FPU_FSAVE st80 big s mem addr).2 addr).regs (STV s n)
        = fld80 (st80 (FPU_SET_TOP s s.top) (FPU_FSTENV big s mem addr).2
            (addr + (if big then 28 else 14) + 10 * n) (STV s n))
          (addr + (if big then 28 else 14) + 10 * n)) := by
  obtain ⟨f1, f2, f3⟩ := FPU_FSTENV_spec big s mem addr
  have hE : (FPU_FSAVE st80 big s mem addr).2 =
      FSAVE_regs st80 (FPU_SET_TOP s s.top) addr 8 0 (if big then 28 else 14)
        (FPU_FSTENV big s mem addr).2 := by
    unfold FPU_FSAVE
    simp only [f1]
  have hframe : ∀ j, j < addr + (if big then 28 else 14) →
      (FPU_FSAVE st80 big s mem addr).2 j = (FPU_FSTENV big s mem addr).2 j := by
    intro j hj
    rw [hE, FSAVE_regs_frame st80 hfr _ _ _ _ _ _ _ (Or.inl hj)]
  have hsw1 := FPU_SET_TOP_sw s s.top
  have hsw1lt : (FPU_SET_TOP s s.top).sw < 65536 := by rw [hsw1]; omega
  have htaglt := FPU_GetTag_lt s
  obtain ⟨b1, b2, b3, b4, b5, _, _⟩ :=
    FPU_FLDENV_spec big (FPU_FSAVE st80 big s mem addr).1 (FPU_FSAVE st80 big s mem addr).2 addr
      s.cw (FPU_SET_TOP s s.top).sw (FPU_GetTag s)
      (by
        cases big
        · rw [← Nat.mod_eq_of_lt hcw, ← (f2 rfl).1]
          exact (mem_readw_congr _ _ _ (fun j h1 h2 => hframe j (by simp; omega))).symm
        · rw [← Nat.mod_eq_of_lt (by omega : s.cw < 4294967296), ← (f3 rfl).1]
          exact (mem_readd_congr _ _ _ (fun j h1 h2 => hframe j (by simp; omega))).symm)
      (by
        cases big
        · rw [← Nat.mod_eq_of_lt hsw1lt, ← (f2 rfl).2.1]
          exact (mem_readw_congr _ _ _ (fun j h1 h2 => hframe j (by simp; omega))).symm
        · have : mem_readd (FPU_FSAVE st80 true s mem addr).2 (addr + 4)
              = (FPU_SET_TOP s s.top).sw % 4294967296 := by
            rw [← (f3 rfl).2.1]
            exact mem_readd_congr _ _ _ (fun j h1 h2 => hframe j (by simp; omega))
          simp only [if_true]
          rw [this]
          omega)
      (by
        cases big
        · rw [← (f2 rfl).2.2.1]
          exact (mem_readw_congr _ _ _ (fun j h1 h2 => hframe j (by simp; omega))).symm
        · have : mem_readd (FPU_FSAVE st80 true s mem addr).2 (addr + 8) = FPU_GetTag s := by
            rw [← (f3 rfl).2.2.1]
            exact mem_readd_congr _ _ _ (fun j h1 h2 => hframe j (by simp; omega))
          simp only [if_true]
          rw [this]
          omega)
  have hR : FPU_FRSTOR fld80 big (FPU_FSAVE st80 big s mem addr).1
      (FPU_FSAVE st80 big s mem addr).2 addr =
      FRSTOR_regs fld80 (FPU_FSAVE st80 big s mem addr).2 addr 8 0 (if big then 28 else 14)
        (FPU_FLDENV big (FPU_FSAVE st80 big s mem addr).1
          (FPU_FSAVE st80 big s mem addr).2 addr) := rfl
  obtain ⟨c1, c2, c3, c4, _, _⟩ := FRSTOR_regs_fields fld80 (FPU_FSAVE st80 big s mem addr).2
    addr 8 0 (if big then 28 else 14)
    (FPU_FLDENV big (FPU_FSAVE st80 big s mem addr).1 (FPU_FSAVE st80 big s mem addr).2 addr)
  have htop2 : (FPU_FLDENV big (FPU_FSAVE st80 big s mem addr).1
      (FPU_FSAVE st80 big s mem addr).2 addr).top = s.top := by
    rw [b3, hsw1]; omega
  rw [hR]
  refine ⟨?_, ?_, ?_, ?_, ?_⟩
  · rw [c3, b1]; omega
  · rw [c1, htop2]
  · rw [c4, b2]
  · intro i hi
    rw [c2, b4 i, if_pos hi]
    have := FPU_SetTag_GetTag s s i hi
    rw [(FPU_SetTag_fields s (FPU_GetTag s)).1 i, if_pos hi] at this
    exact this
  · intro n hn
    have hstv : ∀ x, STV (FPU_FLDENV big (FPU_FSAVE st80 big s mem addr).1
        (FPU_FSAVE st80 big s mem addr).2 addr) x = STV s x := by
      intro x
      unfold STV
      rw [htop2]
    have hslot := FRSTOR_regs_slot fld80 (FPU_FSAVE st80 big s mem addr).2 addr 8 0
      (if big then 28 else 14)
      (FPU_FLDENV big (FPU_FSAVE st80 big s mem addr).1 (FPU_FSAVE st80 big s mem addr).2 addr)
      n hn (fun n2 h1 h2 => by
        rw [hstv, hstv, STV_eq, STV_eq]
        omega)
    rw [hstv, Nat.zero_add] at hslot
    rw [hslot]
    apply hcongr
    intro j h1 h2
    rw [hE, FSAVE_regs_block st80 hfr hind _ _ 8 0 _ _ n hn j h1 h2, Nat.zero_add]
    rfl

theorem STV_surj (s : FPU) (p : Nat) (htop : s.top < 8) (hp : p < 8) :
    (p + 8 - s.top) % 8 < 8 ∧ STV s ((p + 8 - s.top) % 8) = p := by
  rw [STV_eq]
  omega

/-- C25 (amended): for every state `s` with top in [0,8) (control word within its 16
bits) and either addressing size, `FPU_FSAVE(addr)` from `s` followed by
`FPU_FRSTOR(addr)` on the memory it wrote yields a state with the control word and top of
`s` and with the stack tags of `s`, a Zero tag as Valid.  In the Extended build each
stack register that holds a finite 64-bit pattern comes back bit for bit; a register that
holds an infinity or a NaN comes back with the exponent field 1023 (an infinity as 1.0 or
-1.0), which is a different pattern.  In the Reduced build every 32-bit register pattern
comes back bit for bit. -/
theorem FPU_FSAVE_FRSTOR_state (big : Bool) (s : FPU) (mem : Mem) (addr : Nat)
    (htop : s.top < 8) (hcw : s.cw < 65536) :
    (∀ s2, s2 = FPU_FRSTOR FPU_FLD80 big (FPU_FSAVE FPU_ST80 big s mem addr).1
        (FPU_FSAVE FPU_ST80 big s mem addr).2 addr →
      s2.cw = s.cw ∧ s2.top = s.top ∧
      (∀ i, i < 8 → s2.tags i = if s.tags i = .TAG_Zero then .TAG_Valid else s.tags i) ∧
      (∀ i, i < 8 → s.regs i < 18446744073709551616 →
        (binary64.isFinite (s.regs i) → s2.regs i = s.regs i) ∧
        (¬ binary64.isFinite (s.regs i) →
          s2.regs i = s.regs i / 9223372036854775808 * 9223372036854775808
            + 1023 * 4503599627370496 + s.regs i % 4503599627370496 ∧
          s2.regs i ≠ s.regs i))) ∧
    (∀ s2, s2 = FPU_FRSTOR FPU_FLD80_Reduced big (FPU_FSAVE FPU_ST80_Reduced big s mem addr).1
        (FPU_FSAVE FPU_ST80_Reduced big s mem addr).2 addr →
      s2.cw = s.cw ∧ s2.top = s.top ∧
      (∀ i, i < 8 → s2.tags i = if s.tags i = .TAG_Zero then .TAG_Valid else s.tags i) ∧
      (∀ i, i < 8 → s.regs i < 4294967296 → s2.regs i = s.regs i)) := by
  constructor
  · intro s2 hs2
    obtain ⟨g1, g2, _, g4, g5⟩ := FSAVE_FRSTOR_generic FPU_ST80 FPU_FLD80
      FPU_ST80_frame FPU_ST80_indep FPU_FLD80_congr big s mem addr htop hcw
    rw [← hs2] at g1 g2 g4 g5
    refine ⟨g1, g2, g4, ?_⟩
    intro i hi hx
    obtain ⟨hn, hst⟩ := STV_surj s i htop hi
    have hreg := g5 _ hn
    rw [hst] at hreg
    have hany := FPU_ST80_FLD80_any (FPU_SET_TOP s s.top) (FPU_FSTENV big s mem addr).2
      (addr + (if big then 28 else 14) + 10 * ((i + 8 - s.top) % 8)) i hx
    rw [hany] at hreg
    have hr : (FPU_SET_TOP s s.top).regs i = s.regs i := rfl
    rw [hr] at hreg
    constructor
    · intro hfin
      rw [hreg, if_pos hfin]
    · intro hfin
      rw [hreg, if_neg hfin]
      refine ⟨rfl, ?_⟩
      have := (binary64_isFinite_iff (s.regs i)).not.mp hfin
      omega
  · intro s2 hs2
    obtain ⟨g1, g2, _, g4, g5⟩ := FSAVE_FRSTOR_generic FPU_ST80_Reduced FPU_FLD80_Reduced
      FPU_ST80_Reduced_frame FPU_ST80_Reduced_indep FPU_FLD80_Reduced_congr big s mem addr
      htop hcw
    rw [← hs2] at g1 g2 g4 g5
    refine ⟨g1, g2, g4, ?_⟩
    intro i hi hx
    obtain ⟨hn, hst⟩ := STV_surj s i htop hi
    have hreg := g5 _ hn
    rw [hst] at hreg
    rw [hreg]
    exact FPU_ST80_FLD80_Reduced_any (FPU_SET_TOP s s.top) (FPU_FSTENV big s mem addr).2
      (addr + (if big then 28 else 14) + 10 * ((i + 8 - s.top) % 8)) i hx

/-- C25 at the sample context, whose slot 7 holds +infinity and whose slot 3 holds 17.0:
after save and restore in the Extended build slot 7 holds 1.0 and slot 3 holds 17.0. -/
theorem FPU_FSAVE_FRSTOR_state_witness :
    sampleState.regs 7 = 0x7FF0000000000000 ∧
    (FPU_FRSTOR FPU_FLD80 false (FPU_FSAVE FPU_ST80 false sampleState (fun _ => 0) 100).1
      (FPU_FSAVE FPU_ST80 false sampleState (fun _ => 0) 100).2 100).regs 7
        = 0x3FF0000000000000 ∧
    (FPU_FRSTOR FPU_FLD80 false (FPU_FSAVE FPU_ST80 false sampleState (fun _ => 0) 100).1
      (FPU_FSAVE FPU_ST80 false sampleState (fun _ => 0) 100).2 100).regs 3
        = 0x4031000000000000 :=
  ⟨rfl,
   (((((FPU_FSAVE_FRSTOR_state false sampleState (fun _ => 0) 100
      (by decide) (by decide)).1 _ rfl).2.2.2 7 (by decide) (by decide)).2
      (by decide)).1).trans (by decide),
   ((((FPU_FSAVE_FRSTOR_state false sampleState (fun _ => 0) 100
      (by decide) (by decide)).1 _ rfl).2.2.2 3 (by decide) (by decide)).1
      (by decide))⟩

/-- Top after any completing `FPU_PREP_PUSH`. -/
theorem FPU_PREP_PUSH_top (chk : StackCheck) (s s1 : FPU) (h : FPU_PREP_PUSH chk s = .ok s1) :
    s1.top = (s.top + 7) % 8 := by
  unfold FPU_PREP_PUSH at h
  simp only [top_dec_eq] at h
  split at h
  · exact absurd h (by simp)
  · rename_i s2 hs2
    injection h with h
    subst h
    show s2.top = _
    split_ifs at hs2 <;> (injection hs2 with hs2; subst hs2; rfl)

/-- Top after any completing `FPU_PUSH`. -/
theorem FPU_PUSH_top (chk : StackCheck) (s s1 : FPU) (v : Nat)
    (h : FPU_PUSH chk s v = .ok s1) : s1.top = (s.top + 7) % 8 := by
  unfold FPU_PUSH at h
  split at h
  · exact absurd h (by simp)
  · rename_i s2 hs2
    injection h with h
    subst h
    exact FPU_PREP_PUSH_top chk s s2 hs2

/-- Top after any completing `FPU_FPOP`. -/
theorem FPU_FPOP_top (chk : StackCheck) (s s1 : FPU) (h : FPU_FPOP chk s = .ok s1) :
    s1.top = (s.top + 1) % 8 := by
  unfold FPU_FPOP at h
  simp only [top_inc_eq] at h
  split at h
  · exact absurd h (by simp)
  · rename_i s2 hs2
    injection h with h
    subst h
    show (s2.top + 1) % 8 = _
    split_ifs at hs2 <;> (injection hs2 with hs2; subst hs2; rfl)

/-- Top after a completing load of a constant. -/
theorem FPU_FLDconst_top (chk : StackCheck) (s s1 : FPU) (c : Nat)
    (h : FPU_FLDconst chk s c = .ok s1) : s1.top = (s.top + 7) % 8 :=
  FPU_PUSH_top chk s s1 c h

/-- Top after a completing push followed by a write of C2. -/
theorem push_C2_top (chk : StackCheck) (s s1 : FPU) (v : Nat)
    (h : (match FPU_PUSH chk s v with
      | .error e => Except.error e
      | .ok s => .ok (FPU_SET_C2 s 0)) = .ok s1) :
    s1.top = (s.top + 7) % 8 := by
  split at h
  · exact absurd h (by simp)
  · rename_i s2 hs2
    injection h with h
    subst h
    exact FPU_PUSH_top chk s s2 v hs2

/-- The operations of the Extended and of the Reduced build that call `FPU_PREP_PUSH` or
`FPU_PUSH`, for the math library `m` and the push level `chk`. -/
theorem pushing_top (m : MathLib) (chk : StackCheck) (v c : Nat) (s s1 : FPU)
    (op : FPU → Except String FPU)
    (hop : op ∈ [FPU_PREP_PUSH chk, fun s => FPU_PUSH chk s v,
      FPU_FLD1 binary64 chk, FPU_FLD1 binary32 chk, FPU_FLDL2T m chk, FPU_FLDL2E m chk,
      FPU_FLDPI m chk, FPU_FLDLG2 m chk, FPU_FLDLN2 m chk,
      fun s => FPU_FLDconst_Reduced chk s c, FPU_FLDZ chk,
      FPU_FSINCOS m chk, FPU_FPTAN m chk, FPU_FXTRACT m chk,
      FPU_FSINCOS_Reduced m chk, FPU_FPTAN_Reduced m chk, FPU_FXTRACT_Reduced m chk])
    (h : op s = .ok s1) : s1.top = (s.top + 7) % 8 := by
  simp only [List.mem_cons, List.mem_singleton, List.not_mem_nil, or_false] at hop
  rcases hop with e | e | e | e | e | e | e | e | e | e | e | e | e | e | e | e | e <;> subst e
  · exact FPU_PREP_PUSH_top chk s s1 h
  · exact FPU_PUSH_top chk s s1 v h
  · exact FPU_FLDconst_top chk s s1 _ h
  · exact FPU_FLDconst_top chk s s1 _ h
  · exact FPU_FLDconst_top chk s s1 _ h
  · exact FPU_FLDconst_top chk s s1 _ h
  · exact FPU_FLDconst_top chk s s1 _ h
  · exact FPU_FLDconst_top chk s s1 _ h
  · exact FPU_FLDconst_top chk s s1 _ h
  · exact FPU_FLDconst_top chk s s1 _ h
  · unfold FPU_FLDZ at h
    split at h
    · exact absurd h (by simp)
    · rename_i s2 hs2
      injection h with h
      subst h
      exact FPU_PREP_PUSH_top chk s s2 hs2
  · have h2 := push_C2_top chk _ s1 _ h
    exact h2
  · have h2 := push_C2_top chk _ s1 _ h
    exact h2
  · have h2 := FPU_PUSH_top chk _ s1 _ h
    exact h2
  · have h2 := push_C2_top chk _ s1 _ h
    exact h2
  · have h2 := push_C2_top chk _ s1 _ h
    exact h2
  · have h2 := FPU_PUSH_top chk _ s1 _ h
    exact h2

/-- The operations of the Extended and of the Reduced build that call `FPU_FPOP`, for the
math library `m` and the pop level `chk`. -/
theorem popping_top (m : MathLib) (chk : StackCheck) (s s1 : FPU)
    (op : FPU → Except String FPU)
    (hop : op ∈ [FPU_FPOP chk, FPU_FPATAN m chk, FPU_FYL2X m chk, FPU_FYL2XP1 m chk,
      FPU_FPATAN_Reduced m chk, FPU_FYL2X_Reduced m chk, FPU_FYL2XP1_Reduced m chk])
    (h : op s = .ok s1) : s1.top = (s.top + 1) % 8 := by
  simp only [List.mem_cons, List.mem_singleton, List.not_mem_nil, or_false] at hop
  rcases hop with e | e | e | e | e | e | e <;> subst e <;>
    (have h2 := FPU_FPOP_top chk _ s1 h; exact h2)

/-- Top after `FPU_FLDENV` is the top field of the status word that was read. -/
theorem FPU_FLDENV_top (big : Bool) (s : FPU) (mem : Mem) (addr : Nat) :
    (FPU_FLDENV big s mem addr).top < 8 := by
  obtain ⟨t, h⟩ : ∃ t, (FPU_FLDENV big s mem addr).top = FPU_GET_TOP t := ⟨_, rfl⟩
  rw [h, FPU_GET_TOP_eq]
  omega

/-- Top after `FPU_FRSTOR` is the top that `FPU_FLDENV` set. -/
theorem FPU_FRSTOR_top (fld80 : Mem → Nat → Nat) (big : Bool) (s : FPU) (mem : Mem)
    (addr : Nat) : (FPU_FRSTOR fld80 big s mem addr).top < 8 := by
  unfold FPU_FRSTOR
  have := (FRSTOR_regs_fields fld80 mem addr 8 0 (if big then 28 else 14)
    (FPU_FLDENV big s mem addr))
  have h2 := FPU_FLDENV_top big s mem addr
  simp only [] at this ⊢
  omega

/-- The operations that neither push nor pop leave top as it is. -/
theorem plain_top (f : Fmt) (big : Bool) (mem : Mem) (addr a b : Nat) (s : FPU)
    (op : FPU → FPU)
    (hop : op ∈ [FPU_FCLEX, fun s => FPU_FADD f s a b, fun s => FPU_FDIV f s a b,
      fun s => FPU_FDIVR f s a b, fun s => FPU_FMUL f s a b, fun s => FPU_FSUB f s a b,
      fun s => FPU_FSUBR f s a b, fun s => FPU_FCOM f s a b, fun s => FPU_FUCOM f s a b,
      fun s => FPU_FXCH s a b, fun s => FPU_FST s a b, FPU_FXAM, FPU_FXAM_Reduced,
      fun s => FPU_FLD_I16 f s mem addr a, fun s => FPU_FLD_I32 f s mem addr a,
      fun s => FPU_FBLD f s mem addr a, FPU_FPREM, FPU_FPREM1, FPU_FRNDINT,
      FPU_FRNDINT_Reduced, fun s => (FPU_FSTENV big s mem addr).1]) :
    (op s).top = s.top := by
  simp only [List.mem_cons, List.mem_singleton, List.not_mem_nil, or_false] at hop
  rcases hop with e | e | e | e | e | e | e | e | e | e | e | e | e | e | e | e | e | e | e
    | e | e <;> subst e
  · rfl
  · rfl
  · rfl
  · rfl
  · rfl
  · rfl
  · rfl
  · simp only [FPU_FCOM]
    split_ifs <;> rfl
  · simp only [FPU_FUCOM, FPU_FCOM]
    split_ifs <;> rfl
  · rfl
  · rfl
  · simp only [FPU_FXAM]
    split_ifs <;> rfl
  · simp only [FPU_FXAM_Reduced]
    split_ifs <;> rfl
  · rfl
  · rfl
  · rfl
  · rfl
  · rfl
  · simp only [FPU_FRNDINT]
    split_ifs <;> rfl
  · rfl
  · cases big <;> rfl

/-- C27: top stays in range.  `FPU_FINIT`, `FPU_FLDENV` and `FPU_FRSTOR` (with the load of
either build) yield a top in [0,8) from any state.  From a state with top in [0,8),
`FPU_FSAVE` (with the store of either build), every operation of either build that calls
`FPU_PREP_PUSH`, `FPU_PUSH` or `FPU_FPOP` (the push and pop themselves, the constant
loads, `FPU_FLDZ`, `FPU_FSINCOS`, `FPU_FPTAN`, `FPU_FXTRACT`, `FPU_FPATAN`, `FPU_FYL2X`,
`FPU_FYL2XP1`), at every stack-check level and for every math library, yields a top in
[0,8) whenever it completes, and the operations that neither push nor pop leave top as
it is. -/
theorem top_in_range (m : MathLib) (chk : StackCheck) (f : Fmt) (big : Bool) (s : FPU)
    (mem : Mem) (addr v c a b : Nat) :
    ((FPU_FINIT s).top < 8 ∧ (FPU_FLDENV big s mem addr).top < 8 ∧
      (FPU_FRSTOR FPU_FLD80 big s mem addr).top < 8 ∧
      (FPU_FRSTOR FPU_FLD80_Reduced big s mem addr).top < 8) ∧
    (s.top < 8 →
      (FPU_FSAVE FPU_ST80 big s mem addr).1.top < 8 ∧
      (FPU_FSAVE FPU_ST80_Reduced big s mem addr).1.top < 8 ∧
      (∀ op ∈ [FPU_PREP_PUSH chk, fun s => FPU_PUSH chk s v,
          FPU_FLD1 binary64 chk, FPU_FLD1 binary32 chk, FPU_FLDL2T m chk, FPU_FLDL2E m chk,
          FPU_FLDPI m chk, FPU_FLDLG2 m chk, FPU_FLDLN2 m chk,
          fun s => FPU_FLDconst_Reduced chk s c, FPU_FLDZ chk,
          FPU_FSINCOS m chk, FPU_FPTAN m chk, FPU_FXTRACT m chk,
          FPU_FSINCOS_Reduced m chk, FPU_FPTAN_Reduced m chk, FPU_FXTRACT_Reduced m chk],
        ∀ s1, op s = .ok s1 → s1.top < 8 ∧ s1.top = (s.top + 7) % 8) ∧
      (∀ op ∈ [FPU_FPOP chk, FPU_FPATAN m chk, FPU_FYL2X m chk, FPU_FYL2XP1 m chk,
          FPU_FPATAN_Reduced m chk, FPU_FYL2X_Reduced m chk, FPU_FYL2XP1_Reduced m chk],
        ∀ s1, op s = .ok s1 → s1.top < 8 ∧ s1.top = (s.top + 1) % 8) ∧
      (∀ op ∈ [FPU_FCLEX, fun s => FPU_FADD f s a b, fun s => FPU_FDIV f s a b,
          fun s => FPU_FDIVR f s a b, fun s => FPU_FMUL f s a b, fun s => FPU_FSUB f s a b,
          fun s => FPU_FSUBR f s a b, fun s => FPU_FCOM f s a b, fun s => FPU_FUCOM f s a b,
          fun s => FPU_FXCH s a b, fun s => FPU_FST s a b, FPU_FXAM, FPU_FXAM_Reduced,
          fun s => FPU_FLD_I16 f s mem addr a, fun s => FPU_FLD_I32 f s mem addr a,
          fun s => FPU_FBLD f s mem addr a, FPU_FPREM, FPU_FPREM1, FPU_FRNDINT,
          FPU_FRNDINT_Reduced, fun s => (FPU_FSTENV big s mem addr).1],
        (op s).top < 8)) := by
  refine ⟨⟨?_, FPU_FLDENV_top big s mem addr, FPU_FRSTOR_top _ big s mem addr,
    FPU_FRSTOR_top _ big s mem addr⟩, ?_⟩
  · rw [(FPU_FINIT_fields s).2.2.1]
    decide
  · intro htop
    refine ⟨?_, ?_, ?_, ?_, ?_⟩
    · show (FPU_FINIT (FPU_FSTENV big s mem addr).1).top < 8
      rw [(FPU_FINIT_fields (FPU_FSTENV big s mem addr).1).2.2.1]
      decide
    · show (FPU_FINIT (FPU_FSTENV big s mem addr).1).top < 8
      rw [(FPU_FINIT_fields (FPU_FSTENV big s mem addr).1).2.2.1]
      decide
    · intro op hop s1 h
      have := pushing_top m chk v c s s1 op hop h
      exact ⟨by omega, this⟩
    · intro op hop s1 h
      have := popping_top m chk s s1 op hop h
      exact ⟨by omega, this⟩
    · intro op hop
      rw [plain_top f big mem addr a b s op hop]
      exact htop

/-- C27 at the sample context (top 3, every slot in use, invalid operation masked): the
push of `FPU_FSINCOS` at the LOG level completes with top 2, the pop of `FPU_FPATAN`
completes with top 4, and `FPU_FPREM` leaves top at 3. -/
theorem top_in_range_witness :
    sampleState.top < 8 ∧
    (∃ s1, FPU_FSINCOS exampleLib .LOG sampleState = .ok s1 ∧ s1.top = 2) ∧
    (∃ s1, FPU_FPATAN exampleLib .LOG sampleState = .ok s1 ∧ s1.top = 4) ∧
    (FPU_FPREM sampleState).top < 8 :=
  ⟨by decide,
   ⟨_, rfl, (((top_in_range exampleLib .LOG binary64 false sampleState (fun _ => 0) 100 0 0 0
      1).2 (by decide)).2.2.1 (FPU_FSINCOS exampleLib .LOG) (by simp) _ rfl).2⟩,
   ⟨_, rfl, (((top_in_range exampleLib .LOG binary64 false sampleState (fun _ => 0) 100 0 0 0
      1).2 (by decide)).2.2.2.1 (FPU_FPATAN exampleLib .LOG) (by simp) _ rfl).2⟩,
   ((top_in_range exampleLib .LOG binary64 false sampleState (fun _ => 0) 100 0 0 0
      1).2 (by decide)).2.2.2.2 FPU_FPREM (by simp)⟩

/-- The conversion to a signed integer of any finite pattern is the encoding of its value
truncated toward zero (the integer indefinite when the integer type cannot hold it). -/
theorem toSInt_eq_encodeInt (f : Fmt) (bits : Nat) (hb : 1 ≤ bits) (y : Nat)
    (hy : f.isFinite y) :
    f.toSInt bits y = encodeInt bits (Int.tdiv (f.sval y) ((1 <<< f.scale : Nat) : Int)) := by
  have hS : 0 < 2 ^ f.scale := Nat.pow_pos (by norm_num)
  have hB : 0 < 2 ^ (bits - 1) := Nat.pow_pos (by norm_num)
  have hP : 2 ^ bits = 2 * 2 ^ (bits - 1) := by
    obtain ⟨c, rfl⟩ : ∃ c, bits = c + 1 := ⟨bits - 1, by omega⟩
    rw [Nat.add_sub_cancel, pow_succ]; ring
  have hsb := f.signBit_le y
  have hsv := f.sval_sign y
  have ha : f.mag y >>> f.scale = f.mag y / 2 ^ f.scale := Nat.shiftRight_eq_div_pow _ _
  unfold Fmt.toSInt encodeInt
  simp only [ha, Nat.one_shiftLeft]
  generalize hm : f.mag y = m at *
  generalize hSS : 2 ^ f.scale = S at *
  generalize hBB : 2 ^ (bits - 1) = B at *
  generalize hPP : 2 ^ bits = P at *
  rcases Nat.lt_or_ge (f.signBit y) 1 with h0 | h1
  · have h0 : f.signBit y = 0 := by omega
    have sv : f.sval y = (m : Int) := hsv.2 h0
    have td : Int.tdiv (m : Int) (S : Int) = ((m / S : Nat) : Int) := (Int.ofNat_tdiv m S).symm
    rw [sv, td]
    generalize m / S = a at *
    by_cases haB : a < B
    · rw [if_pos ⟨hy, h0, haB⟩, if_pos ⟨by omega, by exact_mod_cast haB⟩]
      have : (a : Int) % (P : Int) = (a : Int) :=
        Int.emod_eq_of_lt (by omega) (by exact_mod_cast (by omega : a < P))
      rw [this]; rfl
    · have c0 : ¬ (f.isFinite y ∧ f.signBit y = 0 ∧ a < B) := fun h => haB h.2.2
      have c1 : ¬ (f.isFinite y ∧ f.signBit y = 1 ∧ a ≤ B) := fun h => by omega
      have c2 : ¬ (-(B : Int) ≤ (a : Int) ∧ (a : Int) < (B : Int)) := by omega
      rw [if_neg c0, if_neg c1, if_neg c2]
  · have h1 : f.signBit y = 1 := by omega
    have sv : f.sval y = -(m : Int) := hsv.1 h1
    have td : Int.tdiv (-(m : Int)) (S : Int) = -((m / S : Nat) : Int) := by
      rw [Int.neg_tdiv, ← Int.ofNat_tdiv]
    rw [sv, td]
    generalize m / S = a at *
    have s0 : ¬ (f.isFinite y ∧ f.signBit y = 0 ∧ a < B) := by
      intro h; omega
    by_cases haB : a ≤ B
    · rw [if_neg s0, if_pos ⟨hy, h1, haB⟩, if_pos ⟨by omega, by omega⟩]
      rcases Nat.eq_zero_or_pos a with z | pos
      · subst z
        simp
      · have e1 : (P - a) % P = P - a := Nat.mod_eq_of_lt (by omega)
        have e2 : (-(a : Int)) % (P : Int) = ((P - a : Nat) : Int) := by
          have : (-(a : Int)) % (P : Int) = (-(a : Int) + (P : Int)) % (P : Int) := by
            rw [Int.add_emod_self]
          rw [this, Int.emod_eq_of_lt (by omega) (by omega)]
          omega
        rw [e1, e2]; rfl
    · have c1 : ¬ (f.isFinite y ∧ f.signBit y = 1 ∧ a ≤ B) := fun h => haB h.2.2
      have c2 : ¬ (-(B : Int) ≤ -(a : Int) ∧ -(a : Int) < (B : Int)) := by omega
      rw [if_neg s0, if_neg c1, if_neg c2]

/-- The integer denoted by the encoding of an integer the type holds is that integer. -/
theorem signedOf_encodeInt (bits : Nat) (hb : 1 ≤ bits) (r : Int)
    (h1 : -((2 ^ (bits - 1) : Nat) : Int) ≤ r) (h2 : r < ((2 ^ (bits - 1) : Nat) : Int)) :
    signedOf bits (encodeInt bits r) = r := by
  have hB : 0 < 2 ^ (bits - 1) := Nat.pow_pos (by norm_num)
  have hP : 2 ^ bits = 2 * 2 ^ (bits - 1) := by
    obtain ⟨c, rfl⟩ : ∃ c, bits = c + 1 := ⟨bits - 1, by omega⟩
    rw [Nat.add_sub_cancel, pow_succ]; ring
  have henc : encodeInt bits r = (r % ((2 ^ bits : Nat) : Int)).toNat := by
    unfold encodeInt
    simp only [Nat.one_shiftLeft]
    rw [if_pos ⟨h1, h2⟩]
  unfold signedOf
  rw [henc]
  simp only [Nat.one_shiftLeft]
  generalize hBB : 2 ^ (bits - 1) = B at *
  generalize hPP : 2 ^ bits = P at *
  rcases Int.lt_or_le r 0 with hn | hp
  · have e : r % (P : Int) = r + (P : Int) := by
      have : r % (P : Int) = (r + (P : Int)) % (P : Int) := by rw [Int.add_emod_self]
      rw [this, Int.emod_eq_of_lt (by omega) (by omega)]
    rw [e]
    have : ¬ ((r + (P : Int)).toNat < B) := by omega
    rw [if_neg this]
    omega
  · have e : r % (P : Int) = r := Int.emod_eq_of_lt hp (by omega)
    rw [e]
    have : r.toNat < B := by omega
    rw [if_pos this]
    omega

/-- Two's-complement bits 0, 1 and 2 of the 64-bit encoding of an integer. -/
theorem encodeInt_low_bits (q : Int) (h1 : -9223372036854775808 ≤ q)
    (h2 : q < 9223372036854775808) :
    (encodeInt 64 q &&& 4 ≠ 0 ↔ q / 4 % 2 = 1) ∧
    (encodeInt 64 q &&& 2 ≠ 0 ↔ q / 2 % 2 = 1) ∧
    (encodeInt 64 q &&& 1 ≠ 0 ↔ q % 2 = 1) := by
  have e : encodeInt 64 q = (q % 18446744073709551616).toNat := by
    unfold encodeInt
    rw [if_pos ⟨by simpa using h1, by simpa using h2⟩]
    rfl
  have b2 := and_bit (encodeInt 64 q) 2
  have b1 := and_bit (encodeInt 64 q) 1
  have c2 : (1 <<< 2 : Nat) = 4 := by decide
  have c1 : (1 <<< 1 : Nat) = 2 := by decide
  rw [c2] at b2
  rw [c1] at b1
  have b0 : encodeInt 64 q &&& 1 ≠ 0 ↔ encodeInt 64 q % 2 = 1 := by
    rw [Nat.and_one_is_mod]; omega
  refine ⟨b2.trans ?_, b1.trans ?_, b0.trans ?_⟩
  · rw [e]; omega
  · rw [e]; omega
  · rw [e]; omega

/-- The value of a finite pattern truncated toward zero converts back exactly. -/
theorem ofInt_trunc (f : Fmt) (hf : f.Valid) (y : Nat) (hy : f.isFinite y) :
    f.holdsInt (f.ofInt (Int.tdiv (f.sval y) ((1 <<< f.scale : Nat) : Int)))
      (Int.tdiv (f.sval y) ((1 <<< f.scale : Nat) : Int)) := by
  have hna : (Int.tdiv (f.sval y) ((1 <<< f.scale : Nat) : Int)).natAbs
      = f.mag y / 2 ^ f.scale := by
    rw [Nat.one_shiftLeft]
    have hsb := f.signBit_le y
    have hsv := f.sval_sign y
    rcases Nat.lt_or_ge (f.signBit y) 1 with h0 | h1
    · rw [hsv.2 (by omega), ← Int.ofNat_tdiv]
      exact Int.natAbs_ofNat _
    · rw [hsv.1 (by omega), Int.neg_tdiv, ← Int.ofNat_tdiv, Int.natAbs_neg]
      exact Int.natAbs_ofNat _
  obtain ⟨M, j, hm, hM, hj⟩ := f.mag_dyadic hf y hy
  have hs := f.scale_facts hf
  rcases Nat.lt_or_ge j f.scale with hlt | hge
  · apply ofInt_small f hf
    rw [hna, hm]
    have h1 : M * 2 ^ j / 2 ^ f.scale ≤ M * 2 ^ j / 2 ^ j :=
      Nat.div_le_div_left (Nat.pow_le_pow_right (by norm_num) (by omega)) (Nat.pow_pos (by norm_num))
    rw [Nat.mul_div_cancel _ (Nat.pow_pos (by norm_num))] at h1
    omega
  · apply ofInt_exact f hf _ M (j - f.scale)
    · rw [hna, hm]
      have : 2 ^ j = 2 ^ (j - f.scale) * 2 ^ f.scale := by
        rw [← pow_add]; congr 1; omega
      rw [this, ← Nat.mul_assoc, Nat.mul_div_cancel _ (Nat.pow_pos (by norm_num))]
    · exact hM
    · omega

/-- The status word after the four condition-code writes of the partial remainder. -/
theorem prem_flags (s : FPU) (c0 c3 c1 : Nat) :
    (FPU_SET_C2 (FPU_SET_C1 (FPU_SET_C3 (FPU_SET_C0 s c0) c3) c1) 0).sw.testBit 8
      = decide (c0 ≠ 0) ∧
    (FPU_SET_C2 (FPU_SET_C1 (FPU_SET_C3 (FPU_SET_C0 s c0) c3) c1) 0).sw.testBit 14
      = decide (c3 ≠ 0) ∧
    (FPU_SET_C2 (FPU_SET_C1 (FPU_SET_C3 (FPU_SET_C0 s c0) c3) c1) 0).sw.testBit 9
      = decide (c1 ≠ 0) ∧
    (FPU_SET_C2 (FPU_SET_C1 (FPU_SET_C3 (FPU_SET_C0 s c0) c3) c1) 0).sw.testBit 10 = false ∧
    (∀ i, i < 16 → i ≠ 8 → i ≠ 9 → i ≠ 10 → i ≠ 14 →
      (FPU_SET_C2 (FPU_SET_C1 (FPU_SET_C3 (FPU_SET_C0 s c0) c3) c1) 0).sw.testBit i
        = s.sw.testBit i) := by
  have m0 : ∀ i, i < 16 → Nat.testBit 0xFEFF i = decide (i ≠ 8) := by
    intro i hi
    interval_cases i <;> rfl
  have m3 : ∀ i, i < 16 → Nat.testBit 0xBFFF i = decide (i ≠ 14) := by
    intro i hi
    interval_cases i <;> rfl
  have m1 : ∀ i, i < 16 → Nat.testBit 0xFDFF i = decide (i ≠ 9) := by
    intro i hi
    interval_cases i <;> rfl
  have m2 : ∀ i, i < 16 → Nat.testBit 0xFBFF i = decide (i ≠ 10) := by
    intro i hi
    interval_cases i <;> rfl
  have o0 : ∀ i, i < 16 → Nat.testBit 0x0100 i = decide (i = 8) := by
    intro i hi
    interval_cases i <;> rfl
  have o3 : ∀ i, i < 16 → Nat.testBit 0x4000 i = decide (i = 14) := by
    intro i hi
    interval_cases i <;> rfl
  have o1 : ∀ i, i < 16 → Nat.testBit 0x0200 i = decide (i = 9) := by
    intro i hi
    interval_cases i <;> rfl
  have o2 : ∀ i, i < 16 → Nat.testBit 0x0400 i = decide (i = 10) := by
    intro i hi
    interval_cases i <;> rfl
  have key : ∀ i, i < 16 →
      (FPU_SET_C2 (FPU_SET_C1 (FPU_SET_C3 (FPU_SET_C0 s c0) c3) c1) 0).sw.testBit i
        = if i = 8 then decide (c0 ≠ 0) else if i = 14 then decide (c3 ≠ 0)
          else if i = 9 then decide (c1 ≠ 0) else if i = 10 then false
          else s.sw.testBit i := by
    intro i hi
    rw [FPU_SET_C2_testBit, FPU_SET_C1_testBit, FPU_SET_C3_testBit, FPU_SET_C0_testBit,
      m0 i hi, m1 i hi, m2 i hi, m3 i hi, o0 i hi, o1 i hi, o2 i hi, o3 i hi]
    by_cases h8 : i = 8
    · subst h8; simp
    by_cases h14 : i = 14
    · subst h14; simp
    by_cases h9 : i = 9
    · subst h9; simp
    by_cases h10 : i = 10
    · subst h10; simp
    simp [h8, h14, h9, h10]
  refine ⟨?_, ?_, ?_, ?_, ?_⟩
  · rw [key 8 (by norm_num)]; rfl
  · rw [key 14 (by norm_num)]; rfl
  · rw [key 9 (by norm_num)]; rfl
  · rw [key 10 (by norm_num)]; rfl
  · intro i hi h8 h9 h10 h14
    rw [key i hi, if_neg h8, if_neg h14, if_neg h9, if_neg h10]

/-- The fields after the register write and the four condition-code writes that end
`FPU_FPREM` and `FPU_FPREM1`, for a quotient `q` that a signed 64-bit integer holds. -/
theorem prem_fields (s : FPU) (res : Nat) (q : Int) (h1 : -9223372036854775808 ≤ q)
    (h2 : q < 9223372036854775808) (t : FPU)
    (ht : t = FPU_SET_C2 (FPU_SET_C1 (FPU_SET_C3 (FPU_SET_C0
      { s with regs := setSlot s.regs s.top res } (encodeInt 64 q &&& 4))
      (encodeInt 64 q &&& 2)) (encodeInt 64 q &&& 1)) 0) :
    t.regs s.top = res ∧ (∀ j, j ≠ s.top → t.regs j = s.regs j) ∧
    t.sw.testBit 8 = decide (q / 4 % 2 = 1) ∧ t.sw.testBit 14 = decide (q / 2 % 2 = 1) ∧
    t.sw.testBit 9 = decide (q % 2 = 1) ∧ t.sw.testBit 10 = false ∧
    (∀ i, i < 16 → i ≠ 8 → i ≠ 9 → i ≠ 10 → i ≠ 14 → t.sw.testBit i = s.sw.testBit i) ∧
    t.tags = s.tags ∧ t.top = s.top ∧ t.cw = s.cw := by
  obtain ⟨f8, f14, f9, f10, fo⟩ := prem_flags { s with regs := setSlot s.regs s.top res }
    (encodeInt 64 q &&& 4) (encodeInt 64 q &&& 2) (encodeInt 64 q &&& 1)
  obtain ⟨b2, b1, b0⟩ := encodeInt_low_bits q h1 h2
  subst ht
  refine ⟨?_, ?_, ?_, ?_, ?_, f10, fo, rfl, rfl, rfl⟩
  · show setSlot s.regs s.top res s.top = res
    simp [setSlot]
  · intro j hj
    show setSlot s.regs s.top res j = s.regs j
    simp [setSlot, hj]
  · rw [f8]; exact decide_eq_decide.mpr b2
  · rw [f14]; exact decide_eq_decide.mpr b1
  · rw [f9]; exact decide_eq_decide.mpr b0

/-- C21: partial remainder (Extended build).  With `a` the top value, `b` the value of
`ST(1)` and the `double` quotient `a/b` finite, let `q` be that quotient truncated toward
zero, fitting a signed 64-bit integer.  Then `FPU_FPREM` replaces the top value by
`a - q*b` evaluated in `double` arithmetic (`q` converts to `double` exactly), sets C0
(bit 8 of the status word) to bit 2 of `q`, C3 (bit 14) to bit 1 of `q` and C1 (bit 9) to
bit 0 of `q`, the two's-complement bits of `q`, clears C2 (bit 10), and leaves the other
registers, the other bits of the 16-bit status word, the tags, top and the control word
unchanged.  For `a = 17.0` and `b = 5.0` the new top is `2.0`, C0 = 0, C3 = 1, C1 = 1,
C2 = 0. -/
theorem FPU_FPREM_spec (s : FPU) :
    (∀ q : Int, binary64.isFinite (binary64.div (s.regs s.top) (s.regs (STV s 1))) →
      q = Int.tdiv (binary64.sval (binary64.div (s.regs s.top) (s.regs (STV s 1))))
        ((1 <<< binary64.scale : Nat) : Int) →
      -9223372036854775808 ≤ q → q < 9223372036854775808 →
      (FPU_FPREM s).regs s.top
        = binary64.sub (s.regs s.top) (binary64.mul (binary64.ofInt q) (s.regs (STV s 1))) ∧
      binary64.holdsInt (binary64.ofInt q) q ∧
      (∀ j, j ≠ s.top → (FPU_FPREM s).regs j = s.regs j) ∧
      (FPU_FPREM s).sw.testBit 8 = decide (q / 4 % 2 = 1) ∧
      (FPU_FPREM s).sw.testBit 14 = decide (q / 2 % 2 = 1) ∧
      (FPU_FPREM s).sw.testBit 9 = decide (q % 2 = 1) ∧
      (FPU_FPREM s).sw.testBit 10 = false ∧
      (∀ i, i < 16 → i ≠ 8 → i ≠ 9 → i ≠ 10 → i ≠ 14 →
        (FPU_FPREM s).sw.testBit i = s.sw.testBit i) ∧
      (FPU_FPREM s).tags = s.tags ∧ (FPU_FPREM s).top = s.top ∧ (FPU_FPREM s).cw = s.cw) ∧
    (s.regs s.top = 0x4031000000000000 → s.regs (STV s 1) = 0x4014000000000000 →
      (FPU_FPREM s).regs s.top = 0x4000000000000000 ∧
      (FPU_FPREM s).sw.testBit 8 = false ∧ (FPU_FPREM s).sw.testBit 14 = true ∧
      (FPU_FPREM s).sw.testBit 9 = true ∧ (FPU_FPREM s).sw.testBit 10 = false) := by
  have gen : ∀ q : Int, binary64.isFinite (binary64.div (s.regs s.top) (s.regs (STV s 1))) →
      q = Int.tdiv (binary64.sval (binary64.div (s.regs s.top) (s.regs (STV s 1))))
        ((1 <<< binary64.scale : Nat) : Int) →
      -9223372036854775808 ≤ q → q < 9223372036854775808 →
      (FPU_FPREM s).regs s.top
        = binary64.sub (s.regs s.top) (binary64.mul (binary64.ofInt q) (s.regs (STV s 1))) ∧
      binary64.holdsInt (binary64.ofInt q) q ∧
      (∀ j, j ≠ s.top → (FPU_FPREM s).regs j = s.regs j) ∧
      (FPU_FPREM s).sw.testBit 8 = decide (q / 4 % 2 = 1) ∧
      (FPU_FPREM s).sw.testBit 14 = decide (q / 2 % 2 = 1) ∧
      (FPU_FPREM s).sw.testBit 9 = decide (q % 2 = 1) ∧
      (FPU_FPREM s).sw.testBit 10 = false ∧
      (∀ i, i < 16 → i ≠ 8 → i ≠ 9 → i ≠ 10 → i ≠ 14 →
        (FPU_FPREM s).sw.testBit i = s.sw.testBit i) ∧
      (FPU_FPREM s).tags = s.tags ∧ (FPU_FPREM s).top = s.top ∧ (FPU_FPREM s).cw = s.cw := by
    intro q hfin hq h1 h2
    have henc : binary64.toSInt 64 (binary64.div (s.regs s.top) (s.regs (STV s 1)))
        = encodeInt 64 q := by
      rw [toSInt_eq_encodeInt binary64 64 (by norm_num) _ hfin, hq]
    have hsig : signedOf 64 (encodeInt 64 q) = q :=
      signedOf_encodeInt 64 (by norm_num) q (by simpa using h1) (by simpa using h2)
    have hrep : binary64.holdsInt (binary64.ofInt q) q := by
      rw [hq]
      exact ofInt_trunc binary64 binary64_valid _ hfin
    have ht := prem_fields s
      (binary64.sub (s.regs s.top) (binary64.mul (binary64.ofInt q) (s.regs (STV s 1))))
      q h1 h2 (FPU_FPREM s) (by unfold FPU_FPREM; simp only [henc, hsig])
    obtain ⟨g1, g2, g3, g4, g5, g6, g7, g8, g9, g10⟩ := ht
    exact ⟨g1, hrep, g2, g3, g4, g5, g6, g7, g8, g9, g10⟩
  refine ⟨gen, ?_⟩
  intro ha hb
  have hd : binary64.div (s.regs s.top) (s.regs (STV s 1)) = 0x400B333333333333 := by
    rw [ha, hb]; decide
  have hq : (3 : Int) = Int.tdiv (binary64.sval (binary64.div (s.regs s.top) (s.regs (STV s 1))))
      ((1 <<< binary64.scale : Nat) : Int) := by
    rw [hd]; decide
  obtain ⟨g1, _, _, g3, g4, g5, g6, _⟩ := gen 3 (by rw [hd]; decide) hq (by norm_num)
    (by norm_num)
  refine ⟨?_, ?_, ?_, ?_, g6⟩
  · rw [g1, ha, hb]; decide
  · rw [g3]; decide
  · rw [g4]; decide
  · rw [g5]; decide

/-- C21 at the sample context, whose top holds 17.0 and whose `ST(1)` holds 5.0. -/
theorem FPU_FPREM_spec_witness :
    sampleState.regs sampleState.top = 0x4031000000000000 ∧
    sampleState.regs (STV sampleState 1) = 0x4014000000000000 ∧
    (FPU_FPREM sampleState).regs sampleState.top = 0x4000000000000000 ∧
    (FPU_FPREM sampleState).sw.testBit 8 = false ∧
    (FPU_FPREM sampleState).sw.testBit 14 = true ∧
    (FPU_FPREM sampleState).sw.testBit 9 = true ∧
    (FPU_FPREM sampleState).sw.testBit 10 = false :=
  ⟨by decide, by decide, (FPU_FPREM_spec sampleState).2 (by decide) (by decide)⟩

/-- C22: `FPU_FPREM1` against `FPU_FPREM` (Extended build).  With `a` the top value, `b`
the value of `ST(1)` and the `double` quotient `a/b` finite: the quotient `q1` of
`FPU_FPREM1` is `a/b` rounded to the nearest integer, an exact half going to the even
neighbour; when a signed 64-bit integer holds `q1`, the top becomes `a - q1*b` evaluated
in `double` arithmetic (`q1` converts to `double` exactly) and C0, C3, C1, C2 (bits 8, 14,
9, 10 of the status word) are bit 2, bit 1 and bit 0 of `q1` and 0, the rule of
`FPU_FPREM`, everything else being unchanged; and whenever the quotient truncated toward
zero and the quotient rounded to nearest-even coincide, `FPU_FPREM1` and `FPU_FPREM`
produce the same final state. -/
theorem FPU_FPREM1_rounding (s : FPU)
    (hfin : binary64.isFinite (binary64.div (s.regs s.top) (s.regs (STV s 1)))) :
    (∀ q1 : Int,
      q1 = roundInt .ROUND_Nearest
        (binary64.sval (binary64.div (s.regs s.top) (s.regs (STV s 1)))) binary64.scale →
      -9223372036854775808 ≤ q1 → q1 < 9223372036854775808 →
      (FPU_FPREM1 s).regs s.top
        = binary64.sub (s.regs s.top) (binary64.mul (binary64.ofInt q1) (s.regs (STV s 1))) ∧
      binary64.holdsInt (binary64.ofInt q1) q1 ∧
      (∀ j, j ≠ s.top → (FPU_FPREM1 s).regs j = s.regs j) ∧
      (FPU_FPREM1 s).sw.testBit 8 = decide (q1 / 4 % 2 = 1) ∧
      (FPU_FPREM1 s).sw.testBit 14 = decide (q1 / 2 % 2 = 1) ∧
      (FPU_FPREM1 s).sw.testBit 9 = decide (q1 % 2 = 1) ∧
      (FPU_FPREM1 s).sw.testBit 10 = false ∧
      (∀ i, i < 16 → i ≠ 8 → i ≠ 9 → i ≠ 10 → i ≠ 14 →
        (FPU_FPREM1 s).sw.testBit i = s.sw.testBit i) ∧
      (FPU_FPREM1 s).tags = s.tags ∧ (FPU_FPREM1 s).top = s.top ∧
      (FPU_FPREM1 s).cw = s.cw) ∧
    (roundInt .ROUND_Nearest
        (binary64.sval (binary64.div (s.regs s.top) (s.regs (STV s 1)))) binary64.scale
      = roundInt .ROUND_Chop
        (binary64.sval (binary64.div (s.regs s.top) (s.regs (STV s 1)))) binary64.scale →
      FPU_FPREM1 s = FPU_FPREM s) := by
  obtain ⟨⟨n1, _, n3⟩, _⟩ := round_modes binary64 binary64_valid 64 (by decide)
    (binary64.div (s.regs s.top) (s.regs (STV s 1))) hfin
  have htd : Int.tdiv (binary64.sval (binary64.nearest 64
        (binary64.div (s.regs s.top) (s.regs (STV s 1)))))
      ((1 <<< binary64.scale : Nat) : Int)
      = roundInt .ROUND_Nearest
        (binary64.sval (binary64.div (s.regs s.top) (s.regs (STV s 1)))) binary64.scale := by
    rw [n3, tdiv_integral]
  have henc : binary64.toSInt 64 (binary64.nearest 64
        (binary64.div (s.regs s.top) (s.regs (STV s 1))))
      = encodeInt 64 (roundInt .ROUND_Nearest
        (binary64.sval (binary64.div (s.regs s.top) (s.regs (STV s 1)))) binary64.scale) := by
    rw [toSInt_eq_encodeInt binary64 64 (by norm_num) _ n1, htd]
  constructor
  · intro q1 hq h1 h2
    rw [← hq] at henc htd
    have hsig : signedOf 64 (encodeInt 64 q1) = q1 :=
      signedOf_encodeInt 64 (by norm_num) q1 (by simpa using h1) (by simpa using h2)
    have hrep : binary64.holdsInt (binary64.ofInt q1) q1 := by
      have := ofInt_trunc binary64 binary64_valid _ n1
      rwa [htd] at this
    have ht := prem_fields s
      (binary64.sub (s.regs s.top) (binary64.mul (binary64.ofInt q1) (s.regs (STV s 1))))
      q1 h1 h2 (FPU_FPREM1 s) (by unfold FPU_FPREM1; simp only [henc, hsig])
    obtain ⟨g1, g2, g3, g4, g5, g6, g7, g8, g9, g10⟩ := ht
    exact ⟨g1, hrep, g2, g3, g4, g5, g6, g7, g8, g9, g10⟩
  · intro hsame
    have hchop : binary64.toSInt 64 (binary64.div (s.regs s.top) (s.regs (STV s 1)))
        = encodeInt 64 (roundInt .ROUND_Chop
          (binary64.sval (binary64.div (s.regs s.top) (s.regs (STV s 1)))) binary64.scale) :=
      toSInt_eq_encodeInt binary64 64 (by norm_num) _ hfin
    unfold FPU_FPREM1 FPU_FPREM
    simp only [henc, hchop, hsame]

/-- C22 at two contexts: with top 7.0 and `ST(1)` 2.0 the quotient 3.5 rounds to 4 and
`FPU_FPREM1` leaves -1.0 in the top register; with top 17.0 and `ST(1)` 5.0 the quotient
3.4 truncates and rounds to 3 and the two operations give the same state. -/
theorem FPU_FPREM1_rounding_witness :
    (FPU_FPREM1 halfQuotient).regs halfQuotient.top = 0xBFF0000000000000 ∧
    FPU_FPREM1 sampleState = FPU_FPREM sampleState :=
  ⟨((FPU_FPREM1_rounding halfQuotient (by decide)).1 4 (by decide) (by norm_num)
      (by norm_num)).1.trans (by decide),
   (FPU_FPREM1_rounding sampleState (by decide)).2 (by decide)⟩

/-- C23 fails when the precision exception is not masked: in the sample context with top
on the slot of 2.5 and control word 0x035F (bit 5 clear), `FPU_FRNDINT` of the Extended
build replaces 2.5 by 2.0, a different value, and leaves the status word as it was, with
the precision bit 0x0020 clear. -/
theorem FPU_FRNDINT_unmasked :
    ({ sampleState with top := 5, cw := 0x35F } : FPU).regs 5 = 0x4004000000000000 ∧
    (FPU_FRNDINT { sampleState with top := 5, cw := 0x35F }).regs 5 = 0x4000000000000000 ∧
    ¬ binary64.eq 0x4000000000000000 0x4004000000000000 ∧
    (FPU_FRNDINT { sampleState with top := 5, cw := 0x35F }).sw = 0x4100 ∧
    (FPU_FRNDINT { sampleState with top := 5, cw := 0x35F }).sw &&& 0x20 = 0 := by
  decide

/-- C23 (amended): round to integer.  For every state of the Extended build whose top
value `x` is finite and whose rounding `r` to an integer under the active rounding mode
fits a signed 64-bit integer, `FPU_FRNDINT` replaces the top value by `r` (exactly) and
leaves the other registers, the tags, top and the control word unchanged; if the
precision exception is masked (control word bit 0x0020 set) and `r` differs from `x` it
sets the precision-exception bit 0x0020 of the status word and no other bit; if `x` was
already an integer, or if the precision exception is not masked, it leaves the status
word unchanged.  In the Reduced build `FPU_FRNDINT` never changes the status word. -/
theorem FPU_FRNDINT_flag (s : FPU) (r : Int)
    (hx : binary64.isFinite (s.regs s.top))
    (hr : r = roundInt s.round (binary64.sval (s.regs s.top)) binary64.scale)
    (h1 : -9223372036854775808 ≤ r) (h2 : r < 9223372036854775808) :
    binary64.holdsInt ((FPU_FRNDINT s).regs s.top) r ∧
    (∀ j, j ≠ s.top → (FPU_FRNDINT s).regs j = s.regs j) ∧
    (s.cw &&& 0x20 ≠ 0 →
      binary64.sval (s.regs s.top) ≠ r * ((1 <<< binary64.scale : Nat) : Int) →
      (FPU_FRNDINT s).sw = s.sw ||| 0x20) ∧
    (binary64.sval (s.regs s.top) = r * ((1 <<< binary64.scale : Nat) : Int) →
      (FPU_FRNDINT s).sw = s.sw) ∧
    (s.cw &&& 0x20 = 0 → (FPU_FRNDINT s).sw = s.sw) ∧
    (FPU_FRNDINT s).tags = s.tags ∧ (FPU_FRNDINT s).top = s.top ∧
    (FPU_FRNDINT s).cw = s.cw ∧
    (∀ t : FPU, (FPU_FRNDINT_Reduced t).sw = t.sw) := by
  obtain ⟨rfin, rtd⟩ := FROUND_trunc s (s.regs s.top) hx
  rw [← hr] at rtd
  have henc : binary64.toSInt 64 (FROUND s (s.regs s.top)) = encodeInt 64 r := by
    rw [toSInt_eq_encodeInt binary64 64 (by norm_num) _ rfin, rtd]
  have hsig : signedOf 64 (encodeInt 64 r) = r :=
    signedOf_encodeInt 64 (by norm_num) r (by simpa using h1) (by simpa using h2)
  have hrep : binary64.holdsInt (binary64.ofInt r) r := by
    have := ofInt_trunc binary64 binary64_valid _ rfin
    rwa [rtd] at this
  have heq : binary64.eq (binary64.ofInt r) (s.regs s.top) ↔
      binary64.sval (s.regs s.top) = r * ((1 <<< binary64.scale : Nat) : Int) := by
    unfold Fmt.eq
    rw [hrep.2]
    constructor
    · intro h; exact h.2.2.symm
    · intro h; exact ⟨fun hn => hrep.1 hn.1, fun hn => hx hn.1, h.symm⟩
  have hreg : (FPU_FRNDINT s).regs = setSlot s.regs s.top (binary64.ofInt r) := by
    unfold FPU_FRNDINT
    simp only [henc, hsig]
    split_ifs <;> rfl
  refine ⟨?_, ?_, ?_, ?_, ?_, ?_, ?_, ?_, fun t => rfl⟩
  · rw [hreg]
    simp only [setSlot, if_true]
    exact hrep
  · intro j hj
    rw [hreg]
    simp only [setSlot]
    rw [if_neg hj]
  · intro hm hne
    unfold FPU_FRNDINT
    simp only [henc, hsig]
    rw [if_pos hm, if_pos (fun h => hne (heq.mp h))]
  · intro he
    unfold FPU_FRNDINT
    simp only [henc, hsig]
    split_ifs with a b
    · rfl
    · exact absurd (heq.mpr he) b
    · rfl
  · intro hm
    unfold FPU_FRNDINT
    simp only [henc, hsig]
    rw [if_neg (by rw [hm]; simp)]
  · unfold FPU_FRNDINT
    simp only []
    split_ifs <;> rfl
  · unfold FPU_FRNDINT
    simp only []
    split_ifs <;> rfl
  · unfold FPU_FRNDINT
    simp only []
    split_ifs <;> rfl

/-- C23 (amended) at the sample context with top on the slot of 2.5 and the precision
exception masked: 2.5 rounds to 2 under round-to-nearest and the precision bit is set. -/
theorem FPU_FRNDINT_flag_witness :
    binary64.holdsInt ((FPU_FRNDINT { sampleState with top := 5 }).regs 5) 2 ∧
    (FPU_FRNDINT { sampleState with top := 5 }).sw = 0x4100 ||| 0x20 :=
  ⟨(FPU_FRNDINT_flag { sampleState with top := 5 } 2 (by decide) (by decide) (by norm_num)
      (by norm_num)).1,
   (FPU_FRNDINT_flag { sampleState with top := 5 } 2 (by decide) (by decide) (by norm_num)
      (by norm_num)).2.2.1 (by decide) (by decide)⟩

theorem nibble_le (x : Nat) : x &&& 0xf ≤ 15 := Nat.and_le_right

theorem bcdNibble_le (mem : Mem) (addr k : Nat) : bcdNibble mem addr k ≤ 15 := by
  unfold bcdNibble
  split <;> exact Nat.and_le_right

/-- Every partial sum of nibbles is at most `5 * (10^n - 1) / 3`. -/
theorem bcdSum_bound (mem : Mem) (addr : Nat) : ∀ n, 3 * bcdSum mem addr n + 5 ≤ 5 * 10 ^ n := by
  intro n
  induction n with
  | zero => simp [bcdSum]
  | succ n ih =>
    unfold bcdSum
    have h := bcdNibble_le mem addr n
    have h2 : bcdNibble mem addr n * 10 ^ n ≤ 15 * 10 ^ n := Nat.mul_le_mul_right _ h
    rw [pow_succ]
    omega

theorem pow10_le (n : Nat) (hn : n ≤ 18) : 10 ^ n ≤ 1000000000000000000 := by
  have : 10 ^ n ≤ 10 ^ 18 := Nat.pow_le_pow_right (by norm_num) hn
  norm_num at this
  exact this

theorem bcdNibble_even (mem : Mem) (addr i : Nat) :
    bcdNibble mem addr (2 * i) = mem_readb mem (addr + i) &&& 0xf := by
  unfold bcdNibble
  have h1 : 2 * i % 2 = 0 := by omega
  have h2 : 2 * i / 2 = i := by omega
  rw [if_pos h1, h2]

theorem bcdNibble_odd (mem : Mem) (addr i : Nat) :
    bcdNibble mem addr (2 * i + 1) = (mem_readb mem (addr + i) >>> 4) &&& 0xf := by
  unfold bcdNibble
  have h1 : ¬ (2 * i + 1) % 2 = 0 := by omega
  have h2 : (2 * i + 1) / 2 = i := by omega
  rw [if_neg h1, h2]

/-- The digit loop of `FPU_FBLD` from the exact state after `i` bytes: no `Bit64u`
operation wraps and the state after `k` more bytes is exact again. -/
theorem FBLD_digits_exact (mem : Mem) (addr : Nat) : ∀ (k i : Nat), i + k ≤ 9 →
    FBLD_digits mem addr k i (bcdSum mem addr (2 * i)) (10 ^ (2 * i))
      = (bcdSum mem addr (2 * (i + k)), 10 ^ (2 * (i + k))) := by
  intro k
  induction k with
  | zero => intro i _; rfl
  | succ k ih =>
    intro i hik
    have b0 := bcdSum_bound mem addr (2 * i)
    have b1 := bcdSum_bound mem addr (2 * i + 1)
    have b2 := bcdSum_bound mem addr (2 * i + 2)
    have p0 := pow10_le (2 * i) (by omega)
    have p1 := pow10_le (2 * i + 1) (by omega)
    have p2 := pow10_le (2 * i + 2) (by omega)
    have s1 : bcdSum mem addr (2 * i + 1)
        = bcdSum mem addr (2 * i) + (mem_readb mem (addr + i) &&& 0xf) * 10 ^ (2 * i) := by
      rw [← bcdNibble_even]; rfl
    have s2 : bcdSum mem addr (2 * i + 2)
        = bcdSum mem addr (2 * i + 1)
          + ((mem_readb mem (addr + i) >>> 4) &&& 0xf) * 10 ^ (2 * i + 1) := by
      rw [← bcdNibble_odd]; rfl
    have e1 : (10 : Nat) ^ (2 * i) * 10 = 10 ^ (2 * i + 1) := by ring
    have e2 : (10 : Nat) ^ (2 * i + 1) * 10 = 10 ^ (2 * i + 2) := by ring
    unfold FBLD_digits
    simp only []
    rw [← s1, e1, Nat.mod_eq_of_lt (a := bcdSum mem addr (2 * i + 1)) (by omega),
      Nat.mod_eq_of_lt (a := 10 ^ (2 * i + 1)) (by omega), ← s2, e2,
      Nat.mod_eq_of_lt (a := bcdSum mem addr (2 * i + 2)) (by omega),
      Nat.mod_eq_of_lt (a := 10 ^ (2 * i + 2)) (by omega)]
    have := ih (i + 1) (by omega)
    have e3 : 2 * (i + 1) = 2 * i + 2 := by ring
    have e4 : i + 1 + k = i + (k + 1) := by ring
    rw [e3, e4] at this
    exact this

/-- C37: the `Bit64u` accumulator of `FPU_FBLD` never overflows.  For every memory (each
nibble of bytes 0-8 may be any value 0..15) and every byte index `i < 9`, the loop state
after `i` bytes is the exact sum of the first `2i` nibbles weighted by powers of ten and
the exact power `10^(2i)`; each of the four `Bit64u` results of iteration `i` (the two
sums and the two products by 10) is below `2^64` before reduction; after the nine bytes
`val` is the exact sum of `nibble_k * 10^k` over the 18 nibbles and `base` is `10^18`,
and that sum is the integer converted to the register format. -/
theorem FPU_FBLD_no_overflow (f : Fmt) (s : FPU) (mem : Mem) (addr store_to : Nat) :
    (∀ i, i < 9 →
      FBLD_digits mem addr i 0 0 1 = (bcdSum mem addr (2 * i), 10 ^ (2 * i)) ∧
      (FBLD_digits mem addr i 0 0 1).1
        + (mem_readb mem (addr + i) &&& 0xf) * (FBLD_digits mem addr i 0 0 1).2
        < 18446744073709551616 ∧
      (FBLD_digits mem addr i 0 0 1).2 * 10 < 18446744073709551616 ∧
      (FBLD_digits mem addr i 0 0 1).1
        + (mem_readb mem (addr + i) &&& 0xf) * (FBLD_digits mem addr i 0 0 1).2
        + ((mem_readb mem (addr + i) >>> 4) &&& 0xf) * ((FBLD_digits mem addr i 0 0 1).2 * 10)
        < 18446744073709551616 ∧
      (FBLD_digits mem addr i 0 0 1).2 * 10 * 10 < 18446744073709551616) ∧
    FBLD_digits mem addr 9 0 0 1 = (bcdSum mem addr 18, 1000000000000000000) ∧
    bcdSum mem addr 18 < 18446744073709551616 ∧
    (FPU_FBLD f s mem addr store_to).regs store_to =
      (if mem_readb mem (addr + 9) &&& 0x80 ≠ 0 then
        f.mul (f.add (f.ofInt (bcdSum mem addr 18 : Int))
          (f.ofInt (((mem_readb mem (addr + 9) &&& 0xf) * 1000000000000000000 : Nat) : Int)))
          (f.withSign 1 f.one)
      else f.add (f.ofInt (bcdSum mem addr 18 : Int))
          (f.ofInt (((mem_readb mem (addr + 9) &&& 0xf) * 1000000000000000000 : Nat) : Int))) := by
  have hstate : ∀ k, k ≤ 9 →
      FBLD_digits mem addr k 0 0 1 = (bcdSum mem addr (2 * k), 10 ^ (2 * k)) := by
    intro k hk
    have := FBLD_digits_exact mem addr k 0 (by omega)
    simpa [bcdSum] using this
  have h9 : FBLD_digits mem addr 9 0 0 1 = (bcdSum mem addr 18, 1000000000000000000) := by
    rw [hstate 9 (by norm_num)]
    norm_num
  have hb18 := bcdSum_bound mem addr 18
  refine ⟨?_, h9, by norm_num at hb18; omega, ?_⟩
  · intro i hi
    rw [hstate i (by omega)]
    have b1 := bcdSum_bound mem addr (2 * i + 1)
    have b2 := bcdSum_bound mem addr (2 * i + 2)
    have p1 := pow10_le (2 * i + 1) (by omega)
    have p2 := pow10_le (2 * i + 2) (by omega)
    have s1 : bcdSum mem addr (2 * i + 1)
        = bcdSum mem addr (2 * i) + (mem_readb mem (addr + i) &&& 0xf) * 10 ^ (2 * i) := by
      rw [← bcdNibble_even]; rfl
    have s2 : bcdSum mem addr (2 * i + 2)
        = bcdSum mem addr (2 * i + 1)
          + ((mem_readb mem (addr + i) >>> 4) &&& 0xf) * 10 ^ (2 * i + 1) := by
      rw [← bcdNibble_odd]; rfl
    have e1 : (10 : Nat) ^ (2 * i) * 10 = 10 ^ (2 * i + 1) := by ring
    have e2 : (10 : Nat) ^ (2 * i + 1) * 10 = 10 ^ (2 * i + 2) := by ring
    refine ⟨rfl, ?_, ?_, ?_, ?_⟩
    · show bcdSum mem addr (2 * i) + (mem_readb mem (addr + i) &&& 0xf) * 10 ^ (2 * i) < _
      rw [← s1]; omega
    · show 10 ^ (2 * i) * 10 < _
      rw [e1]; omega
    · show bcdSum mem addr (2 * i) + (mem_readb mem (addr + i) &&& 0xf) * 10 ^ (2 * i)
        + ((mem_readb mem (addr + i) >>> 4) &&& 0xf) * (10 ^ (2 * i) * 10) < _
      rw [← s1, e1, ← s2]; omega
    · show 10 ^ (2 * i) * 10 * 10 < _
      rw [e1, e2]; omega
  · rw [FPU_FBLD_regs, h9]
    have hn := nibble_le (mem_readb mem (addr + 9))
    have : (mem_readb mem (addr + 9) &&& 0xf) * 1000000000000000000 % 18446744073709551616
        = (mem_readb mem (addr + 9) &&& 0xf) * 1000000000000000000 :=
      Nat.mod_eq_of_lt (by omega)
    simp only [this]

/-- C37 at the operand whose ten bytes are all 0xFF, every nibble being 15: the loop ends
with the sum 1666666666666666665 and the base `10^18`, and the last iteration stays
below `2^64`. -/
theorem FPU_FBLD_no_overflow_witness :
    FBLD_digits (fun _ => 0xFF) 0 9 0 0 1 = (1666666666666666665, 1000000000000000000) ∧
    (FBLD_digits (fun _ => 0xFF) 0 8 0 0 1).2 * 10 * 10 < 18446744073709551616 :=
  ⟨(FPU_FBLD_no_overflow binary64 emptyStack (fun _ => 0xFF) 0 0).2.1.trans (by decide),
   ((FPU_FBLD_no_overflow binary64 emptyStack (fun _ => 0xFF) 0 0).1 8 (by decide)).2.2.2.2⟩

/-- The conversion of a natural number below `2^61` to a format with at least 7 exponent
bits: a finite pattern with the sign clear that rounding maps to itself. -/
theorem ofInt_nat (f : Fmt) (hf : f.Valid) (hw : 7 ≤ f.w) (N : Nat)
    (hN : N < 2305843009213693952) :
    f.isFinite (f.ofInt (N : Int)) ∧ f.signBit (f.ofInt (N : Int)) = 0 ∧
    f.ofInt (N : Int) < 2 ^ (f.p + f.w) ∧
    (N = 0 → f.ofInt (N : Int) = 0) ∧
    (0 < N → f.ofInt (N : Int) = f.roundMag (N * 2 ^ f.scale) 1 ∧
      0 < f.mag (f.ofInt (N : Int)) ∧
      f.ofInt (-(N : Int)) = f.withSign 1 (f.ofInt (N : Int))) := by
  have hS : 0 < 2 ^ f.scale := Nat.pow_pos (by norm_num)
  have hem := f.emax_mul_lt
  rcases Nat.eq_zero_or_pos N with h0 | hpos
  · subst h0
    have e : f.ofInt ((0 : Nat) : Int) = 0 := by
      simp [Fmt.ofInt, Fmt.ofSigned, Fmt.withSign]
    rw [e]
    have z1 : f.expField 0 = 0 := by simp [Fmt.expField]
    have z2 : f.signBit 0 = 0 := by simp [Fmt.signBit]
    refine ⟨?_, z2, Nat.pow_pos (by norm_num), fun _ => rfl, fun h => absurd h (by omega)⟩
    unfold Fmt.isFinite
    rw [z1, Fmt.emax_eq]
    have : 2 ≤ 2 ^ f.w := by
      calc 2 = 2 ^ 1 := by norm_num
        _ ≤ 2 ^ f.w := Nat.pow_le_pow_right (by norm_num) (by omega)
    omega
  · obtain ⟨hs1, hs2, hs3⟩ := f.scale_facts hf
    have hsc := f.scale_eq
    have hwpow : 64 ≤ 2 ^ (f.w - 1) := by
      calc 64 = 2 ^ 6 := by norm_num
        _ ≤ 2 ^ (f.w - 1) := Nat.pow_le_pow_right (by norm_num) (by omega)
    have hemax : f.emax = 2 ^ f.w - 1 := f.emax_eq
    have hw2 : 2 ^ f.w = 2 * 2 ^ (f.w - 1) := by
      obtain ⟨c, hc⟩ : ∃ c, f.w = c + 1 := ⟨f.w - 1, by omega⟩
      rw [hc, Nat.add_sub_cancel, pow_succ]; ring
    set n := N * 2 ^ f.scale with hn
    have hnpos : 0 < n := Nat.mul_pos hpos hS
    have hlo : 2 ^ f.scale ≤ n := Nat.le_mul_of_pos_left _ hpos
    have hhi : n < 2 ^ (61 + f.scale) := by
      rw [pow_add]
      exact Nat.mul_lt_mul_of_pos_right (by norm_num; exact hN) hS
    have hl1 : f.scale ≤ Nat.log 2 n := Nat.le_log_of_pow_le (by norm_num) hlo
    have hl2 : Nat.log 2 n < 61 + f.scale := Nat.log_lt_of_lt_pow (by omega) hhi
    have hb1 : 2 ^ Nat.log 2 n ≤ n := Nat.pow_log_le_self 2 (by omega)
    have hb2 : n < 2 ^ (Nat.log 2 n + 1) := Nat.lt_pow_succ_log_self (by norm_num) n
    obtain ⟨k, hk⟩ : ∃ k, Nat.log 2 n = f.p + k := ⟨Nat.log 2 n - f.p, by omega⟩
    rw [hk] at hb1 hb2
    obtain ⟨r1, r2⟩ := f.roundMag_binade hf n k hb1 hb2 (by omega)
    have hcast : ((N : Int) * ((1 <<< f.scale : Nat) : Int)) = ((n : Nat) : Int) := by
      rw [Nat.one_shiftLeft, hn]; push_cast; ring
    have hne : ((n : Nat) : Int) ≠ 0 := by exact_mod_cast (by omega : n ≠ 0)
    have hnl : ¬ ((n : Nat) : Int) < 0 := by
      have : (0 : Int) ≤ ((n : Nat) : Int) := Int.ofNat_nonneg n
      omega
    have e : f.ofInt (N : Int) = f.roundMag n 1 := by
      unfold Fmt.ofInt Fmt.ofSigned
      rw [hcast, if_neg hne, if_neg hnl, Int.natAbs_ofNat, Fmt.withSign_eq]
      omega
    have hylt : f.roundMag n 1 < 2 ^ (f.p + f.w) := by omega
    obtain ⟨fin, _⟩ := f.finite_of_lt _ r1
    have hsign : f.signBit (f.roundMag n 1) = 0 := by
      rw [Fmt.signBit_eq, Nat.div_eq_of_lt hylt]
    have hpow : 0 < 2 ^ (f.p + k) := Nat.pow_pos (by norm_num)
    have eneg : f.ofInt (-(N : Int)) = f.withSign 1 (f.roundMag n 1) := by
      unfold Fmt.ofInt Fmt.ofSigned
      have hcast2 : (-(N : Int) * ((1 <<< f.scale : Nat) : Int)) = -((n : Nat) : Int) := by
        rw [← hcast]; ring
      have hne2 : -((n : Nat) : Int) ≠ 0 := by omega
      have hlt2 : -((n : Nat) : Int) < 0 := by omega
      rw [hcast2, if_neg hne2, if_pos hlt2, Int.natAbs_neg, Int.natAbs_ofNat]
    rw [e]
    exact ⟨fin, hsign, hylt, fun h => absurd h (by omega), fun _ => ⟨rfl, by omega, eneg⟩⟩

/-- Adding +0 to a finite pattern with the sign clear gives the pattern. -/
theorem add_zero_pattern (f : Fmt) (hf : f.Valid) (y : Nat) (hy : f.isFinite y)
    (hs : f.signBit y = 0) (hlt : y < 2 ^ (f.p + f.w)) : f.add y 0 = y := by
  have z1 : f.expField 0 = 0 := by simp [Fmt.expField]
  have hem : 0 < f.emax := by
    rw [Fmt.emax_eq]
    have : 2 ≤ 2 ^ f.w := by
      calc 2 = 2 ^ 1 := by norm_num
        _ ≤ 2 ^ f.w := Nat.pow_le_pow_right (by norm_num) (by have := hf.2.1; omega)
    omega
  have fin0 : f.isFinite 0 := by
    unfold Fmt.isFinite
    rw [z1]; omega
  rw [f.add_finite y 0 hy fin0, hs, f.sval_zero, add_zero, if_neg (by omega),
    (f.sval_sign y).2 hs]
  obtain ⟨d1, d2⟩ := f.pattern_decomp y hlt
  unfold Fmt.ofSigned
  by_cases h0 : ((f.mag y : Nat) : Int) = 0
  · rw [if_pos h0]
    have hm : f.mag y = 0 := by exact_mod_cast h0
    rw [Fmt.mag_eq] at hm
    have hp : 0 < 2 ^ f.p := Nat.pow_pos (by norm_num)
    by_cases he : f.expField y = 0
    · rw [if_pos he] at hm
      rw [Fmt.withSign_eq]
      rw [he, hm] at d2
      omega
    · rw [if_neg he] at hm
      have : 0 < (2 ^ f.p + f.fracField y) * 2 ^ (f.expField y - 1) :=
        Nat.mul_pos (by omega) (Nat.pow_pos (by norm_num))
      omega
  · have hnl : ¬ ((f.mag y : Nat) : Int) < 0 := by
      have : (0 : Int) ≤ ((f.mag y : Nat) : Int) := Int.ofNat_nonneg _
      omega
    rw [if_neg h0, if_neg hnl, Int.natAbs_ofNat, f.roundMag_mag hf y hy, Fmt.withSign_eq]
    omega

/-- Multiplying a finite pattern with the sign clear by -1.0 sets the sign bit. -/
theorem mul_neg_one (f : Fmt) (hf : f.Valid) (y : Nat) (hy : f.isFinite y)
    (hs : f.signBit y = 0) (hlt : y < 2 ^ (f.p + f.w)) :
    f.mul y (f.withSign 1 f.one) = f.withSign 1 y := by
  obtain ⟨o1, o2, o3⟩ := f.one_spec hf
  have hw1 : 0 < 2 ^ (f.w - 1) := Nat.pow_pos (by norm_num)
  have hw2 : 2 ^ f.w = 2 * 2 ^ (f.w - 1) := by
    obtain ⟨c, hc⟩ : ∃ c, f.w = c + 1 := ⟨f.w - 1, by have := hf.2.1; omega⟩
    rw [hc, Nat.add_sub_cancel, pow_succ]; ring
  have honelt : f.one < 2 ^ (f.p + f.w) := by
    have e : f.one = (2 ^ (f.w - 1) - 1) * 2 ^ f.p := by
      simp [Fmt.one, Nat.shiftLeft_eq]
    rw [e, pow_add, Nat.mul_comm (2 ^ f.p)]
    exact Nat.mul_lt_mul_of_pos_right (by omega) (Nat.pow_pos (by norm_num))
  obtain ⟨w1, w2, w3⟩ := f.withSign_fields 1 f.one (by norm_num) honelt
  have wfin : f.isFinite (f.withSign 1 f.one) :=
    (f.withSign_isFinite 1 f.one (by norm_num) honelt).mpr o1
  have wmag : f.mag (f.withSign 1 f.one) = 2 ^ f.scale := by
    rw [f.withSign_mag 1 f.one (by norm_num) honelt]
    have := (f.sval_sign f.one).2 o2
    rw [o3] at this
    exact_mod_cast this.symm
  have nan1 : ¬ f.isNaN y := fun h => hy h.1
  have nan2 : ¬ f.isNaN (f.withSign 1 f.one) := fun h => wfin h.1
  obtain ⟨d1, d2⟩ := f.pattern_decomp y hlt
  unfold Fmt.mul
  rw [if_neg nan1, if_neg nan2, if_neg (by
    rintro (⟨h, _⟩ | ⟨_, h⟩)
    · exact h hy
    · exact h wfin), if_neg (by
    rintro (h | h)
    · exact h hy
    · exact h wfin), hs, w1, wmag, Nat.one_shiftLeft,
    f.roundMag_unit _ _ (Nat.pow_pos (by norm_num)), f.roundMag_mag hf y hy, ← d2]

/-- C32 fails on the low nibble of byte 9: for the operand whose bytes 0-8 are zero (every
nibble the decimal digit 0) and whose byte 9 is 0x01, with bit 7 of byte 9 clear, the sum
of `d_k * 10^k` is 0, whose register-format value is +0, but `FPU_FBLD` of the Extended
build sets the register to 0x43ABC16D674EC800, which is `10^18`. -/
theorem FPU_FBLD_byte9_digit :
    (∀ k, k < 18 → bcdNibble (mem_writeb (fun _ => 0) 109 1) 100 k = 0) ∧
    bcdSum (mem_writeb (fun _ => 0) 109 1) 100 18 = 0 ∧
    mem_readb (mem_writeb (fun _ => 0) 109 1) 109 &&& 0x80 = 0 ∧
    binary64.ofInt 0 = 0 ∧
    (FPU_FBLD binary64 emptyStack (mem_writeb (fun _ => 0) 109 1) 100 0).regs 0
      = 0x43ABC16D674EC800 ∧
    binary64.holdsInt 0x43ABC16D674EC800 1000000000000000000 := by
  decide

/-- C32 (amended): BCD decoding.  For every 10-byte operand whose byte 9 has a zero low
nibble, with `d_k` the `k`-th nibble counted from the low nibble of byte 0 (any nibble
value, in particular decimal digits) and `N = d_0*10^0 + ... + d_17*10^17`, `FPU_FBLD`
sets the target register to the conversion of `N` to the register format when bit 7 of
byte 9 is clear and to the conversion of `-N` when it is set (to -0 when `N = 0`), in
either build (any format with at least 7 exponent bits); it changes no other register
and no tag.  For any byte 9 the register is the sum, in the register format, of the
conversions of `N` and of the low nibble of byte 9 times `10^18`, multiplied by -1.0 when
bit 7 of byte 9 is set. -/
theorem FPU_FBLD_value (f : Fmt) (hf : f.Valid) (hw : 7 ≤ f.w) (s : FPU) (mem : Mem)
    (addr store_to : Nat) :
    (mem_readb mem (addr + 9) &&& 0xf = 0 →
      (mem_readb mem (addr + 9) &&& 0x80 = 0 →
        (FPU_FBLD f s mem addr store_to).regs store_to
          = f.ofInt (bcdSum mem addr 18 : Int)) ∧
      (mem_readb mem (addr + 9) &&& 0x80 ≠ 0 → 0 < bcdSum mem addr 18 →
        (FPU_FBLD f s mem addr store_to).regs store_to
          = f.ofInt (-(bcdSum mem addr 18 : Int))) ∧
      (mem_readb mem (addr + 9) &&& 0x80 ≠ 0 → bcdSum mem addr 18 = 0 →
        (FPU_FBLD f s mem addr store_to).regs store_to = f.withSign 1 0)) ∧
    (FPU_FBLD f s mem addr store_to).regs store_to =
      (if mem_readb mem (addr + 9) &&& 0x80 ≠ 0 then
        f.mul (f.add (f.ofInt (bcdSum mem addr 18 : Int))
          (f.ofInt (((mem_readb mem (addr + 9) &&& 0xf) * 1000000000000000000 : Nat) : Int)))
          (f.withSign 1 f.one)
      else f.add (f.ofInt (bcdSum mem addr 18 : Int))
          (f.ofInt (((mem_readb mem (addr + 9) &&& 0xf) * 1000000000000000000 : Nat) : Int))) ∧
    (∀ j, j ≠ store_to → (FPU_FBLD f s mem addr store_to).regs j = s.regs j) ∧
    (FPU_FBLD f s mem addr store_to).tags = s.tags ∧
    (FPU_FBLD f s mem addr store_to).top = s.top := by
  have h9 : FBLD_digits mem addr 9 0 0 1 = (bcdSum mem addr 18, 1000000000000000000) := by
    have := FBLD_digits_exact mem addr 9 0 (by norm_num)
    simpa [bcdSum] using this
  have hgen : (FPU_FBLD f s mem addr store_to).regs store_to =
      (if mem_readb mem (addr + 9) &&& 0x80 ≠ 0 then
        f.mul (f.add (f.ofInt (bcdSum mem addr 18 : Int))
          (f.ofInt (((mem_readb mem (addr + 9) &&& 0xf) * 1000000000000000000 : Nat) : Int)))
          (f.withSign 1 f.one)
      else f.add (f.ofInt (bcdSum mem addr 18 : Int))
          (f.ofInt (((mem_readb mem (addr + 9) &&& 0xf) * 1000000000000000000 : Nat) : Int))) := by
    rw [FPU_FBLD_regs, h9]
    have hn := nibble_le (mem_readb mem (addr + 9))
    have : (mem_readb mem (addr + 9) &&& 0xf) * 1000000000000000000 % 18446744073709551616
        = (mem_readb mem (addr + 9) &&& 0xf) * 1000000000000000000 :=
      Nat.mod_eq_of_lt (by omega)
    simp only [this]
  have hb := bcdSum_bound mem addr 18
  have hN : bcdSum mem addr 18 < 2305843009213693952 := by
    norm_num at hb; omega
  obtain ⟨y1, y2, y3, y4, y5⟩ := ofInt_nat f hf hw (bcdSum mem addr 18) hN
  have z0 : f.ofInt ((0 : Nat) : Int) = 0 := by
    simp [Fmt.ofInt, Fmt.ofSigned, Fmt.withSign]
  have hadd := add_zero_pattern f hf _ y1 y2 y3
  have hmul := mul_neg_one f hf _ y1 y2 y3
  refine ⟨?_, hgen, ?_, rfl, rfl⟩
  · intro hlow
    rw [hgen, hlow, Nat.zero_mul, z0, hadd, hmul]
    refine ⟨?_, ?_, ?_⟩
    · intro hs
      rw [if_neg (by rw [hs]; simp)]
    · intro hs hpos
      rw [if_pos hs, (y5 hpos).2.2]
    · intro hs hz
      rw [if_pos hs, y4 hz]
  · intro j hj
    unfold FPU_FBLD
    simp only [setSlot]
    rw [if_neg hj]

/-- C32 (amended) at an operand holding the digits of 16777217 with the sign bit set, in
the Reduced build: the register takes the `float` nearest to -16777217, which is
-16777216. -/
theorem FPU_FBLD_value_witness :
    bcdSum (mem_writeb (mem_writed (fun _ => 0) 100 0x16777217) 109 0x80) 100 18 = 16777217 ∧
    (FPU_FBLD binary32 emptyStack
      (mem_writeb (mem_writed (fun _ => 0) 100 0x16777217) 109 0x80) 100 0).regs 0
        = 0xCB800000 ∧
    binary32.holdsInt 0xCB800000 (-16777216) :=
  ⟨by decide,
   (((FPU_FBLD_value binary32 binary32_valid (by decide) emptyStack
      (mem_writeb (mem_writed (fun _ => 0) 100 0x16777217) 109 0x80) 100 0).1
      (by decide)).2.1 (by decide) (by decide)).trans (by decide),
   by decide⟩

/-- Rounding to an integer and negation: Nearest and Chop are symmetric, Down and Up are
mirror images of each other. -/
theorem roundInt_neg (v : Int) (k : Nat) :
    roundInt .ROUND_Nearest (-v) k = -roundInt .ROUND_Nearest v k ∧
    roundInt .ROUND_Chop (-v) k = -roundInt .ROUND_Chop v k ∧
    roundInt .ROUND_Down (-v) k = -roundInt .ROUND_Up v k ∧
    roundInt .ROUND_Up (-v) k = -roundInt .ROUND_Down v k := by
  refine ⟨?_, ?_, ?_, ?_⟩
  · obtain ⟨_, _, _, n1, n2⟩ := roundInt_spec v k
    have hS : 0 < 2 ^ k := Nat.pow_pos (by norm_num)
    rw [Int.abs_eq_natAbs] at n1 n2
    have e : (-v - -roundInt .ROUND_Nearest v k * ((2 ^ k : Nat) : Int)).natAbs
        = (v - roundInt .ROUND_Nearest v k * ((2 ^ k : Nat) : Int)).natAbs := by
      rw [← Int.natAbs_neg]
      congr 1
      ring
    have h := nearest_unique (-v) (-roundInt .ROUND_Nearest v k) (2 ^ k) hS
      (by rw [e]; exact_mod_cast n1)
      (by
        rw [e]
        intro h
        have := n2 (by exact_mod_cast h)
        omega)
    rw [h]
    simp only [roundInt, shl_cast]
  · simp only [roundInt]
    exact Int.neg_tdiv _ _
  · simp only [roundInt, neg_neg]
  · simp only [roundInt, neg_neg]

/-- Rounding a non-negative value gives a non-negative integer. -/
theorem roundInt_nonneg (m : FPU_Round) (v : Int) (k : Nat) (hv : 0 ≤ v) :
    0 ≤ roundInt m v k := by
  have hS : (0 : Int) < ((2 ^ k : Nat) : Int) := by
    have : 0 < 2 ^ k := Nat.pow_pos (by norm_num)
    exact_mod_cast this
  obtain ⟨⟨d1, d2⟩, ⟨u1, u2⟩, ⟨c1, _⟩, n1, _⟩ := roundInt_spec v k
  have key : ∀ r : Int, v < (r + 1) * ((2 ^ k : Nat) : Int) → 0 ≤ r := by
    intro r h
    by_contra hneg
    have : (r + 1) * ((2 ^ k : Nat) : Int) ≤ 0 :=
      Int.mul_nonpos_of_nonpos_of_nonneg (by omega) (le_of_lt hS)
    omega
  cases m with
  | ROUND_Down => exact key _ d2
  | ROUND_Chop => rw [c1 hv]; exact key _ d2
  | ROUND_Up =>
    by_contra hneg
    have : roundInt .ROUND_Up v k * ((2 ^ k : Nat) : Int) < 0 :=
      Int.mul_neg_of_neg_of_pos (by omega) hS
    omega
  | ROUND_Nearest =>
    apply key
    have h1 := le_abs_self (v - roundInt .ROUND_Nearest v k * ((2 ^ k : Nat) : Int))
    rw [Int.add_mul]
    omega

/-- C31 fails for a negative value that is not an integer under a directed rounding mode:
with control word 0x077F (round down) and -2.5 in the top register, the rounded magnitude
is 2, so `FPU_FBST` writes 0x02 into byte 0 and 0x80 into byte 9, whereas -2.5 rounded
down is -3, whose absolute value 3 has the digit byte 0x03. -/
theorem FPU_FBST_rounds_magnitude :
    (FPU_SetCW (withRegs 0xC004000000000000) 0x77F).round = .ROUND_Down ∧
    (FPU_SetCW (withRegs 0xC004000000000000) 0x77F).regs
      (FPU_SetCW (withRegs 0xC004000000000000) 0x77F).top = 0xC004000000000000 ∧
    roundInt .ROUND_Down (binary64.mag 0xC004000000000000 : Int) binary64.scale = 2 ∧
    roundInt .ROUND_Down (binary64.sval 0xC004000000000000) binary64.scale = -3 ∧
    mem_readb (FPU_FBST (FPU_SetCW (withRegs 0xC004000000000000) 0x77F) (fun _ => 0) 100) 100
      = 0x02 ∧
    mem_readb (FPU_FBST (FPU_SetCW (withRegs 0xC004000000000000) 0x77F) (fun _ => 0) 100) 109
      = 0x80 ∧
    decDigit 3 0 + 16 * decDigit 3 1 = 0x03 := by
  decide

theorem decDigit_pair (r i : Nat) :
    (r / 100 ^ i) % 10 + 16 * ((r / 100 ^ i / 10) % 10)
      = decDigit r (2 * i) + 16 * decDigit r (2 * i + 1) := by
  unfold decDigit
  have e1 : (100 : Nat) ^ i = 10 ^ (2 * i) := by
    rw [pow_mul]; norm_num
  rw [e1, Nat.div_div_eq_div_mul, pow_succ]

/-- C31 (amended): BCD encoding layout (Extended build).  For every finite top value `x`
whose magnitude rounded to an integer by the active rounding mode, `R`, is at most
999999999999999999, `FPU_FBST` writes byte `i` (0 <= i <= 8) as decimal digit `2i` of `R`
in the low nibble and digit `2i+1` in the high nibble, writes byte 9 as 0x80 if the sign
bit of `x` is set (a negative value or -0) and as 0x00 otherwise, and changes no byte
outside the ten.  `R` is the absolute value of `x` rounded by the active mode when `x`
has the sign clear or the mode is Nearest or Chop; for `x` with the sign set it is the
absolute value of `x` rounded up in mode Down and of `x` rounded down in mode Up. -/
theorem FPU_FBST_layout (s : FPU) (mem : Mem) (addr : Nat) (R : Nat)
    (hx : s.regs s.top < 18446744073709551616) (hfin : binary64.isFinite (s.regs s.top))
    (hR : roundInt s.round (binary64.mag (s.regs s.top) : Int) binary64.scale = (R : Int))
    (hle : R ≤ 999999999999999999) :
    (∀ i, i < 9 → mem_readb (FPU_FBST s mem addr) (addr + i)
      = decDigit R (2 * i) + 16 * decDigit R (2 * i + 1)) ∧
    mem_readb (FPU_FBST s mem addr) (addr + 9)
      = (if binary64.signBit (s.regs s.top) = 1 then 0x80 else 0x00) ∧
    (∀ j, j < addr ∨ addr + 10 ≤ j → FPU_FBST s mem addr j = mem j) ∧
    (binary64.sval (s.regs s.top) < 0 → binary64.signBit (s.regs s.top) = 1) ∧
    (binary64.signBit (s.regs s.top) = 0 ∨ s.round = .ROUND_Nearest ∨ s.round = .ROUND_Chop →
      (R : Int) = |roundInt s.round (binary64.sval (s.regs s.top)) binary64.scale|) ∧
    (binary64.signBit (s.regs s.top) = 1 → s.round = .ROUND_Down →
      (R : Int) = |roundInt .ROUND_Up (binary64.sval (s.regs s.top)) binary64.scale|) ∧
    (binary64.signBit (s.regs s.top) = 1 → s.round = .ROUND_Up →
      (R : Int) = |roundInt .ROUND_Down (binary64.sval (s.regs s.top)) binary64.scale|) := by
  have hrnd := FBST_rndint s (s.regs s.top) hx hfin R hR (by omega)
  have hnot : ¬ R > 999999999999999999 := by omega
  have e : FPU_FBST s mem addr = FBST_digits 9 R
      (if s.regs s.top &&& 0x8000000000000000 ≠ 0 then mem_writeb mem (addr + 9) 0x80
        else mem_writeb mem (addr + 9) 0) addr := by
    unfold FPU_FBST
    simp only [hrnd, if_neg hnot]
  obtain ⟨_, hsign⟩ := abs_pattern (s.regs s.top) hx
  have hsb := binary64.signBit_le (s.regs s.top)
  obtain ⟨sv1, sv0⟩ := binary64.sval_sign (s.regs s.top)
  have hRnn : (0 : Int) ≤ (R : Int) := Int.ofNat_nonneg R
  obtain ⟨g1, g2, g3, g4⟩ := roundInt_neg (binary64.mag (s.regs s.top) : Int) binary64.scale
  refine ⟨?_, ?_, ?_, ?_, ?_, ?_, ?_⟩
  · intro i hi
    rw [e, FBST_digits_byte 9 R _ addr i hi, decDigit_pair]
  · rw [e]
    unfold mem_readb
    rw [FBST_digits_frame _ _ _ _ _ (by omega)]
    by_cases hs : s.regs s.top &&& 0x8000000000000000 ≠ 0
    · rw [if_pos hs, if_pos (hsign.mp hs)]
      simp [mem_writeb]
    · have : ¬ binary64.signBit (s.regs s.top) = 1 := fun h => hs (hsign.mpr h)
      rw [if_neg hs, if_neg this]
      simp [mem_writeb]
  · intro j hj
    rw [e, FBST_digits_frame _ _ _ _ _ (by omega)]
    have hne : j ≠ addr + 9 := by omega
    split <;> simp [mem_writeb, hne]
  · intro hneg
    by_contra h
    have h0 : binary64.signBit (s.regs s.top) = 0 := by omega
    have := sv0 h0
    have : (0 : Int) ≤ (binary64.mag (s.regs s.top) : Int) := Int.ofNat_nonneg _
    omega
  · rintro (h0 | hn | hc)
    · rw [sv0 h0, hR, abs_of_nonneg hRnn]
    · rcases Nat.lt_or_ge (binary64.signBit (s.regs s.top)) 1 with h | h
      · rw [sv0 (by omega), hR, abs_of_nonneg hRnn]
      · rw [sv1 (by omega), hn, g1, abs_neg, ← hn, hR, abs_of_nonneg hRnn]
    · rcases Nat.lt_or_ge (binary64.signBit (s.regs s.top)) 1 with h | h
      · rw [sv0 (by omega), hR, abs_of_nonneg hRnn]
      · rw [sv1 (by omega), hc, g2, abs_neg, ← hc, hR, abs_of_nonneg hRnn]
  · intro h1 hd
    rw [sv1 h1, g4, abs_neg, ← hd, hR, abs_of_nonneg hRnn]
  · intro h1 hu
    rw [sv1 h1, g3, abs_neg, ← hu, hR, abs_of_nonneg hRnn]

/-- C31 (amended) at the top value -1234567.0 in mode Nearest: the digit bytes are 67 45
23 01 00 ... and byte 9 is 0x80. -/
theorem FPU_FBST_layout_witness :
    mem_readb (FPU_FBST (withRegs 0xC132D68700000000) (fun _ => 0) 100) 100 = 0x67 ∧
    mem_readb (FPU_FBST (withRegs 0xC132D68700000000) (fun _ => 0) 100) 103 = 0x01 ∧
    mem_readb (FPU_FBST (withRegs 0xC132D68700000000) (fun _ => 0) 100) 109 = 0x80 :=
  ⟨((FPU_FBST_layout (withRegs 0xC132D68700000000) (fun _ => 0) 100 1234567 (by decide)
      (by decide) (by decide) (by decide)).1 0 (by decide)).trans (by decide),
   ((FPU_FBST_layout (withRegs 0xC132D68700000000) (fun _ => 0) 100 1234567 (by decide)
      (by decide) (by decide) (by decide)).1 3 (by decide)).trans (by decide),
   (FPU_FBST_layout (withRegs 0xC132D68700000000) (fun _ => 0) 100 1234567 (by decide)
      (by decide) (by decide) (by decide)).2.1.trans (by decide)⟩

/-- The memory `FPU_FSAVE` leaves, for the 80-bit store of either build: the environment
block of `FPU_FSTENV`, then block `i` holding the bytes that the store of `ST(i)` writes. -/
theorem FSAVE_memory (st80 : FPU → Mem → Nat → Nat → Mem)
    (hfr : ∀ s mem a reg j, j < a ∨ a + 10 ≤ j → st80 s mem a reg j = mem j)
    (hind : ∀ s m1 m2 a reg j, a ≤ j → j < a + 10 → st80 s m1 a reg j = st80 s m2 a reg j)
    (big : Bool) (s : FPU) (mem : Mem) (addr : Nat) :
    (∀ i, i < 8 → ∀ j, j < 10 →
      (FPU_FSAVE st80 big s mem addr).2 (addr + (if big then 28 else 14) + 10 * i + j)
        = st80 (FPU_SET_TOP s s.top) mem (addr + (if big then 28 else 14) + 10 * i)
            (STV s i) (addr + (if big then 28 else 14) + 10 * i + j)) ∧
    (∀ j, j < addr + (if big then 28 else 14) →
      (FPU_FSAVE st80 big s mem addr).2 j = (FPU_FSTENV big s mem addr).2 j) ∧
    (∀ j, j < addr ∨ addr + (if big then 28 else 14) + 80 ≤ j →
      (FPU_FSAVE st80 big s mem addr).2 j = mem j) := by
  obtain ⟨f1, f2, f3⟩ := FPU_FSTENV_spec big s mem addr
  have hE : (FPU_FSAVE st80 big s mem addr).2 =
      FSAVE_regs st80 (FPU_SET_TOP s s.top) addr 8 0 (if big then 28 else 14)
        (FPU_FSTENV big s mem addr).2 := by
    unfold FPU_FSAVE
    simp only [f1]
  refine ⟨?_, ?_, ?_⟩
  · intro i hi j hj
    rw [hE, FSAVE_regs_block st80 hfr hind _ _ 8 0 _ _ i hi _ (by omega) (by omega),
      Nat.zero_add]
    exact hind _ _ _ _ _ _ (by omega) (by omega)
  · intro j hj
    rw [hE, FSAVE_regs_frame st80 hfr _ _ _ _ _ _ _ (Or.inl hj)]
  · intro j hj
    rw [hE, FSAVE_regs_frame st80 hfr _ _ _ _ _ _ _ (by omega)]
    cases big
    · exact (f2 rfl).2.2.2 j (by simp at hj; omega)
    · exact (f3 rfl).2.2.2 j (by simp at hj; omega)

/-- The registers `FPU_FRSTOR` loads, for the 80-bit load of either build: `ST(i)`, by the
top that `FPU_FLDENV` read, comes from block `i`. -/
theorem FRSTOR_blocks (fld80 : Mem → Nat → Nat) (big : Bool) (t : FPU) (mem : Mem)
    (addr : Nat) (i : Nat) (hi : i < 8) :
    (FPU_FRSTOR fld80 big t mem addr).regs (STV (FPU_FLDENV big t mem addr) i)
      = fld80 mem (addr + (if big then 28 else 14) + 10 * i) := by
  have h := FRSTOR_regs_slot fld80 mem addr 8 0 (if big then 28 else 14)
    (FPU_FLDENV big t mem addr) i hi (by
      intro n2 h1 h2
      rw [STV_eq, STV_eq]
      omega)
  rw [Nat.zero_add] at h
  exact h

/-- C33: save layout.  `FPU_FSTENV` writes the control word, the status word with its top
field (bits 11-13) set to top, and the tag summary as 16-bit words at offsets 0, 2, 4
under 16-bit addressing and as 32-bit dwords at offsets 0, 4, 8 under 32-bit addressing.
`FPU_FSAVE` leaves that block and writes, for `i = 0..7`, at offset `E + 10*i` the ten
bytes that the 80-bit store of the build writes for `ST(i) = regs[(top+i) mod 8]`, where
`E` is 14 under 16-bit and 28 under 32-bit addressing, and no byte outside
`[addr, addr + E + 80)`.  `FPU_FRSTOR` loads `ST(i)`, by the top it read, with the 80-bit
load of the build from offset `E + 10*i`. -/
theorem FPU_FSAVE_layout (big : Bool) (s : FPU) (mem : Mem) (addr : Nat)
    (hcw : s.cw < 65536) (htop : s.top < 8) :
    (big = false →
      mem_readw (FPU_FSTENV big s mem addr).2 addr = s.cw ∧
      mem_readw (FPU_FSTENV big s mem addr).2 (addr + 2) = (FPU_SET_TOP s s.top).sw ∧
      mem_readw (FPU_FSTENV big s mem addr).2 (addr + 4) = FPU_GetTag s) ∧
    (big = true →
      mem_readd (FPU_FSTENV big s mem addr).2 addr = s.cw ∧
      mem_readd (FPU_FSTENV big s mem addr).2 (addr + 4) = (FPU_SET_TOP s s.top).sw ∧
      mem_readd (FPU_FSTENV big s mem addr).2 (addr + 8) = FPU_GetTag s) ∧
    (FPU_SET_TOP s s.top).sw = s.sw / 16384 % 4 * 16384 + s.top * 2048 + s.sw % 2048 ∧
    (FPU_SET_TOP s s.top).sw / 2048 % 8 = s.top ∧
    (∀ i, i < 8 → STV s i = (s.top + i) % 8 ∧ ∀ j, j < 10 →
      (FPU_FSAVE FPU_ST80 big s mem addr).2 (addr + (if big then 28 else 14) + 10 * i + j)
        = FPU_ST80 s mem (addr + (if big then 28 else 14) + 10 * i)
            (STV s i) (addr + (if big then 28 else 14) + 10 * i + j) ∧
      (FPU_FSAVE FPU_ST80_Reduced big s mem addr).2
          (addr + (if big then 28 else 14) + 10 * i + j)
        = FPU_ST80_Reduced s mem (addr + (if big then 28 else 14) + 10 * i)
            (STV s i) (addr + (if big then 28 else 14) + 10 * i + j)) ∧
    (∀ j, j < addr + (if big then 28 else 14) →
      (FPU_FSAVE FPU_ST80 big s mem addr).2 j = (FPU_FSTENV big s mem addr).2 j ∧
      (FPU_FSAVE FPU_ST80_Reduced big s mem addr).2 j = (FPU_FSTENV big s mem addr).2 j) ∧
    (∀ j, j < addr ∨ addr + (if big then 28 else 14) + 80 ≤ j →
      (FPU_FSAVE FPU_ST80 big s mem addr).2 j = mem j ∧
      (FPU_FSAVE FPU_ST80_Reduced big s mem addr).2 j = mem j) ∧
    (∀ (t : FPU) (m2 : Mem) (i : Nat), i < 8 →
      (FPU_FRSTOR FPU_FLD80 big t m2 addr).regs (STV (FPU_FLDENV big t m2 addr) i)
        = FPU_FLD80 m2 (addr + (if big then 28 else 14) + 10 * i) ∧
      (FPU_FRSTOR FPU_FLD80_Reduced big t m2 addr).regs (STV (FPU_FLDENV big t m2 addr) i)
        = FPU_FLD80_Reduced m2 (addr + (if big then 28 else 14) + 10 * i)) := by
  obtain ⟨_, f2, f3⟩ := FPU_FSTENV_spec big s mem addr
  have hsw1 := FPU_SET_TOP_sw s s.top
  have hsw1lt : (FPU_SET_TOP s s.top).sw < 65536 := by rw [hsw1]; omega
  obtain ⟨a1, a2, a3⟩ := FSAVE_memory FPU_ST80 FPU_ST80_frame FPU_ST80_indep big s mem addr
  obtain ⟨r1, r2, r3⟩ := FSAVE_memory FPU_ST80_Reduced FPU_ST80_Reduced_frame
    FPU_ST80_Reduced_indep big s mem addr
  refine ⟨?_, ?_, ?_, ?_, ?_, ?_, ?_, ?_⟩
  · intro hb
    obtain ⟨g1, g2, g3, _⟩ := f2 hb
    exact ⟨by rw [g1, Nat.mod_eq_of_lt hcw], by rw [g2, Nat.mod_eq_of_lt hsw1lt], g3⟩
  · intro hb
    obtain ⟨g1, g2, g3, _⟩ := f3 hb
    exact ⟨by rw [g1, Nat.mod_eq_of_lt (by omega)], by rw [g2, Nat.mod_eq_of_lt (by omega)], g3⟩
  · rw [hsw1, Nat.mod_eq_of_lt htop]
  · rw [hsw1]; omega
  · intro i hi
    refine ⟨STV_eq s i, fun j hj => ⟨?_, ?_⟩⟩
    · rw [a1 i hi j hj]; rfl
    · rw [r1 i hi j hj]; rfl
  · intro j hj
    exact ⟨a2 j hj, r2 j hj⟩
  · intro j hj
    exact ⟨a3 j hj, r3 j hj⟩
  · intro t m2 i hi
    exact ⟨FRSTOR_blocks FPU_FLD80 big t m2 addr i hi,
      FRSTOR_blocks FPU_FLD80_Reduced big t m2 addr i hi⟩

/-- C33 at the sample context (top 3) under 16-bit addressing at address 100: the control
word 0x037F is at offset 0, the status word 0x5900 (top field 3) at offset 2, and block 0
at offset 14 holds `ST(0) = regs[3]`, whose last byte, at offset 23, is 0x40. -/
theorem FPU_FSAVE_layout_witness :
    mem_readw (FPU_FSTENV false sampleState (fun _ => 0) 100).2 100 = 0x037F ∧
    mem_readw (FPU_FSTENV false sampleState (fun _ => 0) 100).2 102 = 0x5900 ∧
    STV sampleState 0 = 3 ∧
    (FPU_FSAVE FPU_ST80 false sampleState (fun _ => 0) 100).2 123 = 0x40 :=
  ⟨((FPU_FSAVE_layout false sampleState (fun _ => 0) 100 (by decide) (by decide)).1
      rfl).1.trans (by decide),
   ((FPU_FSAVE_layout false sampleState (fun _ => 0) 100 (by decide) (by decide)).1
      rfl).2.1.trans (by decide),
   ((FPU_FSAVE_layout false sampleState (fun _ => 0) 100 (by decide) (by decide)).2.2.2.2.1
      0 (by decide)).1.trans (by decide),
   (((FPU_FSAVE_layout false sampleState (fun _ => 0) 100 (by decide) (by decide)).2.2.2.2.1
      0 (by decide)).2 9 (by decide)).1.trans (by decide)⟩

/-- What `FPU_SET_C2(0)` does to the status word: bit 10 is cleared, the other bits of
the 16-bit word stay. -/
theorem FPU_SET_C2_zero (s : FPU) :
    (FPU_SET_C2 s 0).sw.testBit 10 = false ∧
    (∀ i, i < 16 → i ≠ 10 → (FPU_SET_C2 s 0).sw.testBit i = s.sw.testBit i) ∧
    (FPU_SET_C2 s 0).regs = s.regs ∧ (FPU_SET_C2 s 0).tags = s.tags ∧
    (FPU_SET_C2 s 0).top = s.top ∧ (FPU_SET_C2 s 0).cw = s.cw := by
  have m2 : ∀ i, i < 16 → Nat.testBit 0xFBFF i = decide (i ≠ 10) := by
    intro i hi
    interval_cases i <;> rfl
  refine ⟨?_, ?_, rfl, rfl, rfl, rfl⟩
  · rw [FPU_SET_C2_testBit, m2 10 (by norm_num)]
    simp
  · intro i hi hne
    rw [FPU_SET_C2_testBit, m2 i hi]
    simp [hne]

/-- A push followed by `FPU_SET_C2(0)` when the destination slot is Empty or the push
level is NONE: the shape of the end of `FPU_FSINCOS` and `FPU_FPTAN`. -/
theorem push_C2_effect (chk : StackCheck) (s : FPU) (v : Nat)
    (h : chk = .NONE ∨ s.tags ((s.top + 7) % 8) = .TAG_Empty) :
    ∃ s1, (match FPU_PUSH chk s v with
        | .error e => Except.error e
        | .ok s => .ok (FPU_SET_C2 s 0)) = .ok s1 ∧
      s1.top = (s.top + 7) % 8 ∧
      s1.regs = setSlot s.regs ((s.top + 7) % 8) v ∧
      s1.tags = setSlot s.tags ((s.top + 7) % 8) .TAG_Valid ∧
      s1.sw.testBit 10 = false ∧
      (∀ i, i < 16 → i ≠ 10 → s1.sw.testBit i = s.sw.testBit i) ∧
      s1.cw = s.cw := by
  have hp := FPU_PREP_PUSH_nofault chk s h
  simp only [FPU_PUSH, hp]
  obtain ⟨c1, c2, _⟩ := FPU_SET_C2_zero
    { s with top := (s.top + 7) % 8, tags := setSlot s.tags ((s.top + 7) % 8) .TAG_Valid,
             regs := setSlot s.regs ((s.top + 7) % 8) v }
  exact ⟨_, rfl, rfl, rfl, rfl, c1, c2, rfl⟩

/-- C34: tangent placeholder.  For every state with top in [0,8) whose slot
`(top-1) mod 8` is Empty, every stack-check level and every math library, `FPU_FPTAN`
completes; afterwards top is `(old top - 1) mod 8`, the new top register holds exactly
1.0 and is tagged Valid, the previous top register, now `ST(1)`, holds the tangent of
its old value, C2 (bit 10 of the status word) is 0, and the other registers, tags and
status bits are unchanged.  This holds in the Extended build (`tan`, the `double` 1.0)
and in the Reduced build (`tanf`, the `float` 1.0). -/
theorem FPU_FPTAN_placeholder (m : MathLib) (chk : StackCheck) (s : FPU)
    (htop : s.top < 8) (hE : s.tags ((s.top + 7) % 8) = .TAG_Empty) :
    (∃ s1, FPU_FPTAN m chk s = .ok s1 ∧ s1.top = (s.top + 7) % 8 ∧
      s1.regs s1.top = 0x3FF0000000000000 ∧ binary64.holdsInt (s1.regs s1.top) 1 ∧
      s1.tags s1.top = .TAG_Valid ∧
      STV s1 1 = s.top ∧ s1.regs (STV s1 1) = m.tan (s.regs s.top) ∧
      s1.sw.testBit 10 = false ∧
      (∀ i, i < 16 → i ≠ 10 → s1.sw.testBit i = s.sw.testBit i) ∧
      (∀ j, j ≠ s.top → j ≠ s1.top → s1.regs j = s.regs j) ∧
      (∀ j, j ≠ s1.top → s1.tags j = s.tags j)) ∧
    (∃ s1, FPU_FPTAN_Reduced m chk s = .ok s1 ∧ s1.top = (s.top + 7) % 8 ∧
      s1.regs s1.top = 0x3F800000 ∧ binary32.holdsInt (s1.regs s1.top) 1 ∧
      s1.tags s1.top = .TAG_Valid ∧
      STV s1 1 = s.top ∧ s1.regs (STV s1 1) = m.tanf (s.regs s.top) ∧
      s1.sw.testBit 10 = false ∧
      (∀ i, i < 16 → i ≠ 10 → s1.sw.testBit i = s.sw.testBit i) ∧
      (∀ j, j ≠ s.top → j ≠ s1.top → s1.regs j = s.regs j) ∧
      (∀ j, j ≠ s1.top → s1.tags j = s.tags j)) := by
  have hne : s.top ≠ (s.top + 7) % 8 := by omega
  have hst : ((s.top + 7) % 8 + 1) &&& 7 = s.top := by
    rw [and_seven_eq_mod]; omega
  constructor
  · obtain ⟨s1, h, t1, t2, t3, t4, t5, _⟩ := push_C2_effect chk
      { s with regs := setSlot s.regs s.top (m.tan (s.regs s.top)) } binary64.one (Or.inr hE)
    have hst1 : STV s1 1 = s.top := by
      unfold STV
      rw [t1]; exact hst
    refine ⟨s1, h, t1, ?_, ?_, ?_, hst1, ?_, t4, t5, ?_, ?_⟩
    · rw [t2, t1]
      simp only [setSlot, if_true]
      decide
    · rw [t2, t1]
      simp only [setSlot, if_true]
      decide
    · rw [t3, t1]
      simp [setSlot]
    · rw [hst1, t2]
      simp [setSlot, hne]
    · intro j h1 h2
      rw [t1] at h2
      rw [t2]
      simp [setSlot, h1, h2]
    · intro j h2
      rw [t1] at h2
      rw [t3]
      simp [setSlot, h2]
  · obtain ⟨s1, h, t1, t2, t3, t4, t5, _⟩ := push_C2_effect chk
      { s with regs := setSlot s.regs s.top (m.tanf (s.regs s.top)) } binary32.one (Or.inr hE)
    have hst1 : STV s1 1 = s.top := by
      unfold STV
      rw [t1]; exact hst
    refine ⟨s1, h, t1, ?_, ?_, ?_, hst1, ?_, t4, t5, ?_, ?_⟩
    · rw [t2, t1]
      simp only [setSlot, if_true]
      decide
    · rw [t2, t1]
      simp only [setSlot, if_true]
      decide
    · rw [t3, t1]
      simp [setSlot]
    · rw [hst1, t2]
      simp [setSlot, hne]
    · intro j h1 h2
      rw [t1] at h2
      rw [t2]
      simp [setSlot, h1, h2]
    · intro j h2
      rw [t1] at h2
      rw [t3]
      simp [setSlot, h2]

/-- C34 on the empty stack at the EXIT level: the tangent of the example library is +0,
top becomes 7, slot 7 holds 1.0 and slot 0, now `ST(1)`, holds the tangent. -/
theorem FPU_FPTAN_placeholder_witness :
    ∃ s1, FPU_FPTAN exampleLib .EXIT emptyStack = .ok s1 ∧ s1.top = 7 ∧
      s1.regs s1.top = 0x3FF0000000000000 ∧ s1.tags s1.top = .TAG_Valid ∧
      STV s1 1 = 0 := by
  obtain ⟨s1, h1, h2, h3, _, h5, h6, _⟩ :=
    (FPU_FPTAN_placeholder exampleLib .EXIT emptyStack (by decide) (by decide)).1
  exact ⟨s1, h1, h2, h3, h5, h6⟩

/-- A push that takes no stack fault. -/
theorem push_effect (chk : StackCheck) (s : FPU) (v : Nat)
    (h : chk = .NONE ∨ s.tags ((s.top + 7) % 8) = .TAG_Empty) :
    ∃ s1, FPU_PUSH chk s v = .ok s1 ∧ s1.top = (s.top + 7) % 8 ∧
      s1.regs = setSlot s.regs ((s.top + 7) % 8) v ∧
      s1.tags = setSlot s.tags ((s.top + 7) % 8) .TAG_Valid ∧ s1.sw = s.sw ∧ s1.cw = s.cw := by
  have hp := FPU_PREP_PUSH_nofault chk s h
  simp only [FPU_PUSH, hp]
  exact ⟨_, rfl, rfl, rfl, rfl, rfl, rfl⟩

/-- A pop that takes no stack fault. -/
theorem pop_effect (chk : StackCheck) (s : FPU)
    (h : chk = .NONE ∨ s.tags s.top ≠ .TAG_Empty) :
    ∃ s1, FPU_FPOP chk s = .ok s1 ∧ s1.top = (s.top + 1) % 8 ∧ s1.regs = s.regs ∧
      s1.tags = setSlot s.tags s.top .TAG_Empty ∧ s1.sw = s.sw ∧ s1.cw = s.cw := by
  have hp := FPU_FPOP_plain chk s (by
    rcases h with h | h
    · exact Or.inl h
    · exact Or.inr (Or.inl h))
  exact ⟨_, hp, rfl, rfl, rfl, rfl, rfl⟩

/-- C35: net stack effect of the specialised operations.  `FPU_FSIN`, `FPU_FCOS`,
`FPU_FSQRT`, `FPU_FABS`, `FPU_FCHS`, `FPU_F2XM1`, `FPU_FSCALE`, `FPU_FRNDINT`, `FPU_FPREM`
and `FPU_FPREM1` leave top and all tags unchanged in every state.  When the push takes no
stack fault (push level NONE or slot `(top-1) mod 8` Empty), `FPU_FSINCOS`, `FPU_FPTAN`
and `FPU_FXTRACT` complete, change top to `(top-1) mod 8` and tag the new top Valid,
leaving the other tags.  When the pop takes no stack fault (pop level NONE or top slot
not Empty), `FPU_FPATAN`, `FPU_FYL2X` and `FPU_FYL2XP1` complete, write their result into
the old `ST(1)`, tag the old top slot Empty and change top to `(top+1) mod 8`, the slot of
the old `ST(1)`, so the result is the new top.  Both builds, every math library. -/
theorem stack_effect (m : MathLib) (chk : StackCheck) (s : FPU) :
    (∀ op ∈ [FPU_FSIN m, FPU_FCOS m, FPU_FSQRT m, FPU_FABS binary64, FPU_FCHS, FPU_F2XM1 m,
        FPU_FSCALE m, FPU_FRNDINT, FPU_FPREM, FPU_FPREM1,
        FPU_FSIN_Reduced m, FPU_FCOS_Reduced m, FPU_FSQRT_Reduced m, FPU_FABS binary32,
        FPU_FCHS_Reduced, FPU_F2XM1_Reduced m, FPU_FSCALE_Reduced m, FPU_FRNDINT_Reduced],
      (op s).top = s.top ∧ (op s).tags = s.tags) ∧
    (chk = .NONE ∨ s.tags ((s.top + 7) % 8) = .TAG_Empty →
      ∀ op ∈ [FPU_FSINCOS m chk, FPU_FPTAN m chk, FPU_FXTRACT m chk,
        FPU_FSINCOS_Reduced m chk, FPU_FPTAN_Reduced m chk, FPU_FXTRACT_Reduced m chk],
      ∃ s1, op s = .ok s1 ∧ s1.top = (s.top + 7) % 8 ∧ s1.tags s1.top = .TAG_Valid ∧
        ∀ j, j ≠ s1.top → s1.tags j = s.tags j) ∧
    (chk = .NONE ∨ s.tags s.top ≠ .TAG_Empty →
      ∀ p ∈ [(FPU_FPATAN m chk, m.atan2 (s.regs (STV s 1)) (s.regs s.top)),
        (FPU_FYL2X m chk, binary64.mul (s.regs (STV s 1))
          (binary64.div (m.log (s.regs s.top)) (m.log 0x4000000000000000))),
        (FPU_FYL2XP1 m chk, binary64.mul (s.regs (STV s 1))
          (binary64.div (m.log (binary64.add (s.regs s.top) binary64.one))
            (m.log 0x4000000000000000))),
        (FPU_FPATAN_Reduced m chk, m.atan2f (s.regs (STV s 1)) (s.regs s.top)),
        (FPU_FYL2X_Reduced m chk, demote (binary64.mul (promote (s.regs (STV s 1)))
          (binary64.div (promote (m.logf (s.regs s.top))) m.LN2))),
        (FPU_FYL2XP1_Reduced m chk, demote (binary64.mul (promote (s.regs (STV s 1)))
          (binary64.div
            (promote (m.logf (demote (binary64.add (promote (s.regs s.top)) binary64.one))))
            m.LN2)))],
      ∃ s1, p.1 s = .ok s1 ∧ s1.top = (s.top + 1) % 8 ∧ s1.top = STV s 1 ∧
        s1.regs (STV s 1) = p.2 ∧ s1.regs s1.top = p.2 ∧
        (s.top < 8 → s1.tags s.top = .TAG_Empty) ∧
        ∀ j, j ≠ s.top → s1.tags j = s.tags j) := by
  refine ⟨?_, ?_, ?_⟩
  · intro op hop
    simp only [List.mem_cons, List.mem_singleton, List.not_mem_nil, or_false] at hop
    rcases hop with e | e | e | e | e | e | e | e | e | e | e | e | e | e | e | e | e | e <;>
      subst e
    · exact ⟨rfl, rfl⟩
    · exact ⟨rfl, rfl⟩
    · exact ⟨rfl, rfl⟩
    · exact ⟨rfl, rfl⟩
    · exact ⟨rfl, rfl⟩
    · exact ⟨rfl, rfl⟩
    · exact ⟨rfl, rfl⟩
    · simp only [FPU_FRNDINT]
      split_ifs <;> exact ⟨rfl, rfl⟩
    · exact ⟨rfl, rfl⟩
    · exact ⟨rfl, rfl⟩
    · exact ⟨rfl, rfl⟩
    · exact ⟨rfl, rfl⟩
    · exact ⟨rfl, rfl⟩
    · exact ⟨rfl, rfl⟩
    · exact ⟨rfl, rfl⟩
    · exact ⟨rfl, rfl⟩
    · exact ⟨rfl, rfl⟩
    · exact ⟨rfl, rfl⟩
  · intro h op hop
    have tagfacts : ∀ s1 : FPU, s1.top = (s.top + 7) % 8 →
        s1.tags = setSlot s.tags ((s.top + 7) % 8) .TAG_Valid →
        s1.tags s1.top = .TAG_Valid ∧ ∀ j, j ≠ s1.top → s1.tags j = s.tags j := by
      intro s1 t1 t3
      refine ⟨by rw [t3, t1]; simp [setSlot], fun j hj => ?_⟩
      rw [t1] at hj
      rw [t3]
      simp [setSlot, hj]
    simp only [List.mem_cons, List.mem_singleton, List.not_mem_nil, or_false] at hop
    rcases hop with e | e | e | e | e | e <;> subst e
    · obtain ⟨s1, h1, t1, _, t3, _⟩ := push_C2_effect chk
        { s with regs := setSlot s.regs s.top (m.sin (s.regs s.top)) } (m.cos (s.regs s.top)) h
      exact ⟨s1, h1, t1, tagfacts s1 t1 t3⟩
    · obtain ⟨s1, h1, t1, _, t3, _⟩ := push_C2_effect chk
        { s with regs := setSlot s.regs s.top (m.tan (s.regs s.top)) } binary64.one h
      exact ⟨s1, h1, t1, tagfacts s1 t1 t3⟩
    · obtain ⟨s1, h1, t1, _, t3, _⟩ := push_effect chk
        { s with regs := setSlot s.regs s.top (binary64.ofInt
            ((((s.regs s.top &&& 0x7ff0000000000000) >>> 52 : Nat) : Int) - (BIAS64 : Int))) }
        (binary64.div (s.regs s.top) (m.pow 0x4000000000000000 (binary64.ofInt
            ((((s.regs s.top &&& 0x7ff0000000000000) >>> 52 : Nat) : Int) - (BIAS64 : Int))))) h
      exact ⟨s1, h1, t1, tagfacts s1 t1 t3⟩
    · obtain ⟨s1, h1, t1, _, t3, _⟩ := push_C2_effect chk
        { s with regs := setSlot s.regs s.top (binary32.sub (m.sinf (s.regs s.top)) SINFIX) }
        (binary32.sub (m.cosf (s.regs s.top)) SINFIX) h
      exact ⟨s1, h1, t1, tagfacts s1 t1 t3⟩
    · obtain ⟨s1, h1, t1, _, t3, _⟩ := push_C2_effect chk
        { s with regs := setSlot s.regs s.top (m.tanf (s.regs s.top)) } binary32.one h
      exact ⟨s1, h1, t1, tagfacts s1 t1 t3⟩
    · obtain ⟨s1, h1, t1, _, t3, _⟩ := push_effect chk
        { s with regs := setSlot s.regs s.top (binary32.ofInt
            ((((s.regs s.top &&& 0x7f800000) >>> 23 : Nat) : Int) - (BIAS32 : Int))) }
        (binary32.div (s.regs s.top) (m.powf 0x40000000 (binary32.ofInt
            ((((s.regs s.top &&& 0x7f800000) >>> 23 : Nat) : Int) - (BIAS32 : Int))))) h
      exact ⟨s1, h1, t1, tagfacts s1 t1 t3⟩
  · intro h p hp
    have key : ∀ res : Nat, ∃ s1,
        FPU_FPOP chk { s with regs := setSlot s.regs (STV s 1) res } = .ok s1 ∧
        s1.top = (s.top + 1) % 8 ∧ s1.top = STV s 1 ∧
        s1.regs (STV s 1) = res ∧ s1.regs s1.top = res ∧
        (s.top < 8 → s1.tags s.top = .TAG_Empty) ∧
        ∀ j, j ≠ s.top → s1.tags j = s.tags j := by
      intro res
      obtain ⟨s1, h1, t1, t2, t3, _⟩ := pop_effect chk
        { s with regs := setSlot s.regs (STV s 1) res } h
      have e1 : s1.top = STV s 1 := by rw [t1, STV_eq]
      have e2 : s1.regs (STV s 1) = res := by
        rw [t2]
        simp [setSlot]
      refine ⟨s1, h1, t1, e1, e2, by rw [e1]; exact e2, fun _ => ?_, fun j hj => ?_⟩
      · rw [t3]
        simp [setSlot]
      · rw [t3]
        show setSlot s.tags s.top FPU_Tag.TAG_Empty j = s.tags j
        simp [setSlot, hj]
    simp only [List.mem_cons, List.mem_singleton, List.not_mem_nil, or_false] at hp
    rcases hp with e | e | e | e | e | e <;> subst e <;> exact key _

/-- C35 at the sample context (top 3, every slot in use) at the NONE level:
`FPU_FSINCOS` moves top to 2 and tags it Valid, `FPU_FPATAN` moves top to 4 and tags
slot 3 Empty, `FPU_FSCALE` leaves top at 3. -/
theorem stack_effect_witness :
    (∃ s1, FPU_FSINCOS exampleLib .NONE sampleState = .ok s1 ∧ s1.top = 2 ∧
      s1.tags 2 = .TAG_Valid) ∧
    (∃ s1, FPU_FPATAN exampleLib .NONE sampleState = .ok s1 ∧ s1.top = 4 ∧
      s1.tags 3 = .TAG_Empty) ∧
    (FPU_FSCALE exampleLib sampleState).top = 3 := by
  obtain ⟨a, b, c⟩ := stack_effect exampleLib .NONE sampleState
  obtain ⟨s1, h1, h2, h3, _⟩ := b (Or.inl rfl) (FPU_FSINCOS exampleLib .NONE) (by simp)
  obtain ⟨s2, g1, g2, _, _, _, g6, _⟩ := c (Or.inl rfl)
    (FPU_FPATAN exampleLib .NONE,
      exampleLib.atan2 (sampleState.regs (STV sampleState 1)) (sampleState.regs sampleState.top))
    (by simp)
  refine ⟨⟨s1, h1, h2, ?_⟩, ⟨s2, g1, g2, g6 (by decide)⟩, (a (FPU_FSCALE exampleLib) (by simp)).1⟩
  rw [h2] at h3
  exact h3

theorem STV_lt (s : FPU) (i : Nat) : STV s i < 8 := by
  rw [STV_eq]; omega

/-- What any completing `FPU_PREP_PUSH` leaves: the registers, and every tag but that of
the new top. -/
theorem FPU_PREP_PUSH_frame (chk : StackCheck) (s s1 : FPU)
    (h : FPU_PREP_PUSH chk s = .ok s1) :
    s1.top = (s.top + 7) % 8 ∧ s1.regs = s.regs ∧
    ∀ j, j ≠ (s.top + 7) % 8 → s1.tags j = s.tags j := by
  unfold FPU_PREP_PUSH at h
  simp only [top_dec_eq] at h
  split at h
  · exact absurd h (by simp)
  · rename_i s2 hs2
    injection h with h
    subst h
    have key : s2.top = (s.top + 7) % 8 ∧ s2.regs = s.regs ∧ s2.tags = s.tags := by
      split_ifs at hs2 <;> (injection hs2 with hs2; subst hs2; exact ⟨rfl, rfl, rfl⟩)
    obtain ⟨k1, k2, k3⟩ := key
    refine ⟨k1, k2, fun j hj => ?_⟩
    show setSlot s2.tags s2.top FPU_Tag.TAG_Valid j = s.tags j
    rw [k1, k3]
    simp [setSlot, hj]

/-- What any completing `FPU_PUSH` leaves. -/
theorem FPU_PUSH_frame (chk : StackCheck) (s s1 : FPU) (v : Nat)
    (h : FPU_PUSH chk s v = .ok s1) :
    s1.top = (s.top + 7) % 8 ∧
    ∀ j, j ≠ (s.top + 7) % 8 → s1.regs j = s.regs j ∧ s1.tags j = s.tags j := by
  unfold FPU_PUSH at h
  split at h
  · exact absurd h (by simp)
  · rename_i s2 hs2
    injection h with h
    subst h
    obtain ⟨k1, k2, k3⟩ := FPU_PREP_PUSH_frame chk s s2 hs2
    refine ⟨k1, fun j hj => ⟨?_, k3 j hj⟩⟩
    show setSlot s2.regs s2.top v j = s.regs j
    rw [k1, k2]
    simp [setSlot, hj]

/-- What any completing `FPU_FPOP` leaves. -/
theorem FPU_FPOP_frame (chk : StackCheck) (s s1 : FPU) (h : FPU_FPOP chk s = .ok s1) :
    s1.top = (s.top + 1) % 8 ∧ s1.regs = s.regs ∧ ∀ j, j ≠ s.top → s1.tags j = s.tags j := by
  unfold FPU_FPOP at h
  simp only [top_inc_eq] at h
  split at h
  · exact absurd h (by simp)
  · rename_i s2 hs2
    injection h with h
    subst h
    have key : s2.top = s.top ∧ s2.regs = s.regs ∧ s2.tags = s.tags := by
      split_ifs at hs2 <;> (injection hs2 with hs2; subst hs2; exact ⟨rfl, rfl, rfl⟩)
    obtain ⟨k1, k2, k3⟩ := key
    refine ⟨by show (s2.top + 1) % 8 = _; rw [k1], k2, fun j hj => ?_⟩
    show setSlot s2.tags s2.top FPU_Tag.TAG_Empty j = s.tags j
    rw [k1, k3]
    simp [setSlot, hj]

/-- A push, possibly after a write of the top register and before `FPU_SET_C2` or a write
of the new top register or tag, keeps slot 8. -/
theorem push_scratch (chk : StackCheck) (s s1 : FPU) (v w : Nat) (htop : s.top < 8)
    (h : FPU_PUSH chk { s with regs := setSlot s.regs s.top w } v = .ok s1) :
    s1.tags 8 = s.tags 8 ∧ s1.regs 8 = s.regs 8 ∧ s1.top < 8 := by
  obtain ⟨k1, k2⟩ := FPU_PUSH_frame chk _ s1 v h
  have k1 : s1.top = (s.top + 7) % 8 := k1
  obtain ⟨r, t⟩ := k2 8 (by show 8 ≠ (s.top + 7) % 8; omega)
  refine ⟨t, ?_, by omega⟩
  rw [r]
  show setSlot s.regs s.top w 8 = s.regs 8
  have : (8 : Nat) ≠ s.top := by omega
  simp [setSlot, this]

theorem pushOps_scratch (m : MathLib) (chk : StackCheck) (f : Fmt) (v : Nat) (s s1 : FPU)
    (op : FPU → Except String FPU) (hop : op ∈ pushOps m chk f v) (htop : s.top < 8)
    (h : op s = .ok s1) :
    s1.tags 8 = s.tags 8 ∧ s1.regs 8 = s.regs 8 ∧ s1.top < 8 := by
  have n5 : (8 : Nat) ≠ (s.top + 7) % 8 := by omega
  have prep : ∀ s2, FPU_PREP_PUSH chk s = .ok s2 →
      s2.tags 8 = s.tags 8 ∧ s2.regs 8 = s.regs 8 ∧ s2.top < 8 ∧ s2.top ≠ 8 := by
    intro s2 h2
    obtain ⟨k1, k2, k3⟩ := FPU_PREP_PUSH_frame chk s s2 h2
    exact ⟨k3 8 n5, by rw [k2], by omega, by omega⟩
  have push : ∀ s2 v, FPU_PUSH chk s v = .ok s2 →
      s2.tags 8 = s.tags 8 ∧ s2.regs 8 = s.regs 8 ∧ s2.top < 8 := by
    intro s2 v h2
    obtain ⟨k1, k2⟩ := FPU_PUSH_frame chk s s2 v h2
    exact ⟨(k2 8 n5).2, (k2 8 n5).1, by omega⟩
  have c2 : ∀ (s0 : FPU) v, (match FPU_PUSH chk s0 v with
      | .error e => Except.error e
      | .ok s => .ok (FPU_SET_C2 s 0)) = .ok s1 → ∃ s2, FPU_PUSH chk s0 v = .ok s2 ∧
        s1.tags = s2.tags ∧ s1.regs = s2.regs ∧ s1.top = s2.top := by
    intro s0 v h2
    split at h2
    · exact absurd h2 (by simp)
    · rename_i s2 hs2
      injection h2 with h2
      subst h2
      exact ⟨s2, hs2, rfl, rfl, rfl⟩
  have ldc : ∀ c, FPU_FLDconst chk s c = .ok s1 →
      s1.tags 8 = s.tags 8 ∧ s1.regs 8 = s.regs 8 ∧ s1.top < 8 := fun c h2 => push s1 c h2
  unfold pushOps at hop
  simp only [List.mem_cons, List.mem_singleton, List.not_mem_nil, or_false] at hop
  rcases hop with e | e | e | e | e | e | e | e | e | e | e | e | e | e | e | e <;> subst e
  · obtain ⟨a, b, c, _⟩ := prep s1 h
    exact ⟨a, b, c⟩
  · exact push s1 v h
  · exact ldc _ h
  · exact ldc _ h
  · exact ldc _ h
  · exact ldc _ h
  · exact ldc _ h
  · exact ldc _ h
  · exact ldc _ h
  · unfold FPU_FLDZ at h
    split at h
    · exact absurd h (by simp)
    · rename_i s2 hs2
      injection h with h
      subst h
      obtain ⟨a, b, c, d⟩ := prep s2 hs2
      refine ⟨?_, ?_, c⟩
      · show setSlot s2.tags s2.top FPU_Tag.TAG_Zero 8 = _
        simp [setSlot, d.symm, a]
      · show setSlot s2.regs s2.top 0 8 = _
        simp [setSlot, d.symm, b]
  · obtain ⟨s2, g, t1, t2, t3⟩ := c2 _ _ h
    obtain ⟨a, b, c⟩ := push_scratch chk s s2 _ _ htop g
    exact ⟨by rw [t1, a], by rw [t2, b], by rw [t3]; exact c⟩
  · obtain ⟨s2, g, t1, t2, t3⟩ := c2 _ _ h
    obtain ⟨a, b, c⟩ := push_scratch chk s s2 _ _ htop g
    exact ⟨by rw [t1, a], by rw [t2, b], by rw [t3]; exact c⟩
  · exact push_scratch chk s s1 _ _ htop h
  · obtain ⟨s2, g, t1, t2, t3⟩ := c2 _ _ h
    obtain ⟨a, b, c⟩ := push_scratch chk s s2 _ _ htop g
    exact ⟨by rw [t1, a], by rw [t2, b], by rw [t3]; exact c⟩
  · obtain ⟨s2, g, t1, t2, t3⟩ := c2 _ _ h
    obtain ⟨a, b, c⟩ := push_scratch chk s s2 _ _ htop g
    exact ⟨by rw [t1, a], by rw [t2, b], by rw [t3]; exact c⟩
  · exact push_scratch chk s s1 _ _ htop h

theorem popOps_scratch (m : MathLib) (chk : StackCheck) (s s1 : FPU)
    (op : FPU → Except String FPU) (hop : op ∈ popOps m chk) (htop : s.top < 8)
    (h : op s = .ok s1) :
    s1.tags 8 = s.tags 8 ∧ s1.regs 8 = s.regs 8 ∧ s1.top < 8 := by
  have n1 : (8 : Nat) ≠ s.top := by omega
  have n4 : (8 : Nat) ≠ STV s 1 := by have := STV_lt s 1; omega
  have key : ∀ w, FPU_FPOP chk { s with regs := setSlot s.regs (STV s 1) w } = .ok s1 →
      s1.tags 8 = s.tags 8 ∧ s1.regs 8 = s.regs 8 ∧ s1.top < 8 := by
    intro w h2
    obtain ⟨k1, k2, k3⟩ := FPU_FPOP_frame chk _ s1 h2
    have k1 : s1.top = (s.top + 1) % 8 := k1
    refine ⟨k3 8 n1, ?_, by omega⟩
    rw [k2]
    show setSlot s.regs (STV s 1) w 8 = s.regs 8
    simp [setSlot, n4]
  unfold popOps at hop
  simp only [List.mem_cons, List.mem_singleton, List.not_mem_nil, or_false] at hop
  rcases hop with e | e | e | e | e | e | e <;> subst e
  · obtain ⟨k1, k2, k3⟩ := FPU_FPOP_frame chk s s1 h
    exact ⟨k3 8 n1, by rw [k2], by omega⟩
  · exact key _ h
  · exact key _ h
  · exact key _ h
  · exact key _ h
  · exact key _ h
  · exact key _ h

theorem envOps_scratch (big : Bool) (mem : Mem) (addr : Nat) (s s1 : FPU)
    (op : FPU → Except String FPU) (hop : op ∈ envOps big mem addr) (htop : s.top < 8)
    (h : op s = .ok s1) :
    s1.tags 8 = s.tags 8 ∧ s1.regs 8 = s.regs 8 ∧ s1.top < 8 := by
  obtain ⟨_, _, _, e4, e5, _⟩ := FPU_FLDENV_spec big s mem addr _ _ _ rfl rfl rfl
  have frs : ∀ fld80 : Mem → Nat → Nat,
      (FPU_FRSTOR fld80 big s mem addr).tags 8 = s.tags 8 ∧
      (FPU_FRSTOR fld80 big s mem addr).regs 8 = s.regs 8 ∧
      (FPU_FRSTOR fld80 big s mem addr).top < 8 := by
    intro fld80
    obtain ⟨_, c2, _⟩ := FRSTOR_regs_fields fld80 mem addr 8 0 (if big then 28 else 14)
      (FPU_FLDENV big s mem addr)
    have c5 := FRSTOR_regs_other fld80 mem addr 8 0 (if big then 28 else 14)
      (FPU_FLDENV big s mem addr) 8 (fun n _ => by
        have := STV_lt (FPU_FLDENV big s mem addr) (0 + n)
        omega)
    refine ⟨?_, ?_, FPU_FRSTOR_top fld80 big s mem addr⟩
    · show (FRSTOR_regs fld80 mem addr 8 0 (if big then 28 else 14)
        (FPU_FLDENV big s mem addr)).tags 8 = _
      rw [c2, e4 8]
      simp
    · show (FRSTOR_regs fld80 mem addr 8 0 (if big then 28 else 14)
        (FPU_FLDENV big s mem addr)).regs 8 = _
      rw [c5, e5]
  unfold envOps at hop
  simp only [List.mem_cons, List.mem_singleton, List.not_mem_nil, or_false] at hop
  rcases hop with e | e | e | e <;> subst e <;> injection h with h <;> subst h
  · refine ⟨?_, by rw [e5], FPU_FLDENV_top big s mem addr⟩
    rw [e4 8]
    simp
  · exact frs _
  · exact frs _
  · rw [(FPU_FSTENV_spec big s mem addr).1]
    exact ⟨rfl, rfl, htop⟩

theorem plainOps_scratch (m : MathLib) (f : Fmt) (mem : Mem) (addr i j : Nat) (s s1 : FPU)
    (op : FPU → Except String FPU) (hop : op ∈ plainOps m f mem addr i j) (htop : s.top < 8)
    (h : op s = .ok s1) :
    s1.tags 8 = s.tags 8 ∧ s1.regs 8 = s.regs 8 ∧ s1.top < 8 := by
  have hi := STV_lt s i
  have hj := STV_lt s j
  have n1 : (8 : Nat) ≠ s.top := by omega
  have n2 : (8 : Nat) ≠ STV s i := by omega
  have n3 : (8 : Nat) ≠ STV s j := by omega
  unfold plainOps at hop
  simp only [List.mem_cons, List.mem_singleton, List.not_mem_nil, or_false] at hop
  rcases hop with e | e | e | e | e | e | e | e | e | e | e | e | e | e | e | e | e | e | e
    | e | e | e | e | e | e | e | e | e | e | e | e | e | e | e | e <;>
    subst e <;> injection h with h <;> subst h
  all_goals first
    | exact ⟨rfl, rfl, htop⟩
    | exact ⟨rfl, by simp [FPU_FADD, FPU_FDIV, FPU_FDIVR, FPU_FMUL, FPU_FSUB, FPU_FSUBR,
        FPU_FXCH, FPU_FST, FPU_FLD_I16, FPU_FLD_I32, FPU_FBLD, FPU_FLD_F80, FPU_FPREM,
        FPU_FPREM1, FPU_FRNDINT_Reduced, FPU_FSIN, FPU_FCOS, FPU_FSQRT, FPU_FABS, FPU_FCHS,
        FPU_F2XM1, FPU_FSCALE, FPU_FSIN_Reduced, FPU_FCOS_Reduced, FPU_FSQRT_Reduced,
        FPU_FCHS_Reduced, FPU_F2XM1_Reduced, FPU_FSCALE_Reduced, FPU_SET_C0, FPU_SET_C1,
        FPU_SET_C2, FPU_SET_C3, setSlot, n1, n2, n3], htop⟩
    | exact ⟨by simp [FPU_FXCH, FPU_FST, setSlot, n2, n3],
        by simp [FPU_FXCH, FPU_FST, setSlot, n2, n3], htop⟩
    | (simp only [FPU_FCOM, FPU_FUCOM, FPU_FXAM, FPU_FXAM_Reduced]
       split_ifs <;> exact ⟨rfl, rfl, htop⟩)
    | (simp only [FPU_FRNDINT]
       split_ifs <;> exact ⟨rfl, by simp [setSlot, n1], htop⟩)

theorem loadOps_scratch (mem : Mem) (addr i : Nat) (s s1 : FPU)
    (op : FPU → Except String FPU) (hop : op ∈ loadOps mem addr i) (htop : s.top < 8)
    (h : op s = .ok s1) :
    s1.tags 8 = s.tags 8 ∧ s1.regs 8 = s.regs 8 ∧ s1.top < 8 := by
  have hi := STV_lt s i
  have n1 : (8 : Nat) ≠ s.top := by omega
  have n2 : (8 : Nat) ≠ STV s i := by omega
  unfold loadOps at hop
  simp only [List.mem_cons, List.mem_singleton, List.not_mem_nil, or_false] at hop
  rcases hop with e | e | e | e | e | e | e | e | e <;>
    subst e <;> injection h with h <;> subst h
  all_goals first
    | exact ⟨rfl, rfl, htop⟩
    | exact ⟨rfl, by simp [FPU_FLD_F32, FPU_FLD_F32_Reduced, FPU_FLD_F64,
        FPU_FLD_F64_Reduced, FPU_FLD_I64, FPU_FLD_I64_Reduced, FPU_FPREM_Reduced,
        FPU_FPREM1_Reduced, FPU_SET_C0, FPU_SET_C1, FPU_SET_C2, FPU_SET_C3, setSlot, n1, n2],
        htop⟩

theorem stackOps_scratch (m : MathLib) (chk : StackCheck) (f : Fmt) (big : Bool) (mem : Mem)
    (addr v i j : Nat) (s s1 : FPU) (op : FPU → Except String FPU)
    (hop : op ∈ stackOps m chk f big mem addr v i j) (htop : s.top < 8)
    (h : op s = .ok s1) :
    s1.tags 8 = s.tags 8 ∧ s1.regs 8 = s.regs 8 ∧ s1.top < 8 := by
  unfold stackOps at hop
  simp only [List.mem_append] at hop
  rcases hop with (((hop | hop) | hop) | hop) | hop
  · exact pushOps_scratch m chk f v s s1 op hop htop h
  · exact popOps_scratch m chk s s1 op hop htop h
  · exact envOps_scratch big mem addr s s1 op hop htop h
  · exact plainOps_scratch m f mem addr i j s s1 op hop htop h
  · exact loadOps_scratch mem addr i s s1 op hop htop h

/-- The operations on the scratch register and the resets keep the scratch tag Valid and
top in range. -/
theorem scratchOps_tag (f : Fmt) (big : Bool) (mem : Mem) (addr i : Nat) (s s1 : FPU)
    (op : FPU → Except String FPU) (hop : op ∈ scratchOps f big mem addr i)
    (htop : s.top < 8) (hv : s.tags 8 = .TAG_Valid) (h : op s = .ok s1) :
    s1.tags 8 = .TAG_Valid ∧ s1.top < 8 := by
  have fin : ∀ t : FPU, (FPU_FINIT t).tags 8 = .TAG_Valid ∧ (FPU_FINIT t).top < 8 := by
    intro t
    obtain ⟨_, _, a3, _, a5, _⟩ := FPU_FINIT_fields t
    exact ⟨a5, by rw [a3]; norm_num⟩
  unfold scratchOps at hop
  simp only [List.mem_cons, List.mem_singleton, List.not_mem_nil, or_false] at hop
  rcases hop with e | e | e | e | e | e | e | e | e | e | e | e | e | e | e | e | e <;>
    subst e <;> injection h with h <;> subst h
  all_goals first
    | exact ⟨hv, htop⟩
    | exact fin _
    | (simp only [FPU_FTST, FPU_FCOM]
       split_ifs <;> exact ⟨hv, htop⟩)

/-- C36: scratch slot isolation.  A stack-relative index `(top+i) mod 8` is never 8.  From
a state with top in [0,8), `FPU_PREP_PUSH`, `FPU_PUSH`, `FPU_FPOP`, `FPU_FLDENV`,
`FPU_FRSTOR` and every other operation of `stackOps`, the operations of both builds
addressed through top and stack-relative indices (among them the loads `FPU_FLD_F32`,
`FPU_FLD_F64`, `FPU_FLD_I64` to a stack slot and the partial remainders of both builds),
leave `tags[8]` and `regs[8]` unchanged and top in range whenever they complete.  Hence in every state reached from `FPU_FINIT`
by a sequence of such operations, also interleaved with the operations that use the
scratch register as an operand (`FPU_FTST`, the memory-operand forms) and with resets,
`tags[8]` is Valid and top is in [0,8); with operations of `stackOps` only, `regs[8]` is
as it was before `FPU_FINIT`. -/
theorem scratch_slot_isolated :
    (∀ (s : FPU) (i : Nat), STV s i ≠ 8) ∧
    (∀ top i : Nat, top < 8 → (top + i) % 8 ≠ 8) ∧
    (∀ (m : MathLib) (chk : StackCheck) (f : Fmt) (big : Bool) (mem : Mem)
      (addr v i j : Nat) (op : FPU → Except String FPU) (s s1 : FPU),
      op ∈ stackOps m chk f big mem addr v i j → s.top < 8 → op s = .ok s1 →
      s1.tags 8 = s.tags 8 ∧ s1.regs 8 = s.regs 8 ∧ s1.top < 8) ∧
    (∀ (ops : List (FPU → Except String FPU)) (s0 s : FPU),
      (∀ op ∈ ops,
        (∃ m chk f big mem addr v i j, op ∈ stackOps m chk f big mem addr v i j) ∨
        (∃ f big mem addr i, op ∈ scratchOps f big mem addr i)) →
      runOps ops (FPU_FINIT s0) = .ok s → s.tags 8 = .TAG_Valid ∧ s.top < 8) ∧
    (∀ (ops : List (FPU → Except String FPU)) (s0 s : FPU),
      (∀ op ∈ ops, ∃ m chk f big mem addr v i j, op ∈ stackOps m chk f big mem addr v i j) →
      runOps ops (FPU_FINIT s0) = .ok s → s.regs 8 = s0.regs 8) := by
  refine ⟨fun s i => by have := STV_lt s i; omega, fun top i _ => by omega, ?_, ?_, ?_⟩
  · intro m chk f big mem addr v i j op s s1 hop htop h
    exact stackOps_scratch m chk f big mem addr v i j s s1 op hop htop h
  · intro ops
    have gen : ∀ (ops : List (FPU → Except String FPU)) (t s : FPU),
        (∀ op ∈ ops,
          (∃ m chk f big mem addr v i j, op ∈ stackOps m chk f big mem addr v i j) ∨
          (∃ f big mem addr i, op ∈ scratchOps f big mem addr i)) →
        t.tags 8 = .TAG_Valid → t.top < 8 →
        runOps ops t = .ok s → s.tags 8 = .TAG_Valid ∧ s.top < 8 := by
      intro ops
      induction ops with
      | nil =>
        intro t s _ hv ht h
        injection h with h
        subst h
        exact ⟨hv, ht⟩
      | cons op ops ih =>
        intro t s hall hv ht h
        unfold runOps at h
        split at h
        · exact absurd h (by simp)
        · rename_i t1 ht1
          have hop := hall op (List.mem_cons_self _ _)
          have hrest : ∀ o ∈ ops,
              (∃ m chk f big mem addr v i j, o ∈ stackOps m chk f big mem addr v i j) ∨
              (∃ f big mem addr i, o ∈ scratchOps f big mem addr i) :=
            fun o ho => hall o (List.mem_cons_of_mem _ ho)
          rcases hop with ⟨m, chk, f, big, mem, addr, v, i, j, hm⟩ | ⟨f, big, mem, addr, i, hm⟩
          · obtain ⟨a, _, c⟩ := stackOps_scratch m chk f big mem addr v i j t t1 op hm ht ht1
            exact ih t1 s hrest (by rw [a]; exact hv) c h
          · obtain ⟨a, c⟩ := scratchOps_tag f big mem addr i t t1 op hm ht hv ht1
            exact ih t1 s hrest a c h
    intro s0 s hall h
    obtain ⟨_, _, a3, _, a5, _⟩ := FPU_FINIT_fields s0
    exact gen ops _ s hall a5 (by rw [a3]; norm_num) h
  · intro ops
    have gen : ∀ (ops : List (FPU → Except String FPU)) (t s : FPU),
        (∀ op ∈ ops, ∃ m chk f big mem addr v i j,
          op ∈ stackOps m chk f big mem addr v i j) →
        t.top < 8 → runOps ops t = .ok s → s.regs 8 = t.regs 8 := by
      intro ops
      induction ops with
      | nil =>
        intro t s _ ht h
        injection h with h
        subst h
        rfl
      | cons op ops ih =>
        intro t s hall ht h
        unfold runOps at h
        split at h
        · exact absurd h (by simp)
        · rename_i t1 ht1
          obtain ⟨m, chk, f, big, mem, addr, v, i, j, hm⟩ := hall op (List.mem_cons_self _ _)
          obtain ⟨_, b, c⟩ := stackOps_scratch m chk f big mem addr v i j t t1 op hm ht ht1
          rw [ih t1 s (fun o ho => hall o (List.mem_cons_of_mem _ ho)) c h, b]
    intro s0 s hall h
    obtain ⟨_, _, a3, _, _, a6⟩ := FPU_FINIT_fields s0
    rw [gen ops _ s hall (by rw [a3]; norm_num) h, a6]

/-- C36 on a sequence from the reset of the sample context: a load of zero, a comparison
with zero through the scratch register, a load of 1.0, an exchange of `ST(0)` and `ST(1)`
and a pop, at the EXIT level, complete and leave `tags[8]` Valid. -/
theorem scratch_slot_isolated_witness :
    ∃ s, runOps [FPU_FLDZ .EXIT, fun s => .ok (FPU_FTST binary64 s),
        FPU_FLD1 binary64 .EXIT, fun s => .ok (FPU_FXCH s (STV s 0) (STV s 1)),
        FPU_FPOP .EXIT]
      (FPU_FINIT sampleState) = .ok s ∧ s.tags 8 = .TAG_Valid ∧ s.top < 8 := by
  have hok : (runOps [FPU_FLDZ .EXIT, fun s => .ok (FPU_FTST binary64 s),
      FPU_FLD1 binary64 .EXIT, fun s => .ok (FPU_FXCH s (STV s 0) (STV s 1)),
      FPU_FPOP .EXIT]
      (FPU_FINIT sampleState)).toBool = true := by decide
  cases hrun : runOps [FPU_FLDZ .EXIT, fun s => .ok (FPU_FTST binary64 s),
      FPU_FLD1 binary64 .EXIT, fun s => .ok (FPU_FXCH s (STV s 0) (STV s 1)),
      FPU_FPOP .EXIT]
      (FPU_FINIT sampleState) with
  | error e =>
    rw [hrun] at hok
    exact absurd hok (by simp [Except.toBool])
  | ok s =>
    refine ⟨s, rfl, scratch_slot_isolated.2.2.2.1 _ sampleState s ?_ hrun⟩
    intro op hop
    simp only [List.mem_cons, List.mem_singleton, List.not_mem_nil, or_false] at hop
    rcases hop with e | e | e | e | e <;> subst e
    · exact Or.inl ⟨exampleLib, .EXIT, binary64, false, fun _ => 0, 0, 0, 0, 1,
        by simp [stackOps, pushOps]⟩
    · exact Or.inr ⟨binary64, false, fun _ => 0, 0, 0, by simp [scratchOps]⟩
    · exact Or.inl ⟨exampleLib, .EXIT, binary64, false, fun _ => 0, 0, 0, 0, 1,
        by simp [stackOps, pushOps]⟩
    · exact Or.inl ⟨exampleLib, .EXIT, binary64, false, fun _ => 0, 0, 0, 0, 1,
        by simp [stackOps, plainOps]⟩
    · exact Or.inl ⟨exampleLib, .EXIT, binary64, false, fun _ => 0, 0, 0, 0, 1,
        by simp [stackOps, popOps]⟩

/-- The conversion to `Bit64s` of a rational of magnitude below `2^63`: the truncated
value, within one of the rational and on its side of zero. -/
theorem castBit64s_trunc (x : ℚ) (hx : |x| < 9223372036854775808) :
    (0 ≤ x → castBit64s x = ⌊x⌋) ∧ (x < 0 → castBit64s x = ⌈x⌉) ∧
    |x - (castBit64s x : ℚ)| < 1 ∧
    (0 ≤ x → 0 ≤ x - (castBit64s x : ℚ)) ∧ (x ≤ 0 → x - (castBit64s x : ℚ) ≤ 0) := by
  obtain ⟨h1, h2⟩ := abs_lt.mp hx
  have key : castBit64s x = if 0 ≤ x then ⌊x⌋ else ⌈x⌉ := by
    unfold castBit64s
    simp only []
    rw [if_pos]
    by_cases h0 : 0 ≤ x
    · rw [if_pos h0]
      have a1 : (0 : Int) ≤ ⌊x⌋ := Int.floor_nonneg.mpr h0
      have a2 : ⌊x⌋ < 9223372036854775808 := Int.floor_lt.mpr (by exact_mod_cast h2)
      constructor <;> omega
    · rw [if_neg h0]
      have a1 : ⌈x⌉ ≤ 0 := Int.ceil_le.mpr (by push_neg at h0; exact_mod_cast le_of_lt h0)
      have a2 : (-9223372036854775808 : Int) ≤ ⌈x⌉ := by
        rw [Int.le_ceil_iff]
        push_cast
        linarith
      constructor <;> omega
  have f1 := Int.floor_le x
  have f2 := Int.lt_floor_add_one x
  have c1 := Int.le_ceil x
  have c2 := Int.ceil_lt_add_one x
  refine ⟨fun h => by rw [key, if_pos h], fun h => by rw [key, if_neg (not_le.mpr h)],
    ?_, ?_, ?_⟩
  · rw [key]
    by_cases h0 : 0 ≤ x
    · rw [if_pos h0, abs_lt]
      constructor <;> linarith
    · rw [if_neg h0, abs_lt]
      constructor <;> linarith
  · intro h0
    rw [key, if_pos h0]
    linarith
  · intro h0
    rw [key]
    by_cases h : 0 ≤ x
    · have : x = 0 := le_antisymm h0 h
      rw [if_pos h, this]
      simp
    · rw [if_neg h]
      linarith

/-- The conversion to `Bit64s` of an integer the type holds is that integer. -/
theorem castBit64s_int (n : Int) (h1 : -9223372036854775808 ≤ n)
    (h2 : n < 9223372036854775808) : castBit64s (n : ℚ) = n := by
  unfold castBit64s
  simp only [Int.floor_intCast, Int.ceil_intCast, ite_self]
  rw [if_pos ⟨h1, h2⟩]

/-- The remainder of `FPU_FPREM` over the rationals is below the divisor in magnitude and
is zero or has the sign of the dividend. -/
theorem FPREM_exact_lt (a b : ℚ) (hb : b ≠ 0) (hq : |a / b| < 9223372036854775808) :
    |FPREM_exact a b| < |b| ∧
    (FPREM_exact a b = 0 ∨ (0 < a ∧ 0 < FPREM_exact a b) ∨
      (a < 0 ∧ FPREM_exact a b < 0)) := by
  obtain ⟨_, _, t1, t2, t3⟩ := castBit64s_trunc (a / b) hq
  have ha : a = a / b * b := by field_simp
  have hr : FPREM_exact a b = (a / b - (castBit64s (a / b) : ℚ)) * b := by
    unfold FPREM_exact
    simp only []
    rw [sub_mul, ← ha]
  generalize a / b = q at *
  generalize (castBit64s q : ℚ) = t at *
  have hbpos : 0 < |b| := abs_pos.mpr hb
  refine ⟨?_, ?_⟩
  · rw [hr, abs_mul]
    calc |q - t| * |b| < 1 * |b| := by
          apply mul_lt_mul_of_pos_right t1 hbpos
      _ = |b| := one_mul _
  · by_cases hd : q - t = 0
    · left
      rw [hr, hd, zero_mul]
    · right
      rw [hr, ha]
      rcases lt_or_gt_of_ne hb with hb0 | hb0
      · rcases le_total 0 q with hq0 | hq0
        · have d1 : 0 < q - t := lt_of_le_of_ne (t2 hq0) (Ne.symm hd)
          have q1 : 0 < q := by
            rcases eq_or_lt_of_le hq0 with h | h
            · exfalso
              have := t3 (le_of_eq h.symm)
              linarith
            · exact h
          right
          exact ⟨mul_neg_of_pos_of_neg q1 hb0, mul_neg_of_pos_of_neg d1 hb0⟩
        · have d1 : q - t < 0 := lt_of_le_of_ne (t3 hq0) hd
          have q1 : q < 0 := by
            rcases eq_or_lt_of_le hq0 with h | h
            · exfalso
              have := t2 (le_of_eq h.symm)
              linarith
            · exact h
          left
          exact ⟨mul_pos_of_neg_of_neg q1 hb0, mul_pos_of_neg_of_neg d1 hb0⟩
      · rcases le_total 0 q with hq0 | hq0
        · have d1 : 0 < q - t := lt_of_le_of_ne (t2 hq0) (Ne.symm hd)
          have q1 : 0 < q := by
            rcases eq_or_lt_of_le hq0 with h | h
            · exfalso
              have := t3 (le_of_eq h.symm)
              linarith
            · exact h
          left
          exact ⟨mul_pos q1 hb0, mul_pos d1 hb0⟩
        · have d1 : q - t < 0 := lt_of_le_of_ne (t3 hq0) hd
          have q1 : q < 0 := by
            rcases eq_or_lt_of_le hq0 with h | h
            · exfalso
              have := t2 (le_of_eq h.symm)
              linarith
            · exact h
          right
          exact ⟨mul_neg_of_neg_of_pos q1 hb0, mul_neg_of_neg_of_pos d1 hb0⟩

/-- The remainder of `FPU_FPREM1` over the rationals is at most half the divisor in
magnitude when the quotient rounded to nearest fits `Bit64s`. -/
theorem FPREM1_exact_le (a b : ℚ) (hb : b ≠ 0) (hq : |a / b| < 9223372036854775808)
    (hfit : a / b < 9223372036854775808 - 1 / 2) : |FPREM1_exact a b| ≤ |b| / 2 := by
  obtain ⟨h1, h2⟩ := abs_lt.mp hq
  have ha : a = a / b * b := by field_simp
  have f1 := Int.floor_le (a / b)
  have f2 := Int.lt_floor_add_one (a / b)
  have r1 : (-9223372036854775808 : Int) ≤ ⌊a / b⌋ := by
    rw [Int.le_floor]
    push_cast
    linarith
  have r2 : ⌊a / b⌋ < 9223372036854775808 := Int.floor_lt.mpr (by exact_mod_cast h2)
  have key : ∀ n : Int, |a / b - (n : ℚ)| ≤ 1 / 2 →
      |a - (n : ℚ) * b| ≤ |b| / 2 := by
    intro n hn
    have e : a - (n : ℚ) * b = (a / b - (n : ℚ)) * b := by
      rw [sub_mul, ← ha]
    rw [e, abs_mul]
    calc |a / b - (n : ℚ)| * |b| ≤ 1 / 2 * |b| :=
          mul_le_mul_of_nonneg_right hn (abs_nonneg b)
      _ = |b| / 2 := by ring
  unfold FPREM1_exact
  simp only []
  generalize hqd : a / b = q at *
  split_ifs with c1 c2 c3
  · have r3 : ⌊q⌋ + 1 < 9223372036854775808 := by
      have : ((⌊q⌋ + 1 : Int) : ℚ) < ((9223372036854775808 : Int) : ℚ) := by
        push_cast
        linarith
      exact_mod_cast this
    have e : ((⌊q⌋ : Int) : ℚ) + 1 = ((⌊q⌋ + 1 : Int) : ℚ) := by push_cast; rfl
    rw [e, castBit64s_int _ (by omega) r3]
    apply key
    rw [abs_le]
    push_cast
    constructor <;> linarith
  · rw [castBit64s_int _ r1 r2]
    apply key
    rw [abs_le]
    constructor <;> linarith
  · have r3 : ⌊q⌋ + 1 < 9223372036854775808 := by
      have : ((⌊q⌋ + 1 : Int) : ℚ) < ((9223372036854775808 : Int) : ℚ) := by
        push_cast
        linarith
      exact_mod_cast this
    have e : ((⌊q⌋ : Int) : ℚ) + 1 = ((⌊q⌋ + 1 : Int) : ℚ) := by push_cast; rfl
    rw [e, castBit64s_int _ (by omega) r3]
    apply key
    rw [abs_le]
    push_cast
    push_neg at c1 c2
    constructor <;> linarith
  · rw [castBit64s_int _ r1 r2]
    apply key
    rw [abs_le]
    push_neg at c1 c2
    constructor <;> linarith

/-- The magnitude of a pattern is a significand below `2^(p+1)` times a power of two. -/
theorem Fmt.mag_decomp (f : Fmt) (x : Nat) :
    ∃ m e, f.mag x = m * 2 ^ e ∧ m < 2 ^ (f.p + 1) := by
  have hfr : f.fracField x < 2 ^ f.p := by
    unfold Fmt.fracField
    rw [Nat.shiftLeft_eq, one_mul]
    exact Nat.mod_lt _ (by positivity)
  unfold Fmt.mag
  split_ifs with h
  · exact ⟨f.fracField x, 0, by simp, by rw [pow_succ]; omega⟩
  · refine ⟨2 ^ f.p + f.fracField x, f.expField x - 1, ?_, by rw [pow_succ]; omega⟩
    rw [Nat.shiftLeft_eq, Nat.shiftLeft_eq, one_mul]

/-- Two significands of 53 bits with a quotient below `2^63`: the quotient is more than
one half below `2^63`. -/
theorem quotient_gap_core (mx my k : Nat) (hmx : mx < 2 ^ 53) (hmy : my < 2 ^ 53)
    (h : mx * 2 ^ k < 2 ^ 63 * my) : 2 * (mx * 2 ^ k) + my < 2 ^ 64 * my := by
  by_contra hcon
  push_neg at hcon
  have hK : 0 < 2 ^ k := by positivity
  have ht : mx * 2 ^ k < 2 ^ 53 * 2 ^ k := Nat.mul_lt_mul_of_pos_right hmx hK
  rcases Nat.lt_or_ge k 63 with hk | hk
  · have e63 : (2 : Nat) ^ 63 = 2 ^ k * 2 ^ (63 - k) := by
      rw [← pow_add]
      congr 1
      omega
    have h2 : mx * 2 ^ k < 2 ^ (63 - k) * my * 2 ^ k := by
      calc mx * 2 ^ k < 2 ^ 63 * my := h
        _ = 2 ^ (63 - k) * my * 2 ^ k := by rw [e63]; ring
    have h3 : mx < 2 ^ (63 - k) * my := Nat.lt_of_mul_lt_mul_right h2
    have h4 : (mx + 1) * 2 ^ k ≤ 2 ^ (63 - k) * my * 2 ^ k :=
      Nat.mul_le_mul_right _ h3
    have h5 : mx * 2 ^ k + 2 ^ k ≤ 2 ^ 63 * my := by
      calc mx * 2 ^ k + 2 ^ k = (mx + 1) * 2 ^ k := by ring
        _ ≤ 2 ^ (63 - k) * my * 2 ^ k := h4
        _ = 2 ^ 63 * my := by rw [e63]; ring
    generalize mx * 2 ^ k = t at *
    generalize 2 ^ k = K at *
    norm_num at *
    omega
  · have e : mx * 2 ^ k = 2 ^ 63 * (mx * 2 ^ (k - 63)) := by
      have : (2 : Nat) ^ k = 2 ^ 63 * 2 ^ (k - 63) := by
        rw [← pow_add]
        congr 1
        omega
      rw [this]
      ring
    rw [e] at h hcon
    have h3 : mx * 2 ^ (k - 63) < my := Nat.lt_of_mul_lt_mul_left h
    generalize mx * 2 ^ (k - 63) = u at *
    norm_num at *
    omega

/-- The same with both exponents. -/
theorem quotient_gap (mx my ex ey : Nat) (hmx : mx < 2 ^ 53) (hmy : my < 2 ^ 53)
    (hpos : 0 < my) (h : mx * 2 ^ ex < 2 ^ 63 * (my * 2 ^ ey)) :
    2 * (mx * 2 ^ ex) + my * 2 ^ ey < 2 ^ 64 * (my * 2 ^ ey) := by
  rcases Nat.le_total ex ey with hle | hle
  · have hP : 0 < 2 ^ ex := by positivity
    have ht : mx * 2 ^ ex < 2 ^ 53 * 2 ^ ex := Nat.mul_lt_mul_of_pos_right hmx hP
    have hQ : 2 ^ ex ≤ my * 2 ^ ey :=
      calc 2 ^ ex ≤ 2 ^ ey := Nat.pow_le_pow_right (by norm_num) hle
        _ = 1 * 2 ^ ey := (one_mul _).symm
        _ ≤ my * 2 ^ ey := Nat.mul_le_mul_right _ hpos
    generalize mx * 2 ^ ex = t at *
    generalize my * 2 ^ ey = Q at *
    generalize 2 ^ ex = P at *
    norm_num at *
    omega
  · have e : (2 : Nat) ^ ex = 2 ^ (ex - ey) * 2 ^ ey := by
      rw [← pow_add]
      congr 1
      omega
    have hE : 0 < 2 ^ ey := by positivity
    have h2 : mx * 2 ^ (ex - ey) * 2 ^ ey < 2 ^ 63 * my * 2 ^ ey := by
      calc mx * 2 ^ (ex - ey) * 2 ^ ey = mx * 2 ^ ex := by rw [e]; ring
        _ < 2 ^ 63 * (my * 2 ^ ey) := h
        _ = 2 ^ 63 * my * 2 ^ ey := by ring
    have h3 := quotient_gap_core mx my (ex - ey) hmx hmy (Nat.lt_of_mul_lt_mul_right h2)
    calc 2 * (mx * 2 ^ ex) + my * 2 ^ ey
        = (2 * (mx * 2 ^ (ex - ey)) + my) * 2 ^ ey := by rw [e]; ring
      _ < 2 ^ 64 * my * 2 ^ ey := Nat.mul_lt_mul_of_pos_right h3 hE
      _ = 2 ^ 64 * (my * 2 ^ ey) := by ring

/-- The quotient of two register values that is below `2^63` is more than one half below
it, so its rounding to nearest fits `Bit64s`. -/
theorem register_quotient_fits (x y : Nat) (hy : binary64.toRat y ≠ 0)
    (hq : binary64.toRat x / binary64.toRat y < 9223372036854775808) :
    binary64.toRat x / binary64.toRat y < 9223372036854775808 - 1 / 2 := by
  rcases le_or_lt (binary64.toRat x / binary64.toRat y) 0 with hle | hpos
  · linarith
  · have hS : (0 : ℚ) < 2 ^ binary64.scale := by positivity
    have e : binary64.toRat x / binary64.toRat y
        = (binary64.sval x : ℚ) / (binary64.sval y : ℚ) := by
      unfold Fmt.toRat
      field_simp
    have hY : (binary64.sval y : ℚ) ≠ 0 := by
      intro h0
      apply hy
      unfold Fmt.toRat
      rw [h0, zero_div]
    have ax : |(binary64.sval x : ℚ)| = (binary64.mag x : ℚ) := by
      unfold Fmt.sval
      split_ifs <;> simp
    have ay : |(binary64.sval y : ℚ)| = (binary64.mag y : ℚ) := by
      unfold Fmt.sval
      split_ifs <;> simp
    have e2 : binary64.toRat x / binary64.toRat y
        = (binary64.mag x : ℚ) / (binary64.mag y : ℚ) := by
      rw [← abs_of_pos hpos, e, abs_div, ax, ay]
    have hmy : (0 : ℚ) < (binary64.mag y : ℚ) := by
      rw [← ay]
      exact abs_pos.mpr hY
    rw [e2] at hq ⊢
    rw [div_lt_iff₀ hmy] at hq ⊢
    obtain ⟨mx, ex, hx1, hx2⟩ := binary64.mag_decomp x
    obtain ⟨my, ey, hy1, hy2⟩ := binary64.mag_decomp y
    have hq2 : binary64.mag x < 2 ^ 63 * binary64.mag y := by
      have : (binary64.mag x : ℚ) < ((2 ^ 63 * binary64.mag y : Nat) : ℚ) := by
        push_cast
        linarith
      exact_mod_cast this
    have hmy0 : 0 < my := by
      rcases Nat.eq_zero_or_pos my with h | h
      · rw [hy1, h] at hmy
        simp at hmy
      · exact h
    rw [hx1, hy1] at hq2
    have g := quotient_gap mx my ex ey hx2 hy2 hmy0 hq2
    rw [← hx1, ← hy1] at g
    have g2 : ((2 * binary64.mag x + binary64.mag y : Nat) : ℚ)
        < ((2 ^ 64 * binary64.mag y : Nat) : ℚ) := by exact_mod_cast g
    push_cast at g2
    linarith

/-- `QueueByte` on a state within the bounds uses an index below 32 and stays within the
bounds; the mode is kept. -/
theorem QueueByte_bounds (s : Mpu) (data : Nat) (hu : s.queue_used ≤ 32)
    (hp : s.queue_pos ≤ 32) :
    ∃ s1, QueueByte s data = .ok s1 ∧ s1.queue_used ≤ 32 ∧ s1.queue_pos ≤ 32 ∧
      s1.intelligent = s.intelligent := by
  unfold QueueByte
  simp only [MPU401_QUEUE]
  split_ifs
  all_goals first
    | exact ⟨_, rfl, hu, hp, rfl⟩
    | (refine ⟨_, rfl, ?_, ?_, rfl⟩ <;> simp only [] <;> omega)
    | (exfalso; omega)

/-- `ClrQueue` gives a state within the bounds. -/
theorem ClrQueue_bounds (s : Mpu) :
    (ClrQueue s).queue_used = 0 ∧ (ClrQueue s).queue_pos = 0 ∧
    (ClrQueue s).intelligent = s.intelligent ∧ (ClrQueue s).queue = s.queue :=
  ⟨rfl, rfl, rfl, rfl⟩

/-- The calls of a tail keep the bounds. -/
theorem runTail_bounds (tail : List TailCall) : ∀ (s : Mpu), s.queue_used ≤ 32 →
    s.queue_pos ≤ 32 →
    ∃ s1, runTail tail s = .ok s1 ∧ s1.queue_used ≤ 32 ∧ s1.queue_pos ≤ 32 := by
  induction tail with
  | nil => exact fun s hu hp => ⟨s, rfl, hu, hp⟩
  | cons c cs ih =>
    intro s hu hp
    have step : ∃ s1, c.apply s = .ok s1 ∧ s1.queue_used ≤ 32 ∧ s1.queue_pos ≤ 32 := by
      cases c with
      | queueByte data =>
        obtain ⟨s1, e, a, b, _⟩ := QueueByte_bounds s data hu hp
        exact ⟨s1, e, a, b⟩
      | clrQueue => exact ⟨ClrQueue s, rfl, by simp [ClrQueue], by simp [ClrQueue]⟩
      | blockAck v => exact ⟨_, rfl, hu, hp⟩
    obtain ⟨s1, e, a, b⟩ := step
    obtain ⟨s2, e2, a2, b2⟩ := ih s1 a b
    refine ⟨s2, ?_, a2, b2⟩
    simp only [runTail, e]
    exact e2

/-- The read of `MPU401_ReadData` before the tail. -/
theorem ReadData_read (tail : List TailCall) (s : Mpu) (hu : s.queue_used ≤ 32)
    (hp : s.queue_pos ≤ 32) :
    ∃ ret s1, s1.queue_used ≤ 32 ∧ s1.queue_pos ≤ 32 ∧ s1.intelligent = s.intelligent ∧
      (s.intelligent = false → MPU401_ReadData tail s = .ok (ret, s1)) ∧
      (s.intelligent = true → ∀ s2, runTail tail s1 = .ok s2 →
        MPU401_ReadData tail s = .ok (ret, s2)) ∧
      s1.queue = s.queue ∧ s1.block_ack = s.block_ack ∧
      (s.queue_used = 0 → ret = MSG_MPU_ACK ∧ s1 = s) ∧
      (s.queue_used ≠ 0 → ret = s.queue (s.queue_pos % 32) ∧
        s1.queue_pos = s.queue_pos % 32 + 1 ∧ s1.queue_used = s.queue_used - 1) := by
  unfold MPU401_ReadData
  simp only [MPU401_QUEUE]
  by_cases h0 : s.queue_used = 0
  · refine ⟨MSG_MPU_ACK, s, hu, hp, rfl, ?_, ?_, rfl, rfl, fun _ => ⟨rfl, rfl⟩,
      fun h => absurd h0 h⟩
    · intro hi
      simp [h0, hi]
    · intro hi s2 h2
      simp [h0, hi, h2]
  · by_cases h32 : s.queue_pos ≥ 32
    · have e : s.queue_pos = 32 := by omega
      refine ⟨s.queue 0, { s with queue_pos := 1, queue_used := s.queue_used - 1 },
        by simp only []; omega, by simp only []; omega, rfl, ?_, ?_, rfl, rfl,
        fun h => absurd h h0, fun _ => ⟨by rw [e], by rw [e], rfl⟩⟩
      · intro hi
        simp [h0, e, hi]
      · intro hi s2 h2
        rw [hi] at h2
        simp [h0, e, hi, h2]
    · have e : s.queue_pos % 32 = s.queue_pos := Nat.mod_eq_of_lt (by omega)
      have e2 : (s.queue_pos + 1) % 4294967296 = s.queue_pos + 1 :=
        Nat.mod_eq_of_lt (by omega)
      have h31 : s.queue_pos < 32 := by omega
      refine ⟨s.queue s.queue_pos,
        { s with queue_pos := s.queue_pos + 1, queue_used := s.queue_used - 1 },
        by simp only []; omega, by simp only []; omega, rfl, ?_, ?_, rfl, rfl,
        fun h => absurd h h0, fun _ => ⟨by rw [e], by rw [e], rfl⟩⟩
      · intro hi
        simp [h0, h32, h31, e2, hi]
      · intro hi s2 h2
        rw [hi] at h2
        simp [h0, h32, h31, e2, hi, h2]

/-- `MPU401_ReadData` with any tail uses an index below 32 and stays within the
bounds. -/
theorem ReadData_bounds (tail : List TailCall) (s : Mpu) (hu : s.queue_used ≤ 32)
    (hp : s.queue_pos ≤ 32) :
    ∃ ret s1, MPU401_ReadData tail s = .ok (ret, s1) ∧ s1.queue_used ≤ 32 ∧
      s1.queue_pos ≤ 32 := by
  obtain ⟨ret, s1, a, b, _, e1, e2, _⟩ := ReadData_read tail s hu hp
  cases hi : s.intelligent with
  | false => exact ⟨ret, s1, e1 hi, a, b⟩
  | true =>
    obtain ⟨s2, r2, a2, b2⟩ := runTail_bounds tail s1 a b
    exact ⟨ret, s2, e2 hi s2 r2, a2, b2⟩

/-- Every sequence of calls from a state within the bounds returns, within the
bounds. -/
theorem runCalls_bounds (calls : List MpuCall) : ∀ (s : Mpu), s.queue_used ≤ 32 →
    s.queue_pos ≤ 32 →
    ∃ s1, runCalls calls s = .ok s1 ∧ s1.queue_used ≤ 32 ∧ s1.queue_pos ≤ 32 := by
  induction calls with
  | nil => exact fun s hu hp => ⟨s, rfl, hu, hp⟩
  | cons c cs ih =>
    intro s hu hp
    have step : ∃ s1, c.apply s = .ok s1 ∧ s1.queue_used ≤ 32 ∧ s1.queue_pos ≤ 32 := by
      cases c with
      | queueByte data =>
        obtain ⟨s1, e, a, b, _⟩ := QueueByte_bounds s data hu hp
        exact ⟨s1, e, a, b⟩
      | readData tail =>
        obtain ⟨ret, s1, e, a, b⟩ := ReadData_bounds tail s hu hp
        refine ⟨s1, ?_, a, b⟩
        simp only [MpuCall.apply, e]
      | clrQueue => exact ⟨ClrQueue s, rfl, by simp [ClrQueue], by simp [ClrQueue]⟩
    obtain ⟨s1, e, a, b⟩ := step
    obtain ⟨s2, e2, a2, b2⟩ := ih s1 a b
    refine ⟨s2, ?_, a2, b2⟩
    simp only [runCalls, e]
    exact e2

/-- C39: the output queue of the MPU-401 stays in bounds.  From a state with
`queue_used = 0` and `queue_pos = 0`, every sequence of calls of `QueueByte`,
`MPU401_ReadData` (with any calls in its tail) and `ClrQueue` returns without an index
into `mpu.queue` of 32 or more, and ends with `queue_used ≤ 32` and `queue_pos ≤ 32`;
`QueueByte` on a state with `queue_used = 32` leaves the queue contents, `queue_used`
and `queue_pos` as they are. -/
theorem queue_in_bounds (s : Mpu) (calls : List MpuCall) (hu : s.queue_used = 0)
    (hp : s.queue_pos = 0) :
    (∃ s1, runCalls calls s = .ok s1 ∧ s1.queue_used ≤ 32 ∧ s1.queue_pos ≤ 32) ∧
    (∀ (t : Mpu) (data : Nat), t.queue_used = 32 →
      ∃ t1, QueueByte t data = .ok t1 ∧ t1.queue = t.queue ∧
        t1.queue_used = t.queue_used ∧ t1.queue_pos = t.queue_pos) := by
  refine ⟨runCalls_bounds calls s (by omega) (by omega), ?_⟩
  intro t data ht
  unfold QueueByte
  by_cases hb : t.block_ack = true
  · rw [if_pos hb]
    exact ⟨_, rfl, rfl, rfl, rfl⟩
  · rw [if_neg hb, if_neg (by rw [ht]; decide)]
    exact ⟨_, rfl, rfl, rfl, rfl⟩

/-- C39 on a sequence in intelligent mode: 33 bytes queued, a read whose tail queues a
byte and clears the queue, and one more byte. -/
theorem queue_in_bounds_witness :
    ∃ s1, runCalls (List.replicate 33 (MpuCall.queueByte 7) ++
        [MpuCall.readData [TailCall.queueByte 1, TailCall.clrQueue], MpuCall.queueByte 9])
        ⟨true, fun _ => 0, 0, 0, false⟩ = .ok s1 ∧
      s1.queue_used ≤ 32 ∧ s1.queue_pos ≤ 32 :=
  (queue_in_bounds ⟨true, fun _ => 0, 0, 0, false⟩ _ rfl rfl).1

/-- The number of queued bytes is `queue_used`. -/
theorem queued_length (s : Mpu) : (queued s).length = s.queue_used := by
  simp [queued]

/-- `QueueByte` with `block_ack` clear on a queue with room: the state it gives. -/
theorem QueueByte_put (s : Mpu) (b : Nat) (hu : s.queue_used < 32) (hp : s.queue_pos ≤ 32)
    (hb : s.block_ack = false) :
    ∃ s1, QueueByte s b = .ok s1 ∧ s1.queue_used = s.queue_used + 1 ∧
      s1.queue_pos = s.queue_pos % 32 ∧
      s1.queue = setSlot s.queue ((s.queue_pos + s.queue_used) % 32) (b % 256) ∧
      s1.block_ack = false ∧ s1.intelligent = s.intelligent := by
  unfold QueueByte
  simp only [MPU401_QUEUE]
  rw [if_neg (by rw [hb]; decide), if_pos hu]
  have e1 : (s.queue_used + s.queue_pos) % 4294967296 = s.queue_used + s.queue_pos :=
    Nat.mod_eq_of_lt (by omega)
  have e2 : (s.queue_used + 1) % 4294967296 = s.queue_used + 1 :=
    Nat.mod_eq_of_lt (by omega)
  rw [e1, e2]
  have key : ∀ (qp pos : Nat), qp = s.queue_pos % 32 →
      pos = (s.queue_pos + s.queue_used) % 32 →
      ∃ s1, (if pos < 32 then
          (Except.ok { s with queue_pos := qp, queue_used := s.queue_used + 1,
                              queue := setSlot s.queue pos (b % 256) } : Except String Mpu)
          else .error "mpu.queue index out of bounds") = .ok s1 ∧
        s1.queue_used = s.queue_used + 1 ∧ s1.queue_pos = s.queue_pos % 32 ∧
        s1.queue = setSlot s.queue ((s.queue_pos + s.queue_used) % 32) (b % 256) ∧
        s1.block_ack = false ∧ s1.intelligent = s.intelligent := by
    intro qp pos h1 h2
    rw [if_pos (by omega), h1, h2]
    exact ⟨_, rfl, rfl, rfl, rfl, hb, rfl⟩
  apply key
  · split_ifs <;> omega
  · split_ifs <;> omega

/-- `QueueByte` in the claimed mode acts on the queued bytes as `fifoPut`. -/
theorem QueueByte_fifo (s : Mpu) (b : Nat) (hu : s.queue_used ≤ 32) (hp : s.queue_pos ≤ 32)
    (hb : s.block_ack = false) :
    ∃ s1, QueueByte s b = .ok s1 ∧ s1.queue_used ≤ 32 ∧ s1.queue_pos ≤ 32 ∧
      s1.block_ack = false ∧ s1.intelligent = s.intelligent ∧
      queued s1 = fifoPut (queued s) b := by
  by_cases hfull : s.queue_used < 32
  · obtain ⟨s1, e, a1, a2, a3, a4, a5⟩ := QueueByte_put s b hfull hp hb
    refine ⟨s1, e, by omega, by omega, a4, a5, ?_⟩
    unfold fifoPut
    rw [if_pos (by rw [queued_length]; exact hfull)]
    unfold queued
    rw [a1, a2, a3, List.range_succ, List.map_append]
    congr 1
    · apply List.map_congr_left
      intro i hi
      rw [List.mem_range] at hi
      simp only [MPU401_QUEUE]
      rw [setSlot_other]
      · congr 1
        omega
      · omega
    · simp only [List.map_cons, List.map_nil, MPU401_QUEUE]
      congr 1
      have e : (s.queue_pos % 32 + s.queue_used) % 32 = (s.queue_pos + s.queue_used) % 32 := by
        omega
      rw [e, setSlot_same]
  · have e : QueueByte s b = .ok s := by
      unfold QueueByte
      rw [if_neg (by rw [hb]; decide), if_neg (by simpa [MPU401_QUEUE] using hfull)]
    refine ⟨s, e, hu, hp, hb, rfl, ?_⟩
    unfold fifoPut
    rw [if_neg (by rw [queued_length]; exact hfull)]

/-- `MPU401_ReadData` outside intelligent mode acts on the queued bytes as `fifoGet`;
on an empty queue it returns `MSG_MPU_ACK` and the state is unchanged. -/
theorem ReadData_fifo (s : Mpu) (hu : s.queue_used ≤ 32) (hp : s.queue_pos ≤ 32)
    (hi : s.intelligent = false) :
    ∃ ret s1, MPU401_ReadData [] s = .ok (ret, s1) ∧ s1.queue_used ≤ 32 ∧
      s1.queue_pos ≤ 32 ∧ s1.block_ack = s.block_ack ∧ s1.intelligent = false ∧
      (ret, queued s1) = fifoGet (queued s) ∧
      (s.queue_used = 0 → ret = 0xfe ∧ s1 = s) := by
  obtain ⟨ret, s1, a1, a2, a3, e, _, a4, a5, a6, a7⟩ := ReadData_read [] s hu hp
  refine ⟨ret, s1, e hi, a1, a2, a5, by rw [a3, hi], ?_, a6⟩
  by_cases h0 : s.queue_used = 0
  · obtain ⟨r1, r2⟩ := a6 h0
    rw [r1, r2]
    unfold queued
    rw [h0]
    rfl
  · obtain ⟨r1, r2, r3⟩ := a7 h0
    obtain ⟨n, hn⟩ : ∃ n, s.queue_used = n + 1 := ⟨s.queue_used - 1, by omega⟩
    unfold queued
    rw [r1, r2, r3, a4, hn, List.range_succ_eq_map, List.map_cons, List.map_map]
    simp only [fifoGet, MPU401_QUEUE, Nat.add_zero, Nat.add_sub_cancel]
    congr 1
    apply List.map_congr_left
    intro i _
    simp only [Function.comp_apply, Nat.succ_eq_add_one]
    congr 1
    omega

/-- A sequence of calls on the code and on the first-in-first-out list, from any state in
the claimed mode within the bounds. -/
theorem runFifo_refines (calls : List FifoCall) : ∀ (s : Mpu), s.queue_used ≤ 32 →
    s.queue_pos ≤ 32 → s.block_ack = false → s.intelligent = false →
    ∃ out s1, runFifoCode calls s = some (out, s1) ∧
      (out, queued s1) = runFifoSpec calls (queued s) := by
  induction calls with
  | nil => exact fun s _ _ _ _ => ⟨[], s, rfl, rfl⟩
  | cons c cs ih =>
    intro s hu hp hb hi
    cases c with
    | put b =>
      obtain ⟨s1, e, a1, a2, a3, a4, a5⟩ := QueueByte_fifo s b hu hp hb
      obtain ⟨out, s2, e2, r⟩ := ih s1 a1 a2 a3 (by rw [a4, hi])
      refine ⟨out, s2, ?_, ?_⟩
      · simp only [runFifoCode, e]
        exact e2
      · simp only [runFifoSpec]
        rw [← a5]
        exact r
    | get =>
      obtain ⟨ret, s1, e, a1, a2, a3, a4, a5, _⟩ := ReadData_fifo s hu hp hi
      obtain ⟨out, s2, e2, r⟩ := ih s1 a1 a2 (by rw [a3, hb]) a4
      refine ⟨ret :: out, s2, ?_, ?_⟩
      · simp only [runFifoCode, e, e2]
      · simp only [runFifoSpec]
        rw [← a5]
        simp only []
        rw [← r]

/-- C40: the output queue of the MPU-401 is a bounded first-in-first-out list.  Outside
intelligent mode and with `block_ack` clear, every sequence of `QueueByte` and
`MPU401_ReadData` calls from an empty queue returns, and the bytes read and the bytes
left in the queue are those of a first-in-first-out list of capacity 32 under the same
calls: `QueueByte` appends its byte unless 32 are queued, `MPU401_ReadData` removes and
returns the oldest byte, and on an empty queue it returns 0xFE and leaves the state as it
is. -/
theorem queue_is_fifo (s : Mpu) (calls : List FifoCall) (hi : s.intelligent = false)
    (hb : s.block_ack = false) (hu : s.queue_used = 0) (hp : s.queue_pos ≤ 32) :
    (∃ out s1, runFifoCode calls s = some (out, s1) ∧
      (out, queued s1) = runFifoSpec calls []) ∧
    (∀ t : Mpu, t.intelligent = false → t.queue_used = 0 →
      MPU401_ReadData [] t = .ok (0xfe, t)) := by
  constructor
  · obtain ⟨out, s1, e, r⟩ := runFifo_refines calls s (by omega) hp hb hi
    refine ⟨out, s1, e, ?_⟩
    rw [r]
    unfold queued
    rw [hu]
    rfl
  · intro t h1 h2
    unfold MPU401_ReadData
    simp [h1, h2, MSG_MPU_ACK]

/-- C40 on a sequence that fills the queue: 32 bytes 5 queued, a byte 6 that is dropped,
a read, which returns the oldest byte 5, and a byte 7 queued behind the 31 left. -/
theorem queue_is_fifo_witness :
    ∃ out s1, runFifoCode (List.replicate 32 (FifoCall.put 5) ++
        [FifoCall.put 6, FifoCall.get, FifoCall.put 7])
        ⟨false, fun _ => 0, 0, 0, false⟩ = some (out, s1) ∧
      (out, queued s1) = ([5], List.replicate 31 5 ++ [7]) := by
  have e : runFifoSpec (List.replicate 32 (FifoCall.put 5) ++
      [FifoCall.put 6, FifoCall.get, FifoCall.put 7]) []
      = ([5], List.replicate 31 5 ++ [7]) := by
    simp [List.replicate, runFifoSpec, fifoPut, fifoGet]
  have h := (queue_is_fifo ⟨false, fun _ => 0, 0, 0, false⟩
    (List.replicate 32 (FifoCall.put 5) ++
      [FifoCall.put 6, FifoCall.get, FifoCall.put 7]) rfl rfl rfl (by decide)).1
  rw [e] at h
  exact h

/-- For -0 in the top register `FPU_FBST` writes 0x80 into byte 9 and zero digits: the
sign byte follows the sign bit of the register, which -0 has set without being below
zero. -/
theorem FPU_FBST_negative_zero :
    binary64.sval 0x8000000000000000 = 0 ∧
    mem_readb (FPU_FBST (withRegs 0x8000000000000000) (fun _ => 0) 100) 109 = 0x80 ∧
    mem_readb (FPU_FBST (withRegs 0x8000000000000000) (fun _ => 0) 100) 100 = 0 := by
  decide

namespace Fmt

/-- The magnitude of a finite pattern rounds to the pattern itself: with a sign bit in
front the value is the magnitude with that sign. -/
theorem withSign_roundMag_mag (f : Fmt) (hf : f.Valid) (z sg : Nat) (hz : f.isFinite z)
    (hsg : sg ≤ 1) :
    f.isFinite (f.withSign sg (f.roundMag (f.mag z) 1)) ∧
    f.sval (f.withSign sg (f.roundMag (f.mag z) 1))
      = if sg = 1 then -(f.mag z : Int) else (f.mag z : Int) := by
  have hr := f.roundMag_mag hf z hz
  have hE := f.expField_lt_emax z hz
  have hF := f.fracField_lt z
  have hlt : f.roundMag (f.mag z) 1 < f.emax * 2 ^ f.p := by
    rw [hr]
    calc f.expField z * 2 ^ f.p + f.fracField z < f.expField z * 2 ^ f.p + 2 ^ f.p := by omega
      _ = (f.expField z + 1) * 2 ^ f.p := by ring
      _ ≤ f.emax * 2 ^ f.p := Nat.mul_le_mul_right _ hE
  have hlt2 : f.roundMag (f.mag z) 1 < 2 ^ (f.p + f.w) := lt_trans hlt (f.emax_mul_lt)
  refine ⟨(f.withSign_isFinite sg _ hsg hlt2).mpr (f.finite_of_lt _ hlt).1, ?_⟩
  rw [f.withSign_sval sg _ hsg hlt2, hr, f.mag_parts_self]

/-- The exact value of the format's rational: `sval` is `toRat` in units of `2^-scale`. -/
theorem toRat_mul_scale (f : Fmt) (x : Nat) :
    f.toRat x * 2 ^ f.scale = (f.sval x : ℚ) := by
  unfold toRat
  have : (2 : ℚ) ^ f.scale ≠ 0 := by positivity
  field_simp

/-- A sum that the format holds is the result of the addition. -/
theorem add_exact (f : Fmt) (hf : f.Valid) (a b z : Nat) (ha : f.isFinite a)
    (hb : f.isFinite b) (hz : f.isFinite z) (h : f.toRat z = f.toRat a + f.toRat b) :
    f.isFinite (f.add a b) ∧ f.toRat (f.add a b) = f.toRat a + f.toRat b := by
  have hS : (2 : ℚ) ^ f.scale ≠ 0 := by positivity
  have hi : f.sval z = f.sval a + f.sval b := by
    have : (f.sval z : ℚ) = (f.sval a : ℚ) + (f.sval b : ℚ) := by
      rw [← toRat_mul_scale, ← toRat_mul_scale, ← toRat_mul_scale, h]
      ring
    exact_mod_cast this
  obtain ⟨M, j, hm, hM, hj⟩ := f.mag_dyadic hf z hz
  rw [f.add_finite a b ha hb]
  have he := f.ofSigned_exact hf (if f.signBit a = 1 ∧ f.signBit b = 1 then 1 else 0)
    (by split_ifs <;> omega) (f.sval a + f.sval b) M j
    (by rw [← hi, f.sval_natAbs, hm]) hM hj
  refine ⟨he.1, ?_⟩
  unfold toRat
  rw [he.2.2.2]
  push_cast
  ring

/-- A difference that the format holds is the result of the subtraction. -/
theorem sub_exact (f : Fmt) (hf : f.Valid) (a b z : Nat) (ha : f.isFinite a)
    (hb : f.isFinite b) (hz : f.isFinite z) (h : f.toRat z = f.toRat a - f.toRat b) :
    f.isFinite (f.sub a b) ∧ f.toRat (f.sub a b) = f.toRat a - f.toRat b := by
  have hS : (2 : ℚ) ^ f.scale ≠ 0 := by positivity
  have hi : f.sval z = f.sval a - f.sval b := by
    have : (f.sval z : ℚ) = (f.sval a : ℚ) - (f.sval b : ℚ) := by
      rw [← toRat_mul_scale, ← toRat_mul_scale, ← toRat_mul_scale, h]
      ring
    exact_mod_cast this
  obtain ⟨M, j, hm, hM, hj⟩ := f.mag_dyadic hf z hz
  rw [f.sub_finite a b ha hb]
  have he := f.ofSigned_exact hf (if f.signBit a = 1 ∧ f.signBit b = 0 then 1 else 0)
    (by split_ifs <;> omega) (f.sval a - f.sval b) M j
    (by rw [← hi, f.sval_natAbs, hm]) hM hj
  refine ⟨he.1, ?_⟩
  unfold toRat
  rw [he.2.2.2]
  push_cast
  ring

/-- The sign bit is 0 or 1 and fixes the sign of the value. -/
theorem sval_cases (f : Fmt) (x : Nat) :
    (f.signBit x = 0 ∧ f.sval x = (f.mag x : Int)) ∨
    (f.signBit x = 1 ∧ f.sval x = -(f.mag x : Int)) := by
  have h := f.signBit_le x
  obtain ⟨h1, h0⟩ := f.sval_sign x
  rcases Nat.lt_or_ge (f.signBit x) 1 with h2 | h2
  · exact Or.inl ⟨by omega, h0 (by omega)⟩
  · exact Or.inr ⟨by omega, h1 (by omega)⟩

/-- A product that the format holds is the result of the multiplication. -/
theorem mul_exact (f : Fmt) (hf : f.Valid) (a b z : Nat) (ha : f.isFinite a)
    (hb : f.isFinite b) (hz : f.isFinite z) (h : f.toRat z = f.toRat a * f.toRat b) :
    f.isFinite (f.mul a b) ∧ f.toRat (f.mul a b) = f.toRat a * f.toRat b := by
  have hS : (2 : ℚ) ^ f.scale ≠ 0 := by positivity
  have hi : f.sval z * ((2 ^ f.scale : Nat) : Int) = f.sval a * f.sval b := by
    have : (f.sval z : ℚ) * 2 ^ f.scale = (f.sval a : ℚ) * (f.sval b : ℚ) := by
      rw [← toRat_mul_scale, ← toRat_mul_scale, ← toRat_mul_scale, h]
      ring
    exact_mod_cast this
  have hm : f.mag z * 2 ^ f.scale = f.mag a * f.mag b := by
    have := congrArg Int.natAbs hi
    rw [Int.natAbs_mul, Int.natAbs_mul, f.sval_natAbs, f.sval_natAbs, f.sval_natAbs,
      Int.natAbs_ofNat] at this
    exact this
  have hres : f.mul a b = f.withSign ((f.signBit a + f.signBit b) % 2)
      (f.roundMag (f.mag z) 1) := by
    unfold mul
    rw [if_neg (f.not_nan_of_finite a ha), if_neg (f.not_nan_of_finite b hb),
      if_neg (by
        rintro (⟨h1, _⟩ | ⟨_, h1⟩)
        · exact h1 ha
        · exact h1 hb),
      if_neg (by
        rintro (h1 | h1)
        · exact h1 ha
        · exact h1 hb),
      Nat.one_shiftLeft, ← hm, f.roundMag_unit _ _ (by positivity)]
  obtain ⟨r1, r2⟩ := f.withSign_roundMag_mag hf z ((f.signBit a + f.signBit b) % 2) hz
    (by omega)
  rw [hres]
  refine ⟨r1, ?_⟩
  have hmi : (f.mag z : Int) * ((2 ^ f.scale : Nat) : Int) = (f.mag a : Int) * (f.mag b : Int) := by
    exact_mod_cast hm
  have key : f.sval (f.withSign ((f.signBit a + f.signBit b) % 2) (f.roundMag (f.mag z) 1))
      * ((2 ^ f.scale : Nat) : Int) = f.sval a * f.sval b := by
    rw [r2]
    rcases f.sval_cases a with ⟨sa, va⟩ | ⟨sa, va⟩ <;>
      rcases f.sval_cases b with ⟨sb, vb⟩ | ⟨sb, vb⟩ <;>
      · rw [sa, sb, va, vb]
        norm_num
        linarith
  have keyq : (f.sval (f.withSign ((f.signBit a + f.signBit b) % 2)
      (f.roundMag (f.mag z) 1)) : ℚ) * 2 ^ f.scale = (f.sval a : ℚ) * (f.sval b : ℚ) := by
    exact_mod_cast key
  unfold toRat
  field_simp
  linear_combination (2 : ℚ) ^ f.scale * keyq

/-- A quotient that the format holds is the result of the division. -/
theorem div_exact (f : Fmt) (hf : f.Valid) (a b z : Nat) (ha : f.isFinite a)
    (hb : f.isFinite b) (hz : f.isFinite z) (hb0 : f.toRat b ≠ 0)
    (h : f.toRat z = f.toRat a / f.toRat b) :
    f.isFinite (f.div a b) ∧ f.toRat (f.div a b) = f.toRat a / f.toRat b := by
  have hS : (2 : ℚ) ^ f.scale ≠ 0 := by positivity
  have hsb : (f.sval b : ℚ) ≠ 0 := by
    intro h0
    apply hb0
    unfold toRat
    rw [h0, zero_div]
  have hi : f.sval z * f.sval b = f.sval a * ((2 ^ f.scale : Nat) : Int) := by
    have : (f.sval z : ℚ) * (f.sval b : ℚ) = (f.sval a : ℚ) * 2 ^ f.scale := by
      rw [← toRat_mul_scale, ← toRat_mul_scale, ← toRat_mul_scale, h]
      field_simp
      ring
    exact_mod_cast this
  have hm : f.mag z * f.mag b = f.mag a * 2 ^ f.scale := by
    have := congrArg Int.natAbs hi
    rw [Int.natAbs_mul, Int.natAbs_mul, f.sval_natAbs, f.sval_natAbs, f.sval_natAbs,
      Int.natAbs_ofNat] at this
    exact this
  have hmb : f.mag b ≠ 0 := by
    intro h0
    apply hsb
    have := f.sval_natAbs b
    rw [h0, Int.natAbs_eq_zero] at this
    rw [this]
    simp
  have hres : f.div a b = f.withSign ((f.signBit a + f.signBit b) % 2)
      (f.roundMag (f.mag z) 1) := by
    unfold div
    rw [if_neg (f.not_nan_of_finite a ha), if_neg (f.not_nan_of_finite b hb),
      if_neg (by
        rintro (⟨h1, _⟩ | ⟨_, h1⟩)
        · exact h1 ha
        · exact hmb h1),
      if_neg (not_not.mpr ha), if_neg (not_not.mpr hb), if_neg hmb,
      Nat.shiftLeft_eq, ← hm, f.roundMag_unit _ _ (Nat.pos_of_ne_zero hmb)]
  obtain ⟨r1, r2⟩ := f.withSign_roundMag_mag hf z ((f.signBit a + f.signBit b) % 2) hz
    (by omega)
  rw [hres]
  refine ⟨r1, ?_⟩
  have hmi : (f.mag z : Int) * (f.mag b : Int) = (f.mag a : Int) * ((2 ^ f.scale : Nat) : Int) := by
    exact_mod_cast hm
  have key : f.sval (f.withSign ((f.signBit a + f.signBit b) % 2) (f.roundMag (f.mag z) 1))
      * f.sval b = f.sval a * ((2 ^ f.scale : Nat) : Int) := by
    rw [r2]
    rcases f.sval_cases a with ⟨sa, va⟩ | ⟨sa, va⟩ <;>
      rcases f.sval_cases b with ⟨sb, vb⟩ | ⟨sb, vb⟩ <;>
      · rw [sa, sb, va, vb]
        norm_num
        linarith
  have keyq : (f.sval (f.withSign ((f.signBit a + f.signBit b) % 2)
      (f.roundMag (f.mag z) 1)) : ℚ) * (f.sval b : ℚ) = (f.sval a : ℚ) * 2 ^ f.scale := by
    exact_mod_cast key
  unfold toRat
  field_simp
  linear_combination keyq

end Fmt

/-- The rational value of a pattern that holds an integer. -/
theorem toRat_of_holdsInt (f : Fmt) (x : Nat) (n : Int) (h : f.holdsInt x n) :
    f.toRat x = (n : ℚ) := by
  apply Fmt.toRat_of_sval
  rw [h.2, Nat.one_shiftLeft]

/-- C18: each of `FPU_FADD`, `FPU_FSUB`, `FPU_FSUBR`, `FPU_FMUL`, `FPU_FDIV`, `FPU_FDIVR`
with indices `(st, other)` writes `regs[st] op regs[other]` (direct forms) or
`regs[other] op regs[st]` (`FPU_FSUBR`, `FPU_FDIVR`) into `regs[st]` and leaves the status
word, the control word, top, every tag and every other register unchanged, for every
operand pair, a zero divisor included; `f` is the format of the build.  The operation is
that of the format: for finite operands, whenever the exact sum, difference, product or
quotient (divisor not zero) of the two values is a value `z` of the format, the register
written holds that value. -/
theorem FPU_arith_frame (f : Fmt) (s : FPU) (st other : Nat) :
    (FPU_FADD f s st other).regs st = f.add (s.regs st) (s.regs other) ∧
    (FPU_FSUB f s st other).regs st = f.sub (s.regs st) (s.regs other) ∧
    (FPU_FSUBR f s st other).regs st = f.sub (s.regs other) (s.regs st) ∧
    (FPU_FMUL f s st other).regs st = f.mul (s.regs st) (s.regs other) ∧
    (FPU_FDIV f s st other).regs st = f.div (s.regs st) (s.regs other) ∧
    (FPU_FDIVR f s st other).regs st = f.div (s.regs other) (s.regs st) ∧
    (∀ s1, s1 = FPU_FADD f s st other ∨ s1 = FPU_FSUB f s st other ∨
        s1 = FPU_FSUBR f s st other ∨ s1 = FPU_FMUL f s st other ∨
        s1 = FPU_FDIV f s st other ∨ s1 = FPU_FDIVR f s st other →
      s1.sw = s.sw ∧ s1.cw = s.cw ∧ s1.cw_mask_all = s.cw_mask_all ∧ s1.round = s.round ∧
      s1.top = s.top ∧ s1.tags = s.tags ∧ ∀ j, j ≠ st → s1.regs j = s.regs j) ∧
    (f.Valid → f.isFinite (s.regs st) → f.isFinite (s.regs other) →
      ∀ z, f.isFinite z →
        (f.toRat z = f.toRat (s.regs st) + f.toRat (s.regs other) →
          f.toRat ((FPU_FADD f s st other).regs st) = f.toRat z) ∧
        (f.toRat z = f.toRat (s.regs st) - f.toRat (s.regs other) →
          f.toRat ((FPU_FSUB f s st other).regs st) = f.toRat z) ∧
        (f.toRat z = f.toRat (s.regs other) - f.toRat (s.regs st) →
          f.toRat ((FPU_FSUBR f s st other).regs st) = f.toRat z) ∧
        (f.toRat z = f.toRat (s.regs st) * f.toRat (s.regs other) →
          f.toRat ((FPU_FMUL f s st other).regs st) = f.toRat z) ∧
        (f.toRat (s.regs other) ≠ 0 →
          f.toRat z = f.toRat (s.regs st) / f.toRat (s.regs other) →
          f.toRat ((FPU_FDIV f s st other).regs st) = f.toRat z) ∧
        (f.toRat (s.regs st) ≠ 0 →
          f.toRat z = f.toRat (s.regs other) / f.toRat (s.regs st) →
          f.toRat ((FPU_FDIVR f s st other).regs st) = f.toRat z)) := by
  have e1 : (FPU_FADD f s st other).regs st = f.add (s.regs st) (s.regs other) := by
    simp [FPU_FADD, setSlot]
  have e2 : (FPU_FSUB f s st other).regs st = f.sub (s.regs st) (s.regs other) := by
    simp [FPU_FSUB, setSlot]
  have e3 : (FPU_FSUBR f s st other).regs st = f.sub (s.regs other) (s.regs st) := by
    simp [FPU_FSUBR, setSlot]
  have e4 : (FPU_FMUL f s st other).regs st = f.mul (s.regs st) (s.regs other) := by
    simp [FPU_FMUL, setSlot]
  have e5 : (FPU_FDIV f s st other).regs st = f.div (s.regs st) (s.regs other) := by
    simp [FPU_FDIV, setSlot]
  have e6 : (FPU_FDIVR f s st other).regs st = f.div (s.regs other) (s.regs st) := by
    simp [FPU_FDIVR, setSlot]
  refine ⟨e1, e2, e3, e4, e5, e6, ?_, ?_⟩
  · intro s1 h
    have key : ∀ v : Nat, ∀ j, j ≠ st → setSlot s.regs st v j = s.regs j := by
      intro v j hj
      simp only [setSlot]
      rw [if_neg hj]
    rcases h with h | h | h | h | h | h <;> subst h <;>
      exact ⟨rfl, rfl, rfl, rfl, rfl, rfl, key _⟩
  · intro hf ha hb z hz
    refine ⟨?_, ?_, ?_, ?_, ?_, ?_⟩
    · intro h
      rw [e1, h]
      exact (f.add_exact hf _ _ z ha hb hz h).2
    · intro h
      rw [e2, h]
      exact (f.sub_exact hf _ _ z ha hb hz h).2
    · intro h
      rw [e3, h]
      exact (f.sub_exact hf _ _ z hb ha hz h).2
    · intro h
      rw [e4, h]
      exact (f.mul_exact hf _ _ z ha hb hz h).2
    · intro h0 h
      rw [e5, h]
      exact (f.div_exact hf _ _ z ha hb hz h0 h).2
    · intro h0 h
      rw [e6, h]
      exact (f.div_exact hf _ _ z hb ha hz h0 h).2

/-- C18 at operand pairs.  With 0.1 in `regs[0]` and 0.3 in `regs[1]` the six operations
write the `double` nearest to 0.4, -0.2, 0.2, 0.03, 1/3 and 3 (each inexact), and the
`float` nearest in the Reduced build; 1.0 / 0.0 is +infinity and 0.0 / 0.0 is a NaN; the
status word stays as it was; 6.0 * 3.0 is exactly 18. -/
theorem FPU_arith_frame_witness :
    (FPU_FADD binary64 (withPair 0x3FB999999999999A 0x3FD3333333333333) 0 1).regs 0
      = 0x3FD999999999999A ∧
    (FPU_FSUB binary64 (withPair 0x3FB999999999999A 0x3FD3333333333333) 0 1).regs 0
      = 0xBFC9999999999999 ∧
    (FPU_FSUBR binary64 (withPair 0x3FB999999999999A 0x3FD3333333333333) 0 1).regs 0
      = 0x3FC9999999999999 ∧
    (FPU_FMUL binary64 (withPair 0x3FB999999999999A 0x3FD3333333333333) 0 1).regs 0
      = 0x3F9EB851EB851EB8 ∧
    (FPU_FDIV binary64 (withPair 0x3FB999999999999A 0x3FD3333333333333) 0 1).regs 0
      = 0x3FD5555555555556 ∧
    (FPU_FDIVR binary64 (withPair 0x3FB999999999999A 0x3FD3333333333333) 0 1).regs 0
      = 0x4007FFFFFFFFFFFF ∧
    (FPU_FADD binary32 (withPair 0x3DCCCCCD 0x3E99999A) 0 1).regs 0 = 0x3ECCCCCD ∧
    (FPU_FSUB binary32 (withPair 0x3DCCCCCD 0x3E99999A) 0 1).regs 0 = 0xBE4CCCCE ∧
    (FPU_FSUBR binary32 (withPair 0x3DCCCCCD 0x3E99999A) 0 1).regs 0 = 0x3E4CCCCE ∧
    (FPU_FMUL binary32 (withPair 0x3DCCCCCD 0x3E99999A) 0 1).regs 0 = 0x3CF5C290 ∧
    (FPU_FDIV binary32 (withPair 0x3DCCCCCD 0x3E99999A) 0 1).regs 0 = 0x3EAAAAAA ∧
    (FPU_FDIVR binary32 (withPair 0x3DCCCCCD 0x3E99999A) 0 1).regs 0 = 0x40400000 ∧
    (FPU_FDIV binary64 (withPair 0x3FF0000000000000 0) 0 1).regs 0 = 0x7FF0000000000000 ∧
    (FPU_FDIV binary64 (withPair 0 0) 0 1).regs 0 = 0xFFF8000000000000 ∧
    (FPU_FDIV binary64 (withPair 0 0) 0 1).sw = (withPair 0 0).sw ∧
    binary64.toRat ((FPU_FMUL binary64 (withPair 0x4018000000000000 0x4008000000000000)
      0 1).regs 0) = 18 := by
  have h6 : binary64.toRat 0x4018000000000000 = ((6 : Int) : ℚ) :=
    toRat_of_holdsInt binary64 _ 6 (by decide)
  have h3 : binary64.toRat 0x4008000000000000 = ((3 : Int) : ℚ) :=
    toRat_of_holdsInt binary64 _ 3 (by decide)
  have h18 : binary64.toRat 0x4032000000000000 = ((18 : Int) : ℚ) :=
    toRat_of_holdsInt binary64 _ 18 (by decide)
  refine ⟨?_, ?_, ?_, ?_, ?_, ?_, ?_, ?_, ?_, ?_, ?_, ?_, ?_, ?_, ?_, ?_⟩
  · rw [(FPU_arith_frame binary64 _ 0 1).1]; decide
  · rw [(FPU_arith_frame binary64 _ 0 1).2.1]; decide
  · rw [(FPU_arith_frame binary64 _ 0 1).2.2.1]; decide
  · rw [(FPU_arith_frame binary64 _ 0 1).2.2.2.1]; decide
  · rw [(FPU_arith_frame binary64 _ 0 1).2.2.2.2.1]; decide
  · rw [(FPU_arith_frame binary64 _ 0 1).2.2.2.2.2.1]; decide
  · rw [(FPU_arith_frame binary32 _ 0 1).1]; decide
  · rw [(FPU_arith_frame binary32 _ 0 1).2.1]; decide
  · rw [(FPU_arith_frame binary32 _ 0 1).2.2.1]; decide
  · rw [(FPU_arith_frame binary32 _ 0 1).2.2.2.1]; decide
  · rw [(FPU_arith_frame binary32 _ 0 1).2.2.2.2.1]; decide
  · rw [(FPU_arith_frame binary32 _ 0 1).2.2.2.2.2.1]; decide
  · rw [(FPU_arith_frame binary64 _ 0 1).2.2.2.2.1]; decide
  · rw [(FPU_arith_frame binary64 _ 0 1).2.2.2.2.1]; decide
  · exact ((FPU_arith_frame binary64 (withPair 0 0) 0 1).2.2.2.2.2.2.1 _
      (Or.inr (Or.inr (Or.inr (Or.inr (Or.inl rfl)))))).1
  · have h := ((FPU_arith_frame binary64
      (withPair 0x4018000000000000 0x4008000000000000) 0 1).2.2.2.2.2.2.2
      binary64_valid (by decide) (by decide) 0x4032000000000000 (by decide)).2.2.2.1
      (by
        show binary64.toRat 0x4032000000000000
          = binary64.toRat 0x4018000000000000 * binary64.toRat 0x4008000000000000
        rw [h6, h3, h18]
        norm_num)
    rw [h, h18]
    norm_num

/-- C26 fails on a Zero tag: in the sample context (top 3) slot 0 is tagged Zero;
`FPU_FSTENV` under 16-bit addressing writes the tag summary 0, in which Zero is collapsed
with Valid, and `FPU_FLDENV` on that memory tags slot 0 Valid. -/
theorem FPU_FSTENV_FLDENV_zero_tag :
    sampleState.top = 3 ∧ sampleState.tags 0 = .TAG_Zero ∧
    mem_readw (FPU_FSTENV false sampleState (fun _ => 0) 100).2 104 = 0 ∧
    (FPU_FLDENV false (FPU_FSTENV false sampleState (fun _ => 0) 100).1
      (FPU_FSTENV false sampleState (fun _ => 0) 100).2 100).tags 0 = .TAG_Valid ∧
    (FPU_FLDENV true (FPU_FSTENV true sampleState (fun _ => 0) 100).1
      (FPU_FSTENV true sampleState (fun _ => 0) 100).2 100).tags 0 = .TAG_Valid := by
  decide

/-- C25 fails on a Zero tag: after `FPU_FLDZ` on the empty stack (top 7, slot 7 holds +0
and is tagged Zero, every register finite), `FPU_FSAVE` writes the tag summary 0x3FFF, in
which slot 7 has the code of Valid, and `FPU_FRSTOR` on that memory tags slot 7 Valid, in
either build, while the register comes back as +0. -/
theorem FPU_FSAVE_FRSTOR_zero_tag :
    (FPU_FLDZ .EXIT emptyStack).toOption.map (fun s => (s.top, s.tags 7, s.regs 7))
      = some (zeroLoaded.top, zeroLoaded.tags 7, zeroLoaded.regs 7) ∧
    zeroLoaded.top = 7 ∧ zeroLoaded.tags 7 = .TAG_Zero ∧
    (∀ i, i < 8 → zeroLoaded.regs i = 0) ∧
    mem_readw (FPU_FSAVE FPU_ST80 false zeroLoaded (fun _ => 0) 100).2 104 = 0x3FFF ∧
    (FPU_FRSTOR FPU_FLD80 false (FPU_FSAVE FPU_ST80 false zeroLoaded (fun _ => 0) 100).1
      (FPU_FSAVE FPU_ST80 false zeroLoaded (fun _ => 0) 100).2 100).tags 7 = .TAG_Valid ∧
    (FPU_FRSTOR FPU_FLD80 false (FPU_FSAVE FPU_ST80 false zeroLoaded (fun _ => 0) 100).1
      (FPU_FSAVE FPU_ST80 false zeroLoaded (fun _ => 0) 100).2 100).regs 7 = 0 ∧
    (FPU_FRSTOR FPU_FLD80_Reduced false
      (FPU_FSAVE FPU_ST80_Reduced false zeroLoaded (fun _ => 0) 100).1
      (FPU_FSAVE FPU_ST80_Reduced false zeroLoaded (fun _ => 0) 100).2 100).tags 7
        = .TAG_Valid := by
  decide

/-- The conversion to `Bit64s` of a quotient of integers is the truncated quotient. -/
theorem castBit64s_tdiv (v : Int) (S : Nat) (hS : 0 < S)
    (h : |(v : ℚ) / (S : ℚ)| < 9223372036854775808) :
    castBit64s ((v : ℚ) / (S : ℚ)) = Int.tdiv v (S : Int) := by
  obtain ⟨c1, c2, _⟩ := castBit64s_trunc _ h
  have hSq : (0 : ℚ) < (S : ℚ) := by exact_mod_cast hS
  rcases le_or_lt 0 v with hv | hv
  · have h0 : (0 : ℚ) ≤ (v : ℚ) / (S : ℚ) := div_nonneg (by exact_mod_cast hv) hSq.le
    rw [c1 h0, Rat.floor_intCast_div_natCast, Int.tdiv_eq_ediv hv (Int.natCast_nonneg S)]
  · have h0 : (v : ℚ) / (S : ℚ) < 0 := div_neg_of_neg_of_pos (by exact_mod_cast hv) hSq
    rw [c2 h0]
    have e : (v : ℚ) / (S : ℚ) = -(((-v : Int) : ℚ) / (S : ℚ)) := by
      push_cast
      ring
    rw [e, Int.ceil_neg, Rat.floor_intCast_div_natCast]
    have hnv : 0 ≤ -v := by omega
    have : Int.tdiv v (S : Int) = -Int.tdiv (-v) (S : Int) := by
      rw [Int.neg_tdiv, neg_neg]
    rw [this, Int.tdiv_eq_ediv hnv (Int.natCast_nonneg S)]

/-- The quotient of `FPU_FPREM1` over the rationals is the integer nearest to `a/b`, the
even one of two: the remainder is `a - q*b` for the integer `q` with these
properties. -/
theorem FPREM1_exact_eq (a b : ℚ) (q : Int)
    (hq : |a / b| < 9223372036854775808) (h1 : -9223372036854775808 ≤ q)
    (h2 : q < 9223372036854775808) (hn : |a / b - (q : ℚ)| ≤ 1 / 2)
    (he : |a / b - (q : ℚ)| = 1 / 2 → Even q) :
    FPREM1_exact a b = a - (q : ℚ) * b := by
  obtain ⟨g1, g2⟩ := abs_lt.mp hq
  have f1 := Int.floor_le (a / b)
  have f2 := Int.lt_floor_add_one (a / b)
  obtain ⟨n1, n2⟩ := abs_le.mp hn
  have r1 : (-9223372036854775808 : Int) ≤ ⌊a / b⌋ := by
    rw [Int.le_floor]
    push_cast
    linarith
  have r2 : ⌊a / b⌋ < 9223372036854775808 := Int.floor_lt.mpr (by exact_mod_cast g2)
  unfold FPREM1_exact
  simp only []
  generalize hqd : a / b = t at *
  have key : ∀ n : Int, n = q → a - ((n : Int) : ℚ) * b = a - (q : ℚ) * b := by
    intro n hn
    rw [hn]
  have e1 : ((⌊t⌋ : Int) : ℚ) + 1 = ((⌊t⌋ + 1 : Int) : ℚ) := by push_cast; rfl
  split_ifs with c1 c2 c3
  · have hq1 : q = ⌊t⌋ + 1 := by
      have u1 : ((⌊t⌋ : Int) : ℚ) < (q : ℚ) := by linarith
      have u2 : (q : ℚ) < ((⌊t⌋ + 2 : Int) : ℚ) := by push_cast; linarith
      have u1' : ⌊t⌋ < q := by exact_mod_cast u1
      have u2' : q < ⌊t⌋ + 2 := by exact_mod_cast u2
      omega
    rw [e1, castBit64s_int _ (by omega) (by omega)]
    exact key _ hq1.symm
  · have hq1 : q = ⌊t⌋ := by
      have u1 : ((⌊t⌋ - 1 : Int) : ℚ) < (q : ℚ) := by push_cast; linarith
      have u2 : (q : ℚ) < ((⌊t⌋ + 1 : Int) : ℚ) := by push_cast; linarith
      have u1' : ⌊t⌋ - 1 < q := by exact_mod_cast u1
      have u2' : q < ⌊t⌋ + 1 := by exact_mod_cast u2
      omega
    rw [castBit64s_int _ r1 r2]
    exact key _ hq1.symm
  · push_neg at c1 c2
    have ht : t - ((⌊t⌋ : Int) : ℚ) = 1 / 2 := le_antisymm c1 c2
    rw [castBit64s_int _ r1 r2] at c3
    have hcases : q = ⌊t⌋ ∨ q = ⌊t⌋ + 1 := by
      have u1 : ((⌊t⌋ - 1 : Int) : ℚ) < (q : ℚ) := by push_cast; linarith
      have u2 : (q : ℚ) < ((⌊t⌋ + 2 : Int) : ℚ) := by push_cast; linarith
      have u1' : ⌊t⌋ - 1 < q := by exact_mod_cast u1
      have u2' : q < ⌊t⌋ + 2 := by exact_mod_cast u2
      omega
    have hq1 : q = ⌊t⌋ + 1 := by
      rcases hcases with h | h
      · exfalso
        have hev : Even q := he (by
          rw [h, ht]
          norm_num)
        rw [h] at hev
        rw [Int.even_iff] at hev
        omega
      · exact h
    rw [e1, castBit64s_int _ (by omega) (by omega)]
    exact key _ hq1.symm
  · push_neg at c1 c2 c3
    have ht : t - ((⌊t⌋ : Int) : ℚ) = 1 / 2 := le_antisymm c1 c2
    rw [castBit64s_int _ r1 r2] at c3
    have hcases : q = ⌊t⌋ ∨ q = ⌊t⌋ + 1 := by
      have u1 : ((⌊t⌋ - 1 : Int) : ℚ) < (q : ℚ) := by push_cast; linarith
      have u2 : (q : ℚ) < ((⌊t⌋ + 2 : Int) : ℚ) := by push_cast; linarith
      have u1' : ⌊t⌋ - 1 < q := by exact_mod_cast u1
      have u2' : q < ⌊t⌋ + 2 := by exact_mod_cast u2
      omega
    have hq1 : q = ⌊t⌋ := by
      rcases hcases with h | h
      · exact h
      · exfalso
        have hev : Even q := he (by
          rw [h, abs_sub_comm]
          push_cast
          have : ((⌊t⌋ : Int) : ℚ) + 1 - t = 1 / 2 := by linarith
          rw [this]
          norm_num)
        rw [h] at hev
        rw [Int.even_iff] at hev
        omega
    rw [castBit64s_int _ r1 r2]
    exact key _ hq1.symm

/-- The conversion to `Bit64s` gives a value of the type. -/
theorem castBit64s_range (x : ℚ) :
    -9223372036854775808 ≤ castBit64s x ∧ castBit64s x < 9223372036854775808 := by
  unfold castBit64s
  simp only []
  by_cases h : -9223372036854775808 ≤ (if 0 ≤ x then ⌊x⌋ else ⌈x⌉) ∧
      (if 0 ≤ x then ⌊x⌋ else ⌈x⌉) < 9223372036854775808
  · rw [if_pos h]
    exact h
  · rw [if_neg h]
    constructor <;> norm_num

/-- The top register after `FPU_FPREM` when the `double` quotient is finite and its
truncation `q` fits `Bit64s`: the `double` expression `a - q*b`, with `q` converted
exactly. -/
theorem FPU_FPREM_top (s : FPU) (q : Int)
    (hfin : binary64.isFinite (binary64.div (s.regs s.top) (s.regs (STV s 1))))
    (hq : q = Int.tdiv (binary64.sval (binary64.div (s.regs s.top) (s.regs (STV s 1))))
      ((1 <<< binary64.scale : Nat) : Int))
    (h1 : -9223372036854775808 ≤ q) (h2 : q < 9223372036854775808) :
    (FPU_FPREM s).regs s.top
      = binary64.sub (s.regs s.top) (binary64.mul (binary64.ofInt q) (s.regs (STV s 1))) ∧
    binary64.holdsInt (binary64.ofInt q) q := by
  have henc : binary64.toSInt 64 (binary64.div (s.regs s.top) (s.regs (STV s 1)))
      = encodeInt 64 q := by
    rw [toSInt_eq_encodeInt binary64 64 (by norm_num) _ hfin, hq]
  have hsig : signedOf 64 (encodeInt 64 q) = q :=
    signedOf_encodeInt 64 (by norm_num) q (by simpa using h1) (by simpa using h2)
  have hrep : binary64.holdsInt (binary64.ofInt q) q := by
    rw [hq]
    exact ofInt_trunc binary64 binary64_valid _ hfin
  have ht := prem_fields s
    (binary64.sub (s.regs s.top) (binary64.mul (binary64.ofInt q) (s.regs (STV s 1))))
    q h1 h2 (FPU_FPREM s) (by unfold FPU_FPREM; simp only [henc, hsig])
  exact ⟨ht.1, hrep⟩

/-- The top register after `FPU_FPREM1` when the `double` quotient is finite and its
rounding `q1` to the nearest integer fits `Bit64s`. -/
theorem FPU_FPREM1_top (s : FPU) (q1 : Int)
    (hfin : binary64.isFinite (binary64.div (s.regs s.top) (s.regs (STV s 1))))
    (hq : q1 = roundInt .ROUND_Nearest
      (binary64.sval (binary64.div (s.regs s.top) (s.regs (STV s 1)))) binary64.scale)
    (h1 : -9223372036854775808 ≤ q1) (h2 : q1 < 9223372036854775808) :
    (FPU_FPREM1 s).regs s.top
      = binary64.sub (s.regs s.top) (binary64.mul (binary64.ofInt q1) (s.regs (STV s 1))) ∧
    binary64.holdsInt (binary64.ofInt q1) q1 := by
  obtain ⟨⟨n1, _, n3⟩, _⟩ := round_modes binary64 binary64_valid 64 (by decide)
    (binary64.div (s.regs s.top) (s.regs (STV s 1))) hfin
  have htd : Int.tdiv (binary64.sval (binary64.nearest 64
        (binary64.div (s.regs s.top) (s.regs (STV s 1)))))
      ((1 <<< binary64.scale : Nat) : Int) = q1 := by
    rw [n3, tdiv_integral, hq]
  have henc : binary64.toSInt 64 (binary64.nearest 64
        (binary64.div (s.regs s.top) (s.regs (STV s 1)))) = encodeInt 64 q1 := by
    rw [toSInt_eq_encodeInt binary64 64 (by norm_num) _ n1, htd]
  have hsig : signedOf 64 (encodeInt 64 q1) = q1 :=
    signedOf_encodeInt 64 (by norm_num) q1 (by simpa using h1) (by simpa using h2)
  have hrep : binary64.holdsInt (binary64.ofInt q1) q1 := by
    have := ofInt_trunc binary64 binary64_valid _ n1
    rwa [htd] at this
  have ht := prem_fields s
    (binary64.sub (s.regs s.top) (binary64.mul (binary64.ofInt q1) (s.regs (STV s 1))))
    q1 h1 h2 (FPU_FPREM1 s) (by unfold FPU_FPREM1; simp only [henc, hsig])
  exact ⟨ht.1, hrep⟩

/-- The `double` expression `a - q*b` has the exact value when the product and the
difference are values of the format. -/
theorem sub_mul_exact (x y : Nat) (q : Int) (hx : binary64.isFinite x)
    (hy : binary64.isFinite y) (hrep : binary64.holdsInt (binary64.ofInt q) q)
    (hp : ∃ z, binary64.isFinite z ∧ binary64.toRat z = (q : ℚ) * binary64.toRat y)
    (hs : ∃ z, binary64.isFinite z ∧
      binary64.toRat z = binary64.toRat x - (q : ℚ) * binary64.toRat y) :
    binary64.toRat (binary64.sub x (binary64.mul (binary64.ofInt q) y))
      = binary64.toRat x - (q : ℚ) * binary64.toRat y := by
  obtain ⟨z1, hz1, e1⟩ := hp
  obtain ⟨z2, hz2, e2⟩ := hs
  have hqv : binary64.toRat (binary64.ofInt q) = (q : ℚ) := toRat_of_holdsInt _ _ _ hrep
  obtain ⟨m1, m2⟩ := binary64.mul_exact binary64_valid (binary64.ofInt q) y z1 hrep.1 hy hz1
    (by rw [hqv, e1])
  rw [hqv] at m2
  obtain ⟨_, m4⟩ := binary64.sub_exact binary64_valid x _ z2 hx m1 hz2 (by rw [m2, e2])
  rw [m4, m2]

namespace Fmt

/-- The quotient rounded to nearest is within half a divisor of the dividend, and is the
floor of the quotient or one more. -/
theorem rneDiv_err (a b : Nat) (hb : 0 < b) :
    2 * (rneDiv a b * b) ≤ 2 * a + b ∧ 2 * a ≤ 2 * (rneDiv a b * b) + b ∧
    a / b ≤ rneDiv a b ∧ rneDiv a b ≤ a / b + 1 := by
  have h1 := Nat.div_add_mod a b
  have h2 := Nat.mod_lt a hb
  have h3 : (a / b + 1) * b = b * (a / b) + b := by ring
  have h4 : a / b * b = b * (a / b) := by ring
  unfold rneDiv
  split_ifs with h
  · rw [h3]
    refine ⟨?_, ?_, ?_, ?_⟩ <;> omega
  · rw [h4]
    refine ⟨?_, ?_, ?_, ?_⟩ <;> omega

/-- The magnitude of a rounded quotient `N / d`: with `k` the number of low bits that do
not fit the significand, it is the quotient by `d * 2^k` rounded to nearest, times
`2^k`. -/
theorem roundMag_general (f : Fmt) (N d : Nat) (hd : 0 < d)
    (hN : N / (d * 2 ^ f.p) < 2 ^ (0 + 2 ^ 13))
    (hke : lg 13 (N / (d * 2 ^ f.p)) 0 + 2 < f.emax) :
    f.roundMag N d < f.emax * 2 ^ f.p ∧
    f.mag (f.roundMag N d)
      = rneDiv N (d * 2 ^ lg 13 (N / (d * 2 ^ f.p)) 0) * 2 ^ lg 13 (N / (d * 2 ^ f.p)) 0 ∧
    (lg 13 (N / (d * 2 ^ f.p)) 0 = 0 ∨
      d * 2 ^ lg 13 (N / (d * 2 ^ f.p)) 0 * 2 ^ f.p ≤ N) ∧
    N < d * 2 ^ lg 13 (N / (d * 2 ^ f.p)) 0 * 2 ^ (f.p + 1) := by
  have hpp : 0 < 2 ^ f.p := by positivity
  have hdp : 0 < d * 2 ^ f.p := by positivity
  obtain ⟨ha, hb⟩ := lg_spec 13 (N / (d * 2 ^ f.p)) 0 (Or.inl rfl) hN
  generalize hk : lg 13 (N / (d * 2 ^ f.p)) 0 = k at *
  have hdk : 0 < d * 2 ^ k := by positivity
  have hlo : k = 0 ∨ d * 2 ^ k * 2 ^ f.p ≤ N := by
    rcases ha with ha | ha
    · exact Or.inl ha
    · right
      have := (Nat.le_div_iff_mul_le hdp).mp ha
      calc d * 2 ^ k * 2 ^ f.p = 2 ^ k * (d * 2 ^ f.p) := by ring
        _ ≤ N := this
  have hhi : N < d * 2 ^ k * 2 ^ (f.p + 1) := by
    have := (Nat.div_lt_iff_lt_mul hdp).mp hb
    calc N < 2 ^ (k + 1) * (d * 2 ^ f.p) := this
      _ = d * 2 ^ k * 2 ^ (f.p + 1) := by rw [pow_succ, pow_succ]; ring
  obtain ⟨e1, e2, e3, e4⟩ := rneDiv_err N (d * 2 ^ k) hdk
  have hcu : rneDiv N (d * 2 ^ k) ≤ 2 ^ (f.p + 1) := by
    have : N / (d * 2 ^ k) < 2 ^ (f.p + 1) := by
      rw [Nat.div_lt_iff_lt_mul hdk, Nat.mul_comm]
      exact hhi
    omega
  have hcl : d * 2 ^ k * 2 ^ f.p ≤ N → 2 ^ f.p ≤ rneDiv N (d * 2 ^ k) := by
    intro h
    have : 2 ^ f.p ≤ N / (d * 2 ^ k) := by
      rw [Nat.le_div_iff_mul_le hdk, Nat.mul_comm]
      exact h
    omega
  have hew : k + 2 < 2 ^ f.w := by
    have := emax_eq f
    omega
  have hp1 : 2 ^ (f.p + 1) = 2 * 2 ^ f.p := by rw [pow_succ]; ring
  rw [roundMag_eq, hk]
  generalize hc : rneDiv N (d * 2 ^ k) = c at *
  have hnov : ¬ f.emax * 2 ^ f.p ≤ k * 2 ^ f.p + c := by
    have : (k + 2 + 1) * 2 ^ f.p ≤ f.emax * 2 ^ f.p := Nat.mul_le_mul_right _ (by omega)
    have e : (k + 2 + 1) * 2 ^ f.p = k * 2 ^ f.p + 2 * 2 ^ f.p + 2 ^ f.p := by ring
    omega
  rw [if_neg hnov]
  refine ⟨by omega, ?_, hlo, hhi⟩
  rcases Nat.lt_or_ge c (2 ^ f.p) with h1 | h1
  · have hk0 : k = 0 := by
      rcases hlo with h | h
      · exact h
      · have := hcl h
        omega
    subst hk0
    have := mag_of_parts f 0 c (by positivity) h1
    simp only [zero_mul, zero_add, if_true] at this
    simp only [zero_mul, zero_add, pow_zero, mul_one]
    exact this
  · rcases Nat.lt_or_ge c (2 ^ (f.p + 1)) with h2 | h2
    · have e : k * 2 ^ f.p + c = (k + 1) * 2 ^ f.p + (c - 2 ^ f.p) := by
        rw [Nat.add_mul]
        omega
      rw [e, mag_of_parts f (k + 1) (c - 2 ^ f.p) (by omega) (by omega)]
      simp only [Nat.succ_ne_zero, if_false, Nat.add_sub_cancel]
      congr 1
      omega
    · have hceq : c = 2 ^ (f.p + 1) := by omega
      have e : k * 2 ^ f.p + c = (k + 2) * 2 ^ f.p + 0 := by
        rw [Nat.add_mul, hceq, hp1]
        omega
      rw [e, mag_of_parts f (k + 2) 0 (by omega) hpp]
      have hne : k + 2 ≠ 0 := by omega
      simp only [if_neg hne, Nat.add_zero]
      rw [hceq, pow_succ]
      have : k + 2 - 1 = k + 1 := by omega
      rw [this, pow_succ]
      ring

/-- The leading-one position of a number below `2^(K+1)` is at most `K`. -/
theorem lg_le (n K : Nat) (hK : K < 8191) (h : n < 2 ^ (K + 1)) : lg 13 n 0 ≤ K := by
  have hn : n < 2 ^ (0 + 2 ^ 13) :=
    lt_of_lt_of_le h (Nat.pow_le_pow_right (by norm_num) (by norm_num; omega))
  obtain ⟨ha, _⟩ := lg_spec 13 n 0 (Or.inl rfl) hn
  rcases ha with ha | ha
  · omega
  · have : 2 ^ lg 13 n 0 < 2 ^ (K + 1) := lt_of_le_of_lt ha h
    have := (Nat.pow_lt_pow_iff_right (by norm_num : 1 < 2)).mp this
    omega

/-- The quotient of two integers below `2^(p+1)`, rounded to the format, has the integer
part of the exact quotient: rounding does not reach the next integer. -/
theorem roundMag_int_div (f : Fmt) (hf : f.Valid) (n m : Nat) (hm : 0 < m)
    (hn : n < 2 ^ (f.p + 1)) (hm2 : m < 2 ^ (f.p + 1)) :
    f.roundMag (n * 2 ^ f.scale) m < f.emax * 2 ^ f.p ∧
    f.mag (f.roundMag (n * 2 ^ f.scale) m) / 2 ^ f.scale = n / m := by
  obtain ⟨s1, s2, s3⟩ := scale_facts f hf
  have hS : 0 < 2 ^ f.scale := by positivity
  have hpp : 0 < 2 ^ f.p := by positivity
  have hmp : 0 < m * 2 ^ f.p := by positivity
  have hp1 : 2 ^ (f.p + 1) = 2 * 2 ^ f.p := by rw [pow_succ]; ring
  have hNlt : n * 2 ^ f.scale < 2 ^ (f.p + 1) * 2 ^ f.scale :=
    Nat.mul_lt_mul_of_pos_right hn hS
  have hquot : n * 2 ^ f.scale / (m * 2 ^ f.p) < 2 ^ (f.scale + 1) := by
    rw [Nat.div_lt_iff_lt_mul hmp]
    calc n * 2 ^ f.scale < 2 ^ (f.p + 1) * 2 ^ f.scale := hNlt
      _ = 2 ^ (f.scale + 1) * (1 * 2 ^ f.p) := by rw [pow_succ, pow_succ]; ring
      _ ≤ 2 ^ (f.scale + 1) * (m * 2 ^ f.p) :=
        Nat.mul_le_mul_left _ (Nat.mul_le_mul_right _ hm)
  have hkle := lg_le _ f.scale (by omega) hquot
  have hN8 : n * 2 ^ f.scale / (m * 2 ^ f.p) < 2 ^ (0 + 2 ^ 13) :=
    lt_of_lt_of_le hquot (Nat.pow_le_pow_right (by norm_num) (by norm_num; omega))
  obtain ⟨r1, r2, r3, r4⟩ := roundMag_general f (n * 2 ^ f.scale) m hm hN8 (by omega)
  generalize lg 13 (n * 2 ^ f.scale / (m * 2 ^ f.p)) 0 = k at *
  refine ⟨r1, ?_⟩
  rw [r2]
  obtain ⟨e1, e2, _, _⟩ := rneDiv_err (n * 2 ^ f.scale) (m * 2 ^ k) (by positivity)
  generalize rneDiv (n * 2 ^ f.scale) (m * 2 ^ k) = c at *
  have hSk : 2 ^ f.scale = 2 ^ (f.scale - k) * 2 ^ k := by
    rw [← pow_add]
    congr 1
    omega
  -- the error `m * 2^k` is below `2 * 2^scale`
  have herr : m * 2 ^ k < 2 * 2 ^ f.scale := by
    rcases r3 with h | h
    · rw [h, pow_zero, mul_one]
      have : 2 ^ (f.p + 1) ≤ 2 ^ f.scale := Nat.pow_le_pow_right (by norm_num) (by omega)
      omega
    · have h2 : m * 2 ^ k * 2 ^ f.p < 2 * 2 ^ f.scale * 2 ^ f.p := by
        calc m * 2 ^ k * 2 ^ f.p ≤ n * 2 ^ f.scale := h
          _ < 2 ^ (f.p + 1) * 2 ^ f.scale := hNlt
          _ = 2 * 2 ^ f.scale * 2 ^ f.p := by rw [hp1]; ring
      exact Nat.lt_of_mul_lt_mul_right h2
  have hA : c * (m * 2 ^ k) = c * 2 ^ k * m := by ring
  rw [hA] at e1 e2
  have hdm := Nat.div_add_mod n m
  have hmod := Nat.mod_lt n hm
  apply Nat.div_eq_of_lt_le
  · -- lower bound
    rcases Nat.eq_zero_or_pos (n % m) with h0 | h0
    · -- exact quotient
      have hn' : n = m * (n / m) := by omega
      have hdiv : n * 2 ^ f.scale % (m * 2 ^ k) = 0 := by
        have : n * 2 ^ f.scale = (n / m * 2 ^ (f.scale - k)) * (m * 2 ^ k) := by
          nth_rewrite 1 [hn']
          rw [hSk]
          ring
        rw [this]
        exact Nat.mul_mod_left _ _
      have hcm : 2 * (c * 2 ^ k * m) = 2 * (n * 2 ^ f.scale) := by
        have hlt : 2 * (c * 2 ^ k * m) ≤ 2 * (n * 2 ^ f.scale) + m * 2 ^ k := e1
        have hgt : 2 * (n * 2 ^ f.scale) ≤ 2 * (c * 2 ^ k * m) + m * 2 ^ k := e2
        obtain ⟨t, ht0⟩ := Nat.dvd_of_mod_eq_zero hdiv
        have ht : n * 2 ^ f.scale = t * (m * 2 ^ k) := by rw [ht0]; ring
        have hc' : c * 2 ^ k * m = c * (m * 2 ^ k) := by ring
        rw [hc', ht] at hlt hgt
        rw [hc', ht]
        have hpos : 0 < m * 2 ^ k := by positivity
        have : c = t := by
          by_contra hne
          rcases Nat.lt_or_gt_of_ne hne with h | h
          · have : (c + 1) * (m * 2 ^ k) ≤ t * (m * 2 ^ k) := Nat.mul_le_mul_right _ h
            rw [Nat.add_mul, one_mul] at this
            omega
          · have : (t + 1) * (m * 2 ^ k) ≤ c * (m * 2 ^ k) := Nat.mul_le_mul_right _ h
            rw [Nat.add_mul, one_mul] at this
            omega
        rw [this]
      have : c * 2 ^ k * m = n / m * 2 ^ f.scale * m := by
        have h2 : n * 2 ^ f.scale = n / m * 2 ^ f.scale * m := by
          nth_rewrite 1 [hn']
          ring
        omega
      exact le_of_eq (Nat.eq_of_mul_eq_mul_right hm this).symm
    · have hN : n * 2 ^ f.scale = n / m * 2 ^ f.scale * m + n % m * 2 ^ f.scale := by
        nth_rewrite 1 [← hdm]
        ring
      have hr : 2 ^ f.scale ≤ n % m * 2 ^ f.scale := Nat.le_mul_of_pos_left _ h0
      have : n / m * 2 ^ f.scale * m ≤ c * 2 ^ k * m := by omega
      exact Nat.le_of_mul_le_mul_right this hm
  · -- upper bound
    have hN : n * 2 ^ f.scale + (m - n % m) * 2 ^ f.scale = (n / m + 1) * 2 ^ f.scale * m := by
      have : n + (m - n % m) = (n / m + 1) * m := by
        rw [Nat.add_mul, one_mul]
        have : m * (n / m) = n / m * m := by ring
        omega
      calc n * 2 ^ f.scale + (m - n % m) * 2 ^ f.scale
          = (n + (m - n % m)) * 2 ^ f.scale := by ring
        _ = (n / m + 1) * 2 ^ f.scale * m := by rw [this]; ring
    have hr : 2 ^ f.scale ≤ (m - n % m) * 2 ^ f.scale :=
      Nat.le_mul_of_pos_left _ (by omega)
    have : c * 2 ^ k * m < (n / m + 1) * 2 ^ f.scale * m := by omega
    exact Nat.lt_of_mul_lt_mul_right this

end Fmt

/-- A pattern that holds an integer: its sign bit and magnitude. -/
theorem holdsInt_cases (f : Fmt) (x : Nat) (n : Int) (h : f.holdsInt x n) :
    f.mag x = n.natAbs * 2 ^ f.scale ∧
    ((f.signBit x = 0 ∧ n = (n.natAbs : Int)) ∨ (f.signBit x = 1 ∧ n = -(n.natAbs : Int))) := by
  have hS : (0 : Int) < ((2 ^ f.scale : Nat) : Int) := by positivity
  have hv : f.sval x = n * ((2 ^ f.scale : Nat) : Int) := by
    rw [h.2, Nat.one_shiftLeft]
  have hmag : f.mag x = n.natAbs * 2 ^ f.scale := by
    have := f.sval_natAbs x
    rw [hv, Int.natAbs_mul, Int.natAbs_ofNat] at this
    exact this.symm
  refine ⟨hmag, ?_⟩
  rcases f.sval_cases x with ⟨sb, sv⟩ | ⟨sb, sv⟩
  · left
    refine ⟨sb, ?_⟩
    have h0 : 0 ≤ n * ((2 ^ f.scale : Nat) : Int) := by
      rw [← hv, sv]
      exact Int.natCast_nonneg _
    have : 0 ≤ n := nonneg_of_mul_nonneg_left h0 hS
    omega
  · right
    refine ⟨sb, ?_⟩
    have h0 : n * ((2 ^ f.scale : Nat) : Int) ≤ 0 := by
      rw [← hv, sv]
      have := Int.natCast_nonneg (f.mag x)
      omega
    have : n ≤ 0 := by
      by_contra hpos
      push_neg at hpos
      have := mul_pos hpos hS
      omega
    omega

/-- The `double` quotient of two integers of magnitude below `2^(p+1)`, the divisor not
zero, is finite and truncates to the truncated quotient of the integers. -/
theorem div_of_ints (f : Fmt) (hf : f.Valid) (x y : Nat) (n m : Int)
    (hx : f.holdsInt x n) (hy : f.holdsInt y m) (hm : m ≠ 0)
    (hn53 : n.natAbs < 2 ^ (f.p + 1)) (hm53 : m.natAbs < 2 ^ (f.p + 1)) :
    f.isFinite (f.div x y) ∧
    Int.tdiv (f.sval (f.div x y)) ((1 <<< f.scale : Nat) : Int) = Int.tdiv n m := by
  obtain ⟨mx, sx⟩ := holdsInt_cases f x n hx
  obtain ⟨my, sy⟩ := holdsInt_cases f y m hy
  have hS : 0 < 2 ^ f.scale := by positivity
  have hmpos : 0 < m.natAbs := Int.natAbs_pos.mpr hm
  have hmb : f.mag y ≠ 0 := by
    rw [my]
    positivity
  obtain ⟨r1, r2⟩ := f.roundMag_int_div hf n.natAbs m.natAbs hmpos hn53 hm53
  have hres : f.div x y = f.withSign ((f.signBit x + f.signBit y) % 2)
      (f.roundMag (n.natAbs * 2 ^ f.scale) m.natAbs) := by
    unfold Fmt.div
    rw [if_neg (f.not_nan_of_finite x hx.1), if_neg (f.not_nan_of_finite y hy.1),
      if_neg (by
        rintro (⟨h1, _⟩ | ⟨_, h1⟩)
        · exact h1 hx.1
        · exact hmb h1),
      if_neg (not_not.mpr hx.1), if_neg (not_not.mpr hy.1), if_neg hmb,
      Nat.shiftLeft_eq, mx, my, f.roundMag_scale _ _ _ hS]
  have hlt2 : f.roundMag (n.natAbs * 2 ^ f.scale) m.natAbs < 2 ^ (f.p + f.w) :=
    lt_trans r1 (f.emax_mul_lt)
  have hsg : (f.signBit x + f.signBit y) % 2 ≤ 1 := by omega
  have hfin : f.isFinite (f.div x y) := by
    rw [hres]
    exact (f.withSign_isFinite _ _ hsg hlt2).mpr (f.finite_of_lt _ r1).1
  refine ⟨hfin, ?_⟩
  rw [hres, f.withSign_sval _ _ hsg hlt2, Nat.one_shiftLeft]
  generalize f.mag (f.roundMag (n.natAbs * 2 ^ f.scale) m.natAbs) = A at r2
  have key : ∀ a b : Nat, Int.tdiv (a : Int) (b : Int) = ((a / b : Nat) : Int) := by
    intro a b
    norm_cast
  have hA : Int.tdiv (A : Int) ((2 ^ f.scale : Nat) : Int) = ((n.natAbs / m.natAbs : Nat) : Int) := by
    rw [key, r2]
  generalize n.natAbs = nn at *
  generalize m.natAbs = mm at *
  rcases sx with ⟨bx, ex⟩ | ⟨bx, ex⟩ <;> rcases sy with ⟨by1, ey⟩ | ⟨by1, ey⟩ <;>
    subst ex <;> subst ey
  · rw [bx, by1, key]
    simpa using hA
  · rw [bx, by1, Int.tdiv_neg, key]
    simp only [Nat.zero_add, Nat.one_mod, if_true, Int.neg_tdiv, hA]
  · rw [bx, by1, Int.neg_tdiv, key]
    simp only [Nat.add_zero, Nat.one_mod, if_true, Int.neg_tdiv, hA]
  · rw [bx, by1, Int.neg_tdiv, Int.tdiv_neg, key, neg_neg]
    simpa using hA

/-- A conversion to `Bit64s` other than the most negative value comes from a rational of
magnitude below `2^63`. -/
theorem castBit64s_abs (x : ℚ) (h : castBit64s x ≠ -9223372036854775808) :
    |x| < 9223372036854775808 := by
  unfold castBit64s at h
  simp only [] at h
  by_cases hr : -9223372036854775808 ≤ (if 0 ≤ x then ⌊x⌋ else ⌈x⌉) ∧
      (if 0 ≤ x then ⌊x⌋ else ⌈x⌉) < 9223372036854775808
  · rw [if_pos hr] at h
    rw [abs_lt]
    by_cases h0 : 0 ≤ x
    · rw [if_pos h0] at hr
      have f2 := Int.lt_floor_add_one x
      have : ((⌊x⌋ + 1 : Int) : ℚ) ≤ ((9223372036854775808 : Int) : ℚ) := by
        exact_mod_cast (by omega : ⌊x⌋ + 1 ≤ 9223372036854775808)
      push_cast at this
      constructor <;> linarith
    · rw [if_neg h0] at hr h
      push_neg at h0
      have c2 := Int.ceil_lt_add_one x
      have : ((-9223372036854775808 + 1 : Int) : ℚ) ≤ ((⌈x⌉ : Int) : ℚ) := by
        exact_mod_cast (by omega : (-9223372036854775808 + 1 : Int) ≤ ⌈x⌉)
      push_cast at this
      constructor <;> linarith
  · rw [if_neg hr] at h
    exact absurd rfl h

/-- The truncation of a rational of magnitude below `2^63` is above the most negative
`Bit64s`. -/
theorem castBit64s_ne (x : ℚ) (h : |x| < 9223372036854775808) :
    castBit64s x ≠ -9223372036854775808 := by
  obtain ⟨c1, c2, _⟩ := castBit64s_trunc x h
  obtain ⟨h1, h2⟩ := abs_lt.mp h
  intro he
  rcases le_or_lt 0 x with h0 | h0
  · have := c1 h0
    rw [he] at this
    have f : (0 : Int) ≤ ⌊x⌋ := Int.floor_nonneg.mpr h0
    omega
  · have := c2 h0
    rw [he] at this
    have f := Int.le_ceil x
    rw [← this] at f
    push_cast at f
    linarith

/-- The value of a pattern truncated toward zero, as a conversion to `Bit64s`. -/
theorem castBit64s_toRat (c : Nat) (h : |binary64.toRat c| < 9223372036854775808) :
    castBit64s (binary64.toRat c)
      = Int.tdiv (binary64.sval c) ((1 <<< binary64.scale : Nat) : Int) := by
  have e : binary64.toRat c
      = (binary64.sval c : ℚ) / ((2 ^ binary64.scale : Nat) : ℚ) := by
    unfold Fmt.toRat
    simp only [Nat.cast_pow, Nat.cast_ofNat]
  rw [e] at h ⊢
  rw [castBit64s_tdiv _ _ (Nat.two_pow_pos _) h, Nat.one_shiftLeft]

/-- The magnitude of the remainder of a truncated division. -/
theorem natAbs_tmod_eq (a b : Int) : (Int.tmod a b).natAbs = a.natAbs % b.natAbs := by
  rcases a with a | a <;> rcases b with b | b
  · rfl
  · rfl
  · show (-((((a + 1) % b : Nat)) : Int)).natAbs = (a + 1) % b
    rw [Int.natAbs_neg, Int.natAbs_ofNat]
  · show (-((((a + 1) % (b + 1) : Nat)) : Int)).natAbs = (a + 1) % (b + 1)
    rw [Int.natAbs_neg, Int.natAbs_ofNat]

/-- The conversion to `Bit64s` of a quotient of two integers is their truncated
quotient. -/
theorem castBit64s_int_div (n m : Int) (hm : m ≠ 0)
    (h : |(n : ℚ) / (m : ℚ)| < 9223372036854775808) :
    castBit64s ((n : ℚ) / (m : ℚ)) = Int.tdiv n m := by
  rcases lt_or_gt_of_ne hm with hneg | hpos
  · obtain ⟨k, hk⟩ := Int.eq_ofNat_of_zero_le (by omega : 0 ≤ -m)
    have hm2 : m = -(k : Int) := by omega
    have hk0 : 0 < k := by omega
    have e : (n : ℚ) / (m : ℚ) = ((-n : Int) : ℚ) / (k : ℚ) := by
      rw [hm2]
      push_cast
      rw [div_neg, neg_div]
    rw [e] at h ⊢
    rw [castBit64s_tdiv _ _ hk0 h, hm2, Int.tdiv_neg, Int.neg_tdiv]
  · obtain ⟨k, hk⟩ := Int.eq_ofNat_of_zero_le (by omega : 0 ≤ m)
    have hk0 : 0 < k := by omega
    have e : (n : ℚ) / (m : ℚ) = ((n : Int) : ℚ) / (k : ℚ) := by
      rw [hk]
      push_cast
      rfl
    rw [e] at h ⊢
    rw [castBit64s_tdiv _ _ hk0 h, hk]

/-- The top register after `FPU_FPREM` holds the exact remainder `a - trunc(a/b)*b` when
the `double` quotient is finite and truncates to the same integer as the exact quotient,
and the product and the difference are values of the format. -/
theorem FPREM_link (s : FPU) (hx : binary64.isFinite (s.regs s.top))
    (hy : binary64.isFinite (s.regs (STV s 1)))
    (hq : |binary64.toRat (s.regs s.top) / binary64.toRat (s.regs (STV s 1))|
      < 9223372036854775808)
    (hfin : binary64.isFinite (binary64.div (s.regs s.top) (s.regs (STV s 1))))
    (ht : castBit64s (binary64.toRat (binary64.div (s.regs s.top) (s.regs (STV s 1))))
      = castBit64s (binary64.toRat (s.regs s.top) / binary64.toRat (s.regs (STV s 1))))
    (hp : ∃ z, binary64.isFinite z ∧ binary64.toRat z
      = (castBit64s (binary64.toRat (s.regs s.top) / binary64.toRat (s.regs (STV s 1))) : ℚ)
        * binary64.toRat (s.regs (STV s 1)))
    (hs : ∃ z, binary64.isFinite z ∧ binary64.toRat z
      = FPREM_exact (binary64.toRat (s.regs s.top)) (binary64.toRat (s.regs (STV s 1)))) :
    binary64.toRat ((FPU_FPREM s).regs s.top)
      = FPREM_exact (binary64.toRat (s.regs s.top)) (binary64.toRat (s.regs (STV s 1))) := by
  have hne := castBit64s_ne _ hq
  rw [← ht] at hne
  have hc := castBit64s_abs _ hne
  have hcode := castBit64s_toRat _ hc
  obtain ⟨r1, r2⟩ := castBit64s_range
    (binary64.toRat (s.regs s.top) / binary64.toRat (s.regs (STV s 1)))
  obtain ⟨t1, t2⟩ := FPU_FPREM_top s _ hfin (by rw [← ht, hcode]) r1 r2
  rw [t1, sub_mul_exact _ _ _ hx hy t2 hp hs]
  rfl

/-- The top register after `FPU_FPREM1` holds the exact remainder `a - rne(a/b)*b` when
the `double` quotient is finite and rounds to the integer `q1` nearest to the exact
quotient (the even one of two), and the product and the difference are values of the
format. -/
theorem FPREM1_link (s : FPU) (q1 : Int) (hx : binary64.isFinite (s.regs s.top))
    (hy : binary64.isFinite (s.regs (STV s 1)))
    (hb : binary64.toRat (s.regs (STV s 1)) ≠ 0)
    (hq : |binary64.toRat (s.regs s.top) / binary64.toRat (s.regs (STV s 1))|
      < 9223372036854775808)
    (hfin : binary64.isFinite (binary64.div (s.regs s.top) (s.regs (STV s 1))))
    (hq1 : q1 = roundInt .ROUND_Nearest
      (binary64.sval (binary64.div (s.regs s.top) (s.regs (STV s 1)))) binary64.scale)
    (hn : |binary64.toRat (s.regs s.top) / binary64.toRat (s.regs (STV s 1)) - (q1 : ℚ)|
      ≤ 1 / 2)
    (he : |binary64.toRat (s.regs s.top) / binary64.toRat (s.regs (STV s 1)) - (q1 : ℚ)|
      = 1 / 2 → Even q1)
    (hp : ∃ z, binary64.isFinite z ∧ binary64.toRat z
      = (q1 : ℚ) * binary64.toRat (s.regs (STV s 1)))
    (hs : ∃ z, binary64.isFinite z ∧ binary64.toRat z
      = binary64.toRat (s.regs s.top) - (q1 : ℚ) * binary64.toRat (s.regs (STV s 1))) :
    binary64.toRat ((FPU_FPREM1 s).regs s.top)
      = FPREM1_exact (binary64.toRat (s.regs s.top)) (binary64.toRat (s.regs (STV s 1))) := by
  obtain ⟨g1, g2⟩ := abs_lt.mp hq
  obtain ⟨n1, n2⟩ := abs_le.mp hn
  have hfit := register_quotient_fits _ _ hb g2
  have h1 : -9223372036854775808 ≤ q1 := by
    have : ((-9223372036854775808 - 1 : Int) : ℚ) < (q1 : ℚ) := by
      push_cast
      linarith
    have := Int.cast_lt.mp this
    omega
  have h2 : q1 < 9223372036854775808 := by
    have : (q1 : ℚ) < ((9223372036854775808 : Int) : ℚ) := by
      push_cast
      linarith
    exact Int.cast_lt.mp this
  obtain ⟨t1, t2⟩ := FPU_FPREM1_top s q1 hfin hq1 h1 h2
  rw [t1, sub_mul_exact _ _ _ hx hy t2 hp hs, FPREM1_exact_eq _ _ q1 hq h1 h2 hn he]

/-- With integers of magnitude below `2^53` in the top register and in `ST(1)`, the
divisor not zero, `FPU_FPREM` stores the exact remainder, which is the remainder of the
truncated division of the integers. -/
theorem FPREM_of_ints (s : FPU) (n m : Int)
    (hx : binary64.holdsInt (s.regs s.top) n) (hy : binary64.holdsInt (s.regs (STV s 1)) m)
    (hm : m ≠ 0) (hn53 : n.natAbs < 9007199254740992) (hm53 : m.natAbs < 9007199254740992) :
    binary64.toRat ((FPU_FPREM s).regs s.top)
      = FPREM_exact (binary64.toRat (s.regs s.top)) (binary64.toRat (s.regs (STV s 1))) ∧
    binary64.toRat ((FPU_FPREM s).regs s.top) = ((n - Int.tdiv n m * m : Int) : ℚ) := by
  have hp53 : (2 : Nat) ^ (binary64.p + 1) = 9007199254740992 := by decide
  obtain ⟨hfin, htd⟩ := div_of_ints binary64 binary64_valid _ _ n m hx hy hm
    (by rw [hp53]; exact hn53) (by rw [hp53]; exact hm53)
  have hmpos : 0 < m.natAbs := Int.natAbs_pos.mpr hm
  have hqa : (Int.tdiv n m).natAbs = n.natAbs / m.natAbs := Int.natAbs_tdiv n m
  have hqle : (Int.tdiv n m).natAbs ≤ n.natAbs := by
    rw [hqa]
    exact Nat.div_le_self _ _
  have hpa : (Int.tdiv n m * m).natAbs ≤ n.natAbs := by
    rw [Int.natAbs_mul, hqa]
    exact Nat.div_mul_le_self _ _
  have hra : (n - Int.tdiv n m * m).natAbs < m.natAbs := by
    have e : n - Int.tdiv n m * m = Int.tmod n m := by
      rw [Int.tmod_def, Int.mul_comm]
    rw [e]
    rw [natAbs_tmod_eq]
    exact Nat.mod_lt _ hmpos
  have h1 : -9223372036854775808 ≤ Int.tdiv n m := by omega
  have h2 : Int.tdiv n m < 9223372036854775808 := by omega
  obtain ⟨t1, t2⟩ := FPU_FPREM_top s (Int.tdiv n m) hfin htd.symm h1 h2
  have ea := toRat_of_holdsInt binary64 _ _ hx
  have eb := toRat_of_holdsInt binary64 _ _ hy
  have hP := ofInt_small binary64 binary64_valid (Int.tdiv n m * m)
    (by rw [hp53]; omega)
  have hR := ofInt_small binary64 binary64_valid (n - Int.tdiv n m * m)
    (by rw [hp53]; omega)
  have hval := sub_mul_exact _ _ _ hx.1 hy.1 t2
    ⟨_, hP.1, by rw [toRat_of_holdsInt binary64 _ _ hP, eb]; push_cast; rfl⟩
    ⟨_, hR.1, by rw [toRat_of_holdsInt binary64 _ _ hR, ea, eb]; push_cast; rfl⟩
  have hmq : (m : ℚ) ≠ 0 := by exact_mod_cast hm
  have habs : |(n : ℚ) / (m : ℚ)| < 9223372036854775808 := by
    rw [abs_div]
    have hm1 : (1 : ℚ) ≤ |(m : ℚ)| := by
      have : (1 : Int) ≤ |m| := Int.one_le_abs hm
      exact_mod_cast this
    have hn1 : |(n : ℚ)| < 9007199254740992 := by
      have : |n| < 9007199254740992 := by
        rw [Int.abs_eq_natAbs]
        omega
      exact_mod_cast this
    calc |(n : ℚ)| / |(m : ℚ)| ≤ |(n : ℚ)| := div_le_self (abs_nonneg _) hm1
      _ < 9223372036854775808 := by linarith
  have hex : FPREM_exact (binary64.toRat (s.regs s.top)) (binary64.toRat (s.regs (STV s 1)))
      = ((n - Int.tdiv n m * m : Int) : ℚ) := by
    unfold FPREM_exact
    simp only []
    rw [ea, eb, castBit64s_int_div n m hm habs]
    push_cast
    rfl
  rw [hex, t1, hval, ea, eb]
  constructor <;> (push_cast; rfl)

/-- C38 (amended): partial remainder in exact arithmetic and in the registers.  With the
register values taken as rationals `a` and `b ≠ 0` with `|a/b| < 2^63`, the exact value
`a - trunc(a/b)*b` is below `|b|` in magnitude and is zero or has the sign of `a`, and
the exact value `a - rne(a/b)*b` is at most `|b|/2` in magnitude whenever the rounded
quotient fits `Bit64s`, which is so for every pair of values that registers hold.
`FPU_FPREM` stores the first value when the `double` quotient is finite and truncates to
the same integer as `a/b` and the product and the remainder are values of the format, as
they are for two integers below `2^53` in magnitude; `FPU_FPREM1` stores the second value
when the `double` quotient is finite and rounds to the integer nearest to `a/b` (the even
one of two) and the product and the remainder are values of the format. -/
theorem FPREM_exact_bound (a b : ℚ) (hb : b ≠ 0) (hq : |a / b| < 9223372036854775808) :
    |FPREM_exact a b| < |b| ∧
    (FPREM_exact a b = 0 ∨ (0 < a ∧ 0 < FPREM_exact a b) ∨
      (a < 0 ∧ FPREM_exact a b < 0)) ∧
    (a / b < 9223372036854775808 - 1 / 2 → |FPREM1_exact a b| ≤ |b| / 2) ∧
    ((∃ x y, a = binary64.toRat x ∧ b = binary64.toRat y) →
      |FPREM1_exact a b| ≤ |b| / 2) ∧
    (∀ s : FPU, binary64.isFinite (s.regs s.top) → binary64.isFinite (s.regs (STV s 1)) →
      a = binary64.toRat (s.regs s.top) → b = binary64.toRat (s.regs (STV s 1)) →
      (binary64.isFinite (binary64.div (s.regs s.top) (s.regs (STV s 1))) →
        castBit64s (binary64.toRat (binary64.div (s.regs s.top) (s.regs (STV s 1))))
          = castBit64s (a / b) →
        (∃ z, binary64.isFinite z ∧ binary64.toRat z = (castBit64s (a / b) : ℚ) * b) →
        (∃ z, binary64.isFinite z ∧ binary64.toRat z = FPREM_exact a b) →
        binary64.toRat ((FPU_FPREM s).regs s.top) = FPREM_exact a b) ∧
      (∀ q1 : Int,
        binary64.isFinite (binary64.div (s.regs s.top) (s.regs (STV s 1))) →
        q1 = roundInt .ROUND_Nearest
          (binary64.sval (binary64.div (s.regs s.top) (s.regs (STV s 1)))) binary64.scale →
        |a / b - (q1 : ℚ)| ≤ 1 / 2 → (|a / b - (q1 : ℚ)| = 1 / 2 → Even q1) →
        (∃ z, binary64.isFinite z ∧ binary64.toRat z = (q1 : ℚ) * b) →
        (∃ z, binary64.isFinite z ∧ binary64.toRat z = a - (q1 : ℚ) * b) →
        binary64.toRat ((FPU_FPREM1 s).regs s.top) = FPREM1_exact a b) ∧
      (∀ n m : Int, binary64.holdsInt (s.regs s.top) n →
        binary64.holdsInt (s.regs (STV s 1)) m →
        n.natAbs < 9007199254740992 → m.natAbs < 9007199254740992 →
        binary64.toRat ((FPU_FPREM s).regs s.top) = FPREM_exact a b ∧
        FPREM_exact a b = ((n - Int.tdiv n m * m : Int) : ℚ))) := by
  refine ⟨(FPREM_exact_lt a b hb hq).1, (FPREM_exact_lt a b hb hq).2,
    FPREM1_exact_le a b hb hq, ?_, ?_⟩
  · rintro ⟨x, y, rfl, rfl⟩
    exact FPREM1_exact_le _ _ hb hq (register_quotient_fits x y hb (abs_lt.mp hq).2)
  · intro s hx hy ha hb2
    subst ha
    subst hb2
    refine ⟨fun hfin ht hp hs => FPREM_link s hx hy hq hfin ht hp hs,
      fun q1 hfin hq1 hn he hp hs => FPREM1_link s q1 hx hy hb hq hfin hq1 hn he hp hs, ?_⟩
    intro n m hn hm hn53 hm53
    have hm0 : m ≠ 0 := by
      intro h0
      apply hb
      rw [toRat_of_holdsInt binary64 _ _ hm, h0]
      rfl
    obtain ⟨i1, i2⟩ := FPREM_of_ints s n m hn hm hm0 hn53 hm53
    exact ⟨i1, by rw [← i1, i2]⟩

/-- C38 on the sample context, whose top register holds 17.0 and `ST(1)` holds 5.0: both
`FPU_FPREM` and `FPU_FPREM1` store the exact remainder, which is 2. -/
theorem FPREM_exact_bound_witness :
    binary64.toRat (sampleState.regs (STV sampleState 1)) ≠ 0 ∧
    |binary64.toRat (sampleState.regs sampleState.top)
      / binary64.toRat (sampleState.regs (STV sampleState 1))| < 9223372036854775808 ∧
    |FPREM_exact (binary64.toRat (sampleState.regs sampleState.top))
      (binary64.toRat (sampleState.regs (STV sampleState 1)))|
      < |binary64.toRat (sampleState.regs (STV sampleState 1))| ∧
    |FPREM1_exact (binary64.toRat (sampleState.regs sampleState.top))
      (binary64.toRat (sampleState.regs (STV sampleState 1)))|
      ≤ |binary64.toRat (sampleState.regs (STV sampleState 1))| / 2 ∧
    binary64.toRat ((FPU_FPREM sampleState).regs sampleState.top)
      = FPREM_exact (binary64.toRat (sampleState.regs sampleState.top))
        (binary64.toRat (sampleState.regs (STV sampleState 1))) ∧
    FPREM_exact (binary64.toRat (sampleState.regs sampleState.top))
      (binary64.toRat (sampleState.regs (STV sampleState 1))) = 2 ∧
    binary64.toRat ((FPU_FPREM1 sampleState).regs sampleState.top)
      = FPREM1_exact (binary64.toRat (sampleState.regs sampleState.top))
        (binary64.toRat (sampleState.regs (STV sampleState 1))) ∧
    (FPU_FPREM sampleState).regs sampleState.top = 0x4000000000000000 ∧
    (FPU_FPREM1 sampleState).regs sampleState.top = 0x4000000000000000 := by
  have hA : binary64.holdsInt (sampleState.regs sampleState.top) 17 := by decide
  have hB : binary64.holdsInt (sampleState.regs (STV sampleState 1)) 5 := by decide
  have eA := toRat_of_holdsInt binary64 _ _ hA
  have eB := toRat_of_holdsInt binary64 _ _ hB
  have hb : binary64.toRat (sampleState.regs (STV sampleState 1)) ≠ 0 := by
    rw [eB]
    norm_num
  have hq : |binary64.toRat (sampleState.regs sampleState.top)
      / binary64.toRat (sampleState.regs (STV sampleState 1))| < 9223372036854775808 := by
    rw [eA, eB, abs_lt]
    norm_num
  obtain ⟨c1, _, _, c4, c5⟩ := FPREM_exact_bound _ _ hb hq
  obtain ⟨_, l2, l3⟩ := c5 sampleState hA.1 hB.1 rfl rfl
  obtain ⟨i1, i2⟩ := l3 17 5 hA hB (by decide) (by decide)
  have h15 : binary64.holdsInt 0x402E000000000000 15 := by decide
  have h2 : binary64.holdsInt 0x4000000000000000 2 := by decide
  refine ⟨hb, hq, c1, c4 ⟨_, _, rfl, rfl⟩, i1, ?_, ?_, by decide, by decide⟩
  · rw [i2]
    have e : (17 : Int) - Int.tdiv 17 5 * 5 = 2 := by decide
    rw [e]
    norm_num
  · refine l2 3 (by decide) (by decide) ?_ ?_ ⟨_, h15.1, ?_⟩ ⟨_, h2.1, ?_⟩
    · rw [eA, eB, abs_le]
      norm_num
    · rw [eA, eB]
      intro h
      exfalso
      have : |((17 : Int) : ℚ) / ((5 : Int) : ℚ) - ((3 : Int) : ℚ)| = 2 / 5 := by
        norm_num [abs_of_pos]
      rw [this] at h
      norm_num at h
    · rw [toRat_of_holdsInt binary64 _ _ h15, eB]
      norm_num
    · rw [toRat_of_holdsInt binary64 _ _ h2, eA, eB]
      norm_num

/-- C38 fails in `double` arithmetic: with 1.7 in the top register and 0.1 in `ST(1)`
the exact quotient is below 17 and truncates to 16, but the `double` quotient is 17.0, so
`FPU_FPREM` stores `1.7 - 17*0.1` evaluated in `double`, which is `-2^-52`: a negative
value for a positive dividend, whereas `a - trunc(a/b)*b` is not negative. -/
theorem FPU_FPREM_double_rounding :
    ((withPair 0x3FFB333333333333 0x3FB999999999999A).regs
        (withPair 0x3FFB333333333333 0x3FB999999999999A).top = 0x3FFB333333333333 ∧
      (withPair 0x3FFB333333333333 0x3FB999999999999A).regs
        (STV (withPair 0x3FFB333333333333 0x3FB999999999999A) 1) = 0x3FB999999999999A ∧
      0 < binary64.sval 0x3FFB333333333333 ∧ 0 < binary64.sval 0x3FB999999999999A ∧
      binary64.mag 0x3FFB333333333333 / binary64.mag 0x3FB999999999999A = 16 ∧
      binary64.div 0x3FFB333333333333 0x3FB999999999999A = 0x4031000000000000 ∧
      binary64.holdsInt 0x4031000000000000 17 ∧
      (FPU_FPREM (withPair 0x3FFB333333333333 0x3FB999999999999A)).regs 0
        = 0xBCB0000000000000 ∧
      binary64.sval 0xBCB0000000000000 < 0) ∧
    binary64.toRat 0x3FB999999999999A ≠ 0 ∧
    |binary64.toRat 0x3FFB333333333333 / binary64.toRat 0x3FB999999999999A|
      < 9223372036854775808 ∧
    0 < binary64.toRat 0x3FFB333333333333 ∧
    binary64.toRat ((FPU_FPREM (withPair 0x3FFB333333333333 0x3FB999999999999A)).regs 0)
      < 0 ∧
    0 ≤ FPREM_exact (binary64.toRat 0x3FFB333333333333)
      (binary64.toRat 0x3FB999999999999A) := by
  have hX : (0 : Int) < binary64.sval 0x3FFB333333333333 := by decide
  have hY : (0 : Int) < binary64.sval 0x3FB999999999999A := by decide
  have hXY : binary64.sval 0x3FFB333333333333 < 17 * binary64.sval 0x3FB999999999999A := by
    decide
  have hN : binary64.sval 0xBCB0000000000000 < 0 := by decide
  have hst : (FPU_FPREM (withPair 0x3FFB333333333333 0x3FB999999999999A)).regs 0
      = 0xBCB0000000000000 := by decide
  have hS : (0 : ℚ) < 2 ^ binary64.scale := by positivity
  have a0 : 0 < binary64.toRat 0x3FFB333333333333 :=
    div_pos (by exact_mod_cast hX) hS
  have b0 : 0 < binary64.toRat 0x3FB999999999999A :=
    div_pos (by exact_mod_cast hY) hS
  have hlt : binary64.toRat 0x3FFB333333333333 < 17 * binary64.toRat 0x3FB999999999999A := by
    unfold Fmt.toRat
    rw [← mul_div_assoc]
    exact div_lt_div_of_pos_right (by exact_mod_cast hXY) hS
  have hq : |binary64.toRat 0x3FFB333333333333 / binary64.toRat 0x3FB999999999999A|
      < 9223372036854775808 := by
    rw [abs_of_pos (div_pos a0 b0), div_lt_iff₀ b0]
    linarith
  refine ⟨by decide, b0.ne.symm, hq, a0, ?_, ?_⟩
  · rw [hst]
    exact div_neg_of_neg_of_pos (by exact_mod_cast hN) hS
  · rcases (FPREM_exact_lt _ _ b0.ne.symm hq).2 with h | ⟨_, h⟩ | ⟨h, _⟩
    · exact h.ge
    · exact h.le
    · exact absurd a0 (not_lt.mpr h.le)

end DosboxFpu
